import Mathlib

/-!
# etwork: the framed buffer and the marshalling engine

A shallow embedding of `etwork::Impl` (`src/lib/buffer.cpp`), the
implementation behind `etwork::Buffer`, of the byte block
(`src/lib/block.cpp`) and of the marshalling engine (`src/lib/marshal.cpp`),
followed by theorems about them.

Modelling conventions.

* A byte is a `Nat`; where the source reads a byte as an `unsigned char` to
  compute with it, the model reduces it modulo 256.
* `unsigned short` fields (`Message::offset_`, `Message::size_`) are `Nat`s and
  every store into them is reduced modulo 65536.
* The library builds for Win32 on x86 only (`__asm { int 3 }`, `<typeinfo.h>`,
  `#error "implement me!"` on every other platform): `int`, `unsigned int`,
  `size_t` and `SOCKET` are 32 bits wide, `unsigned long long` is 64 bits
  wide.  `(size_t)-1` is `SIZE_T_MAX`.  The byte counters
  `written_`, `toSkip_` and the local `size`/`mSize` count bytes that are held
  in memory at the same time, so their sums stay below `2 ^ 32`; they are
  plain `Nat`s.  The difference `size_ - offset_`, which the source computes
  in `int` and converts to `size_t`, wraps (`subToSizeT`).
* The `int` results are `Int`s (`-1` is the failure value).
* `operator new` returns uninitialised storage.  The functions that allocate
  take the content of fresh storage as the parameter `junk` (byte `i` of a
  fresh block is `junk i`).
* `assert` is compiled out under `NDEBUG`.  The model does not stop at a
  failing assertion; `put_data` reports in a `Bool` whether every assertion it
  passed held.
* `goto more` loops are recursive functions with a fuel argument, one unit per
  iteration; `put_data` and `get_data` supply the fuel.  `put_data_loop_total`
  shows that the fuel of `put_data` suffices in every state, `get_data_all`
  that the fuel of `get_data` suffices when the whole queue is drained.
* In the marshalling engine an `int` is an `Int` and an `unsigned` value a
  `Nat`; the conversions that the source writes (`unsigned int val = v`,
  `(int)maxSize`, the sum `ret += min_`, the difference `max_ - min_`) reduce
  to 32 bits (`toInt32`, `toUInt32`).
* A `float` or a `double` is the rational that it denotes.  Every arithmetic
  operation and every conversion rounds its exact result to the precision of
  its type, 24 significant bits for `float` and 53 for `double`, to nearest,
  ties to even (`toFloat`, `toDouble`).  The difference `max_ - min_` of two
  `float`s is rounded to `float`; a build that holds it at the precision of
  `double` computes the same wherever the difference is itself a `float`, which
  is the case in every theorem about floats below.  The exponent is not
  bounded: overflow, underflow and NaNs are not part of the model.
* The sums of maximum marshalled sizes, which `size_t` variables hold and
  which involve declared maxima of any size, are reduced modulo `2 ^ 32`.
  Offsets and instance sizes are those of objects in memory and are not
  reduced.
* A function that can throw returns which exception it threw together with
  the state it leaves behind (`Marshalled`, `Demarshalled`, `Outcome`).
* The memory of a record is a map from addresses to cells (`Mem`); a member at
  `offset_` of a record at address `p` lives at address `p + offset_`.
* The recursion of `MarshalManager::marshaller` into `TypeMarshal::resolve`
  has a fuel argument; `MarshalManager::resolve` supplies the fuel.
-/

namespace etwork

/-- The value `(size_t)-1`. -/
def SIZE_T_MAX : Nat := 2 ^ 32 - 1

/-- Conversion to `unsigned short`. -/
def toUShort (n : Nat) : Nat := n % 65536

/-- Conversion to `unsigned char`. -/
def toUChar (n : Nat) : Nat := n % 256

/-- The `size_t` value of `a - b` for two `unsigned short` operands: the
subtraction is done in `int` and a negative result wraps. -/
def subToSizeT (a b : Nat) : Nat :=
  if b ≤ a then a - b else 2 ^ 32 - (b - a)

/-- The call `memcpy(dst, src, n)` on the storage `dst`: the first `n` bytes
are replaced by the first `n` bytes of `src`. -/
def memcpy (dst src : List Nat) (n : Nat) : List Nat :=
  src.take n ++ dst.drop n

/-- The struct `Impl::Message` together with the storage that follows it
(`&m[1]`), which holds the payload. -/
structure Message where
  offset_ : Nat
  size_ : Nat
  bytes : List Nat
deriving DecidableEq, Repr

/-- The class `etwork::Impl`. -/
structure Impl where
  maxMsgSize_ : Nat
  queueSize_ : Nat
  maxNumMessages_ : Nat
  queue_ : List Message
  curTarget_ : Option Message
  written_ : Nat
  toSkip_ : Nat
  tmpSize_ : Nat
deriving DecidableEq, Repr

/-- The constructor `Impl::Impl` (and so `Buffer::Buffer`). -/
def Impl.new (maxMsgSize queueSize maxNumMessages : Nat) : Impl :=
  { maxMsgSize_ := maxMsgSize
    queueSize_ := queueSize
    maxNumMessages_ := maxNumMessages
    queue_ := []
    curTarget_ := none
    written_ := 0
    toSkip_ := 0
    tmpSize_ := SIZE_T_MAX }

/-- The accessor `Impl::space_used`. -/
def space_used (s : Impl) : Nat := s.written_

/-- The accessor `Impl::message_count`. -/
def message_count (s : Impl) : Nat := s.queue_.length

/-- The function `Impl::new_message`; `none` is the null pointer. -/
def new_message (junk : Nat → Nat) (s : Impl) (size : Nat) : Option Message :=
  if size > s.maxMsgSize_ then none
  else if s.queue_.length ≥ s.maxNumMessages_ then none
  else if s.written_ + size > s.queueSize_ then none
  else some { offset_ := 0, size_ := toUShort size, bytes := (List.range size).map junk }

/-- The function `Impl::put_message`: the result and the new state. -/
def put_message (junk : Nat → Nat) (s : Impl) (msg : List Nat) : Int × Impl :=
  match new_message junk s msg.length with
  | none => (-1, s)
  | some w =>
    ((msg.length : Int),
     { s with
       queue_ := s.queue_ ++ [{ w with bytes := memcpy w.bytes msg msg.length }]
       written_ := s.written_ + msg.length })

/-- The function `Impl::get_message`: the result, the bytes copied to `oData`
and the new state. -/
def get_message (s : Impl) (mSize : Nat) : Int × List Nat × Impl :=
  match s.queue_ with
  | [] => (-1, [], s)
  | msg :: rest =>
    if msg.size_ > mSize then (-1, [], s)
    else
      ((msg.size_ : Int), msg.bytes.take msg.size_,
       { s with written_ := s.written_ - msg.size_, queue_ := rest })

/-- Lines 110-131 of `Impl::put_data`: read one or two bytes of the length.
`Except.error` is the early `return total+1`. -/
def put_data_size (s : Impl) (data : List Nat) (total : Nat) (ok : Bool) :
    Except (Nat × Impl × Bool) (Impl × List Nat × Nat × Bool) :=
  match data with
  | [] => .ok (s, data, total, ok)
  | b0 :: data1 =>
    if s.tmpSize_ ≠ SIZE_T_MAX then
      .ok ({ s with tmpSize_ := (s.tmpSize_ + toUChar b0) % 2 ^ 32 }, data1, total + 1,
           ok && decide (s.curTarget_ = none) && decide (s.toSkip_ = 0))
    else if s.curTarget_ = none then
      match data1 with
      | [] => .error (total + 1, { s with tmpSize_ := toUChar b0 * 256 }, ok)
      | b1 :: data2 =>
        .ok ({ s with tmpSize_ := toUChar b0 * 256 + toUChar b1 }, data2, total + 2, ok)
    else .ok (s, data, total, ok)

/-- Lines 132-141 of `Impl::put_data`: allocate the target once the length is
known, or arrange for the packet to be skipped. -/
def put_data_alloc (junk : Nat → Nat) (s : Impl) (ok : Bool) : Impl × Bool :=
  if s.tmpSize_ ≠ SIZE_T_MAX then
    match new_message junk s s.tmpSize_ with
    | none =>
      ({ s with curTarget_ := none, toSkip_ := s.tmpSize_, tmpSize_ := SIZE_T_MAX },
       ok && decide (s.curTarget_ = none))
    | some m =>
      ({ s with curTarget_ := some m, tmpSize_ := SIZE_T_MAX },
       ok && decide (s.curTarget_ = none))
  else (s, ok)

/-- Lines 142-172 of `Impl::put_data`: skip bytes when there is no target,
otherwise copy into the target and queue it when it is full. -/
def put_data_fill (s : Impl) (data : List Nat) (total : Nat) (ok : Bool) :
    Impl × List Nat × Nat × Bool :=
  match s.curTarget_ with
  | none =>
    let skip := if s.toSkip_ > data.length then data.length else s.toSkip_
    ({ s with toSkip_ := s.toSkip_ - skip }, data.drop skip, total + skip,
     ok && decide (s.toSkip_ > 0))
  | some m =>
    let ok1 := ok && decide (s.tmpSize_ = SIZE_T_MAX) && decide (s.toSkip_ = 0)
    let toread0 := subToSizeT m.size_ m.offset_
    let toread := if toread0 > data.length then data.length else toread0
    let m1 : Message :=
      { m with
        bytes := memcpy m.bytes data toread
        offset_ := toUShort (m.offset_ + toUShort toread) }
    if m1.size_ = m1.offset_ then
      ({ s with
         queue_ := s.queue_ ++ [{ m1 with offset_ := 0 }]
         written_ := s.written_ + m1.size_
         curTarget_ := none },
       data.drop toread, total + toread, ok1)
    else
      ({ s with curTarget_ := some m1 }, data.drop toread, total + toread, ok1)

/-- The loop of `Impl::put_data` (label `more`), one iteration per unit of
fuel.  The result is the value returned, the new state, and whether all
assertions passed. -/
def put_data_loop (junk : Nat → Nat) :
    Nat → Impl → List Nat → Nat → Bool → Option (Nat × Impl × Bool)
  | 0, _, _, _, _ => none
  | fuel + 1, s, data, total, ok =>
    if data.length = 0 then some (total, s, ok)
    else
      match put_data_size s data total ok with
      | .error r => some r
      | .ok (s1, data1, total1, ok1) =>
        let (s2, ok2) := put_data_alloc junk s1 ok1
        let (s3, data3, total3, ok3) := put_data_fill s2 data1 total1 ok2
        put_data_loop junk fuel s3 data3 total3 ok3

/-- The function `Impl::put_data`: the result, the new state and whether all
assertions passed; `none` only if the loop ran out of fuel. -/
def put_data (junk : Nat → Nat) (s : Impl) (data : List Nat) : Option (Int × Impl × Bool) :=
  (put_data_loop junk (2 * data.length + 2) s data 0 true).map
    fun r => ((r.1 : Int), r.2.1, r.2.2)

/-- The loop of `Impl::get_data` (label `more`).  The result is the new
state, the bytes written through `data` so far, and `total`. -/
def get_data_loop : Nat → Impl → Nat → List Nat → Nat → Option (Impl × List Nat × Nat)
  | 0, _, _, _, _ => none
  | fuel + 1, s, mSize, out, total =>
    match s.queue_ with
    | [] => some (s, out, total)
    | w :: rest =>
      let hdr := if w.offset_ = 0 then [toUChar (w.size_ / 256), toUChar w.size_] else []
      let mSize1 := if w.offset_ = 0 then mSize - 2 else mSize
      let total1 := if w.offset_ = 0 then total + 2 else total
      let towrite0 := subToSizeT w.size_ w.offset_
      let towrite := if towrite0 > mSize1 then mSize1 else towrite0
      let out1 := out ++ hdr ++ w.bytes.take towrite
      let w1 : Message := { w with offset_ := toUShort (w.offset_ + towrite) }
      let total2 := total1 + towrite
      let mSize2 := mSize1 - towrite
      let s1 : Impl :=
        if w1.offset_ = w1.size_ then
          { s with queue_ := rest, written_ := s.written_ - w1.size_ }
        else { s with queue_ := w1 :: rest }
      if mSize2 < 3 then some (s1, out1, total2)
      else get_data_loop fuel s1 mSize2 out1 total2

/-- The function `Impl::get_data`: the result, the bytes written to `oData`
and the new state; `none` only if the loop ran out of fuel. -/
def get_data (s : Impl) (mSize : Nat) : Option (Int × List Nat × Impl) :=
  if mSize < 3 then some (-1, [], s)
  else
    (get_data_loop (s.queue_.length + 1) s mSize [] 0).map
      fun r => ((r.2.2 : Int), r.2.1, r.1)

/-! ## Observations used by the statements -/

/-- The payload of a queued message as `get_message` and `get_data` read it:
the first `size_` bytes of its storage. -/
def Message.payload (m : Message) : List Nat := m.bytes.take m.size_

/-- The finished packets of a buffer, oldest first. -/
def packets (s : Impl) : List (List Nat) := s.queue_.map Message.payload

/-- The message that holds the packet `p` and of which nothing has been read. -/
def Message.ofPacket (p : List Nat) : Message :=
  { offset_ := 0, size_ := p.length, bytes := p }

/-- Sum of the lengths of the finished queued packets. -/
def queuedBytes (s : Impl) : Nat := (s.queue_.map Message.size_).sum

/-- The filled prefix of the packet under assembly (0 when there is none). -/
def assembledPrefix (s : Impl) : Nat :=
  match s.curTarget_ with
  | none => 0
  | some m => m.offset_

/-- The wire form of one packet: the length as two bytes, high byte first,
then the payload. -/
def frame (p : List Nat) : List Nat :=
  [toUChar (p.length / 256), toUChar p.length] ++ p

/-- The wire form of a list of packets. -/
def wire : List (List Nat) → List Nat
  | [] => []
  | p :: ps => frame p ++ wire ps

/-- Applies `put_message` to each packet in turn: the results and the final
state. -/
def put_messages (junk : Nat → Nat) : Impl → List (List Nat) → List Int × Impl
  | s, [] => ([], s)
  | s, p :: ps =>
    let r := put_message junk s p
    let rs := put_messages junk r.2 ps
    (r.1 :: rs.1, rs.2)

/-- Calls `get_message` `n` times with capacity `mSize`: for each call the
result and the bytes copied out, and the final state. -/
def get_messages : Nat → Impl → Nat → List (Int × List Nat) × Impl
  | 0, s, _ => ([], s)
  | n + 1, s, mSize =>
    let r := get_message s mSize
    let rs := get_messages n r.2.2 mSize
    ((r.1, r.2.1) :: rs.1, rs.2)

/-- A packet of 65536 zero bytes. -/
def longMsg : List Nat := List.replicate 65536 0


/-- The range of the `unsigned short` fields of a message. -/
def Message.WellTyped (m : Message) : Prop := m.size_ < 65536 ∧ m.offset_ < 65536

/-- Every message of the buffer has its fields in the `unsigned short` range. -/
def Impl.WellTyped (s : Impl) : Prop :=
  (∀ m ∈ s.queue_, m.WellTyped) ∧ (∀ m ∈ s.curTarget_, m.WellTyped)

instance (m : Message) : Decidable m.WellTyped := by
  unfold Message.WellTyped; infer_instance

instance (s : Impl) : Decidable s.WellTyped := by
  unfold Impl.WellTyped; infer_instance

/-- A bound on the number of iterations that `put_data` still needs. -/
def putMeasure (s : Impl) (data : List Nat) : Nat :=
  2 * data.length + (if s.curTarget_ = none then 0 else 1)


/-- The buffer is between two packets of the incoming stream: no half length,
no packet under assembly, nothing left to skip (state `NEED_HEADER_HIGH`). -/
def Impl.AtBoundary (s : Impl) : Prop :=
  s.tmpSize_ = SIZE_T_MAX ∧ s.curTarget_ = none ∧ s.toSkip_ = 0

instance (s : Impl) : Decidable s.AtBoundary := by
  unfold Impl.AtBoundary; infer_instance

/-- The three checks of `new_message` for a packet `p`: does the buffer have
room for it now? -/
def admits (s : Impl) (p : List Nat) : Bool :=
  decide (p.length ≤ s.maxMsgSize_ ∧ s.queue_.length < s.maxNumMessages_ ∧
    s.written_ + p.length ≤ s.queueSize_)

/-- The buffer after the packet `p` has been appended to its queue. -/
def Impl.push (s : Impl) (p : List Nat) : Impl :=
  { s with queue_ := s.queue_ ++ [Message.ofPacket p], written_ := s.written_ + p.length }

/-- Specification of the read side on whole packets: each packet of the
stream, in order, is appended to the queue if the buffer has room for it when
its turn comes, and is dropped otherwise. -/
def deliver : Impl → List (List Nat) → Impl
  | s, [] => s
  | s, p :: ps => if admits s p then deliver (s.push p) ps else deliver s ps


/-- The declared size of the packet under assembly (0 when there is none). -/
def targetSize (s : Impl) : Nat :=
  match s.curTarget_ with
  | none => 0
  | some m => m.size_

/-- The number of packets under assembly: 0 or 1. -/
def targetCount (s : Impl) : Nat :=
  match s.curTarget_ with
  | none => 0
  | some _ => 1

/-- The invariant behind the capacity bounds of a buffer with caps `Q` (bytes)
and `N` (packets): `written_` covers the queued packets, there is room left
for the whole packet under assembly, and that packet has not been filled
beyond its size. -/
def Impl.Inv (Q N : Nat) (s : Impl) : Prop :=
  s.queueSize_ = Q ∧ s.maxNumMessages_ = N ∧
  queuedBytes s ≤ s.written_ ∧
  s.written_ + targetSize s ≤ Q ∧
  s.queue_.length + targetCount s ≤ N ∧
  (∀ m ∈ s.curTarget_, m.offset_ ≤ m.size_ ∧ m.size_ < 65536)

/-- The states of a `Buffer(M, Q, N)` that is filled with `put_data` and read
with `get_message`. -/
inductive ReachData (M Q N : Nat) : Impl → Prop
  | fresh : ReachData M Q N (Impl.new M Q N)
  | put_data (junk : Nat → Nat) (s : Impl) (data : List Nat) (r : Int × Impl × Bool) :
      ReachData M Q N s → put_data junk s data = some r → ReachData M Q N r.2.1
  | get_message (s : Impl) (mSize : Nat) :
      ReachData M Q N s → ReachData M Q N (get_message s mSize).2.2

/-- The states of a `Buffer(M, Q, N)` that is filled with `put_message` and
read with `get_message` or `get_data`. -/
inductive ReachMsg (M Q N : Nat) : Impl → Prop
  | fresh : ReachMsg M Q N (Impl.new M Q N)
  | put_message (junk : Nat → Nat) (s : Impl) (msg : List Nat) :
      ReachMsg M Q N s → ReachMsg M Q N (put_message junk s msg).2
  | get_message (s : Impl) (mSize : Nat) :
      ReachMsg M Q N s → ReachMsg M Q N (get_message s mSize).2.2
  | get_data (s : Impl) (mSize : Nat) (r : Int × List Nat × Impl) :
      ReachMsg M Q N s → get_data s mSize = some r → ReachMsg M Q N r.2.2


/-! ## The byte block (`src/lib/block.cpp`) -/

/-- The class `Block`: the `size_` bytes at `buf_`, the cursor `pos_` and the
EOF flag. -/
structure Block where
  buf_ : List Nat
  pos_ : Nat
  atEof_ : Bool
deriving DecidableEq, Repr

/-- The constructor `Block::Block(void *, size_t)` on the memory `base`. -/
def Block.new (base : List Nat) : Block :=
  { buf_ := base, pos_ := 0, atEof_ := false }

/-- The accessor `Block::size`. -/
def Block.size (b : Block) : Nat := b.buf_.length

/-- The accessor `Block::pos`. -/
def Block.pos (b : Block) : Nat := b.pos_

/-- The accessor `Block::eof`. -/
def Block.eof (b : Block) : Bool := b.atEof_

/-- The function `Block::left`: `size_ - pos_`, computed in `size_t`. -/
def Block.left (b : Block) : Nat :=
  if b.pos_ ≤ b.size then b.size - b.pos_ else 2 ^ 32 - (b.pos_ - b.size)

/-- The function `Block::cur`, as the bytes from the cursor on. -/
def Block.cur (b : Block) : List Nat := b.buf_.drop b.pos_

/-- The function `Block::seek`. -/
def Block.seek (b : Block) (pos : Nat) : Block :=
  { b with pos_ := pos, atEof_ := false }

/-- Stores through the pointer `cur()`: `bytes` replace the bytes that start
at the cursor.  The cursor stays. -/
def Block.poke (b : Block) (bytes : List Nat) : Block :=
  { b with buf_ := b.buf_.take b.pos_ ++ bytes ++ b.buf_.drop (b.pos_ + bytes.length) }

/-- The function `Block::read`: the result, the bytes copied to `outBuf` and
the block afterwards. -/
def Block.read (b : Block) (size : Nat) : Nat × List Nat × Block :=
  if b.left < size then
    (b.left, b.cur.take b.left,
     { b with pos_ := b.pos_ + b.left, atEof_ := if b.left = 0 then true else b.atEof_ })
  else
    (size, b.cur.take size, { b with pos_ := b.pos_ + size })

/-- The function `Block::write` with `size = inBuf.length`: the result and the
block afterwards. -/
def Block.write (b : Block) (inBuf : List Nat) : Nat × Block :=
  if b.left < inBuf.length then
    (b.left, { (b.poke (inBuf.take b.left)) with pos_ := b.pos_ + b.left, atEof_ := true })
  else
    (inBuf.length, { (b.poke inBuf) with pos_ := b.pos_ + inBuf.length })

/-- A block whose cursor lies within its bytes. -/
def Block.InRange (b : Block) : Prop := b.pos_ ≤ b.size

instance (b : Block) : Decidable b.InRange := by
  unfold Block.InRange; infer_instance

/-! ## The field marshallers (`src/lib/marshal.cpp`) -/

/-- Conversion to `int` (32 bits, two's complement). -/
def toInt32 (n : Int) : Int := (n + 2 ^ 31) % 2 ^ 32 - 2 ^ 31

/-- Conversion to `unsigned int`. -/
def toUInt32 (n : Int) : Nat := (n % 2 ^ 32).toNat

/-- Conversion to `size_t` and to `SOCKET` (32 bits). -/
def toSizeT (n : Int) : Nat := (n % 2 ^ 32).toNat

/-- The value `1ULL << bits`.  The standard defines it for `0 <= bits < 64`;
for every other count the model takes the value of a shift that drops the
bits it moves out, which is `0`. -/
def shl1 (bits : Int) : Nat :=
  if 0 ≤ bits ∧ bits < 64 then 2 ^ bits.toNat else 0

/-- What a marshaller throws.  The message of a field marshaller is the fixed
part of the text that the source builds. -/
inductive Exn where
  | invalid_argument (what : String)
  | logic_error (what : String)
deriving DecidableEq, Repr

/-- The text `what()` of an exception. -/
def Exn.what : Exn → String
  | .invalid_argument w => w
  | .logic_error w => w

/-- Whether `catch (std::logic_error const &)` catches the exception:
`std::invalid_argument` derives from `std::logic_error`. -/
def Exn.isLogicError : Exn → Bool
  | .invalid_argument _ => true
  | .logic_error _ => true

/-- What a call of `marshal` does: it returns a size or it throws, and leaves
the block `dst` behind. -/
inductive Marshalled where
  | ret (size : Nat) (dst : Block)
  | raise (e : Exn) (dst : Block)
deriving DecidableEq, Repr

/-- What a call of `demarshal` does: it returns a size or it throws, and
leaves the block `src` and the destination `dst` behind. -/
inductive Demarshalled (α : Type) where
  | ret (size : Nat) (src : Block) (dst : α)
  | raise (e : Exn) (src : Block) (dst : α)
deriving DecidableEq, Repr

/-- The loop `for (c = bytes_; c > 0; --c) { d[c-1] = val & 0xff; val >>= 8; }`:
the bytes `d[0] .. d[bytes_-1]` that it stores. -/
def storeBytes : Nat → Nat → List Nat
  | 0, _ => []
  | c + 1, val => storeBytes c (val / 256) ++ [val % 256]

/-- The loop `for (i = 0; i < bytes_; ++i) { ret = (ret << 8) | s[i]; }` on an
unsigned `ret` of `w` bits.  The low eight bits of `ret << 8` are zero, so
the bitwise or with the byte `s[i]` is an addition. -/
def loadBytes (w : Nat) : Nat → List Nat → Nat
  | ret, [] => ret
  | ret, s :: rest => loadBytes w ((ret * 256) % 2 ^ w + toUChar s) rest

/-- The class `IntMarshaller`. -/
structure IntMarshaller where
  min_ : Int
  max_ : Int
  bytes_ : Nat
deriving DecidableEq, Repr

/-- The function `IntMarshaller::setRange` (and so the constructor
`IntMarshaller(min, max)`).  The loop runs with `bytes_` = 1, 2, 3 and
compares `1 << (bytes_ * 8)` with the `int` difference `max_ - min_`. -/
def IntMarshaller.setRange (min max : Int) : IntMarshaller :=
  { min_ := min
    max_ := max
    bytes_ :=
      if 256 > toInt32 (max - min) then 1
      else if 65536 > toInt32 (max - min) then 2
      else if 16777216 > toInt32 (max - min) then 3
      else 4 }

/-- The function `IntMarshaller::marshal` on the value `v = *(int const *)src`. -/
def IntMarshaller.marshal (m : IntMarshaller) (v : Int) (dst : Block) : Marshalled :=
  if v < m.min_ ∨ v > m.max_ then
    .raise (.invalid_argument "IntMarshaller argument is out of bounds") dst
  else if dst.left < m.bytes_ then .ret 0 dst
  else .ret m.bytes_ ((dst.poke (storeBytes m.bytes_ (toUInt32 v))).seek (dst.pos_ + m.bytes_))

/-- The function `IntMarshaller::demarshal`; `dst` is the `int` at `*dst`.
The source stores the decoded value before it checks the range. -/
def IntMarshaller.demarshal (m : IntMarshaller) (src : Block) (dst : Int) :
    Demarshalled Int :=
  if src.left < m.bytes_ then .ret 0 src dst
  else
    let ret := loadBytes 32 0 (src.cur.take m.bytes_)
    let v := toInt32 ((ret : Int) + m.min_)
    if v < m.min_ ∨ v > m.max_ then
      .raise (.invalid_argument "IntMarshaller demarshal is out of bounds") src v
    else .ret m.bytes_ (src.seek (src.pos_ + m.bytes_)) v

/-- The class `UintMarshaller`. -/
structure UintMarshaller where
  bits_ : Int
  bytes_ : Nat
deriving DecidableEq, Repr

/-- The function `UintMarshaller::setBits` (and so the constructor
`UintMarshaller(bits)`).  The loop runs with `bytes_` = 1, 2, 3. -/
def UintMarshaller.setBits (bits : Int) : UintMarshaller :=
  { bits_ := bits
    bytes_ := if 8 ≥ bits then 1 else if 16 ≥ bits then 2 else if 24 ≥ bits then 3 else 4 }

/-- The bound `(unsigned int)((1ULL << bits_) - 1)`. -/
def UintMarshaller.limit (m : UintMarshaller) : Nat :=
  ((shl1 m.bits_ + 2 ^ 64 - 1) % 2 ^ 64) % 2 ^ 32

/-- The function `UintMarshaller::marshal` on `v = *(unsigned int const *)src`. -/
def UintMarshaller.marshal (m : UintMarshaller) (v : Nat) (dst : Block) : Marshalled :=
  if v > m.limit then
    .raise (.invalid_argument "IntMarshaller argument is out of bounds") dst
  else if dst.left < m.bytes_ then .ret 0 dst
  else .ret m.bytes_ ((dst.poke (storeBytes m.bytes_ v)).seek (dst.pos_ + m.bytes_))

/-- The function `UintMarshaller::demarshal`; `dst` is the `unsigned int` at
`*dst`. -/
def UintMarshaller.demarshal (m : UintMarshaller) (src : Block) (dst : Nat) :
    Demarshalled Nat :=
  if src.left < m.bytes_ then .ret 0 src dst
  else
    let ret := loadBytes 32 0 (src.cur.take m.bytes_)
    if ret > m.limit then
      .raise (.invalid_argument "UintMarshaller demarshal is out of bounds") src ret
    else .ret m.bytes_ (src.seek (src.pos_ + m.bytes_)) ret

/-- The class `Uint64Marshaller`. -/
structure Uint64Marshaller where
  bits_ : Int
  bytes_ : Nat
deriving DecidableEq, Repr

/-- The function `Uint64Marshaller::setBits` (and so the constructor
`Uint64Marshaller(bits)`): `bytes_ = (bits + 7) / 8`, stored in an
`unsigned char`. -/
def Uint64Marshaller.setBits (bits : Int) : Uint64Marshaller :=
  { bits_ := bits
    bytes_ := toUChar (toUInt32 (Int.tdiv (bits + 7) 8)) }

/-- The bound `(unsigned long long)((1ULL << bits_) - 1ULL)`. -/
def Uint64Marshaller.limit (m : Uint64Marshaller) : Nat :=
  (shl1 m.bits_ + 2 ^ 64 - 1) % 2 ^ 64

/-- The function `Uint64Marshaller::marshal` on
`v = *(unsigned long long const *)src`. -/
def Uint64Marshaller.marshal (m : Uint64Marshaller) (v : Nat) (dst : Block) : Marshalled :=
  if v > m.limit then
    .raise (.invalid_argument "Uint64Marshaller argument is out of bounds") dst
  else if dst.left < m.bytes_ then .ret 0 dst
  else .ret m.bytes_ ((dst.poke (storeBytes m.bytes_ v)).seek (dst.pos_ + m.bytes_))

/-- The function `Uint64Marshaller::demarshal`; `dst` is the
`unsigned long long` at `*dst`. -/
def Uint64Marshaller.demarshal (m : Uint64Marshaller) (src : Block) (dst : Nat) :
    Demarshalled Nat :=
  if src.left < m.bytes_ then .ret 0 src dst
  else
    .ret m.bytes_ (src.seek (src.pos_ + m.bytes_)) (loadBytes 64 0 (src.cur.take m.bytes_))

/-- The class `DoubleMarshaller`. -/
structure DoubleMarshaller where
  int_ : Uint64Marshaller
deriving DecidableEq, Repr

/-- The constructor `DoubleMarshaller()`. -/
def DoubleMarshaller.new : DoubleMarshaller := { int_ := Uint64Marshaller.setBits 64 }

/-- The function `DoubleMarshaller::marshal` on the 64 bits of the `double`. -/
def DoubleMarshaller.marshal (m : DoubleMarshaller) (v : Nat) (dst : Block) : Marshalled :=
  m.int_.marshal v dst

/-- The function `DoubleMarshaller::demarshal`; `dst` holds the 64 bits of the
`double` at `*dst`. -/
def DoubleMarshaller.demarshal (m : DoubleMarshaller) (src : Block) (dst : Nat) :
    Demarshalled Nat :=
  m.int_.demarshal src dst

/-! ## Rounding to `float` and `double` -/

/-- The integer nearest to `q`; a tie goes to the even one. -/
def roundHalfEven (q : ℚ) : Int :=
  if q - ⌊q⌋ < 1 / 2 then ⌊q⌋
  else if q - ⌊q⌋ > 1 / 2 then ⌊q⌋ + 1
  else if ⌊q⌋ % 2 = 0 then ⌊q⌋ else ⌊q⌋ + 1

/-- The exponent of the binade of a positive `x`: `2 ^ e ≤ x < 2 ^ (e + 1)`. -/
def binade (x : ℚ) : Int := Int.log 2 x

/-- A positive `x` rounded to `p` significant bits, to nearest, ties to even. -/
def roundPos (p : Nat) (x : ℚ) : ℚ :=
  (roundHalfEven (x / 2 ^ (binade x - ((p : Int) - 1))) : ℚ) * 2 ^ (binade x - ((p : Int) - 1))

/-- The value `x` rounded to `p` significant bits, to nearest, ties to even.
The exponent is not bounded. -/
def roundTo (p : Nat) (x : ℚ) : ℚ :=
  if x = 0 then 0 else if 0 < x then roundPos p x else -roundPos p (-x)

/-- The conversion of an exact result to `float`. -/
def toFloat (x : ℚ) : ℚ := roundTo 24 x

/-- The conversion of an exact result to `double`. -/
def toDouble (x : ℚ) : ℚ := roundTo 53 x

/-- The conversion `int(x)` of a floating-point value: towards zero. -/
def truncToInt (x : ℚ) : Int := if 0 ≤ x then ⌊x⌋ else ⌈x⌉

/-- The class `FloatMarshaller`; the members `min_`, `max_` and `prec_` are
the values of the `float`s. -/
structure FloatMarshaller where
  min_ : ℚ
  max_ : ℚ
  prec_ : ℚ
  int_ : IntMarshaller
deriving DecidableEq, Repr

/-- The value `n = ceil(double(max_-min_)/prec_)+1` of the constructor: the
difference is formed in `float`, the quotient and the sum in `double`. -/
def FloatMarshaller.steps (min max prec : ℚ) : ℚ :=
  toDouble ((⌈toDouble (toFloat (max - min) / prec)⌉ : ℚ) + 1)

/-- The constructor `FloatMarshaller(min, max, prec)`; the arguments are the
values of the `float` parameters. -/
def FloatMarshaller.new (min max prec : ℚ) : Except Exn FloatMarshaller :=
  if FloatMarshaller.steps min max prec > 2 ^ 31 - 1 then
    .error (.invalid_argument "FloatMarhsaller can only deal with up to 31 bits of range.")
  else
    .ok { min_ := min, max_ := max, prec_ := prec
          int_ := IntMarshaller.setRange 0 (truncToInt (FloatMarshaller.steps min max prec)) }

/-- The value `int( (double(f)-min_)/prec_ )` of `FloatMarshaller::marshal`:
the difference and the quotient are formed in `double`. -/
def FloatMarshaller.index (m : FloatMarshaller) (f : ℚ) : Int :=
  truncToInt (toDouble (toDouble (f - m.min_) / m.prec_))

/-- The function `FloatMarshaller::marshal` on `f = *(float const *)src`. -/
def FloatMarshaller.marshal (m : FloatMarshaller) (f : ℚ) (dst : Block) : Marshalled :=
  if f < m.min_ ∨ f > m.max_ then
    .raise (.invalid_argument "FloatMarshaller argument is out of bounds.") dst
  else m.int_.marshal (m.index f) dst

/-- The value `float( double(i)*prec_ + min_ )` of `FloatMarshaller::demarshal`:
the product and the sum are formed in `double`, and the result is converted
to `float`. -/
def FloatMarshaller.value (m : FloatMarshaller) (i : Int) : ℚ :=
  toFloat (toDouble (toDouble ((i : ℚ) * m.prec_) + m.min_))

/-- The function `FloatMarshaller::demarshal`; `dst` is the `float` at `*dst`. -/
def FloatMarshaller.demarshal (m : FloatMarshaller) (src : Block) (dst : ℚ) :
    Demarshalled ℚ :=
  match m.int_.demarshal src 0 with
  | .raise e src1 _ => .raise e src1 dst
  | .ret siz src1 i =>
    if siz = 0 then .ret 0 src1 dst
    else .ret siz src1 (m.value i)

/-- The function `BoolMarshaller::marshal` on `*(bool *)src`. -/
def BoolMarshaller.marshal (v : Bool) (dst : Block) : Marshalled :=
  if dst.left < 1 then .ret 0 dst
  else .ret (dst.write [if v then 1 else 0]).1 (dst.write [if v then 1 else 0]).2

/-- The function `BoolMarshaller::demarshal`; `dst` is the `bool` at `*dst`. -/
def BoolMarshaller.demarshal (src : Block) (dst : Bool) : Demarshalled Bool :=
  if (src.read 1).1 = 0 then .ret 0 (src.read 1).2.2 dst
  else .ret 1 (src.read 1).2.2 (decide (((src.read 1).2.1.map toUChar) ≠ [0]))

/-- The class `StringMarshaller`. -/
structure StringMarshaller where
  int_ : IntMarshaller
  maxSize_ : Nat
deriving DecidableEq, Repr

/-- The constructor `StringMarshaller(maxSize)`: the length field has the
range `[0, (int)maxSize]`. -/
def StringMarshaller.new (maxSize : Nat) : StringMarshaller :=
  { int_ := IntMarshaller.setRange 0 (toInt32 maxSize), maxSize_ := maxSize }

/-- The function `StringMarshaller::marshal` on the characters of
`*(std::string const *)src`. -/
def StringMarshaller.marshal (m : StringMarshaller) (s : List Nat) (dst : Block) :
    Marshalled :=
  if s.length > m.maxSize_ then
    .raise (.invalid_argument "StringMarshaller argument is too long") dst
  else if dst.left < m.int_.bytes_ + s.length then .ret 0 dst
  else
    match m.int_.marshal (toInt32 s.length) dst with
    | .raise e dst1 => .raise e dst1
    | .ret _ dst1 => .ret (s.length + m.int_.bytes_) (dst1.write s).2

/-- The function `StringMarshaller::demarshal`; `dst` holds the characters of
the `std::string` at `*dst`. -/
def StringMarshaller.demarshal (m : StringMarshaller) (src : Block) (dst : List Nat) :
    Demarshalled (List Nat) :=
  match m.int_.demarshal src 0 with
  | .raise e src1 _ => .raise e src1 dst
  | .ret siz src1 i =>
    if siz = 0 then .ret 0 src1 dst
    else if src1.left < toSizeT i then .ret 0 (src1.seek src.pos_) dst
    else
      .ret (m.int_.bytes_ + toSizeT i) (src1.seek (src1.pos_ + toSizeT i))
        (src1.cur.take (toSizeT i))

/-! ## Records in memory and the marshaller of a type -/

/-- What the memory of a record holds at one address: the bits of a scalar
(`int`, `unsigned int`, `unsigned long long`, `double`, `bool`), a `float`, or
the characters of a `std::string`. -/
inductive Cell where
  | word (bits : Nat)
  | real (f : ℚ)
  | str (s : List Nat)
deriving DecidableEq, Repr

/-- The memory that a `void *` points into, by address. -/
abbrev Mem := Nat → Cell

/-- The bits of a scalar cell. -/
def Cell.bits : Cell → Nat
  | .word n => n
  | _ => 0

/-- The read `*(int const *)p`. -/
def readInt (mem : Mem) (p : Nat) : Int := toInt32 (mem p).bits

/-- The read `*(unsigned int const *)p`. -/
def readUint (mem : Mem) (p : Nat) : Nat := (mem p).bits % 2 ^ 32

/-- The read `*(unsigned long long const *)p`. -/
def readUint64 (mem : Mem) (p : Nat) : Nat := (mem p).bits % 2 ^ 64

/-- The read `*(bool *)p`. -/
def readBool (mem : Mem) (p : Nat) : Bool := decide ((mem p).bits ≠ 0)

/-- The read `*(float const *)p`. -/
def readFloat (mem : Mem) (p : Nat) : ℚ :=
  match mem p with
  | .real f => f
  | _ => 0

/-- The read `*(std::string const *)p`. -/
def readString (mem : Mem) (p : Nat) : List Nat :=
  match mem p with
  | .str s => s
  | _ => []

/-- A store of one cell at the address `p`. -/
def Mem.store (mem : Mem) (p : Nat) (c : Cell) : Mem :=
  fun q => if q = p then c else mem q

/-- The marshallers that `MarshalOp::addInt` .. `MarshalOp::addString` create. -/
inductive FieldMarshaller where
  | int (m : IntMarshaller)
  | uint (m : UintMarshaller)
  | uint64 (m : Uint64Marshaller)
  | float (m : FloatMarshaller)
  | double (m : DoubleMarshaller)
  | bool
  | string (m : StringMarshaller)
deriving DecidableEq, Repr

/-- The virtual call `marshal(src, dst)` on a field marshaller; `src` is an
address in `mem`. -/
def FieldMarshaller.marshal (f : FieldMarshaller) (mem : Mem) (src : Nat) (dst : Block) :
    Marshalled :=
  match f with
  | .int m => m.marshal (readInt mem src) dst
  | .uint m => m.marshal (readUint mem src) dst
  | .uint64 m => m.marshal (readUint64 mem src) dst
  | .float m => m.marshal (readFloat mem src) dst
  | .double m => m.marshal (readUint64 mem src) dst
  | .bool => BoolMarshaller.marshal (readBool mem src) dst
  | .string m => m.marshal (readString mem src) dst

/-- Puts the destination that a field marshaller leaves behind back into the
memory; a destination that the marshaller did not touch is stored as it was
read. -/
def Demarshalled.toMem {α : Type} (mem : Mem) (p : Nat) (cell : α → Cell) :
    Demarshalled α → Demarshalled Mem
  | .ret size src v => .ret size src (mem.store p (cell v))
  | .raise e src v => .raise e src (mem.store p (cell v))

/-- The virtual call `demarshal(src, dst)` on a field marshaller; `dst` is an
address in `mem`. -/
def FieldMarshaller.demarshal (f : FieldMarshaller) (src : Block) (mem : Mem) (dst : Nat) :
    Demarshalled Mem :=
  match f with
  | .int m => (m.demarshal src (readInt mem dst)).toMem mem dst (fun v => .word (toUInt32 v))
  | .uint m => (m.demarshal src (readUint mem dst)).toMem mem dst .word
  | .uint64 m => (m.demarshal src (readUint64 mem dst)).toMem mem dst .word
  | .float m => (m.demarshal src (readFloat mem dst)).toMem mem dst .real
  | .double m => (m.demarshal src (readUint64 mem dst)).toMem mem dst .word
  | .bool =>
    (BoolMarshaller.demarshal src (readBool mem dst)).toMem mem dst
      (fun v => .word (if v then 1 else 0))
  | .string m => (m.demarshal src (readString mem dst)).toMem mem dst .str

/-- A resolved marshaller, as `TypeMarshal::marshal` and
`TypeMarshal::demarshal` see it: a field marshaller, or a `TypeMarshal` with
the `offset_` and the `marshaller_` of each member description. -/
inductive IMarshaller where
  | field (f : FieldMarshaller)
  | type (descs_ : List (Nat × IMarshaller))

mutual
/-- The virtual call `marshal(src, dst)`; for a `TypeMarshal` this is
`TypeMarshal::marshal`. -/
def IMarshaller.marshal : IMarshaller → Mem → Nat → Block → Marshalled
  | .field f, mem, src, dst => f.marshal mem src dst
  | .type descs, mem, src, dst => TypeMarshal.marshalFrom descs mem src dst dst.pos_
/-- The loop of `TypeMarshal::marshal` over the member descriptions that are
left; `pos` is the position saved at entry. -/
def TypeMarshal.marshalFrom :
    List (Nat × IMarshaller) → Mem → Nat → Block → Nat → Marshalled
  | [], _, _, dst, pos => .ret (dst.pos_ - pos) dst
  | (offset, m) :: rest, mem, src, dst, pos =>
    match m.marshal mem (src + offset) dst with
    | .raise e dst1 => .raise e dst1
    | .ret sz dst1 =>
      if sz = 0 then .ret 0 (dst1.seek pos)
      else TypeMarshal.marshalFrom rest mem src dst1 pos
end

mutual
/-- The virtual call `demarshal(src, dst)`; for a `TypeMarshal` this is
`TypeMarshal::demarshal`. -/
def IMarshaller.demarshal : IMarshaller → Block → Mem → Nat → Demarshalled Mem
  | .field f, src, mem, dst => f.demarshal src mem dst
  | .type descs, src, mem, dst => TypeMarshal.demarshalFrom descs src mem dst src.pos_
/-- The loop of `TypeMarshal::demarshal` over the member descriptions that are
left; `pos` is the position saved at entry. -/
def TypeMarshal.demarshalFrom :
    List (Nat × IMarshaller) → Block → Mem → Nat → Nat → Demarshalled Mem
  | [], src, mem, _, pos => .ret (src.pos_ - pos) src mem
  | (offset, m) :: rest, src, mem, dst, pos =>
    match m.demarshal src mem (dst + offset) with
    | .raise e src1 mem1 => .raise e src1 mem1
    | .ret s src1 mem1 =>
      if s = 0 then .ret 0 (src1.seek pos) mem1
      else TypeMarshal.demarshalFrom rest src1 mem1 dst pos
end

/-! ## The marshal manager (`src/lib/marshal.cpp`)

A `std::map` is the list of its entries in key order.  The objects of class
`TypeMarshal` (one `Marshaller<Type>` per registered type) are held by value:
an object waits in `toResolve_`, is worked on by `TypeMarshal::resolve` and is
then kept in `stringMarshallers_`.  A pointer to such an object is the type
name under which `stringMarshallers_` keeps it. -/

/-- The comparison of two character sequences by `std::string::operator<`. -/
def strLtL : List Nat → List Nat → Bool
  | _, [] => false
  | [], _ :: _ => true
  | a :: as, b :: bs => if a < b then true else if b < a then false else strLtL as bs

/-- The order `std::less<std::string>` of the maps with string keys. -/
def strLt (a b : String) : Bool :=
  strLtL (a.toList.map Char.toNat) (b.toList.map Char.toNat)

/-- The order `std::less<int>` of the map `intMarshallers_`. -/
def intLt (a b : Int) : Bool := decide (a < b)

/-- The lookup `map.find(k)`; `none` is `map.end()`. -/
def mapFind {K V : Type} [DecidableEq K] (k : K) : List (K × V) → Option V
  | [] => none
  | e :: rest => if k = e.1 then some e.2 else mapFind k rest

/-- The call `map.erase(map.find(k))`. -/
def mapErase {K V : Type} [DecidableEq K] (k : K) (m : List (K × V)) : List (K × V) :=
  m.filter (fun e => decide (e.1 ≠ k))

/-- The assignment `map[k] = v`. -/
def mapSet {K V : Type} [DecidableEq K] (lt : K → K → Bool) (k : K) (v : V) :
    List (K × V) → List (K × V)
  | [] => [(k, v)]
  | e :: rest =>
    if k = e.1 then (k, v) :: rest
    else if lt k e.1 then (k, v) :: e :: rest
    else e :: mapSet lt k v rest

/-- An `IMarshaller *` in a member description: one of the field marshallers,
or the `TypeMarshal` object of the named type. -/
inductive MarshallerPtr where
  | field (f : FieldMarshaller)
  | type (name : String)
deriving DecidableEq, Repr

/-- The struct `MemberDesc`; `none` is the null pointer. -/
structure MemberDesc where
  name_ : String
  type_ : String
  offset_ : Nat
  marshaller_ : Option MarshallerPtr
deriving DecidableEq, Repr

/-- The class `TypeMarshal` with the members `id_` and `name_` of its base
`IMarshaller`. -/
structure TypeMarshal where
  name_ : String
  id_ : Int
  descs_ : List MemberDesc
  instanceSize_ : Nat
  maxMarshalledSize_ : Nat
deriving DecidableEq, Repr

/-- The constructor `TypeMarshal::TypeMarshal(name)`. -/
def TypeMarshal.new (name : String) : TypeMarshal :=
  { name_ := name, id_ := 0, descs_ := [], instanceSize_ := 0, maxMarshalledSize_ := 0 }

/-- The accessor `IMarshaller::id`. -/
def TypeMarshal.id (it : TypeMarshal) : Int := it.id_

/-- The `push_back` at the end of each `MarshalOp::add...` function. -/
def TypeMarshal.push_back (it : TypeMarshal) (md : MemberDesc) : TypeMarshal :=
  { it with descs_ := it.descs_ ++ [md] }

/-- The function `MarshalOp::addInt`. -/
def MarshalOp.addInt (it : TypeMarshal) (name : String) (offset : Nat) (min max : Int) :
    TypeMarshal :=
  it.push_back { name_ := name, type_ := "int", offset_ := offset
                 marshaller_ := some (.field (.int (IntMarshaller.setRange min max))) }

/-- The function `MarshalOp::addUint`. -/
def MarshalOp.addUint (it : TypeMarshal) (name : String) (offset : Nat) (bits : Int) :
    TypeMarshal :=
  it.push_back { name_ := name, type_ := "unsigned int", offset_ := offset
                 marshaller_ := some (.field (.uint (UintMarshaller.setBits bits))) }

/-- The function `MarshalOp::addUint64`. -/
def MarshalOp.addUint64 (it : TypeMarshal) (name : String) (offset : Nat) (bits : Int) :
    TypeMarshal :=
  it.push_back { name_ := name, type_ := "unsigned __int64", offset_ := offset
                 marshaller_ := some (.field (.uint64 (Uint64Marshaller.setBits bits))) }

/-- The function `MarshalOp::addFloat`; the constructor of the marshaller may
throw. -/
def MarshalOp.addFloat (it : TypeMarshal) (name : String) (offset : Nat) (min max prec : ℚ) :
    Except Exn TypeMarshal :=
  match FloatMarshaller.new min max prec with
  | .error e => .error e
  | .ok m =>
    .ok (it.push_back { name_ := name, type_ := "float", offset_ := offset
                        marshaller_ := some (.field (.float m)) })

/-- The function `MarshalOp::addDouble`. -/
def MarshalOp.addDouble (it : TypeMarshal) (name : String) (offset : Nat) : TypeMarshal :=
  it.push_back { name_ := name, type_ := "double", offset_ := offset
                 marshaller_ := some (.field (.double DoubleMarshaller.new)) }

/-- The function `MarshalOp::addBool`. -/
def MarshalOp.addBool (it : TypeMarshal) (name : String) (offset : Nat) : TypeMarshal :=
  it.push_back { name_ := name, type_ := "bool", offset_ := offset
                 marshaller_ := some (.field .bool) }

/-- The function `MarshalOp::addString`. -/
def MarshalOp.addString (it : TypeMarshal) (name : String) (offset : Nat) (maxSize : Nat) :
    TypeMarshal :=
  it.push_back { name_ := name, type_ := "std::string", offset_ := offset
                 marshaller_ := some (.field (.string (StringMarshaller.new maxSize))) }

/-- The function `MarshalOp::addSomeType`: the marshaller is left null, to be
resolved later. -/
def MarshalOp.addSomeType (it : TypeMarshal) (typeName name : String) (offset : Nat) :
    TypeMarshal :=
  it.push_back { name_ := name, type_ := typeName, offset_ := offset, marshaller_ := none }

/-- The value `sizeof(std::string)`, which the platform fixes. -/
def sizeofString : Nat := 32

/-- The virtual function `instanceSize` of the field marshallers. -/
def FieldMarshaller.instanceSize : FieldMarshaller → Nat
  | .int _ => 4
  | .uint _ => 4
  | .uint64 _ => 8
  | .float _ => 4
  | .double _ => 8
  | .bool => 1
  | .string _ => sizeofString

/-- The virtual function `maxMarshalledSize` of the field marshallers.  The
sum for a string, which involves the declared maximum, is formed in `size_t`. -/
def FieldMarshaller.maxMarshalledSize : FieldMarshaller → Nat
  | .int m => m.bytes_
  | .uint m => m.bytes_
  | .uint64 m => m.bytes_
  | .float m => m.int_.bytes_
  | .double m => m.int_.bytes_
  | .bool => 1
  | .string m => (m.int_.bytes_ + m.maxSize_) % 2 ^ 32

/-- The class `MarshalManager`. -/
structure MarshalManager where
  intMarshallers_ : List (Int × String)
  stringMarshallers_ : List (String × TypeMarshal)
  toResolve_ : List (String × Int × TypeMarshal)
  error_ : String
deriving DecidableEq, Repr

/-- The manager `IMarshalManager::instance()` before any registration. -/
def MarshalManager.new : MarshalManager :=
  { intMarshallers_ := [], stringMarshallers_ := [], toResolve_ := [], error_ := "" }

/-- The virtual call `instanceSize()` through a pointer. -/
def MarshalManager.instanceSize (mgr : MarshalManager) : MarshallerPtr → Nat
  | .field f => f.instanceSize
  | .type p =>
    match mapFind p mgr.stringMarshallers_ with
    | some t => t.instanceSize_
    | none => 0

/-- The virtual call `maxMarshalledSize()` through a pointer. -/
def MarshalManager.maxMarshalledSize (mgr : MarshalManager) : MarshallerPtr → Nat
  | .field f => f.maxMarshalledSize
  | .type p =>
    match mapFind p mgr.stringMarshallers_ with
    | some t => t.maxMarshalledSize_
    | none => 0

/-- The function `MarshalManager::setMarshaller`. -/
def MarshalManager.setMarshaller (mgr : MarshalManager) (type : String) (id : Int)
    (m : TypeMarshal) : Except Exn MarshalManager :=
  if (mapFind type mgr.toResolve_).isSome then
    .error (.invalid_argument ("Duplicate marshaller found for type: " ++ type))
  else .ok { mgr with toResolve_ := mapSet strLt type (id, m) mgr.toResolve_ }

/-- The constructor `MarshalRegistrar<Type>(id)`, which registers the object
`m` of class `Marshaller<Type>` under the name of the type. -/
def MarshalRegistrar (mgr : MarshalManager) (id : Int) (m : TypeMarshal) :
    Except Exn MarshalManager :=
  mgr.setMarshaller m.name_ id m

/-- The registrars of a program, run in the order of the list. -/
def registerAll : List (Int × TypeMarshal) → MarshalManager → Except Exn MarshalManager
  | [], mgr => .ok mgr
  | (id, m) :: rest, mgr =>
    match MarshalRegistrar mgr id m with
    | .error e => .error e
    | .ok mgr1 => registerAll rest mgr1

/-- What a call into the manager does: it returns or it throws, and leaves the
manager behind. -/
inductive Outcome (α : Type) where
  | ret (a : α) (mgr : MarshalManager)
  | raise (e : Exn) (mgr : MarshalManager)
deriving DecidableEq, Repr

/-- Lines 411-418 of `TypeMarshal::resolve`: the marshaller of a member; a
null one is looked up by the type name of the member.  `marshaller` is the
virtual function `IMarshalManager::marshaller(char const *)` and `name` is
`name()` of the object being resolved. -/
def TypeMarshal.resolveMember
    (marshaller : MarshalManager → String → Option (Outcome (Option String)))
    (name : String) (md : MemberDesc) (mgr : MarshalManager) : Option (Outcome MarshallerPtr) :=
  match md.marshaller_ with
  | some p => some (.ret p mgr)
  | none =>
    match marshaller mgr md.type_ with
    | none => none
    | some (.raise e mgr1) => some (.raise e mgr1)
    | some (.ret none mgr1) =>
      some (.raise (.logic_error ("Marshaller for type " ++ name ++ " uses type " ++ md.type_ ++
        " which isn\x27t defined (or is recursively used).")) mgr1)
    | some (.ret (some p) mgr1) => some (.ret (.type p) mgr1)

/-- The loop of `TypeMarshal::resolve` over the member descriptions that are
left; `done` are the descriptions before them. -/
def TypeMarshal.resolveFrom
    (marshaller : MarshalManager → String → Option (Outcome (Option String)))
    (name : String) :
    List MemberDesc → MarshalManager → List MemberDesc → Nat → Nat → Nat →
      Option (Outcome (List MemberDesc × Nat × Nat × Nat))
  | [], mgr, done, mSize, memSize, maxMemSize =>
    some (.ret (done, mSize, memSize, maxMemSize) mgr)
  | md :: rest, mgr, done, mSize, memSize, maxMemSize =>
    match TypeMarshal.resolveMember marshaller name md mgr with
    | none => none
    | some (.raise e mgr1) => some (.raise e mgr1)
    | some (.ret p mgr1) =>
      TypeMarshal.resolveFrom marshaller name rest mgr1
        (done ++ [{ md with marshaller_ := some p }])
        ((mSize + mgr1.maxMarshalledSize p) % 2 ^ 32)
        (if md.offset_ + mgr1.instanceSize p > memSize then md.offset_ + mgr1.instanceSize p
         else memSize)
        (if mgr1.instanceSize p > maxMemSize then mgr1.instanceSize p else maxMemSize)

/-- The function `TypeMarshal::resolve`; it returns `this`, the object with
its members resolved. -/
def TypeMarshal.resolve
    (marshaller : MarshalManager → String → Option (Outcome (Option String)))
    (mgr : MarshalManager) (self : TypeMarshal) : Option (Outcome TypeMarshal) :=
  match TypeMarshal.resolveFrom marshaller self.name_ self.descs_ mgr [] 0 0 0 with
  | none => none
  | some (.raise e mgr1) => some (.raise e mgr1)
  | some (.ret (descs, mSize, memSize, maxMemSize) mgr1) =>
    some (.ret
      { self with
        descs_ := descs
        instanceSize_ :=
          (memSize + ((if maxMemSize ≥ 3 then 4 else maxMemSize) - 1)) /
            (if maxMemSize ≥ 3 then 4 else maxMemSize) *
            (if maxMemSize ≥ 3 then 4 else maxMemSize)
        maxMarshalledSize_ := mSize } mgr1)

/-- The function `MarshalManager::marshaller(char const *)`.  The first
argument is fuel, one unit per nested call; `none` means that it ran out. -/
def MarshalManager.marshaller : Nat → MarshalManager → String → Option (Outcome (Option String))
  | 0, _, _ => none
  | fuel + 1, mgr, type =>
    match mapFind type mgr.stringMarshallers_ with
    | some _ => some (.ret (some type) mgr)
    | none =>
      match mapFind type mgr.toResolve_ with
      | none => some (.ret none mgr)
      | some (id, mr) =>
        match TypeMarshal.resolve (MarshalManager.marshaller fuel)
            { mgr with toResolve_ := mapErase type mgr.toResolve_ } mr with
        | none => none
        | some (.raise e mgr1) =>
          some (.raise
            (if e.isLogicError then
              .logic_error ("While resolving marshaller for type: " ++ type ++ "\n" ++ e.what)
             else e) mgr1)
        | some (.ret m mgr1) =>
          some (.ret (some type)
            (if id ≠ 0 then
              { mgr1 with
                stringMarshallers_ := mapSet strLt type m mgr1.stringMarshallers_
                intMarshallers_ := mapSet intLt id type mgr1.intMarshallers_ }
             else
              { mgr1 with stringMarshallers_ := mapSet strLt type m mgr1.stringMarshallers_ }))

/-- The store `m->id_ = id` into the object that the pointer `p` names. -/
def MarshalManager.setId (mgr : MarshalManager) (p : String) (id : Int) : MarshalManager :=
  { mgr with
    stringMarshallers_ :=
      mgr.stringMarshallers_.map (fun e => if e.1 = p then (e.1, { e.2 with id_ := id }) else e) }

/-- The `while` loop of `MarshalManager::resolve`.  The first argument is fuel,
one unit per test of the loop condition.  `TypeMarshal::resolve` never returns
null, so the branch `if (!m)` is never taken. -/
def MarshalManager.resolveLoop : Nat → MarshalManager → Option (Outcome Unit)
  | 0, _ => none
  | fuel + 1, mgr =>
    match mgr.toResolve_ with
    | [] => some (.ret () mgr)
    | (name, id, r) :: rest =>
      match TypeMarshal.resolve (MarshalManager.marshaller (rest.length + 1))
          { mgr with toResolve_ := rest } r with
      | none => none
      | some (.raise e mgr1) => some (.raise e mgr1)
      | some (.ret m mgr1) =>
        MarshalManager.resolveLoop fuel
          (if id ≠ 0 then
            ({ mgr1 with
               stringMarshallers_ := mapSet strLt name m mgr1.stringMarshallers_
               intMarshallers_ := mapSet intLt id name mgr1.intMarshallers_ }).setId name id
           else
            { mgr1 with stringMarshallers_ := mapSet strLt name m mgr1.stringMarshallers_ })

/-- The function `MarshalManager::resolve`: the error text (`none` is the null
pointer that reports success) and the manager afterwards. -/
def MarshalManager.resolve (mgr : MarshalManager) : Option (Option String × MarshalManager) :=
  match MarshalManager.resolveLoop (mgr.toResolve_.length + 1) mgr with
  | none => none
  | some (.ret _ mgr1) => some (none, mgr1)
  | some (.raise e mgr1) =>
    if e.isLogicError then some (some e.what, { mgr1 with error_ := e.what })
    else
      some (some "Unknown exception thrown during MarshalManager::resolve().",
            { mgr1 with error_ := "Unknown exception thrown during MarshalManager::resolve()." })

/-- The function `IMarshalManager::startup`. -/
def IMarshalManager.startup (mgr : MarshalManager) : Option (Option String × MarshalManager) :=
  mgr.resolve

/-- The function `MarshalManager::marshaller(int)`. -/
def MarshalManager.marshallerById (mgr : MarshalManager) (id : Int) : Option String :=
  mapFind id mgr.intMarshallers_

/-- The function `MarshalManager::countMarshallers`. -/
def MarshalManager.countMarshallers (mgr : MarshalManager) : Int :=
  (mgr.stringMarshallers_.length : Int)

/-- The object behind a pointer that `marshaller(char const *)` returned. -/
def MarshalManager.object (mgr : MarshalManager) (p : String) : Option TypeMarshal :=
  mapFind p mgr.stringMarshallers_

/-! ## Predicates used in the statements about the marshalling engine -/

/-- An int marshaller for a range `[0, max_]` of `int` values whose `bytes_`
bytes hold every value of the range, as `IntMarshaller::setRange(0, max)`
makes it. -/
def IntMarshaller.ZeroBased (m : IntMarshaller) : Prop :=
  m.min_ = 0 ∧ 0 ≤ m.max_ ∧ m.max_ < 2 ^ 31 ∧ 1 ≤ m.bytes_ ∧ m.bytes_ ≤ 4 ∧
    m.max_ < 256 ^ m.bytes_

/-- The member descriptions of a record type all of whose members are int
fields: the `offset_` and the marshaller of each member. -/
def intFields (ms : List (Nat × IntMarshaller)) : List (Nat × IMarshaller) :=
  ms.map (fun f => (f.1, .field (.int f.2)))

/-- The sum of the `bytes_` of int fields. -/
def intFieldsSize (ms : List (Nat × IntMarshaller)) : Nat :=
  (ms.map (fun f => f.2.bytes_)).sum

/-- The bytes that the int fields of the record at `src` are stored as, when
each value is stored in the `bytes_` bytes of its field. -/
def intFieldsWire (mem : Mem) (src : Nat) : List (Nat × IntMarshaller) → List Nat
  | [] => []
  | f :: rest =>
    storeBytes f.2.bytes_ (readInt mem (src + f.1)).toNat ++ intFieldsWire mem src rest

/-- The marshaller of a record type that is declared with one
`MARSHAL_INT(member, 0, max)` per member; `fs` lists the offset and the `max`
of each member. -/
def intRecord (fs : List (Nat × Int)) : IMarshaller :=
  .type (intFields (fs.map (fun f => (f.1, IntMarshaller.setRange 0 f.2))))

/-- The sum of the wire sizes of the fields of `intRecord fs`. -/
def intRecordSize (fs : List (Nat × Int)) : Nat :=
  intFieldsSize (fs.map (fun f => (f.1, IntMarshaller.setRange 0 f.2)))

/-- A program up to its call of `IMarshalManager::startup()`: the registrars of
`regs` (the id and the `Marshaller<Type>` object of each type) run in the
order of the list, then `startup` runs.  `none` stands for a registrar that
throws. -/
def startupAfter (regs : List (Int × TypeMarshal)) : Option (Option String × MarshalManager) :=
  match registerAll regs MarshalManager.new with
  | .error _ => none
  | .ok mgr => IMarshalManager.startup mgr

/-- The contract of a `marshal` call on blocks whose cursor is in range: what
it returns is how far it advances the position, it keeps the size of the
block, and when it returns `n > 0` on one block it returns `n` on every block
that has `n` bytes left and returns 0, with the position where it was, on
every block that has fewer. -/
def MarshalOK (F : Block → Marshalled) : Prop :=
  ∀ dst n dst1, dst.InRange → F dst = .ret n dst1 →
    (dst1.pos_ = dst.pos_ + n ∧ dst1.size = dst.size ∧ dst.pos_ + n ≤ dst.size) ∧
    (0 < n → ∀ dst2, dst2.InRange →
      (n ≤ dst2.left → ∃ dst3, F dst2 = .ret n dst3) ∧
      (dst2.left < n → ∃ dst3, F dst2 = .ret 0 dst3 ∧ dst3.pos_ = dst2.pos_))

/-- The contract of the loop of `TypeMarshal::marshal`, which is entered with
the position `pos` that was saved at or before the cursor. -/
def MarshalFromOK (F : Block → Nat → Marshalled) : Prop :=
  ∀ dst pos n dst1, dst.InRange → pos ≤ dst.pos_ → F dst pos = .ret n dst1 →
    (dst1.pos_ = pos + n ∧ dst1.size = dst.size ∧ pos + n ≤ dst.size ∧
      (0 < n → dst.pos_ ≤ pos + n)) ∧
    (0 < n → ∀ dst2 pos2, dst2.InRange → pos2 ≤ dst2.pos_ →
      (pos + n - dst.pos_ ≤ dst2.left →
        ∃ dst3, F dst2 pos2 = .ret (dst2.pos_ + (pos + n - dst.pos_) - pos2) dst3) ∧
      (dst2.left < pos + n - dst.pos_ →
        ∃ dst3, F dst2 pos2 = .ret 0 dst3 ∧ dst3.pos_ = pos2))

/-- The contract of a `demarshal` call on blocks whose cursor is in range:
what it returns is how far it advances the position, it leaves the bytes of
the block alone, and when it returns `n > 0` on one block it returns `n` on
every block that holds at least the first `n` of the same bytes and returns
0, with the position where it was, on every block that holds fewer of them. -/
def DemarshalOK {α : Type} (G : Block → α → Demarshalled α) : Prop :=
  ∀ src old n src1 v, src.InRange → G src old = .ret n src1 v →
    (src1.pos_ = src.pos_ + n ∧ src1.buf_ = src.buf_ ∧ src.pos_ + n ≤ src.size) ∧
    (0 < n → ∀ src2 old2 k, src2.InRange → src2.cur = src.cur.take k →
      (n ≤ k → ∃ src3 v3, G src2 old2 = .ret n src3 v3) ∧
      (k < n → ∃ src3 v3, G src2 old2 = .ret 0 src3 v3 ∧ src3.pos_ = src2.pos_))

/-- The contract of the loop of `TypeMarshal::demarshal`, which is entered
with the position `pos` that was saved at or before the cursor. -/
def DemarshalFromOK (G : Block → Mem → Nat → Demarshalled Mem) : Prop :=
  ∀ src mem pos n src1 mem1, src.InRange → pos ≤ src.pos_ →
    G src mem pos = .ret n src1 mem1 →
    (src1.pos_ = pos + n ∧ src1.buf_ = src.buf_ ∧ pos + n ≤ src.size ∧
      (0 < n → src.pos_ ≤ pos + n)) ∧
    (0 < n → ∀ src2 mem2 pos2 k, src2.InRange → pos2 ≤ src2.pos_ →
      src2.cur = src.cur.take k →
      (pos + n - src.pos_ ≤ k →
        ∃ src3 mem3, G src2 mem2 pos2 = .ret (src2.pos_ + (pos + n - src.pos_) - pos2) src3 mem3) ∧
      (k < pos + n - src.pos_ →
        ∃ src3 mem3, G src2 mem2 pos2 = .ret 0 src3 mem3 ∧ src3.pos_ = pos2))

/-- A record type for the examples: an int member, a string member and a
member of a nested type that has a bool and an int member. -/
def sampleRecord : IMarshaller :=
  .type [(0, .field (.int (IntMarshaller.setRange 0 200))),
         (4, .field (.string (StringMarshaller.new 10))),
         (40, .type [(0, .field .bool), (4, .field (.int (IntMarshaller.setRange 0 1000)))])]

/-- A record of type `sampleRecord` at address 0: the int 7, the string `hi`,
and the nested record with `true` and 300. -/
def sampleMem : Mem := fun p =>
  if p = 0 then .word 7 else if p = 4 then .str [104, 105] else if p = 40 then .word 1
  else .word 300

/-- Memory that `memset` cleared to 0. -/
def zeroMem : Mem := fun _ => .word 0

/-- A member description after `TypeMarshal::resolve`: a null marshaller is
replaced by the pointer to the marshaller of the type that the member names. -/
def MemberDesc.bound (d : MemberDesc) : MemberDesc :=
  { d with
    marshaller_ := some (match d.marshaller_ with
      | some p => p
      | none => .type d.type_) }

/-- The type `a` is registered and has a member whose marshaller is left to
be resolved and whose type is `b`: a nested-type reference from `a` to `b`. -/
def refersTo (regs : List (Int × TypeMarshal)) (a b : String) : Prop :=
  ∃ r ∈ regs, r.2.name_ = a ∧ ∃ d ∈ r.2.descs_, d.marshaller_ = none ∧ d.type_ = b

/-- What holds of the manager at every point of `MarshalManager::resolve`,
`reg` being the registrations that were pending when it started: pending
entries are registrations; a resolved object is a registered one with its
members bound; no name is both resolved and pending; and the resolved types
can be ranked so that every nested-type reference of a resolved type leads to
a resolved type of lower rank. -/
structure ResolveInv (reg : String → Option (Int × TypeMarshal)) (mgr : MarshalManager) :
    Prop where
  pending_reg : ∀ n e, mapFind n mgr.toResolve_ = some e → reg n = some e
  resolved_reg : ∀ n t1, mapFind n mgr.stringMarshallers_ = some t1 →
    ∃ id t, reg n = some (id, t) ∧ t1.descs_ = t.descs_.map MemberDesc.bound
  disjoint : ∀ n t1, mapFind n mgr.stringMarshallers_ = some t1 →
    mapFind n mgr.toResolve_ = none
  ranked : ∃ rk : String → Nat, ∀ n t1, mapFind n mgr.stringMarshallers_ = some t1 →
    ∀ id t, reg n = some (id, t) → ∀ d ∈ t.descs_, d.marshaller_ = none →
      (mapFind d.type_ mgr.stringMarshallers_).isSome = true ∧ rk d.type_ < rk n

/-- How the manager `mgr1` at a later point of `MarshalManager::resolve`
relates to the manager `mgr` at an earlier point: resolved objects stay as
they are, pending entries are only removed, and an entry that was removed is
resolved. -/
structure ResolveStep (mgr mgr1 : MarshalManager) : Prop where
  resolved_keep : ∀ n t, mapFind n mgr.stringMarshallers_ = some t →
    mapFind n mgr1.stringMarshallers_ = some t
  pending_sub : ∀ n e, mapFind n mgr1.toResolve_ = some e → mapFind n mgr.toResolve_ = some e
  pending_done : ∀ n e, mapFind n mgr.toResolve_ = some e →
    mapFind n mgr1.toResolve_ = some e ∨ (mapFind n mgr1.stringMarshallers_).isSome = true
  resolved_from : ∀ n t, mapFind n mgr1.stringMarshallers_ = some t →
    (mapFind n mgr.stringMarshallers_).isSome = true ∨ (mapFind n mgr.toResolve_).isSome = true
  sublist : mgr1.toResolve_.Sublist mgr.toResolve_

/-- The registrations have no cycle and no dangling reference: every
nested-type reference of a registered type names a registered type of lower
rank. -/
def Acyclic (reg : String → Option (Int × TypeMarshal)) (rank : String → Nat) : Prop :=
  ∀ n id t, reg n = some (id, t) → ∀ d ∈ t.descs_, d.marshaller_ = none →
    (reg d.type_).isSome = true ∧ rank d.type_ < rank n

/-- The name `n` is pending or resolved. -/
def Available (mgr : MarshalManager) (n : String) : Prop :=
  (mapFind n mgr.toResolve_).isSome = true ∨ (mapFind n mgr.stringMarshallers_).isSome = true

/-- The type `ty` can be resolved now: the registrations are acyclic, `ty` is
registered, and every registered type of at most its rank is pending or
resolved (none of them is being resolved further up the call chain). -/
def Good (reg : String → Option (Int × TypeMarshal)) (rank : String → Nat)
    (mgr : MarshalManager) (ty : String) : Prop :=
  Acyclic reg rank ∧ (reg ty).isSome = true ∧
    ∀ n, (reg n).isSome = true → rank n ≤ rank ty → Available mgr n

/-- What a call `marshaller(ty)` from the manager `mgr` achieves. -/
def ResolvePost (reg : String → Option (Int × TypeMarshal)) (rank : String → Nat)
    (mgr : MarshalManager) (ty : String) : Outcome (Option String) → Prop
  | .ret p mgr1 =>
    ResolveInv reg mgr1 ∧ ResolveStep mgr mgr1 ∧
      ((p = some ty ∧ (mapFind ty mgr1.stringMarshallers_).isSome = true) ∨
       (p = none ∧ ¬ Available mgr ty))
  | .raise _ _ => ¬ Good reg rank mgr ty

/-- What the loop of `TypeMarshal::resolve` over `descs` achieves. -/
def ResolveFromPost (reg : String → Option (Int × TypeMarshal)) (rank : String → Nat)
    (mgr : MarshalManager) (descs done : List MemberDesc) :
    Outcome (List MemberDesc × Nat × Nat × Nat) → Prop
  | .ret res mgr1 =>
    ResolveInv reg mgr1 ∧ ResolveStep mgr mgr1 ∧
      res.1 = done ++ descs.map MemberDesc.bound ∧
      ∀ d ∈ descs, d.marshaller_ = none →
        (mapFind d.type_ mgr1.stringMarshallers_).isSome = true
  | .raise _ _ => ¬ ∀ d ∈ descs, d.marshaller_ = none → Good reg rank mgr d.type_

/-- What the loop of `MarshalManager::resolve` achieves. -/
def ResolveLoopPost (reg : String → Option (Int × TypeMarshal)) (rank : String → Nat)
    (mgr : MarshalManager) : Outcome Unit → Prop
  | .ret _ mgr1 => ResolveInv reg mgr1 ∧ ResolveStep mgr mgr1 ∧ mgr1.toResolve_ = []
  | .raise _ _ =>
    ¬ (Acyclic reg rank ∧ ∀ n, (reg n).isSome = true → Available mgr n)

/-- What `TypeMarshal::resolve` on the object `self` achieves. -/
def ResolveTypePost (reg : String → Option (Int × TypeMarshal)) (rank : String → Nat)
    (mgr : MarshalManager) (self : TypeMarshal) : Outcome TypeMarshal → Prop
  | .ret t mgr1 =>
    ResolveInv reg mgr1 ∧ ResolveStep mgr mgr1 ∧
      t.descs_ = self.descs_.map MemberDesc.bound ∧
      ∀ d ∈ self.descs_, d.marshaller_ = none →
        (mapFind d.type_ mgr1.stringMarshallers_).isSome = true
  | .raise _ _ => ¬ ∀ d ∈ self.descs_, d.marshaller_ = none → Good reg rank mgr d.type_

/-- The registration that the registrars `regs` make under the name `n`: the
id and the `Marshaller<Type>` object. -/
def regOf (regs : List (Int × TypeMarshal)) (n : String) : Option (Int × TypeMarshal) :=
  mapFind n (regs.map (fun r => (r.2.name_, (r.1, r.2))))

/-- The registrations of `TestMarshal`: `AMarshalTest2`, which has a member of
type `MarshalTest`, and `MarshalTest`.  The map of pending registrations is
ordered by name, so `AMarshalTest2` is processed first. -/
def testTypes : List (Int × TypeMarshal) :=
  [(2, MarshalOp.addSomeType
        (MarshalOp.addInt (TypeMarshal.new "AMarshalTest2") "i" 0 0 2) "MarshalTest" "mt" 4),
   (1, MarshalOp.addBool
        (MarshalOp.addString
          (MarshalOp.addInt (TypeMarshal.new "MarshalTest") "i" 40 0 200) "s" 8 200) "b" 4)]

/-- A type that has a member of its own type. -/
def selfType : List (Int × TypeMarshal) :=
  [(3, MarshalOp.addSomeType
        (MarshalOp.addInt (TypeMarshal.new "Node") "v" 0 0 9) "Node" "next" 4)]

/-- Two types each of which has a member of the other type, and a third type
that refers to neither. -/
def cyclicTypes : List (Int × TypeMarshal) :=
  [(4, MarshalOp.addSomeType (TypeMarshal.new "Ping") "Pong" "pong" 0),
   (0, MarshalOp.addInt (TypeMarshal.new "Plain") "i" 0 0 10),
   (5, MarshalOp.addSomeType
        (MarshalOp.addInt (TypeMarshal.new "Pong") "i" 0 0 10) "Ping" "ping" 4)]

/-- Feeds the chunks to `put_data`, one call per chunk: the results of the
calls, the final state, and whether every assertion passed. -/
def put_datas (junk : Nat → Nat) : Impl → List (List Nat) → Option (List Int × Impl × Bool)
  | s, [] => some ([], s, true)
  | s, c :: cs =>
    match put_data junk s c with
    | none => none
    | some r =>
      match put_datas junk r.2.1 cs with
      | none => none
      | some rs => some (r.1 :: rs.1, rs.2.1, r.2.2 && rs.2.2)

/-- The packets `ps` are within the caps of a `Buffer(M, Q, N)` and can be
framed: each has at most `M` bytes and a length that fits the two-byte
header, together they have at most `Q` bytes, and there are at most `N`. -/
def WithinCaps (M Q N : Nat) (ps : List (List Nat)) : Prop :=
  (∀ p ∈ ps, p.length ≤ M ∧ p.length < 65536) ∧ (ps.map List.length).sum ≤ Q ∧ ps.length ≤ N

/-- The state `s` of a `Buffer(M, Q, N)` that has taken a prefix of the wire
form of the packets `ps`, of which `rest` is left: the packets `dn` that came
in whole are queued, with their lengths, and the buffer is between two
packets, or holds the high byte of the next header, or assembles the next
packet and has `offset_` bytes of it. -/
def Drip (M Q N : Nat) (ps : List (List Nat)) (s : Impl) (rest : List Nat) : Prop :=
  s.maxMsgSize_ = M ∧ s.queueSize_ = Q ∧ s.maxNumMessages_ = N ∧ s.toSkip_ = 0 ∧
  ∃ dn qs, ps = dn ++ qs ∧ s.queue_.map Message.size_ = dn.map List.length ∧
    s.written_ = (dn.map List.length).sum ∧
    ((s.tmpSize_ = SIZE_T_MAX ∧ s.curTarget_ = none ∧ rest = wire qs) ∨
     (∃ p qs1, qs = p :: qs1 ∧ s.curTarget_ = none ∧
        s.tmpSize_ = toUChar (p.length / 256) * 256 ∧
        rest = toUChar p.length :: (p ++ wire qs1)) ∨
     (∃ p qs1 m, qs = p :: qs1 ∧ s.curTarget_ = some m ∧ s.tmpSize_ = SIZE_T_MAX ∧
        m.size_ = p.length ∧ m.offset_ < p.length ∧
        rest = p.drop m.offset_ ++ wire qs1))

/-- The maximum wire size of a field, as a number: the `bytes_` of the
integer that is stored, one byte for a `bool`, and for a string the bytes of
the length plus the declared maximum. -/
def FieldMarshaller.wireBound : FieldMarshaller → Nat
  | .int m => m.bytes_
  | .uint m => m.bytes_
  | .uint64 m => m.bytes_
  | .float m => m.int_.bytes_
  | .double m => m.int_.bytes_
  | .bool => 1
  | .string m => m.int_.bytes_ + m.maxSize_

mutual
/-- The sum of the maximum wire sizes of the fields of a resolved
marshaller, nested types included, as a number. -/
def IMarshaller.wireBound : IMarshaller → Nat
  | .field f => f.wireBound
  | .type descs => TypeMarshal.wireBoundFrom descs
/-- The sum of `IMarshaller.wireBound` over member descriptions. -/
def TypeMarshal.wireBoundFrom : List (Nat × IMarshaller) → Nat
  | [] => 0
  | (_, m) :: rest => m.wireBound + TypeMarshal.wireBoundFrom rest
end

/-- All the values of a list of optional values, if none is missing. -/
def allSome {α : Type} : List (Option α) → Option (List α)
  | [] => some []
  | none :: _ => none
  | some a :: rest => (allSome rest).map (fun l => a :: l)

/-- The marshaller that a pointer of a resolved member description leads to,
with the marshallers that its own member descriptions lead to, and so on:
what the virtual calls `md.marshaller_->marshal(...)` of
`TypeMarshal::marshal` reach.  The first argument is fuel, one unit per level
of nesting. -/
def MarshalManager.tree (mgr : MarshalManager) : Nat → MarshallerPtr → Option IMarshaller
  | _, .field f => some (.field f)
  | 0, .type _ => none
  | fuel + 1, .type p =>
    match mapFind p mgr.stringMarshallers_ with
    | none => none
    | some t =>
      (allSome (t.descs_.map (fun d =>
        match d.marshaller_ with
        | none => none
        | some q => (MarshalManager.tree mgr fuel q).map (fun m => (d.offset_, m))))).map
        IMarshaller.type

/-- The member description was made by `MarshalOp::addInt` ..
`MarshalOp::addString` or by `MarshalOp::addSomeType`: its marshaller is a
field marshaller, or is left to be resolved. -/
def MemberDesc.Plain (d : MemberDesc) : Prop :=
  ∀ q, d.marshaller_ ≠ some (.type q)

instance (d : MemberDesc) : Decidable d.Plain :=
  match h : d.marshaller_ with
  | none => isTrue (fun q hq => by rw [h] at hq; cases hq)
  | some (.field f) => isTrue (fun q hq => by rw [h] at hq; cases hq)
  | some (.type n) => isFalse (fun hp => hp n h)

/-- The sum of what `maxMarshalledSize()` returns for the marshallers of
member descriptions, as a number. -/
def MarshalManager.sizeSum (mgr : MarshalManager) (descs : List MemberDesc) : Nat :=
  (descs.map (fun d =>
    match d.marshaller_ with
    | some p => mgr.maxMarshalledSize p
    | none => 0)).sum

/-- What holds of the sizes in the manager at every point of
`MarshalManager::resolve` when all members are plain: the
`maxMarshalledSize_` of a resolved object is the `size_t` sum over its
members, the types that its members point to are resolved, and the members of
the pending objects are plain. -/
structure SizeInv (mgr : MarshalManager) : Prop where
  sized : ∀ n t, mapFind n mgr.stringMarshallers_ = some t →
    t.maxMarshalledSize_ = mgr.sizeSum t.descs_ % 2 ^ 32
  closed : ∀ n t, mapFind n mgr.stringMarshallers_ = some t →
    ∀ d ∈ t.descs_, ∀ q, d.marshaller_ = some (.type q) →
      (mapFind q mgr.stringMarshallers_).isSome = true
  pending_plain : ∀ e ∈ mgr.toResolve_, ∀ d ∈ e.2.2.descs_, d.Plain

/-- The size that a call of `marshal` returned, if it returned. -/
def Marshalled.size? : Marshalled → Option Nat
  | .ret n _ => some n
  | .raise _ _ => none

/-- A record type with three string members, each with the declared maximum
`0x55555555`. -/
def hugeStrings : List (Int × TypeMarshal) :=
  [(0, MarshalOp.addString
        (MarshalOp.addString
          (MarshalOp.addString (TypeMarshal.new "Texts") "a" 0 0x55555555)
          "b" 32 0x55555555)
        "c" 64 0x55555555)]

/-- A record of type `Texts` at address 0: three strings of ten characters. -/
def textsMem : Mem := fun _ => .str [65, 66, 67, 68, 69, 70, 71, 72, 73, 74]

/-! ## Errors and the creation of a manager
(`src/lib/errors.cpp`, `src/lib/socketbase.cpp`)

A pointer to an `IErrorNotify` is a number that names the sink.  What the
sinks receive is kept in a log, oldest first.  The text that goes to
`OutputDebugString` is not part of the model.  The operating system is an
oracle: the results of the calls that the code makes are parameters, and the
calls are recorded in a trace. -/

/-- The struct `EtworkSettings`; `notify` is a pointer that may be null. -/
structure EtworkSettings where
  structSize : Nat
  etworkVersion : Nat
  maxMessageCount : Nat
  maxMessageSize : Nat
  queueSize : Nat
  port : Nat
  reliable : Bool
  accepting : Bool
  debug : Bool
  keepalive : ℚ
  timeout : ℚ
  notify : Option Nat
deriving DecidableEq, Repr

/-- The value `sizeof(EtworkSettings)`, which the platform fixes: five
`size_t` members, the port and three `bool`s, two `double`s aligned to eight
bytes and a pointer. -/
def sizeofEtworkSettings : Nat := 56

/-- The constructor `EtworkSettings()` in a build with `NDEBUG`. -/
def EtworkSettings.new : EtworkSettings :=
  { structSize := sizeofEtworkSettings, etworkVersion := 0x13001300, maxMessageCount := 0
    maxMessageSize := 0, queueSize := 0, port := 0, reliable := true, accepting := false
    debug := false, keepalive := 0, timeout := 0, notify := none }

/-- The enumerator `ES_note`. -/
def ES_note : Nat := 0x00000000
/-- The enumerator `ES_warning`. -/
def ES_warning : Nat := 0x04000000
/-- The enumerator `ES_error`. -/
def ES_error : Nat := 0x08000000
/-- The enumerator `ES_catastrophe`. -/
def ES_catastrophe : Nat := 0x0c000000
/-- The enumerator `ES_internal`. -/
def ES_internal : Nat := 0x10000000
/-- The enumerator `ES_mask`. -/
def ES_mask : Nat := 0x7f000000
/-- The enumerator `EA_init`. -/
def EA_init : Nat := 0x010000
/-- The enumerator `EA_unknown`. -/
def EA_unknown : Nat := 0x070000
/-- The enumerator `EA_mask`. -/
def EA_mask : Nat := 0xff0000
/-- The enumerator `EO_no_error`. -/
def EO_no_error : Nat := 0
/-- The enumerator `EO_unsupported_version`. -/
def EO_unsupported_version : Nat := 2
/-- The enumerator `EO_invalid_parameters`. -/
def EO_invalid_parameters : Nat := 4
/-- The enumerator `EO_out_of_resources`. -/
def EO_out_of_resources : Nat := 6
/-- The enumerator `EO_mask`. -/
def EO_mask : Nat := 0xffff

/-- The class `EtworkError`. -/
structure EtworkError where
  error_ : Nat
  text_ : Option String
deriving DecidableEq, Repr

/-- The constructor `EtworkError(severity, area, option)`. -/
def EtworkError.new (severity area option : Nat) : EtworkError :=
  { error_ := severity ||| area ||| option, text_ := none }

/-- The function `EtworkError::severity`. -/
def EtworkError.severity (e : EtworkError) : Nat := e.error_ &&& ES_mask

/-- The function `EtworkError::area`. -/
def EtworkError.area (e : EtworkError) : Nat := e.error_ &&& EA_mask

/-- The function `EtworkError::option`. -/
def EtworkError.option (e : EtworkError) : Nat := e.error_ &&& EO_mask

/-- The function `EtworkError::setText` with a text that is not null. -/
def EtworkError.setText (e : EtworkError) (text : String) : EtworkError :=
  { e with text_ := some text }

/-- The struct `ErrorInfo`; `socket` is a pointer that may be null. -/
structure ErrorInfo where
  error : EtworkError
  osError : Int
  socket : Option Nat
deriving DecidableEq, Repr

/-- The globals of `errors.cpp`, and the log of what the sinks received: each
call of `onSocketError`, with the sink it was made on. -/
structure Globals where
  gErrorNotify : Option Nat
  gDebugging : Bool
  wsOpen : Bool
  received : List (Nat × ErrorInfo)
deriving DecidableEq, Repr

/-- The function `SetEtworkErrorNotify`. -/
def SetEtworkErrorNotify (g : Globals) (notify : Option Nat) : Globals :=
  { g with gErrorNotify := notify }

/-- The function `etwork_info_from(mgr, err)` for an `err` without a socket;
`mgr` is the `settings_.notify` of the manager, or `none` for a null `mgr`. -/
def etwork_info_from (g : Globals) (mgr : Option (Option Nat)) (err : ErrorInfo) : Globals :=
  let en : Option Nat :=
    match mgr with
    | some (some n) => some n
    | _ => g.gErrorNotify
  match en with
  | some n => { g with received := g.received ++ [(n, err)] }
  | none => g

/-- The function `etwork_error_from(sock, mgr, err)`. -/
def etwork_error_from (g : Globals) (sock : Option Nat) (mgr : Option (Option Nat))
    (err : EtworkError) : Globals :=
  let en : Option Nat :=
    match mgr with
    | some (some n) => some n
    | _ => g.gErrorNotify
  match en with
  | some n => { g with received := g.received ++ [(n, { error := err, osError := 0, socket := sock })] }
  | none => g

/-- The function `etwork_log(sock, sev, text)` with a text that has no
conversion specification. -/
def etwork_log (g : Globals) (sev : Nat) (text : String) : Globals :=
  etwork_info_from g none
    { error := (EtworkError.new sev EA_unknown EO_no_error).setText text, osError := 0,
      socket := none }

/-- The calls into the operating system that creating a manager can make. -/
inductive OsCall where
  | WSAStartup
  | socket (reliable : Bool)
  | setsockopt_REUSEADDR
  | bind (port : Nat)
  | listen
  | ioctlsocket
  | setsockopt_SNDBUF (size : Int)
  | setsockopt_RCVBUF (size : Int)
  | closesocket (s : Nat)
deriving DecidableEq, Repr

/-- What the operating system answers while a manager is created: the result
of each call, the error that `GetWsaError` makes of `WSAGetLastError()` after
a call that failed, and the reading of the timer. -/
structure OsOpen where
  wsaStartup : Int
  socket : Nat
  reuseaddr : Int
  bind : Int
  listen : Int
  fionbio : Int
  sndbuf : Int
  rcvbuf : Int
  lastError : Int
  wsaError : EtworkError
  seconds : ℚ
deriving DecidableEq, Repr

/-- The value `INVALID_SOCKET`. -/
def INVALID_SOCKET : Nat := 2 ^ 32 - 1

/-- The struct `sockaddr_in`, as far as `operator==` and `operator<` of
`etwork.h` look at it. -/
structure sockaddr_in where
  sin_family : Nat
  sin_addr : Nat
  sin_port : Nat
deriving DecidableEq, Repr

/-- The `operator<` of `etwork.h` on `sockaddr_in`. -/
def addrLt (a b : sockaddr_in) : Bool :=
  decide (a.sin_family < b.sin_family) ||
    (decide (a.sin_family = b.sin_family) &&
      (decide (a.sin_addr < b.sin_addr) ||
        (decide (a.sin_addr = b.sin_addr) && decide (a.sin_port < b.sin_port))))

/-- The comparison of two `SOCKET` values. -/
def natLt (a b : Nat) : Bool := decide (a < b)

/-- The class `SocketManager`, without the descriptor sets (`allSet_` ..
`exceptSet_`, `numSocks_`, `maxSock_`, `maxNumSocks_`), which
`regenerate_sets` rebuilds from `listening_` and `sockets_`.  A `Socket *` is
the address of the object; `tmpBuffer_` is the size of the array, or `none`
for the null pointer. -/
structure SocketManager where
  settings_ : EtworkSettings
  listening_ : Nat
  sockets_ : List (Nat × Nat)
  socketAddrs_ : List (sockaddr_in × Nat)
  accepted_ : List Nat
  active_ : List Nat
  notify_ : List Nat
  tmpBuffer_ : Option Nat
  nextSocket_ : Int
  curQueueSpace_ : Int
  curTime_ : ℚ
deriving DecidableEq, Repr

/-- The constructor `SocketManager()`; `seconds` is the reading of the timer. -/
def SocketManager.new (seconds : ℚ) : SocketManager :=
  { settings_ := EtworkSettings.new, listening_ := INVALID_SOCKET, sockets_ := []
    socketAddrs_ := [], accepted_ := [], active_ := [], notify_ := [], tmpBuffer_ := none
    nextSocket_ := 1, curQueueSpace_ := 0, curTime_ := seconds }

/-- The function `SocketManager::debug_sock_error(0, WSAGetLastError(), ..)`,
which is `wsa_error_from(0, this, ..)`. -/
def SocketManager.debug_sock_error (mgr : SocketManager) (g : Globals) (os : OsOpen) : Globals :=
  let en : Option Nat :=
    match mgr.settings_.notify with
    | some n => some n
    | none => g.gErrorNotify
  match en with
  | some n =>
    { g with
      received :=
        g.received ++ [(n, { error := os.wsaError, osError := os.lastError, socket := none })] }
  | none => g

/-- The function `SocketManager::change_queuing_space`: the manager, the
globals and the calls made. -/
def SocketManager.change_queuing_space (mgr : SocketManager) (g : Globals) (os : OsOpen) :
    SocketManager × Globals × List OsCall :=
  let perSocket : Int :=
    if toInt32 mgr.settings_.queueSize < 1024 then 1024 else toInt32 mgr.settings_.queueSize
  let needed0 : Int := toInt32 ((1 + toInt32 mgr.sockets_.length) * perSocket)
  let needed1 : Int := if needed0 < 4096 then 4096 else needed0
  if needed1 > mgr.curQueueSpace_ then
    let needed : Int :=
      if mgr.settings_.accepting then toInt32 (needed1 + toInt32 (5 * toInt32 mgr.settings_.queueSize))
      else needed1
    if os.sndbuf < 0 then
      (mgr, mgr.debug_sock_error g os, [.setsockopt_SNDBUF needed])
    else if os.rcvbuf < 0 then
      (mgr, mgr.debug_sock_error g os, [.setsockopt_SNDBUF needed, .setsockopt_RCVBUF needed])
    else
      ({ mgr with curQueueSpace_ := needed }, g,
       [.setsockopt_SNDBUF needed, .setsockopt_RCVBUF needed])
  else (mgr, g, [])

/-- The label `failure` of `SocketManager::open`. -/
def SocketManager.openFailure (mgr : SocketManager) (g : Globals) (calls : List OsCall) :
    Bool × SocketManager × Globals × List OsCall :=
  (false, { mgr with listening_ := INVALID_SOCKET }, g, calls ++ [.closesocket mgr.listening_])

/-- The function `SocketManager::open`: the result, the manager, the globals
and the calls made. -/
def SocketManager.open (mgr0 : SocketManager) (g : Globals) (os : OsOpen)
    (settings : EtworkSettings) : Bool × SocketManager × Globals × List OsCall :=
  let mgr : SocketManager := { mgr0 with settings_ := settings }
  if settings.accepting ∧ settings.port = 0 then
    (false, mgr,
     etwork_info_from g none
       { error := (EtworkError.new ES_error EA_init EO_invalid_parameters).setText
           "Port may not be 0 when accepting in EtworkSettings."
         osError := 0, socket := none }, [])
  else if settings.accepting ∨ settings.reliable = false then
    let mgr1 : SocketManager := { mgr with listening_ := os.socket }
    if os.socket = INVALID_SOCKET then
      (false, mgr1, mgr1.debug_sock_error g os, [.socket settings.reliable])
    else if os.reuseaddr < 0 then
      mgr1.openFailure (mgr1.debug_sock_error g os)
        [.socket settings.reliable, .setsockopt_REUSEADDR]
    else if os.bind < 0 then
      mgr1.openFailure (mgr1.debug_sock_error g os)
        [.socket settings.reliable, .setsockopt_REUSEADDR, .bind settings.port]
    else if settings.reliable then
      if os.listen < 0 then
        mgr1.openFailure (mgr1.debug_sock_error g os)
          [.socket settings.reliable, .setsockopt_REUSEADDR, .bind settings.port, .listen]
      else
        (true, { mgr1 with tmpBuffer_ := some settings.maxMessageSize }, g,
         [.socket settings.reliable, .setsockopt_REUSEADDR, .bind settings.port, .listen])
    else if os.fionbio < 0 then
      mgr1.openFailure (mgr1.debug_sock_error g os)
        [.socket settings.reliable, .setsockopt_REUSEADDR, .bind settings.port,
         .ioctlsocket]
    else
      let r := mgr1.change_queuing_space g os
      (true, { r.1 with tmpBuffer_ := some settings.maxMessageSize }, r.2.1,
       [.socket settings.reliable, .setsockopt_REUSEADDR, .bind settings.port,
        .ioctlsocket] ++ r.2.2)
  else (true, { mgr with tmpBuffer_ := some settings.maxMessageSize }, g, [])

/-- The destructor that `SocketManager::dispose` runs: the calls it makes. -/
def SocketManager.dispose (mgr : SocketManager) : List OsCall :=
  if mgr.listening_ ≠ INVALID_SOCKET then [.closesocket mgr.listening_] else []

/-- What `CreateEtwork` leaves behind: the manager that it returns (`none` is
the null pointer), the settings of the caller, which it fills in, the
globals, and the calls into the operating system. -/
structure Created where
  manager : Option SocketManager
  settings : Option EtworkSettings
  globals : Globals
  calls : List OsCall
deriving DecidableEq, Repr

/-- The three blocks of `CreateEtwork` that replace a zero in the settings by
the default and log a note: the globals and the settings after them. -/
def CreateEtwork.defaults (g1 : Globals) (settings : EtworkSettings) : Globals × EtworkSettings :=
  let g2 := if settings.maxMessageCount = 0 then etwork_log g1 ES_note "Setting maxMessageCount to 50." else g1
  let s2 := if settings.maxMessageCount = 0 then { settings with maxMessageCount := 50 } else settings
  let g3 := if s2.maxMessageSize = 0 then etwork_log g2 ES_note "Setting maxMessageSize to 1400." else g2
  let s3 := if s2.maxMessageSize = 0 then { s2 with maxMessageSize := 1400 } else s2
  let g4 := if s3.queueSize = 0 then etwork_log g3 ES_note "Setting maxMessageSize to 4000." else g3
  let s4 := if s3.queueSize = 0 then { s3 with queueSize := 4000 } else s3
  (g4, s4)

/-- The function `CreateEtwork`; `settings0` is `none` for a null pointer. -/
def CreateEtwork (g0 : Globals) (os : OsOpen) (settings0 : Option EtworkSettings) : Created :=
  let settings : EtworkSettings :=
    match settings0 with
    | some s => s
    | none => EtworkSettings.new
  let keep : EtworkSettings → Option EtworkSettings := fun s =>
    match settings0 with
    | some _ => some s
    | none => none
  if settings.etworkVersion &&& 0xffff > (EtworkSettings.new.etworkVersion >>> 16) &&& 0xffff then
    { manager := none, settings := keep settings
      globals :=
        etwork_error_from g0 none none (EtworkError.new ES_catastrophe EA_init EO_unsupported_version)
      calls := [] }
  else
    let d := CreateEtwork.defaults { g0 with gDebugging := settings.debug } settings
    let g4 : Globals := d.1
    let s4 : EtworkSettings := d.2
    if (s4.queueSize + s4.maxMessageSize) % 2 ^ 32 > 65536 then
      { manager := none, settings := keep s4
        globals := etwork_log g4 ES_error "queueSize + maxMessageSize must be <= 65536."
        calls := [] }
    else if g4.wsOpen = false ∧ os.wsaStartup ≠ 0 then
      { manager := none, settings := keep s4
        globals :=
          etwork_error_from g4 none none
            (EtworkError.new ES_catastrophe EA_init EO_unsupported_version)
        calls := [.WSAStartup] }
    else
      let calls0 : List OsCall := if g4.wsOpen then [] else [.WSAStartup]
      let g5 : Globals := { g4 with wsOpen := true }
      let r := (SocketManager.new os.seconds).open g5 os s4
      if r.1 then
        { manager := some r.2.1, settings := keep s4, globals := r.2.2.1
          calls := calls0 ++ r.2.2.2 }
      else
        { manager := none, settings := keep s4, globals := r.2.2.1
          calls := calls0 ++ r.2.2.2 ++ r.2.1.dispose }

/-- An operating system on which every call succeeds; the listening socket
gets the handle 100. -/
def quietOs : OsOpen :=
  { wsaStartup := 0, socket := 100, reuseaddr := 0, bind := 0, listen := 0, fionbio := 0
    sndbuf := 0, rcvbuf := 0, lastError := 0
    wsaError := EtworkError.new ES_error EA_init EO_no_error, seconds := 0 }

/-- An operating system that has no socket to give: `socket()` returns
`INVALID_SOCKET` and `WSAGetLastError()` returns `WSAEMFILE`, of which
`GetWsaError` makes a catastrophe with option out of resources. -/
def refusingOs : OsOpen :=
  { quietOs with
    socket := INVALID_SOCKET, lastError := 10024
    wsaError := EtworkError.new ES_catastrophe EA_init EO_out_of_resources }

/-- The globals of a process that has made no call yet, after
`SetEtworkErrorNotify(sink)`. -/
def freshGlobals (sink : Option Nat) : Globals :=
  SetEtworkErrorNotify { gErrorNotify := none, gDebugging := false, wsOpen := false, received := [] }
    sink

/-- The record that `SocketManager::open` hands to `etwork_info_from` when an
accepting manager has no port. -/
def portError : ErrorInfo :=
  { error := { error_ := 0x08010004
               text_ := some "Port may not be 0 when accepting in EtworkSettings." }
    osError := 0, socket := none }

/-- The queue size and the maximum message size that `CreateEtwork` goes on
with: a zero is replaced by the default. -/
def EtworkSettings.sizesWithDefaults (s : EtworkSettings) : Nat × Nat :=
  (if s.queueSize = 0 then 4000 else s.queueSize,
   if s.maxMessageSize = 0 then 1400 else s.maxMessageSize)

/-- The globals `g1` are the globals `g` after some notes of `etwork_log` went
to the global sink: nothing else changed, and without a global sink nothing
was delivered. -/
def AddsNotes (g g1 : Globals) : Prop :=
  g1.gErrorNotify = g.gErrorNotify ∧ g1.wsOpen = g.wsOpen ∧ g1.gDebugging = g.gDebugging ∧
  ∃ notes, g1.received = g.received ++ notes ∧
    (g.gErrorNotify = none → notes = []) ∧
    ∀ x ∈ notes, some x.1 = g.gErrorNotify ∧ x.2.error.severity = ES_note ∧
      x.2.error.option = EO_no_error

/-! ## Connections and the indices of the manager
(`src/lib/sockimpl.h`, `src/lib/socketbase.cpp`)

A `Socket *` is the address of the object, and the objects that exist are
kept by address in `World.heap`; `delete` takes the object out.  A world has
one manager, so the member `mgr_` of a socket is not kept.  The results of
the calls into the operating system, and the address that `new` returns, are
parameters.  The contents of `writebuf_` and `tmpBuffer_` are not kept, only
the byte counts.  The descriptor sets, the text for `OutputDebugString` and
the record that a failed `ASSERT` delivers are not part of the model; whether
the `ASSERT` of `remove_socket` held is kept in `World.asserts`. -/

/-- The value `WSAEWOULDBLOCK`. -/
def WSAEWOULDBLOCK : Int := 10035

/-- The value `AF_INET`. -/
def AF_INET : Nat := 2

/-- The enumerator `EA_session`. -/
def EA_session : Nat := 0x050000
/-- The enumerator `EO_buffer_full`. -/
def EO_buffer_full : Nat := 5
/-- The enumerator `EO_peer_timeout`. -/
def EO_peer_timeout : Nat := 11

/-- The function `htons` on a little-endian machine. -/
def htons (port : Nat) : Nat := (port % 256) * 256 + (port / 256) % 256

/-- The class `Socket`. -/
structure Socket where
  notify_ : Option Nat
  s_ : Nat
  closed_ : Bool
  accepted_ : Bool
  addr_ : sockaddr_in
  bufIn_ : Impl
  bufOut_ : Impl
  lastActive_ : ℚ
  lastKeepalive_ : ℚ
  writebufData_ : Nat
deriving DecidableEq, Repr

/-- A manager, the `Socket` objects that exist, the globals of `errors.cpp`,
and whether the `ASSERT` of `remove_socket` has held so far. -/
structure World where
  mgr : SocketManager
  heap : Nat → Option Socket
  globals : Globals
  asserts : Bool

/-- The world with the object at `p` replaced (`none` deletes it). -/
def World.store (w : World) (p : Nat) (o : Option Socket) : World :=
  { w with heap := fun q => if q = p then o else w.heap q }

/-- The world right after `CreateEtwork` returned the manager `mgr`. -/
def World.new (mgr : SocketManager) (g : Globals) : World :=
  { mgr := mgr, heap := fun _ => none, globals := g, asserts := true }

/-- The call `set.insert(p)` on a `std::set< ISocket * >`. -/
def setInsert (p : Nat) (s : List Nat) : List Nat :=
  if p ∈ s then s else s.filter (fun q => decide (q < p)) ++ p :: s.filter (fun q => decide (p < q))

/-- The function `wsa_error_from(sock, mgr, wsaErr, area)`; `error` is what
`GetWsaError(wsaErr, area)` returns, and `mgr` is the `settings_.notify` of
the manager, or `none` for a null `mgr`. -/
def wsa_error_from (g : Globals) (sock : Option Nat) (mgr : Option (Option Nat)) (wsaErr : Int)
    (error : EtworkError) : Globals :=
  let en : Option Nat :=
    match mgr with
    | some (some n) => some n
    | _ => g.gErrorNotify
  match en with
  | some n =>
    { g with received := g.received ++ [(n, { error := error, osError := wsaErr, socket := sock })] }
  | none => g

/-- The function `SocketManager::debug_sock_error(sock, err, area, func)` in a
world. -/
def World.debug_sock_error (w : World) (sock : Option Nat) (err : Int) (error : EtworkError) :
    World :=
  { w with globals := wsa_error_from w.globals sock (some w.mgr.settings_.notify) err error }

/-- The loop of `SocketManager::socket_id`: the id and the manager. -/
def SocketManager.socket_id_loop : Nat → SocketManager → Option (Nat × SocketManager)
  | 0, _ => none
  | fuel + 1, mgr =>
    let ret : Nat := toSizeT mgr.nextSocket_
    let next1 : Int := toInt32 (mgr.nextSocket_ + 1)
    let next : Int := if next1 = 0 then toInt32 (next1 + 1) else next1
    let mgr1 : SocketManager := { mgr with nextSocket_ := next }
    if ret = mgr.listening_ ∨ (mapFind ret mgr.sockets_).isSome then socket_id_loop fuel mgr1
    else some (ret, mgr1)

/-- The function `SocketManager::socket_id`.  The loop passes over the
listening socket and the keys of `sockets_`, so it is given one round more
than there are of them. -/
def SocketManager.socket_id (mgr : SocketManager) : Option (Nat × SocketManager) :=
  mgr.socket_id_loop (mgr.sockets_.length + 2)

/-- The constructor `Socket(mgr, s, addr)`: the object and the manager. -/
def Socket.new (mgr : SocketManager) (s : Nat) (addr : sockaddr_in) :
    Option (Socket × SocketManager) :=
  let so : Socket :=
    { notify_ := none, s_ := s, closed_ := false, accepted_ := false, addr_ := addr
      bufIn_ := Impl.new mgr.settings_.maxMessageSize mgr.settings_.queueSize
        mgr.settings_.maxMessageCount
      bufOut_ := Impl.new mgr.settings_.maxMessageSize mgr.settings_.queueSize
        mgr.settings_.maxMessageCount
      lastActive_ := mgr.curTime_, lastKeepalive_ := 0, writebufData_ := 0 }
  if mgr.settings_.reliable = false then
    match mgr.socket_id with
    | some r => some ({ so with s_ := r.1 }, r.2)
    | none => none
  else some (so, mgr)

/-- The function `Socket::read`: the result, the bytes and the socket. -/
def Socket.read (so : Socket) (maxSize : Nat) : Int × List Nat × Socket :=
  let r := get_message so.bufIn_ maxSize
  (r.1, r.2.1, { so with bufIn_ := r.2.2 })

/-- The function `Socket::write`: the result and the socket. -/
def Socket.write (junk : Nat → Nat) (so : Socket) (buffer : List Nat) : Int × Socket :=
  let r := put_message junk so.bufOut_ buffer
  (r.1, { so with bufOut_ := r.2 })

/-- The function `Socket::closed`. -/
def Socket.closed (so : Socket) : Bool := so.closed_

/-- The function `SetEtworkSocketNotify`. -/
def SetEtworkSocketNotify (so : Socket) (notify : Option Nat) : Socket :=
  { so with notify_ := notify }

/-- The function `SocketManager::remove_socket(s)` for the object `s` at the
address `p`: the manager, and whether the `ASSERT` held. -/
def SocketManager.remove_socket (mgr : SocketManager) (p : Nat) (s : Socket) :
    SocketManager × Bool :=
  let mgr1 : SocketManager := { mgr with socketAddrs_ := mapErase s.addr_ mgr.socketAddrs_ }
  match mapFind s.s_ mgr1.sockets_ with
  | some _ => ({ mgr1 with sockets_ := mapErase s.s_ mgr1.sockets_ }, true)
  | none =>
    if p ∈ mgr1.accepted_ then ({ mgr1 with accepted_ := mgr1.accepted_.erase p }, true)
    else (mgr1, false)

/-- The function `Socket::close_socket` of the object `so` at the address `p`. -/
def World.close_socket (w : World) (p : Nat) (so : Socket) : World :=
  if so.closed_ = false then
    let r := w.mgr.remove_socket p { so with closed_ := true }
    { w with
      mgr := r.1
      heap := fun q => if q = p then some { so with closed_ := true, s_ := INVALID_SOCKET } else w.heap q
      asserts := w.asserts && r.2 }
  else w

/-- The function `Socket::dispose` of the object `so` at the address `p`: the
destructor closes the socket, and the object is deleted. -/
def World.dispose (w : World) (p : Nat) (so : Socket) : World :=
  (w.close_socket p so).store p none

/-- The loop of `SocketManager::accept`: the world and the sockets handed out;
`none` when a pointer in `accepted_` has no object. -/
def World.acceptLoop : Nat → World → List Nat → Option (World × List Nat)
  | 0, w, out => some (w, out)
  | n + 1, w, out =>
    match w.mgr.accepted_ with
    | [] => some (w, out)
    | s :: rest =>
      match w.heap s with
      | none => none
      | some so =>
        World.acceptLoop n
          { w with
            mgr := { w.mgr with accepted_ := rest, sockets_ := mapSet natLt so.s_ s w.mgr.sockets_ }
            heap := fun q => if q = s then some { so with accepted_ := true } else w.heap q }
          (out ++ [s])

/-- The function `SocketManager::accept`: the world and the sockets written to
`outAccepted`. -/
def World.accept (w : World) (os : OsOpen) (maxAccepted : Int) : Option (World × List Nat) :=
  match World.acceptLoop maxAccepted.toNat w [] with
  | none => none
  | some r =>
    if r.2 ≠ [] then
      let c := r.1.mgr.change_queuing_space r.1.globals os
      some ({ r.1 with mgr := c.1, globals := c.2.1 }, r.2)
    else some r

/-- What the operating system answers during `SocketManager::connect`:
`host` is the first address that `gethostbyname` found (`none` for a null
result), `error` is what `GetWsaError` makes of `lastError`. -/
structure OsConnect where
  host : Option Nat
  socket : Nat
  connect : Int
  nodelay : Int
  lastError : Int
  error : EtworkError
deriving DecidableEq, Repr

/-- The function `SocketManager::connect`: the world, the result and the
socket written to `outConnected`; `so` is the address that `new` returns. -/
def World.connect (junk : Nat → Nat) (w : World) (os : OsConnect) (port : Nat) (so : Nat) :
    Option (World × Int × Option Nat) :=
  match os.host with
  | none => some (w.debug_sock_error none os.lastError os.error, -1, none)
  | some host =>
    let addr : sockaddr_in := { sin_family := AF_INET, sin_addr := host, sin_port := htons port }
    if w.mgr.settings_.reliable ∧ os.socket = INVALID_SOCKET then
      some (w.debug_sock_error none os.lastError os.error, -1, none)
    else if w.mgr.settings_.reliable ∧ os.connect < 0 then
      some (w.debug_sock_error none os.lastError os.error, -1, none)
    else
      let w1 : World :=
        if w.mgr.settings_.reliable ∧ os.nodelay < 0 then
          w.debug_sock_error none os.lastError os.error
        else w
      let s : Nat := if w.mgr.settings_.reliable then os.socket else w.mgr.listening_
      match Socket.new w1.mgr s addr with
      | none => none
      | some r =>
        let obj : Socket := { r.1 with accepted_ := true }
        let mgr2 : SocketManager := { r.2 with sockets_ := mapSet natLt obj.s_ so r.2.sockets_ }
        if w.mgr.settings_.reliable = false then
          some ({ w1 with
                  mgr := { mgr2 with socketAddrs_ := mapSet addrLt addr so mgr2.socketAddrs_ }
                  heap := fun q => if q = so then some (Socket.write junk obj []).2 else w1.heap q },
                1, some so)
        else
          some ({ w1 with mgr := mgr2, heap := fun q => if q = so then some obj else w1.heap q },
                1, some so)

/-- A datagram that `recvfrom` hands over in `handle_listening_read`: the
sender, the bytes, the address that `new` returns if a socket is made for it,
and the result of the `sendto` that acknowledges a new sender. -/
structure Datagram where
  addr : sockaddr_in
  bytes : List Nat
  obj : Nat
  sendto : Int
deriving DecidableEq, Repr

/-- What the operating system answers during `handle_listening_read`: for a
reliable manager the result of `accept`, with the address of the peer and the
address that `new` returns; for an unreliable one the datagrams that
`recvfrom` returns before it fails; `error` is what `GetWsaError` makes of
`lastError`. -/
structure OsListen where
  accept : Nat
  addr : sockaddr_in
  obj : Nat
  datagrams : List Datagram
  lastError : Int
  error : EtworkError
deriving DecidableEq, Repr

/-- The loop of `handle_listening_read` for an unreliable manager, one round
for each datagram; `none` when a pointer in `socketAddrs_` has no object, or
`socket_id` does not return. -/
def World.recvLoop (junk : Nat → Nat) (os : OsListen) : List Datagram → World → Option World
  | [], w => some w
  | d :: ds, w =>
    match mapFind d.addr w.mgr.socketAddrs_ with
    | none =>
      if w.mgr.settings_.accepting then
        match Socket.new w.mgr 0 d.addr with
        | none => none
        | some r =>
          let w1 : World :=
            { w with
              mgr := { r.2 with
                       accepted_ := r.2.accepted_ ++ [d.obj]
                       socketAddrs_ := mapSet addrLt d.addr d.obj r.2.socketAddrs_ }
              heap := fun q => if q = d.obj then some r.1 else w.heap q }
          World.recvLoop junk os ds
            (if d.sendto < 0 then w1.debug_sock_error none os.lastError os.error else w1)
      else World.recvLoop junk os ds w
    | some s =>
      match w.heap s with
      | none => none
      | some so =>
        let mgr1 : SocketManager :=
          if so.accepted_ then
            if so.notify_.isSome then { w.mgr with notify_ := setInsert s w.mgr.notify_ }
            else { w.mgr with active_ := setInsert s w.mgr.active_ }
          else w.mgr
        let so1 : Socket := if so.accepted_ then { so with lastActive_ := w.mgr.curTime_ } else so
        let p := put_message junk so1.bufIn_ d.bytes
        World.recvLoop junk os ds
          { w with
            mgr := mgr1
            heap := fun q => if q = s then some { so1 with bufIn_ := p.2 } else w.heap q
            globals :=
              if p.1 < 0 then
                etwork_error_from w.globals (if so.accepted_ then some s else none)
                  (some w.mgr.settings_.notify) (EtworkError.new ES_warning EA_session EO_buffer_full)
              else w.globals }

/-- The function `SocketManager::handle_listening_read`: the world and the
result. -/
def World.handle_listening_read (junk : Nat → Nat) (w : World) (os : OsListen) :
    Option (World × Bool) :=
  if w.mgr.settings_.reliable then
    if os.accept = INVALID_SOCKET then
      some (w.debug_sock_error none os.lastError os.error, false)
    else
      match Socket.new w.mgr os.accept os.addr with
      | none => none
      | some r =>
        some ({ w with
                mgr := { r.2 with accepted_ := r.2.accepted_ ++ [os.obj] }
                heap := fun q => if q = os.obj then some r.1 else w.heap q }, true)
  else
    match World.recvLoop junk os os.datagrams w with
    | none => none
    | some w1 =>
      some (if os.lastError = WSAEWOULDBLOCK then w1
            else w1.debug_sock_error none os.lastError os.error, true)

/-- The loop of `SocketManager::timeout_sockets` over the entries that
`sockets_` holds when the loop starts; the visit to an entry erases no other
entry.  The result is `none` when a pointer in `sockets_` has no object. -/
def World.timeoutLoop (junk : Nat → Nat) : List (Nat × Nat) → World → Option World
  | [], w => some w
  | e :: rest, w =>
    match w.heap e.2 with
    | none => none
    | some cl =>
      if w.mgr.settings_.timeout > 0 ∧ cl.lastActive_ + w.mgr.settings_.timeout < w.mgr.curTime_ then
        let w1 : World :=
          { w with
            globals :=
              etwork_error_from w.globals (some e.2) (some w.mgr.settings_.notify)
                (EtworkError.new ES_note EA_session EO_peer_timeout) }
        let w2 : World := w1.close_socket e.2 cl
        World.timeoutLoop junk rest
          (if cl.accepted_ then
            if cl.notify_.isSome then
              { w2 with mgr := { w2.mgr with notify_ := setInsert e.2 w2.mgr.notify_ } }
            else { w2 with mgr := { w2.mgr with active_ := setInsert e.2 w2.mgr.active_ } }
           else w2)
      else if w.mgr.settings_.keepalive > 0 ∧
          cl.lastKeepalive_ + w.mgr.settings_.keepalive < w.mgr.curTime_ then
        World.timeoutLoop junk rest (w.store e.2 (some (Socket.write junk cl []).2))
      else World.timeoutLoop junk rest w

/-- The function `SocketManager::timeout_sockets`. -/
def World.timeout_sockets (junk : Nat → Nat) (w : World) : Option World :=
  World.timeoutLoop junk w.mgr.sockets_ w

/-- The start of `SocketManager::poll`, up to the call of `timeout_sockets`:
`now` is the reading of the timer.  After it, `poll` calls
`handle_listening_read` and, for sockets that it finds in `sockets_`,
`do_read`, `do_write` and `do_except`, as `select` reports them. -/
def World.poll_enter (junk : Nat → Nat) (w : World) (now : ℚ) : Option World :=
  World.timeout_sockets junk
    { w with mgr := { w.mgr with active_ := [], curTime_ := now } }

/-- What `recv` returns in `do_read`: an error, with the value of
`WSAGetLastError()` and what `GetWsaError` makes of it, or the bytes
received, none when the peer has closed. -/
inductive OsRecv where
  | error (err : Int) (error : EtworkError)
  | bytes (data : List Nat)
deriving DecidableEq, Repr

/-- The function `Socket::do_read` of the object `so` at the address `p`: the
world and the result; `none` only if `put_data` ran out of fuel. -/
def World.do_read (junk : Nat → Nat) (w : World) (p : Nat) (so : Socket) (os : OsRecv) :
    Option (World × Bool) :=
  match os with
  | .error err error =>
    let w1 := w.debug_sock_error (some p) err error
    if err = WSAEWOULDBLOCK then some (w1, false)
    else some (w1.close_socket p so, false)
  | .bytes data =>
    if data.length = 0 then some (w.close_socket p so, true)
    else
      match put_data junk so.bufIn_ data with
      | none => none
      | some r =>
        let w1 : World :=
          w.store p (some { so with lastActive_ := w.mgr.curTime_, bufIn_ := r.2.1 })
        if r.1 < 0 then
          some ({ w1 with
                  globals :=
                    etwork_error_from w.globals (some p) (some w.mgr.settings_.notify)
                      (EtworkError.new ES_warning EA_session EO_buffer_full) }, false)
        else some (w1, true)

/-- What `send` returns in `do_write`: an error, with the value of
`WSAGetLastError()` and what `GetWsaError` makes of it, or the number of
bytes sent. -/
inductive OsSend where
  | error (err : Int) (error : EtworkError)
  | sent (w : Nat)
deriving DecidableEq, Repr

/-- The function `Socket::do_write` of the object `so` at the address `p`: the
world and the result; `none` only if `get_data` ran out of fuel. -/
def World.do_write (w : World) (p : Nat) (so : Socket) (os : OsSend) : Option (World × Bool) :=
  match (if so.writebufData_ = 0 then get_data so.bufOut_ w.mgr.settings_.queueSize
         else some ((toInt32 so.writebufData_ : Int), [], so.bufOut_)) with
  | none => none
  | some g =>
    if g.1 < 0 then some (w.store p (some { so with bufOut_ := g.2.2 }), false)
    else if g.1 = 0 then some (w.store p (some { so with bufOut_ := g.2.2 }), true)
    else
      let so1 : Socket := { so with bufOut_ := g.2.2, writebufData_ := g.1.toNat }
      match os with
      | .error err error =>
        let w1 := (w.store p (some so1)).debug_sock_error (some p) err error
        if err = WSAEWOULDBLOCK then
          some (w1.store p (some { so1 with lastKeepalive_ := w.mgr.curTime_ }), true)
        else some (w1.close_socket p so1, false)
      | .sent n =>
        some (w.store p
          (some { so1 with
                  writebufData_ := subToSizeT so1.writebufData_ n
                  lastKeepalive_ := w.mgr.curTime_ }), true)

/-- The function `Socket::do_except` of the object `so` at the address `p`;
`err` is the value that `getsockopt(SO_ERROR)` stores, and `error` what
`GetWsaError` makes of it. -/
def World.do_except (w : World) (p : Nat) (so : Socket) (err : Int) (error : EtworkError) :
    World × Bool :=
  let w1 := w.debug_sock_error (some p) err error
  if err = 0 then (w1, true) else (w1.close_socket p so, true)

/-- The settings of a client whose connections queue up to 15 bytes in at
most 5 messages of at most 10 bytes. -/
def smallSettings : EtworkSettings :=
  { EtworkSettings.new with maxMessageCount := 5, maxMessageSize := 10, queueSize := 15 }

/-- The address 127.0.0.1, port 8000. -/
def peerAddr : sockaddr_in := { sin_family := AF_INET, sin_addr := 0x0100007f, sin_port := htons 8000 }

/-- The connection that `Socket(mgr, 200, peerAddr)` makes on a manager with
`smallSettings`, after `write` has queued ten bytes. -/
def busySocket : Socket :=
  (Socket.write (fun _ => 0)
    { notify_ := none, s_ := 200, closed_ := false, accepted_ := true, addr_ := peerAddr
      bufIn_ := Impl.new 10 15 5, bufOut_ := Impl.new 10 15 5
      lastActive_ := 0, lastKeepalive_ := 0, writebufData_ := 0 }
    [1, 2, 3, 4, 5, 6, 7, 8, 9, 10]).2

/-! ## Statements about the indices of the manager -/

/-- What the indices of the manager depend on in a socket: the key `s_`, the
address, and the flags `closed_` and `accepted_`. -/
def Socket.ident (so : Socket) : Nat × sockaddr_in × Bool × Bool :=
  (so.s_, so.addr_, so.closed_, so.accepted_)

/-- The socket at `p` has an entry in one of the indices of the manager: the
connection table `sockets_`, the address index `socketAddrs_`, or the queue
`accepted_` of connections that wait for `accept`. -/
def World.Indexed (w : World) (p : Nat) : Prop :=
  (∃ k, (k, p) ∈ w.mgr.sockets_) ∨ (∃ a, (a, p) ∈ w.mgr.socketAddrs_) ∨ p ∈ w.mgr.accepted_

/-- The entries of the socket at `q` in the indices of `w` are entries in
`w1` as well. -/
def World.KeepsEntries (w w1 : World) (q : Nat) : Prop :=
  (∀ k, (k, q) ∈ w.mgr.sockets_ → (k, q) ∈ w1.mgr.sockets_) ∧
  (∀ a, (a, q) ∈ w.mgr.socketAddrs_ → (a, q) ∈ w1.mgr.socketAddrs_) ∧
  (q ∈ w.mgr.accepted_ → q ∈ w1.mgr.accepted_)

/-- A world in which no connection has been made yet. -/
def World.Initial (w : World) : Prop :=
  (∀ p, w.heap p = none) ∧ w.mgr.sockets_ = [] ∧ w.mgr.socketAddrs_ = [] ∧
  w.mgr.accepted_ = [] ∧ w.mgr.nextSocket_ = 1 ∧ w.asserts = true

/-- The handle `s` is not the handle of a socket that is open in `w`: the
operating system hands out such handles only. -/
def World.FreshHandle (w : World) (s : Nat) : Prop :=
  ∀ q so, w.heap q = some so → so.closed_ = false → so.s_ ≠ s

/-- One call on the manager or on one of its connections.  The side
conditions say what the environment guarantees: `new` returns an address at
which no object lives, the operating system returns a handle that is not
open, the user calls methods on connections that `accept` or `connect` handed
out and that are not disposed; and what the statement assumes: the counter of
socket ids stays below `2 ^ 31`, and `connect` of an unreliable manager is
not called with an address that is in the address index. -/
inductive Step (junk : Nat → Nat) : World → World → Prop
  | accept (w : World) (os : OsOpen) (maxAccepted : Int) (r : World × List Nat) :
      w.accept os maxAccepted = some r → Step junk w r.1
  | connect (w : World) (os : OsConnect) (port so : Nat) (r : World × Int × Option Nat) :
      w.heap so = none →
      (w.mgr.settings_.reliable = true → w.FreshHandle os.socket) →
      (w.mgr.settings_.reliable = false → w.mgr.nextSocket_ + 2 < 2 ^ 31 ∧
        ∀ host, os.host = some host →
          mapFind ({ sin_family := AF_INET, sin_addr := host, sin_port := htons port } : sockaddr_in)
            w.mgr.socketAddrs_ = none) →
      w.connect junk os port so = some r → Step junk w r.1
  | listening_read (w : World) (os : OsListen) (r : World × Bool) :
      (w.mgr.settings_.reliable = true → w.heap os.obj = none ∧ w.FreshHandle os.accept) →
      (w.mgr.settings_.reliable = false →
        (∀ d ∈ os.datagrams, w.heap d.obj = none) ∧ (os.datagrams.map Datagram.obj).Nodup ∧
        w.mgr.nextSocket_ + 2 * os.datagrams.length < 2 ^ 31) →
      w.handle_listening_read junk os = some r → Step junk w r.1
  | poll_enter (w : World) (now : ℚ) (w1 : World) :
      w.poll_enter junk now = some w1 → Step junk w w1
  | do_read (w : World) (k p : Nat) (so : Socket) (os : OsRecv) (r : World × Bool) :
      mapFind k w.mgr.sockets_ = some p → w.heap p = some so →
      w.do_read junk p so os = some r → Step junk w r.1
  | do_write (w : World) (k p : Nat) (so : Socket) (os : OsSend) (r : World × Bool) :
      mapFind k w.mgr.sockets_ = some p → w.heap p = some so →
      w.do_write p so os = some r → Step junk w r.1
  | do_except (w : World) (k p : Nat) (so : Socket) (err : Int) (error : EtworkError) :
      mapFind k w.mgr.sockets_ = some p → w.heap p = some so →
      Step junk w (w.do_except p so err error).1
  | read (w : World) (p : Nat) (so : Socket) (maxSize : Nat) :
      w.heap p = some so → so.accepted_ = true →
      Step junk w (w.store p (some (so.read maxSize).2.2))
  | write (w : World) (p : Nat) (so : Socket) (buffer : List Nat) :
      w.heap p = some so → so.accepted_ = true →
      Step junk w (w.store p (some (so.write junk buffer).2))
  | set_notify (w : World) (p : Nat) (so : Socket) (notify : Option Nat) :
      w.heap p = some so → so.accepted_ = true →
      Step junk w (w.store p (some (SetEtworkSocketNotify so notify)))
  | dispose (w : World) (p : Nat) (so : Socket) :
      w.heap p = some so → so.accepted_ = true → Step junk w (w.dispose p so)

/-- The worlds that a sequence of calls leads to. -/
inductive Reach (junk : Nat → Nat) (w0 : World) : World → Prop
  | start : Reach junk w0 w0
  | next (w w1 : World) : Reach junk w0 w → Step junk w w1 → Reach junk w0 w1

/-- The invariant of the indices: the keys of the maps are distinct; an entry
of the connection table is an open, accepted socket under its key; an entry
of the queue `accepted_` is an open socket that is not accepted; an entry of
the address index is an open socket of an unreliable manager under its
address; an open socket is in the table or in the queue, and for an
unreliable manager in the address index; open sockets have distinct keys, for
an unreliable manager below the counter of ids; and the `ASSERT` of
`remove_socket` has held. -/
structure World.Inv (w : World) : Prop where
  table_keys : (w.mgr.sockets_.map Prod.fst).Nodup
  addr_keys : (w.mgr.socketAddrs_.map Prod.fst).Nodup
  queue_nodup : w.mgr.accepted_.Nodup
  table : ∀ k p, (k, p) ∈ w.mgr.sockets_ →
    ∃ so, w.heap p = some so ∧ so.s_ = k ∧ so.closed_ = false ∧ so.accepted_ = true
  queue : ∀ p, p ∈ w.mgr.accepted_ →
    ∃ so, w.heap p = some so ∧ so.closed_ = false ∧ so.accepted_ = false
  addrs : ∀ a p, (a, p) ∈ w.mgr.socketAddrs_ →
    ∃ so, w.heap p = some so ∧ so.addr_ = a ∧ so.closed_ = false ∧
      w.mgr.settings_.reliable = false
  live : ∀ p so, w.heap p = some so → so.closed_ = false →
    (so.accepted_ = true → (so.s_, p) ∈ w.mgr.sockets_) ∧
    (so.accepted_ = false → p ∈ w.mgr.accepted_) ∧
    (w.mgr.settings_.reliable = false → (so.addr_, p) ∈ w.mgr.socketAddrs_)
  ids : ∀ p q sp sq, w.heap p = some sp → w.heap q = some sq → sp.closed_ = false →
    sq.closed_ = false → sp.s_ = sq.s_ → p = q
  counter : w.mgr.settings_.reliable = false →
    0 < w.mgr.nextSocket_ ∧
    ∀ p so, w.heap p = some so → so.closed_ = false → (so.s_ : Int) < w.mgr.nextSocket_
  asserts_ok : w.asserts = true

/-- The memory that `operator new` hands out holds zeros, in the examples. -/
def junk0 : Nat → Nat := fun _ => 0

/-- The call of `CreateEtwork` for a reliable server on port 8000. -/
def serverCreated : Created :=
  CreateEtwork (freshGlobals none) quietOs
    (some { EtworkSettings.new with accepting := true, port := 8000 })

/-- The world right after `CreateEtwork` returned the manager of the server. -/
def serverWorld : World :=
  World.new (serverCreated.manager.getD (SocketManager.new 0)) serverCreated.globals

/-- The operating system accepts a connection from `peerAddr` with the handle
200; `new` returns the address 1 for the `Socket`. -/
def peerConnects : OsListen :=
  { accept := 200, addr := peerAddr, obj := 1, datagrams := [], lastError := 0
    error := EtworkError.new ES_error EA_session EO_no_error }

/-- The server handles the readable listening socket. -/
def pendingRun : Option (World × Bool) := serverWorld.handle_listening_read junk0 peerConnects

/-- The world after it: a connection waits for `accept`. -/
def pendingWorld : World := (pendingRun.getD (serverWorld, false)).1

/-- The user calls `accept` for one connection. -/
def acceptedRun : Option (World × List Nat) := pendingWorld.accept quietOs 1

/-- The world after `accept`. -/
def acceptedWorld : World := (acceptedRun.getD (pendingWorld, [])).1

/-- The peer of the accepted connection closes: `recv` returns 0 in
`do_read`. -/
def peerClosedRun : Option (World × Bool) :=
  (acceptedWorld.heap 1).bind fun so => acceptedWorld.do_read junk0 1 so (.bytes [])

/-- The world after `do_read`. -/
def peerClosedWorld : World := (peerClosedRun.getD (acceptedWorld, false)).1

/-- The call of `CreateEtwork` for an unreliable client. -/
def clientCreated : Created :=
  CreateEtwork (freshGlobals none) quietOs (some { EtworkSettings.new with reliable := false })

/-- The world right after `CreateEtwork` returned the manager of the client. -/
def clientWorld : World :=
  World.new (clientCreated.manager.getD (SocketManager.new 0)) clientCreated.globals

/-- The operating system resolves the host name to 127.0.0.1. -/
def localhost : OsConnect :=
  { host := some 0x0100007f, socket := 300, connect := 0, nodelay := 0, lastError := 0
    error := EtworkError.new ES_error EA_session EO_no_error }

/-- The unreliable client calls `connect`; `new` returns the address 1. -/
def firstConnectRun : Option (World × Int × Option Nat) :=
  clientWorld.connect junk0 localhost 8000 1

/-- The world after the first `connect`. -/
def onceConnectedWorld : World := (firstConnectRun.getD (clientWorld, -1, none)).1

/-- The client calls `connect` again with the same address; `new` returns the
address 2. -/
def secondConnectRun : Option (World × Int × Option Nat) :=
  onceConnectedWorld.connect junk0 localhost 8000 2

/-- The world after the second `connect`. -/
def twiceConnectedWorld : World := (secondConnectRun.getD (onceConnectedWorld, -1, none)).1

/-- The world after the first of the two connections is disposed; `none` if
there is no object at the address 1. -/
def firstDisposedWorld : Option World :=
  (twiceConnectedWorld.heap 1).map fun so => twiceConnectedWorld.dispose 1 so

theorem toUShort_of_lt {n : Nat} (h : n < 65536) : toUShort n = n :=
  Nat.mod_eq_of_lt h

theorem toUShort_lt (n : Nat) : toUShort n < 65536 :=
  Nat.mod_lt _ (by decide)

theorem subToSizeT_of_le {a b : Nat} (h : b ≤ a) : subToSizeT a b = a - b := by
  simp [subToSizeT, h]

theorem memcpy_fresh (junk : Nat → Nat) (p rest : List Nat) :
    memcpy ((List.range p.length).map junk) (p ++ rest) p.length = p := by
  simp [memcpy]

theorem frame_bytes (p : List Nat) (h : p.length < 65536) :
    toUChar (p.length / 256) * 256 + toUChar p.length = p.length := by
  unfold toUChar
  omega

/-! ## `put_message` (C5) -/

theorem new_message_none_iff (junk : Nat → Nat) (s : Impl) (size : Nat) :
    new_message junk s size = none ↔
      size > s.maxMsgSize_ ∨ s.written_ + size > s.queueSize_ ∨
        s.queue_.length + 1 > s.maxNumMessages_ := by
  unfold new_message
  split_ifs <;> simp <;> omega

theorem new_message_some (junk : Nat → Nat) (s : Impl) (size : Nat)
    (h1 : size ≤ s.maxMsgSize_) (h2 : s.queue_.length < s.maxNumMessages_)
    (h3 : s.written_ + size ≤ s.queueSize_) :
    new_message junk s size =
      some { offset_ := 0, size_ := toUShort size, bytes := (List.range size).map junk } := by
  unfold new_message
  rw [if_neg (by omega), if_neg (by omega), if_neg (by omega)]

theorem put_message_accept (junk : Nat → Nat) (s : Impl) (msg : List Nat)
    (h1 : msg.length ≤ s.maxMsgSize_) (h2 : s.queue_.length < s.maxNumMessages_)
    (h3 : s.written_ + msg.length ≤ s.queueSize_) :
    put_message junk s msg =
      ((msg.length : Int),
       { s with
         queue_ := s.queue_ ++ [{ offset_ := 0, size_ := toUShort msg.length, bytes := msg }]
         written_ := s.written_ + msg.length }) := by
  unfold put_message
  rw [new_message_some junk s _ h1 h2 h3]
  have := memcpy_fresh junk msg []
  simp only [List.append_nil] at this
  simp [this]

/-- C5, as stated, fails for a buffer whose `maxMsgSize` exceeds 65535: a
packet of 65536 bytes passes all three checks and `put_message` returns 65536,
but the packet that it queues is empty. -/
theorem put_message_long_counterexample :
    ¬ (longMsg.length > (Impl.new 65536 65536 1).maxMsgSize_ ∨
        space_used (Impl.new 65536 65536 1) + longMsg.length >
          (Impl.new 65536 65536 1).queueSize_ ∨
        message_count (Impl.new 65536 65536 1) + 1 >
          (Impl.new 65536 65536 1).maxNumMessages_) ∧
    (put_message (fun _ => 0) (Impl.new 65536 65536 1) longMsg).1 = 65536 ∧
    packets (put_message (fun _ => 0) (Impl.new 65536 65536 1) longMsg).2 = [[]] ∧
    packets (put_message (fun _ => 0) (Impl.new 65536 65536 1) longMsg).2 ≠
      packets (Impl.new 65536 65536 1) ++ [longMsg] := by
  have hl : longMsg.length = 65536 := List.length_replicate 65536 0
  have hacc := put_message_accept (fun _ => 0) (Impl.new 65536 65536 1) longMsg
    (by rw [hl]; decide) (by decide) (by rw [hl]; decide)
  have hp : packets (put_message (fun _ => 0) (Impl.new 65536 65536 1) longMsg).2 = [[]] := by
    rw [hacc, hl]
    simp [packets, Impl.new, Message.payload, toUShort]
  refine ⟨?_, ?_, hp, ?_⟩
  · rw [hl]
    decide
  · rw [hacc, hl]
    rfl
  · rw [hp]
    intro h
    have h2 := congrArg (fun l => (l.headD []).length) h
    simp only [packets, Impl.new, List.map_nil, List.nil_append, List.headD_cons, hl,
      List.length_nil] at h2
    omega

/-- C5 (amended): for a packet of at most 65535 bytes, `put_message` returns -1
and leaves the buffer unchanged if the packet is longer than `maxMsgSize`, or
`space_used() + len` exceeds `queueSize`, or `message_count() + 1` exceeds
`maxNumMessages`; in every other case it returns `len`, appends the packet as
the newest one, and increases `space_used()` by `len` and `message_count()`
by 1. -/
theorem put_message_spec (junk : Nat → Nat) (s : Impl) (msg : List Nat)
    (h16 : msg.length ≤ 65535) :
    ((msg.length > s.maxMsgSize_ ∨ space_used s + msg.length > s.queueSize_ ∨
        message_count s + 1 > s.maxNumMessages_) →
      put_message junk s msg = (-1, s)) ∧
    (¬ (msg.length > s.maxMsgSize_ ∨ space_used s + msg.length > s.queueSize_ ∨
        message_count s + 1 > s.maxNumMessages_) →
      (put_message junk s msg).1 = (msg.length : Int) ∧
      packets (put_message junk s msg).2 = packets s ++ [msg] ∧
      space_used (put_message junk s msg).2 = space_used s + msg.length ∧
      message_count (put_message junk s msg).2 = message_count s + 1) := by
  constructor
  · intro h
    have hn : new_message junk s msg.length = none :=
      (new_message_none_iff junk s msg.length).2 h
    simp [put_message, hn]
  · intro h
    simp only [space_used, message_count] at h
    rw [put_message_accept junk s msg (by omega) (by omega) (by omega)]
    have h16' : toUShort msg.length = msg.length := toUShort_of_lt (by omega)
    simp [packets, space_used, message_count, Message.payload, h16']

/-- Witness for `put_message_spec`: the calls of `TestEtworkBufferEvil` on a
`Buffer(10, 20, 5)`. -/
theorem put_message_spec_witness :
    (put_message (fun _ => 0) (Impl.new 10 20 5) [1, 2, 3]).1 = 3 ∧
    packets (put_message (fun _ => 0) (Impl.new 10 20 5) [1, 2, 3]).2 = [[1, 2, 3]] ∧
    put_message (fun _ => 0) (Impl.new 10 20 5) [1, 2, 3, 4, 5, 6, 7, 8, 9, 0, 45] =
      (-1, Impl.new 10 20 5) := by
  have h := put_message_spec (fun _ => 0) (Impl.new 10 20 5) [1, 2, 3] (by decide)
  have h2 := put_message_spec (fun _ => 0) (Impl.new 10 20 5)
    [1, 2, 3, 4, 5, 6, 7, 8, 9, 0, 45] (by decide)
  exact ⟨(h.2 (by decide)).1, (h.2 (by decide)).2.1, h2.1 (by decide)⟩


/-! ## `put_data` consumes its whole input (C9) -/

theorem put_data_size_cases (s : Impl) (b0 : Nat) (data : List Nat) (total : Nat) (ok : Bool) :
    (∃ s1 ok1, put_data_size s (b0 :: data) total ok = .error (total + 1, s1, ok1) ∧ data = []) ∨
    (∃ s1 data1 total1 ok1,
      put_data_size s (b0 :: data) total ok = .ok (s1, data1, total1, ok1) ∧
      total1 + data1.length = total + (data.length + 1) ∧
      s1.curTarget_ = s.curTarget_ ∧
      ((data1.length ≤ data.length) ∨
        (data1 = b0 :: data ∧ s1 = s ∧ s.tmpSize_ = SIZE_T_MAX ∧ s.curTarget_ ≠ none))) := by
  simp only [put_data_size]
  by_cases h1 : s.tmpSize_ ≠ SIZE_T_MAX
  · right
    rw [if_pos h1]
    exact ⟨_, _, _, _, rfl, by omega, rfl, Or.inl (le_refl _)⟩
  · rw [if_neg h1]
    by_cases h2 : s.curTarget_ = none
    · rw [if_pos h2]
      cases data with
      | nil => left; exact ⟨_, _, rfl, rfl⟩
      | cons b1 data2 =>
        right
        exact ⟨_, _, _, _, rfl, by simp only [List.length_cons]; omega, rfl,
          Or.inl (by simp only [List.length_cons]; omega)⟩
    · right
      rw [if_neg h2]
      exact ⟨_, _, _, _, rfl, by simp only [List.length_cons], rfl,
        Or.inr ⟨rfl, rfl, by simpa using h1, h2⟩⟩

theorem new_message_wellTyped (junk : Nat → Nat) (s : Impl) (size : Nat) (m : Message)
    (h : new_message junk s size = some m) : m.WellTyped := by
  unfold new_message at h
  split_ifs at h
  simp only [Option.some.injEq] at h
  subst h
  exact ⟨toUShort_lt _, Nat.zero_lt_succ _⟩

theorem put_data_alloc_cases (junk : Nat → Nat) (s : Impl) (ok : Bool) :
    (s.tmpSize_ = SIZE_T_MAX → (put_data_alloc junk s ok).1 = s) ∧
    ((∀ m ∈ s.curTarget_, m.WellTyped) →
      ∀ m ∈ (put_data_alloc junk s ok).1.curTarget_, m.WellTyped) := by
  unfold put_data_alloc
  by_cases h1 : s.tmpSize_ ≠ SIZE_T_MAX
  · rw [if_pos h1]
    constructor
    · intro h; exact absurd h h1
    · intro _
      cases hn : new_message junk s s.tmpSize_ with
      | none => simp
      | some m =>
        simp only [Option.mem_def, Option.some.injEq]
        intro m' hm'
        subst hm'
        exact new_message_wellTyped junk s _ m hn
  · rw [if_neg h1]
    exact ⟨fun _ => rfl, fun h => h⟩

theorem put_data_fill_cases (s : Impl) (data : List Nat) (total : Nat) (ok : Bool)
    (ht : ∀ m ∈ s.curTarget_, m.WellTyped) :
    (∀ m ∈ (put_data_fill s data total ok).1.curTarget_, m.WellTyped) ∧
    (put_data_fill s data total ok).2.2.1 + (put_data_fill s data total ok).2.1.length =
      total + data.length ∧
    (put_data_fill s data total ok).2.1.length ≤ data.length ∧
    (s.curTarget_ = none → (put_data_fill s data total ok).1.curTarget_ = none) ∧
    (0 < data.length → s.curTarget_ ≠ none →
      (put_data_fill s data total ok).2.1.length < data.length ∨
      (put_data_fill s data total ok).1.curTarget_ = none) := by
  unfold put_data_fill
  cases hc : s.curTarget_ with
  | none =>
    simp only [List.length_drop, Option.mem_def, reduceCtorEq, false_implies, implies_true,
      true_and, ne_eq, not_true_eq_false, and_true]
    split_ifs <;> omega
  | some m =>
    have hm : m.WellTyped := ht m (by simp [hc])
    obtain ⟨hs, ho⟩ := hm
    simp only
    split_ifs with h1 h2 h2
    all_goals simp only [List.length_drop, Option.mem_def, Option.some.injEq, forall_eq',
      reduceCtorEq, false_implies, implies_true, true_and, ne_eq, not_true_eq_false,
      not_false_eq_true, and_true, Message.WellTyped, or_true, or_false, toUShort_lt,
      forall_const]
    all_goals
      simp only [subToSizeT, toUShort] at h1 h2 ⊢
      split_ifs at h1 h2 ⊢ <;> omega

theorem put_data_loop_total (junk : Nat → Nat) :
    ∀ (fuel : Nat) (s : Impl) (data : List Nat) (total : Nat) (ok : Bool),
      (∀ m ∈ s.curTarget_, m.WellTyped) → putMeasure s data < fuel →
      ∃ s1 ok1, put_data_loop junk fuel s data total ok = some (total + data.length, s1, ok1) := by
  intro fuel
  induction fuel with
  | zero => intro s data total ok _ h; omega
  | succ fuel ih =>
    intro s data total ok ht hm
    cases data with
    | nil => exact ⟨s, ok, by simp [put_data_loop]⟩
    | cons b0 data =>
      rw [put_data_loop, if_neg (by simp)]
      rcases put_data_size_cases s b0 data total ok with
        ⟨s1, ok1, he, hd⟩ | ⟨s1, data1, total1, ok1, he, htot, hcur, hprog⟩
      · rw [he, hd]
        exact ⟨s1, ok1, rfl⟩
      · rw [he]
        have ht1 : ∀ m ∈ s1.curTarget_, m.WellTyped := by rw [hcur]; exact ht
        have ha := put_data_alloc_cases junk s1 ok1
        rcases hal : put_data_alloc junk s1 ok1 with ⟨s2, ok2⟩
        rw [hal] at ha
        have ht2 : ∀ m ∈ s2.curTarget_, m.WellTyped := ha.2 ht1
        have hf := put_data_fill_cases s2 data1 total1 ok2 ht2
        rcases hfl : put_data_fill s2 data1 total1 ok2 with ⟨s3, data3, total3, ok3⟩
        rw [hfl] at hf
        obtain ⟨ht3, htot3, hle3, hnone3, hprog3⟩ := hf
        simp only at ht3 htot3 hle3 hnone3 hprog3 ⊢
        have hm3 : putMeasure s3 data3 < fuel := by
          unfold putMeasure at hm ⊢
          simp only [List.length_cons] at hm
          rcases hprog with hlt | ⟨hd1, hs1, htmp, hsome⟩
          · split_ifs at hm ⊢ <;> omega
          · subst hs1
            have hs2 : s2 = s1 := ha.1 htmp
            subst hs2
            subst hd1
            rw [if_neg hsome] at hm
            rcases hprog3 (by simp) hsome with h | h
            · simp only [List.length_cons] at h hle3
              split_ifs <;> omega
            · simp only [List.length_cons] at hle3
              rw [if_pos h]
              omega
        obtain ⟨s4, ok4, h4⟩ := ih s3 data3 total3 ok3 ht3 hm3
        refine ⟨s4, ok4, ?_⟩
        rw [hal]
        simp only
        rw [hfl]
        simp only
        rw [h4]
        simp only [List.length_cons]
        congr 2
        omega

/-- C9: `put_data` consumes all of its input.  For every buffer state (whose
message fields are in the `unsigned short` range) and every input, `put_data`
returns the length of the input: never -1 and never a short count. -/
theorem put_data_returns_len (junk : Nat → Nat) (s : Impl) (data : List Nat)
    (ht : s.WellTyped) :
    ∃ s1 ok1, put_data junk s data = some ((data.length : Int), s1, ok1) := by
  obtain ⟨s1, ok1, h⟩ := put_data_loop_total junk (2 * data.length + 2) s data 0 true ht.2
    (by unfold putMeasure; split_ifs <;> omega)
  refine ⟨s1, ok1, ?_⟩
  unfold put_data
  rw [h]
  simp

/-- Witness for `put_data_returns_len`: a buffer that is in the middle of
skipping an oversized packet receives three more bytes. -/
theorem put_data_returns_len_witness :
    ({ Impl.new 2 10 5 with toSkip_ := 2 } : Impl).WellTyped ∧
    ∃ s1 ok1, put_data (fun _ => 0) { Impl.new 2 10 5 with toSkip_ := 2 } [9, 9, 0] =
      some (((([9, 9, 0] : List Nat).length : Nat) : Int), s1, ok1) :=
  ⟨by decide, put_data_returns_len (fun _ => 0) _ [9, 9, 0] (by decide)⟩

/-! ## `get_message` (C6) -/

theorem get_message_nil (s : Impl) (mSize : Nat) (h : s.queue_ = []) :
    get_message s mSize = (-1, [], s) := by
  simp [get_message, h]

theorem get_message_small (s : Impl) (mSize : Nat) (m : Message) (rest : List Message)
    (h : s.queue_ = m :: rest) (hm : m.size_ > mSize) :
    get_message s mSize = (-1, [], s) := by
  simp [get_message, h, hm]

theorem get_message_fits (s : Impl) (mSize : Nat) (m : Message) (rest : List Message)
    (h : s.queue_ = m :: rest) (hm : m.size_ ≤ mSize) :
    get_message s mSize =
      ((m.size_ : Int), m.payload, { s with written_ := s.written_ - m.size_, queue_ := rest }) := by
  simp [get_message, h, Nat.not_lt.2 hm, Message.payload]

/-- C6: `get_message(out, max)` returns -1 and leaves the buffer unchanged when
the queue is empty or when the oldest queued packet is longer than `max` (a
later call with a large enough `max` then returns that packet); otherwise it
returns the length of the oldest packet, copies exactly its payload to `out`,
removes it from the queue and decreases `space_used()` by its length. -/
theorem get_message_spec (s : Impl) (mSize : Nat) :
    (s.queue_ = [] → get_message s mSize = (-1, [], s)) ∧
    (∀ m rest, s.queue_ = m :: rest → m.size_ > mSize →
      get_message s mSize = (-1, [], s) ∧
      ∀ big, m.size_ ≤ big →
        (get_message (get_message s mSize).2.2 big).1 = (m.size_ : Int) ∧
        (get_message (get_message s mSize).2.2 big).2.1 = m.payload) ∧
    (∀ m rest, s.queue_ = m :: rest → m.size_ ≤ mSize →
      (get_message s mSize).1 = (m.size_ : Int) ∧
      (get_message s mSize).2.1 = m.payload ∧
      (get_message s mSize).2.2.queue_ = rest ∧
      message_count (get_message s mSize).2.2 + 1 = message_count s ∧
      space_used (get_message s mSize).2.2 = space_used s - m.size_ ∧
      (queuedBytes s ≤ space_used s →
        space_used (get_message s mSize).2.2 + m.size_ = space_used s)) := by
  refine ⟨get_message_nil s mSize, ?_, ?_⟩
  · intro m rest h hm
    refine ⟨get_message_small s mSize m rest h hm, ?_⟩
    intro big hbig
    rw [get_message_small s mSize m rest h hm, get_message_fits s big m rest h hbig]
    exact ⟨rfl, rfl⟩
  · intro m rest h hm
    rw [get_message_fits s mSize m rest h hm]
    refine ⟨rfl, rfl, rfl, ?_, rfl, ?_⟩
    · simp [message_count, h]
    · intro hq
      simp only [queuedBytes, space_used, h, List.map_cons, List.sum_cons] at hq ⊢
      omega

/-- Witness for `get_message_spec`: the calls `get_message(buf, 9)` and
`get_message(buf, 10)` of `TestEtworkBufferEvil` on a buffer that holds one
packet of ten bytes. -/
theorem get_message_spec_witness :
    get_message (put_message (fun _ => 0) (Impl.new 10 20 5) [1, 2, 3, 4, 5, 6, 7, 8, 9, 0]).2 9 =
      (-1, [], (put_message (fun _ => 0) (Impl.new 10 20 5) [1, 2, 3, 4, 5, 6, 7, 8, 9, 0]).2) ∧
    (get_message
      (put_message (fun _ => 0) (Impl.new 10 20 5) [1, 2, 3, 4, 5, 6, 7, 8, 9, 0]).2 10).2.1 =
      [1, 2, 3, 4, 5, 6, 7, 8, 9, 0] ∧
    space_used (get_message
      (put_message (fun _ => 0) (Impl.new 10 20 5) [1, 2, 3, 4, 5, 6, 7, 8, 9, 0]).2 10).2.2 + 10 =
      space_used (put_message (fun _ => 0) (Impl.new 10 20 5) [1, 2, 3, 4, 5, 6, 7, 8, 9, 0]).2 :=
  have h9 := get_message_spec
    (put_message (fun _ => 0) (Impl.new 10 20 5) [1, 2, 3, 4, 5, 6, 7, 8, 9, 0]).2 9
  have h10 := get_message_spec
    (put_message (fun _ => 0) (Impl.new 10 20 5) [1, 2, 3, 4, 5, 6, 7, 8, 9, 0]).2 10
  ⟨(h9.2.1 ⟨0, 10, [1, 2, 3, 4, 5, 6, 7, 8, 9, 0]⟩ [] (by decide) (by decide)).1,
   (h10.2.2 ⟨0, 10, [1, 2, 3, 4, 5, 6, 7, 8, 9, 0]⟩ [] (by decide) (by decide)).2.1,
   (h10.2.2 ⟨0, 10, [1, 2, 3, 4, 5, 6, 7, 8, 9, 0]⟩ [] (by decide) (by decide)).2.2.2.2.2
     (by decide)⟩


/-! ## `put_data` on whole packets -/

theorem toUChar_toUChar (n : Nat) : toUChar (toUChar n) = toUChar n := by
  unfold toUChar
  omega

theorem frame_eq (p : List Nat) :
    frame p = toUChar (p.length / 256) :: toUChar p.length :: p := rfl

theorem frame_length (p : List Nat) : (frame p).length = p.length + 2 := by
  simp [frame_eq]

theorem wire_length_ge (ps : List (List Nat)) : 2 * ps.length ≤ (wire ps).length := by
  induction ps with
  | nil => simp [wire]
  | cons p ps ih => simp only [wire, List.length_append, frame_length, List.length_cons]; omega

theorem header_value (p : List Nat) (h : p.length < 65536) :
    toUChar (toUChar (p.length / 256)) * 256 + toUChar (toUChar p.length) = p.length := by
  rw [toUChar_toUChar, toUChar_toUChar]
  exact frame_bytes p h

theorem admits_iff (junk : Nat → Nat) (s : Impl) (p : List Nat) :
    admits s p = false ↔ new_message junk s p.length = none := by
  rw [new_message_none_iff]
  simp only [admits, decide_eq_false_iff_not]
  omega

/-- One iteration of the loop on a packet that has room. -/
theorem put_data_loop_accept (junk : Nat → Nat) (fuel : Nat) (s : Impl) (p rest : List Nat)
    (total : Nat) (ok : Bool) (hb : s.AtBoundary) (h16 : p.length < 65536)
    (ha : admits s p = true) :
    put_data_loop junk (fuel + 1) s (frame p ++ rest) total ok =
      put_data_loop junk fuel (s.push p) rest (total + (frame p).length) ok := by
  obtain ⟨M, Q, N, q, cur, w, sk, tmp⟩ := s
  obtain ⟨hb1, hb2, hb3⟩ := hb
  simp only at hb1 hb2 hb3
  subst hb1 hb2 hb3
  simp only [admits, decide_eq_true_eq] at ha
  obtain ⟨ha1, ha2, ha3⟩ := ha
  have hne : p.length ≠ SIZE_T_MAX := by unfold SIZE_T_MAX; omega
  have hnm := new_message_some junk ⟨M, Q, N, q, none, w, 0, p.length⟩ p.length ha1 ha2 ha3
  rw [put_data_loop, if_neg (by simp [frame_eq])]
  have hsz : put_data_size ⟨M, Q, N, q, none, w, 0, SIZE_T_MAX⟩ (frame p ++ rest) total ok =
      .ok (⟨M, Q, N, q, none, w, 0, p.length⟩, p ++ rest, total + 2, ok) := by
    simp only [frame_eq, List.cons_append, put_data_size, ne_eq, not_true_eq_false,
      if_false, if_true, header_value p h16]
  have hal : put_data_alloc junk ⟨M, Q, N, q, none, w, 0, p.length⟩ ok =
      (⟨M, Q, N, q, some ⟨0, p.length, (List.range p.length).map junk⟩, w, 0, SIZE_T_MAX⟩,
        ok) := by
    unfold put_data_alloc
    rw [if_pos hne, hnm]
    simp only [toUShort_of_lt h16, decide_True, Bool.and_true]
  have hfl : put_data_fill
      ⟨M, Q, N, q, some ⟨0, p.length, (List.range p.length).map junk⟩, w, 0, SIZE_T_MAX⟩
      (p ++ rest) (total + 2) ok =
      (Impl.push ⟨M, Q, N, q, none, w, 0, SIZE_T_MAX⟩ p, rest, total + (frame p).length, ok) := by
    have h1 : ¬ (p.length > (p ++ rest).length) := by
      simp only [List.length_append]; omega
    simp only [put_data_fill, subToSizeT_of_le (Nat.zero_le _), Nat.sub_zero, h1, if_false,
      memcpy_fresh, Nat.zero_add, toUShort_of_lt h16, if_true, decide_True, Bool.and_true,
      List.drop_left, Impl.push, Message.ofPacket, frame_length]
    congr 3
    omega
  rw [hsz]
  simp only
  rw [hal]
  simp only
  rw [hfl]

/-- One iteration of the loop on a packet that has no room. -/
theorem put_data_loop_reject (junk : Nat → Nat) (fuel : Nat) (s : Impl) (p rest : List Nat)
    (total : Nat) (ok : Bool) (hb : s.AtBoundary) (h16 : p.length < 65536)
    (ha : admits s p = false) :
    put_data_loop junk (fuel + 1) s (frame p ++ rest) total ok =
      put_data_loop junk fuel s rest (total + (frame p).length)
        (ok && decide (p.length > 0)) := by
  have hn := (admits_iff junk s p).1 ha
  obtain ⟨M, Q, N, q, cur, w, sk, tmp⟩ := s
  obtain ⟨hb1, hb2, hb3⟩ := hb
  simp only at hb1 hb2 hb3
  subst hb1 hb2 hb3
  have hne : p.length ≠ SIZE_T_MAX := by unfold SIZE_T_MAX; omega
  have hnm : new_message junk ⟨M, Q, N, q, none, w, 0, p.length⟩ p.length = none := hn
  rw [put_data_loop, if_neg (by simp [frame_eq])]
  have hsz : put_data_size ⟨M, Q, N, q, none, w, 0, SIZE_T_MAX⟩ (frame p ++ rest) total ok =
      .ok (⟨M, Q, N, q, none, w, 0, p.length⟩, p ++ rest, total + 2, ok) := by
    simp only [frame_eq, List.cons_append, put_data_size, ne_eq, not_true_eq_false,
      if_false, if_true, header_value p h16]
  have hal : put_data_alloc junk ⟨M, Q, N, q, none, w, 0, p.length⟩ ok =
      (⟨M, Q, N, q, none, w, p.length, SIZE_T_MAX⟩, ok) := by
    unfold put_data_alloc
    rw [if_pos hne, hnm]
    simp only [decide_True, Bool.and_true]
  have hfl : put_data_fill ⟨M, Q, N, q, none, w, p.length, SIZE_T_MAX⟩
      (p ++ rest) (total + 2) ok =
      (⟨M, Q, N, q, none, w, 0, SIZE_T_MAX⟩, rest, total + (frame p).length,
        ok && decide (p.length > 0)) := by
    have h1 : ¬ (p.length > (p ++ rest).length) := by
      simp only [List.length_append]; omega
    simp only [put_data_fill, h1, if_false, Nat.sub_self, List.drop_left, frame_length]
    congr 3
    omega
  rw [hsz]
  simp only
  rw [hal]
  simp only
  rw [hfl]

theorem push_atBoundary (s : Impl) (p : List Nat) (hb : s.AtBoundary) :
    (s.push p).AtBoundary := hb

theorem deliver_atBoundary (ps : List (List Nat)) :
    ∀ s : Impl, s.AtBoundary → (deliver s ps).AtBoundary := by
  induction ps with
  | nil => intro s hb; exact hb
  | cons p ps ih =>
    intro s hb
    simp only [deliver]
    split_ifs
    · exact ih _ (push_atBoundary s p hb)
    · exact ih _ hb

/-- The loop of `put_data` on a run of whole packets followed by `rest`: one
iteration per packet, after which the buffer is `deliver s ps`. -/
theorem put_data_loop_wire (junk : Nat → Nat) (ps : List (List Nat)) :
    ∀ (fuel : Nat) (s : Impl) (rest : List Nat) (total : Nat) (ok : Bool),
      s.AtBoundary → (∀ p ∈ ps, p.length < 65536) →
      ∃ ok1, put_data_loop junk (fuel + ps.length) s (wire ps ++ rest) total ok =
        put_data_loop junk fuel (deliver s ps) rest (total + (wire ps).length) ok1 := by
  induction ps with
  | nil => intro fuel s rest total ok _ _; exact ⟨ok, rfl⟩
  | cons p ps ih =>
    intro fuel s rest total ok hb h16
    have hp : p.length < 65536 := h16 p (List.mem_cons_self _ _)
    have hps : ∀ x ∈ ps, x.length < 65536 := fun x hx => h16 x (List.mem_cons_of_mem _ hx)
    have hfuel : fuel + (p :: ps).length = (fuel + ps.length) + 1 := by
      simp only [List.length_cons]; omega
    have hlen : ∀ t : Nat, t + (frame p).length + (wire ps).length =
        t + (wire (p :: ps)).length := by
      intro t; simp only [wire, List.length_append]; omega
    rw [hfuel]
    simp only [wire, List.append_assoc, deliver]
    cases ha : admits s p with
    | true =>
      rw [put_data_loop_accept junk _ s p _ total ok hb hp ha]
      obtain ⟨ok1, h1⟩ := ih fuel (s.push p) rest (total + (frame p).length) ok
        (push_atBoundary s p hb) hps
      refine ⟨ok1, ?_⟩
      rw [h1]
      simp only [if_true, List.length_append, Nat.add_assoc]
    | false =>
      rw [put_data_loop_reject junk _ s p _ total ok hb hp ha]
      obtain ⟨ok1, h1⟩ := ih fuel s rest (total + (frame p).length)
        (ok && decide (p.length > 0)) hb hps
      refine ⟨ok1, ?_⟩
      rw [h1]
      simp only [Bool.false_eq_true, if_false, List.length_append, Nat.add_assoc]

theorem put_data_loop_fuel_mono (junk : Nat → Nat) :
    ∀ (fuel : Nat) (s : Impl) (data : List Nat) (total : Nat) (ok : Bool)
      (r : Nat × Impl × Bool),
      put_data_loop junk fuel s data total ok = some r →
      ∀ more, put_data_loop junk (fuel + more) s data total ok = some r := by
  intro fuel
  induction fuel with
  | zero => intro s data total ok r h; simp [put_data_loop] at h
  | succ fuel ih =>
    intro s data total ok r h more
    have hf : fuel + 1 + more = (fuel + more) + 1 := by omega
    rw [hf]
    rw [put_data_loop] at h ⊢
    by_cases hd : data.length = 0
    · rw [if_pos hd] at h ⊢; exact h
    · rw [if_neg hd] at h ⊢
      cases hs : put_data_size s data total ok with
      | error e => rw [hs] at h; exact h
      | ok v =>
        rw [hs] at h
        simp only at h ⊢
        exact ih _ _ _ _ _ h more

/-- One `put_data` call on a stream of whole packets, from a buffer that is
between packets: the whole stream is consumed and the buffer becomes
`deliver s ps`. -/
theorem put_data_wire (junk : Nat → Nat) (s : Impl) (ps : List (List Nat))
    (hb : s.AtBoundary) (h16 : ∀ p ∈ ps, p.length < 65536) :
    ∃ ok, put_data junk s (wire ps) = some (((wire ps).length : Int), deliver s ps, ok) := by
  obtain ⟨ok1, h1⟩ := put_data_loop_wire junk ps 1 s [] 0 true hb h16
  have h2 : put_data_loop junk (1 + ps.length) s (wire ps) 0 true =
      some ((wire ps).length, deliver s ps, ok1) := by
    have := h1
    simp only [List.append_nil, Nat.zero_add] at this
    rw [this]
    simp [put_data_loop]
  have hge := wire_length_ge ps
  have h3 := put_data_loop_fuel_mono junk _ s (wire ps) 0 true _ h2
    (2 * (wire ps).length + 2 - (1 + ps.length))
  have hf : 1 + ps.length + (2 * (wire ps).length + 2 - (1 + ps.length)) =
      2 * (wire ps).length + 2 := by omega
  rw [hf] at h3
  refine ⟨ok1, ?_⟩
  unfold put_data
  rw [h3]
  rfl

theorem deliver_append (a b : List (List Nat)) :
    ∀ s : Impl, deliver s (a ++ b) = deliver (deliver s a) b := by
  induction a with
  | nil => intro s; rfl
  | cons p a ih =>
    intro s
    simp only [List.cons_append, deliver]
    split_ifs
    · exact ih _
    · exact ih _

theorem packets_push (s : Impl) (p : List Nat) : packets (s.push p) = packets s ++ [p] := by
  simp [packets, Impl.push, Message.ofPacket, Message.payload]

/-! ## Which packets the read side drops (C7) -/

/-- C7, as stated, fails: a `Buffer(10, 20, 1)` that receives two packets of
one byte each in one `put_data` call queues the first and drops the second,
whose declared length 1 is not above `maxMsgSize` 10. -/
theorem put_data_drops_fitting_packet :
    ([66] : List Nat).length ≤ (Impl.new 10 20 1).maxMsgSize_ ∧
    (put_data (fun _ => 0) (Impl.new 10 20 1) (wire [[65], [66]])).map
      (fun r => packets r.2.1) = some [[65]] := by
  decide

/-- C7 (amended): the read side drops a framed packet only when the buffer has
no room for it.  From a buffer that is between packets, one `put_data` call on
a stream of whole packets consumes the stream and leaves `deliver s ps`: each
packet in turn, after the packets `pre` before it have been processed, is
appended to the queue with its payload if its length is at most `maxMsgSize`,
fewer than `maxNumMessages` packets are queued and `space_used()` plus its
length is at most `queueSize` (`admits`), and is dropped, leaving the buffer
as it was, otherwise. -/
theorem put_data_drops_only_without_room (junk : Nat → Nat) (s : Impl)
    (ps : List (List Nat)) (hb : s.AtBoundary) (h16 : ∀ p ∈ ps, p.length < 65536) :
    (∃ ok, put_data junk s (wire ps) =
      some (((wire ps).length : Int), deliver s ps, ok)) ∧
    (∀ pre p post, ps = pre ++ p :: post →
      deliver s ps = deliver (deliver s (pre ++ [p])) post ∧
      (admits (deliver s pre) p = true →
        packets (deliver s (pre ++ [p])) = packets (deliver s pre) ++ [p]) ∧
      (admits (deliver s pre) p = false →
        deliver s (pre ++ [p]) = deliver s pre)) := by
  refine ⟨put_data_wire junk s ps hb h16, ?_⟩
  intro pre p post hps
  refine ⟨?_, ?_, ?_⟩
  · rw [hps, ← deliver_append]
    simp
  · intro ha
    rw [deliver_append]
    simp only [deliver, ha, if_true]
    exact packets_push _ p
  · intro ha
    rw [deliver_append]
    simp only [deliver, ha, Bool.false_eq_true, if_false]

/-- Witness for `put_data_drops_only_without_room`: the stream of two one-byte
packets fed to a fresh `Buffer(10, 20, 1)`. -/
theorem put_data_drops_only_without_room_witness :
    (Impl.new 10 20 1).AtBoundary ∧
    (∃ ok, put_data (fun _ => 0) (Impl.new 10 20 1) (wire [[65], [66]]) =
      some (((wire [[65], [66]]).length : Int), deliver (Impl.new 10 20 1) [[65], [66]], ok)) ∧
    packets (deliver (Impl.new 10 20 1) ([] ++ [[65]])) =
      packets (deliver (Impl.new 10 20 1) []) ++ [[65]] :=
  ⟨by decide,
   (put_data_drops_only_without_room (fun _ => 0) (Impl.new 10 20 1) [[65], [66]]
      (by decide) (by decide)).1,
   ((put_data_drops_only_without_room (fun _ => 0) (Impl.new 10 20 1) [[65], [66]]
      (by decide) (by decide)).2 [] [65] [[66]] rfl).2.1 (by decide)⟩

/-! ## Skipping an oversized packet (C8) -/

/-- C8 fails when the skipped bytes are spread over two calls.  On a
`Buffer(2, 10, 5)` the stream `00 03 09 09 09 00 01 07` (an oversized packet of
three bytes, then the packet `07`) delivers the packet `07` when it is fed in
one `put_data` call; fed as `00 03 09` and `09 09 00 01 07`, the second call
reads `09 09` as a new length, nothing is delivered and 2310 bytes remain to
be skipped. -/
theorem put_data_skip_across_calls (junk : Nat → Nat) :
    (put_data junk (Impl.new 2 10 5) [0, 3, 9, 9, 9, 0, 1, 7]).map
      (fun r => (packets r.2.1, r.2.1.toSkip_)) = some ([[7]], 0) ∧
    ((put_data junk (Impl.new 2 10 5) [0, 3, 9]).bind
      fun r => put_data junk r.2.1 [9, 9, 0, 1, 7]).map
      (fun r => (packets r.2.1, r.2.1.toSkip_)) = some ([], 2310) := by
  constructor <;> rfl

/-! ## Chunking of the incoming stream (C2) -/

/-- C2 fails when a chunk boundary falls inside a payload.  On a
`Buffer(10, 20, 5)` (fresh storage reads as zero bytes here) the stream
`00 02 01 02` fed in one `put_data` call delivers the packet `01 02`; fed as
`00 02 01` and `02`, the second chunk is copied to the start of the payload
again and the packet delivered is `02` followed by a byte that was never
written. -/
theorem put_data_chunking_changes_payload :
    (put_data (fun _ => 0) (Impl.new 10 20 5) [0, 2, 1, 2]).map
      (fun r => packets r.2.1) = some [[1, 2]] ∧
    ((put_data (fun _ => 0) (Impl.new 10 20 5) [0, 2, 1]).bind
      fun r => put_data (fun _ => 0) r.2.1 [2]).map
      (fun r => packets r.2.1) = some [[2, 0]] := by
  decide

/-! ## Resuming `get_data` (C3) -/

/-- C3 fails when a call stops inside a payload.  A `Buffer(10, 20, 5)` holds
the packet `01 02 03 04`; two `get_data` calls of capacity 4 empty the buffer
and return `00 04 01 02` and then `01 02`: the second call copies from the
start of the payload again, so the bytes `03 04` never appear. -/
theorem get_data_resume_repeats_prefix :
    (get_data (put_message (fun _ => 0) (Impl.new 10 20 5) [1, 2, 3, 4]).2 4).map
      (fun r => (r.1, r.2.1)) = some (4, [0, 4, 1, 2]) ∧
    ((get_data (put_message (fun _ => 0) (Impl.new 10 20 5) [1, 2, 3, 4]).2 4).bind
      fun r => get_data r.2.2 4).map
      (fun r => (r.1, r.2.1, message_count r.2.2)) = some (2, [1, 2], 0) ∧
    wire [[1, 2, 3, 4]] = [0, 4, 1, 2, 3, 4] := by
  decide

/-! ## `get_data` on whole packets -/

theorem wire_length (ps : List (List Nat)) :
    (wire ps).length = (ps.map List.length).sum + 2 * ps.length := by
  induction ps with
  | nil => rfl
  | cons p ps ih =>
    simp only [wire, List.length_append, frame_length, ih, List.map_cons, List.sum_cons,
      List.length_cons]
    omega

/-- The loop of `get_data` on a queue of untouched packets with enough room in
`oData` for all of them: every packet is written in wire form and removed. -/
theorem get_data_loop_all (ps : List (List Nat)) :
    ∀ (fuel : Nat) (s : Impl) (mSize : Nat) (out : List Nat) (total : Nat),
      s.queue_ = ps.map Message.ofPacket → (∀ p ∈ ps, p.length < 65536) →
      (wire ps).length < mSize → 3 ≤ mSize → ps.length < fuel →
      get_data_loop fuel s mSize out total =
        some ({ s with queue_ := [], written_ := s.written_ - (ps.map List.length).sum },
          out ++ wire ps, total + (wire ps).length) := by
  induction ps with
  | nil =>
    intro fuel s mSize out total hq _ _ _ hf
    obtain ⟨fuel, rfl⟩ : ∃ f, fuel = f + 1 := ⟨fuel - 1, by simp at hf; omega⟩
    obtain ⟨M, Q, N, q, cur, w, sk, tmp⟩ := s
    simp only [List.map_nil] at hq
    subst hq
    simp [get_data_loop, wire]
  | cons p ps ih =>
    intro fuel s mSize out total hq h16 hm h3 hf
    obtain ⟨fuel, rfl⟩ : ∃ f, fuel = f + 1 :=
      ⟨fuel - 1, by simp only [List.length_cons] at hf; omega⟩
    obtain ⟨M, Q, N, q, cur, w, sk, tmp⟩ := s
    simp only [List.map_cons] at hq
    subst hq
    have hp : p.length < 65536 := h16 p (List.mem_cons_self _ _)
    have hps : ∀ x ∈ ps, x.length < 65536 := fun x hx => h16 x (List.mem_cons_of_mem _ hx)
    simp only [wire, List.length_append, frame_length] at hm
    have hfit : ¬ (p.length > mSize - 2) := by omega
    have hoff : toUShort (0 + p.length) = p.length := by
      rw [Nat.zero_add]; exact toUShort_of_lt hp
    rw [get_data_loop]
    simp only [Message.ofPacket, if_true, subToSizeT_of_le (Nat.zero_le _), Nat.sub_zero,
      hfit, if_false, hoff, List.take_length]
    by_cases hlast : mSize - 2 - p.length < 3
    · rw [if_pos hlast]
      have hnil : ps = [] := by
        cases ps with
        | nil => rfl
        | cons x xs =>
          simp only [wire, List.length_append, frame_length] at hm
          omega
      subst hnil
      simp only [List.map_nil, List.sum_nil, Nat.add_zero, wire, List.append_nil,
        List.map_cons, List.sum_cons, frame_eq, List.length_cons, List.append_assoc,
        List.cons_append, List.nil_append, Option.some.injEq, Prod.mk.injEq, true_and]
      omega
    · rw [if_neg hlast]
      have := ih fuel ⟨M, Q, N, ps.map Message.ofPacket, cur, w - p.length, sk, tmp⟩
        (mSize - 2 - p.length)
        (out ++ [toUChar (p.length / 256), toUChar p.length] ++ p) (total + 2 + p.length)
        rfl hps (by omega) (by omega) (by simp only [List.length_cons] at hf; omega)
      rw [this]
      simp only [wire, frame_eq, List.map_cons, List.sum_cons, List.length_append,
        List.length_cons, List.append_assoc, List.cons_append, List.nil_append,
        Option.some.injEq, Prod.mk.injEq, Impl.mk.injEq, true_and, and_true]
      constructor <;> omega

/-! ## Sequences of `put_message` calls -/

theorem put_message_eq (junk : Nat → Nat) (s : Impl) (p : List Nat) (h16 : p.length < 65536) :
    put_message junk s p = if admits s p then ((p.length : Int), s.push p) else (-1, s) := by
  cases ha : admits s p with
  | true =>
    simp only [admits, decide_eq_true_eq] at ha
    rw [put_message_accept junk s p ha.1 ha.2.1 ha.2.2, toUShort_of_lt h16]
    rfl
  | false =>
    have hn := (admits_iff junk s p).1 ha
    simp [put_message, hn]

theorem foldl_push (ps : List (List Nat)) :
    ∀ s : Impl, ps.foldl Impl.push s =
      { s with
        queue_ := s.queue_ ++ ps.map Message.ofPacket
        written_ := s.written_ + (ps.map List.length).sum } := by
  induction ps with
  | nil => intro s; simp
  | cons p ps ih =>
    intro s
    simp only [List.foldl_cons, ih, Impl.push, List.map_cons, List.sum_cons, List.append_assoc,
      List.singleton_append, Nat.add_assoc]

/-- If every `put_message` call of a sequence succeeds, the packets are queued
in order. -/
theorem put_messages_accepted (junk : Nat → Nat) (ps : List (List Nat)) :
    ∀ s : Impl, (∀ p ∈ ps, p.length < 65536) →
      (∀ r ∈ (put_messages junk s ps).1, r ≠ -1) →
      (put_messages junk s ps).2 = ps.foldl Impl.push s := by
  induction ps with
  | nil => intro s _ _; rfl
  | cons p ps ih =>
    intro s h16 hacc
    have hp : p.length < 65536 := h16 p (List.mem_cons_self _ _)
    have hps : ∀ x ∈ ps, x.length < 65536 := fun x hx => h16 x (List.mem_cons_of_mem _ hx)
    simp only [put_messages, List.mem_cons, forall_eq_or_imp] at hacc
    obtain ⟨h1, h2⟩ := hacc
    rw [put_message_eq junk s p hp] at h1 h2
    simp only [put_messages, List.foldl_cons]
    rw [put_message_eq junk s p hp]
    cases ha : admits s p with
    | true =>
      rw [ha] at h2
      simp only [if_true] at h2 ⊢
      exact ih _ hps h2
    | false =>
      rw [ha] at h1
      simp at h1

/-- A sequence of packets that fits the caps of the buffer is accepted whole by
`put_message`, and each call returns the length of its packet. -/
theorem put_messages_fit (junk : Nat → Nat) (ps : List (List Nat)) :
    ∀ s : Impl, (∀ p ∈ ps, p.length < 65536) → (∀ p ∈ ps, p.length ≤ s.maxMsgSize_) →
      s.queue_.length + ps.length ≤ s.maxNumMessages_ →
      s.written_ + (ps.map List.length).sum ≤ s.queueSize_ →
      put_messages junk s ps = (ps.map (fun p => (p.length : Int)), ps.foldl Impl.push s) := by
  induction ps with
  | nil => intro s _ _ _ _; rfl
  | cons p ps ih =>
    intro s h16 hM hN hQ
    have hp : p.length < 65536 := h16 p (List.mem_cons_self _ _)
    have hps : ∀ x ∈ ps, x.length < 65536 := fun x hx => h16 x (List.mem_cons_of_mem _ hx)
    simp only [List.length_cons, List.map_cons, List.sum_cons] at hN hQ
    have ha : admits s p = true := by
      simp only [admits, decide_eq_true_eq]
      exact ⟨hM p (List.mem_cons_self _ _), by omega, by omega⟩
    simp only [put_messages, List.foldl_cons, List.map_cons]
    rw [put_message_eq junk s p hp, ha]
    simp only [if_true]
    rw [ih (s.push p) hps (fun x hx => hM x (List.mem_cons_of_mem _ hx))
      (by simp only [Impl.push, List.length_append, List.length_singleton]; omega)
      (by simp only [Impl.push]; omega)]

/-- A stream of packets that fits the caps of the buffer is delivered whole. -/
theorem deliver_fit (ps : List (List Nat)) :
    ∀ s : Impl, (∀ p ∈ ps, p.length ≤ s.maxMsgSize_) →
      s.queue_.length + ps.length ≤ s.maxNumMessages_ →
      s.written_ + (ps.map List.length).sum ≤ s.queueSize_ →
      deliver s ps = ps.foldl Impl.push s := by
  induction ps with
  | nil => intro s _ _ _; rfl
  | cons p ps ih =>
    intro s hM hN hQ
    simp only [List.length_cons, List.map_cons, List.sum_cons] at hN hQ
    have ha : admits s p = true := by
      simp only [admits, decide_eq_true_eq]
      exact ⟨hM p (List.mem_cons_self _ _), by omega, by omega⟩
    simp only [deliver, ha, if_true, List.foldl_cons]
    exact ih (s.push p) (fun x hx => hM x (List.mem_cons_of_mem _ hx))
      (by simp only [Impl.push, List.length_append, List.length_singleton]; omega)
      (by simp only [Impl.push]; omega)

/-- One `get_data` call with room for everything, on a buffer whose queue holds
the untouched packets `ps`. -/
theorem get_data_all (s : Impl) (ps : List (List Nat)) (cap : Nat)
    (hq : s.queue_ = ps.map Message.ofPacket) (h16 : ∀ p ∈ ps, p.length < 65536)
    (hcap : (wire ps).length < cap) (h3 : 3 ≤ cap) :
    get_data s cap =
      some (((wire ps).length : Int), wire ps,
        { s with queue_ := [], written_ := s.written_ - (ps.map List.length).sum }) := by
  unfold get_data
  rw [if_neg (by omega)]
  rw [get_data_loop_all ps (s.queue_.length + 1) s cap [] 0 hq h16 hcap h3
    (by rw [hq, List.length_map]; omega)]
  simp

/-! ## Wire format of `get_data` (C4) -/

theorem put_get_long (junk : Nat → Nat) (msg : List Nat) (hl : msg.length = 65536) :
    (put_messages junk (Impl.new 65536 65536 1) [msg]).1 = [65536] ∧
    (get_data (put_messages junk (Impl.new 65536 65536 1) [msg]).2 70000).map
      (fun r => (r.1, r.2.1, space_used r.2.2, message_count r.2.2)) =
        some (2, [0, 0], 65536, 0) := by
  have hacc := put_message_accept junk (Impl.new 65536 65536 1) msg
    (by rw [hl]; decide) (by decide) (by rw [hl]; decide)
  constructor
  · simp only [put_messages]
    rw [hacc, hl]
    rfl
  · simp only [put_messages]
    rw [hacc, hl]
    simp [get_data, get_data_loop, Impl.new, toUShort, toUChar, subToSizeT, space_used,
      message_count]

/-- C4, as stated, fails in two cases.  With nothing queued and a capacity of
1, which exceeds the wire size 0, `get_data` returns -1 and not 0.  On a
buffer whose `maxMsgSize` is 65536, a packet of 65536 bytes is accepted by
`put_message`, but `get_data` with capacity 70000 writes only the two bytes
`00 00`, returns 2, and `space_used()` is still 65536 afterwards. -/
theorem get_data_wire_counterexample :
    (get_data (put_messages (fun _ => 0) (Impl.new 10 20 5) []).2 1).map
      (fun r => (r.1, r.2.1)) = some (-1, []) ∧
    (put_messages (fun _ => 0) (Impl.new 65536 65536 1) [longMsg]).1 = [65536] ∧
    (get_data (put_messages (fun _ => 0) (Impl.new 65536 65536 1) [longMsg]).2 70000).map
      (fun r => (r.1, r.2.1, space_used r.2.2, message_count r.2.2)) =
        some (2, [0, 0], 65536, 0) := by
  have hl : longMsg.length = 65536 := List.length_replicate 65536 0
  exact ⟨by decide, put_get_long (fun _ => 0) longMsg hl⟩

/-- C4 (amended): for every list of packets of at most 65535 bytes each that
`put_message` accepts into a fresh buffer, one `get_data` call whose capacity
is at least 3 and exceeds the total wire size returns `sum(len_i) + 2n` and
writes, for each packet in FIFO order, its length as two bytes (high byte
first) followed by exactly its payload; afterwards `space_used()` and
`message_count()` are 0. -/
theorem get_data_wire_format (junk : Nat → Nat) (M Q N : Nat) (ps : List (List Nat))
    (cap : Nat) (h16 : ∀ p ∈ ps, p.length ≤ 65535)
    (hacc : ∀ r ∈ (put_messages junk (Impl.new M Q N) ps).1, r ≠ -1)
    (hcap : (wire ps).length < cap) (h3 : 3 ≤ cap) :
    ∃ s1, get_data (put_messages junk (Impl.new M Q N) ps).2 cap =
        some ((((ps.map List.length).sum + 2 * ps.length : Nat) : Int), wire ps, s1) ∧
      space_used s1 = 0 ∧ message_count s1 = 0 := by
  have h16a : ∀ p ∈ ps, p.length < 65536 := fun p hp => Nat.lt_succ_of_le (h16 p hp)
  have hst := put_messages_accepted junk ps (Impl.new M Q N) h16a hacc
  have hg := get_data_all (ps.foldl Impl.push (Impl.new M Q N)) ps cap
    (by rw [foldl_push]; simp [Impl.new]) h16a hcap h3
  rw [hst, hg, wire_length]
  refine ⟨_, rfl, ?_, rfl⟩
  rw [foldl_push]
  simp [space_used, Impl.new]

/-- Witness for `get_data_wire_format`: the two packets of `TestEtworkBuffer`
("hello, world!" and "1234567890") in a `Buffer(1000, 3000, 10)`, drained with
capacity 100. -/
theorem get_data_wire_format_witness :
    ∃ s1, get_data (put_messages (fun _ => 0) (Impl.new 1000 3000 10)
        [[104, 101, 108, 108, 111, 44, 32, 119, 111, 114, 108, 100, 33],
         [49, 50, 51, 52, 53, 54, 55, 56, 57, 48]]).2 100 =
        some ((((([[104, 101, 108, 108, 111, 44, 32, 119, 111, 114, 108, 100, 33],
          [49, 50, 51, 52, 53, 54, 55, 56, 57, 48]] : List (List Nat)).map List.length).sum +
            2 * ([[104, 101, 108, 108, 111, 44, 32, 119, 111, 114, 108, 100, 33],
              [49, 50, 51, 52, 53, 54, 55, 56, 57, 48]] : List (List Nat)).length : Nat) : Int),
          wire [[104, 101, 108, 108, 111, 44, 32, 119, 111, 114, 108, 100, 33],
            [49, 50, 51, 52, 53, 54, 55, 56, 57, 48]], s1) ∧
      space_used s1 = 0 ∧ message_count s1 = 0 :=
  get_data_wire_format (fun _ => 0) 1000 3000 10
    [[104, 101, 108, 108, 111, 44, 32, 119, 111, 114, 108, 100, 33],
     [49, 50, 51, 52, 53, 54, 55, 56, 57, 48]] 100 (by decide) (by decide) (by decide)
    (by decide)

/-! ## Round trip through the wire form (C1) -/

theorem get_messages_all (cap : Nat) (ps : List (List Nat)) :
    ∀ s : Impl, s.queue_ = ps.map Message.ofPacket → (∀ p ∈ ps, p.length ≤ cap) →
      (get_messages (ps.length + 1) s cap).1 =
        ps.map (fun p => ((p.length : Int), p)) ++ [(-1, [])] := by
  induction ps with
  | nil =>
    intro s hq _
    simp only [List.map_nil] at hq
    simp [get_messages, get_message_nil s cap hq]
  | cons p ps ih =>
    intro s hq hcap
    simp only [List.map_cons] at hq
    have hfit := get_message_fits s cap (Message.ofPacket p) _ hq
      (hcap p (List.mem_cons_self _ _))
    show (get_messages ((ps.length + 1) + 1) s cap).1 = _
    rw [get_messages]
    simp only [hfit]
    rw [ih ⟨s.maxMsgSize_, s.queueSize_, s.maxNumMessages_, ps.map Message.ofPacket,
      s.curTarget_, s.written_ - (Message.ofPacket p).size_, s.toSkip_, s.tmpSize_⟩ rfl
      (fun x hx => hcap x (List.mem_cons_of_mem _ hx))]
    simp [Message.ofPacket, Message.payload]

theorem wire_short (ps : List (List Nat)) (h : (wire ps).length < 2) : ps = [] := by
  cases ps with
  | nil => rfl
  | cons p ps =>
    simp only [wire, List.length_append, frame_length] at h
    omega

/-- C1: round trip of the framed buffer.  Every list of packets within the
caps of a `Buffer(M, Q, N)` with `M ≤ 65535` is accepted by `put_message`; one
`get_data` call whose capacity exceeds the total wire size, followed by one
`put_data` call that feeds the returned bytes to a fresh `Buffer(M, Q, N)`,
makes `n` successive `get_message` calls (capacity at least `M`) return the
packets in the same order with identical bytes, and the next `get_message`
returns -1. -/
theorem buffer_round_trip (junk1 junk2 : Nat → Nat) (M Q N : Nat) (ps : List (List Nat))
    (cap1 cap2 : Nat) (hM : M ≤ 65535) (hlen : ∀ p ∈ ps, p.length ≤ M)
    (hQ : (ps.map List.length).sum ≤ Q) (hN : ps.length ≤ N)
    (hcap1 : (wire ps).length < cap1) (hcap2 : M ≤ cap2) :
    (put_messages junk1 (Impl.new M Q N) ps).1 = ps.map (fun p => (p.length : Int)) ∧
    ∃ r out b1 b2 ok,
      get_data (put_messages junk1 (Impl.new M Q N) ps).2 cap1 = some (r, out, b1) ∧
      put_data junk2 (Impl.new M Q N) out = some ((out.length : Int), b2, ok) ∧
      (get_messages (ps.length + 1) b2 cap2).1 =
        ps.map (fun p => ((p.length : Int), p)) ++ [(-1, [])] := by
  have h16 : ∀ p ∈ ps, p.length < 65536 := fun p hp => by
    have := hlen p hp
    omega
  have hfit := put_messages_fit junk1 ps (Impl.new M Q N) h16 hlen
    (by simp only [Impl.new, List.length_nil]; omega) (by simp only [Impl.new]; omega)
  have hdel := deliver_fit ps (Impl.new M Q N) hlen
    (by simp only [Impl.new, List.length_nil]; omega) (by simp only [Impl.new]; omega)
  have hfresh : (Impl.new M Q N).AtBoundary := ⟨rfl, rfl, rfl⟩
  rw [hfit]
  refine ⟨rfl, ?_⟩
  by_cases h3 : 3 ≤ cap1
  · have hg := get_data_all (ps.foldl Impl.push (Impl.new M Q N)) ps cap1
      (by rw [foldl_push]; simp [Impl.new]) h16 hcap1 h3
    obtain ⟨ok, hput⟩ := put_data_wire junk2 (Impl.new M Q N) ps hfresh h16
    refine ⟨_, _, _, _, ok, hg, hput, ?_⟩
    rw [hdel]
    exact get_messages_all cap2 ps _ (by rw [foldl_push]; simp [Impl.new])
      (fun p hp => le_trans (hlen p hp) hcap2)
  · have hnil : ps = [] := wire_short ps (by omega)
    subst hnil
    refine ⟨-1, [], Impl.new M Q N, Impl.new M Q N, true, ?_, ?_, ?_⟩
    · simp only [List.foldl_nil, get_data]
      rw [if_pos (by omega)]
    · rfl
    · rfl

/-- Witness for `buffer_round_trip`: the two packets of `TestEtworkBuffer` in a
`Buffer(1000, 3000, 10)`, with capacity 100 for `get_data` and 1000 for
`get_message`. -/
theorem buffer_round_trip_witness :
    (put_messages (fun _ => 0) (Impl.new 1000 3000 10)
      [[104, 101, 108, 108, 111, 44, 32, 119, 111, 114, 108, 100, 33],
       [49, 50, 51, 52, 53, 54, 55, 56, 57, 48]]).1 =
      ([[104, 101, 108, 108, 111, 44, 32, 119, 111, 114, 108, 100, 33],
        [49, 50, 51, 52, 53, 54, 55, 56, 57, 48]] : List (List Nat)).map
        (fun p => (p.length : Int)) ∧
    ∃ r out b1 b2 ok,
      get_data (put_messages (fun _ => 0) (Impl.new 1000 3000 10)
        [[104, 101, 108, 108, 111, 44, 32, 119, 111, 114, 108, 100, 33],
         [49, 50, 51, 52, 53, 54, 55, 56, 57, 48]]).2 100 = some (r, out, b1) ∧
      put_data (fun _ => 170) (Impl.new 1000 3000 10) out = some ((out.length : Int), b2, ok) ∧
      (get_messages
        (([[104, 101, 108, 108, 111, 44, 32, 119, 111, 114, 108, 100, 33],
          [49, 50, 51, 52, 53, 54, 55, 56, 57, 48]] : List (List Nat)).length + 1) b2 1000).1 =
        ([[104, 101, 108, 108, 111, 44, 32, 119, 111, 114, 108, 100, 33],
          [49, 50, 51, 52, 53, 54, 55, 56, 57, 48]] : List (List Nat)).map
          (fun p => ((p.length : Int), p)) ++ [(-1, [])] :=
  buffer_round_trip (fun _ => 0) (fun _ => 170) 1000 3000 10
    [[104, 101, 108, 108, 111, 44, 32, 119, 111, 114, 108, 100, 33],
     [49, 50, 51, 52, 53, 54, 55, 56, 57, 48]] 100 1000
    (by decide) (by decide) (by decide) (by decide) (by decide) (by decide)

/-! ## The capacity invariant (C10) -/

theorem inv_fresh (M Q N : Nat) : (Impl.new M Q N).Inv Q N := by
  simp [Impl.Inv, Impl.new, queuedBytes, targetSize, targetCount]

theorem inv_get_message (Q N : Nat) (s : Impl) (mSize : Nat) (h : s.Inv Q N) :
    (get_message s mSize).2.2.Inv Q N := by
  obtain ⟨M0, Q0, N0, q, cur, w, sk, tmp⟩ := s
  cases q with
  | nil => simpa [get_message] using h
  | cons m rest =>
    simp only [get_message]
    split_ifs
    · exact h
    · simp only [Impl.Inv, queuedBytes, targetSize, targetCount, List.map_cons, List.sum_cons,
        List.length_cons] at h ⊢
      obtain ⟨h1, h2, h3, h4, h5, h6⟩ := h
      refine ⟨h1, h2, by omega, by omega, by omega, h6⟩

theorem inv_put_data_size (Q N : Nat) (s : Impl) (data : List Nat) (total : Nat) (ok : Bool)
    (h : s.Inv Q N) :
    (∀ r, put_data_size s data total ok = .error r → r.2.1.Inv Q N) ∧
    (∀ v, put_data_size s data total ok = .ok v → v.1.Inv Q N) := by
  unfold put_data_size
  cases data with
  | nil =>
    simp only [reduceCtorEq, false_implies, implies_true, Except.ok.injEq, true_and]
    intro v hv; subst hv; exact h
  | cons b0 data1 =>
    simp only
    split_ifs with h1 h2
    · simp only [reduceCtorEq, false_implies, implies_true, Except.ok.injEq, true_and]
      intro v hv; subst hv; exact h
    · cases data1 with
      | nil =>
        simp only [Except.error.injEq, reduceCtorEq, false_implies, implies_true, and_true]
        intro r hr; subst hr; exact h
      | cons b1 data2 =>
        simp only [reduceCtorEq, false_implies, implies_true, Except.ok.injEq, true_and]
        intro v hv; subst hv; exact h
    · simp only [reduceCtorEq, false_implies, implies_true, Except.ok.injEq, true_and]
      intro v hv; subst hv; exact h

theorem inv_put_data_alloc (junk : Nat → Nat) (Q N : Nat) (s : Impl) (ok : Bool)
    (h : s.Inv Q N) : (put_data_alloc junk s ok).1.Inv Q N := by
  unfold put_data_alloc
  split_ifs with h1
  · obtain ⟨hQ, hN, h3, h4, h5, h6⟩ := h
    cases hn : new_message junk s s.tmpSize_ with
    | none =>
      simp only [Impl.Inv, queuedBytes, targetSize, targetCount] at h3 h4 h5 ⊢
      refine ⟨hQ, hN, h3, ?_, ?_, by simp⟩
      · have : s.written_ ≤ Q := le_trans (Nat.le_add_right _ _) h4
        simpa using this
      · have : s.queue_.length ≤ N := le_trans (Nat.le_add_right _ _) h5
        simpa using this
    | some m =>
      unfold new_message at hn
      split_ifs at hn with c1 c2 c3
      simp only [Option.some.injEq] at hn
      subst hn
      simp only [Impl.Inv, queuedBytes, targetSize, targetCount] at h3 ⊢
      have hle : toUShort s.tmpSize_ ≤ s.tmpSize_ := Nat.mod_le _ _
      refine ⟨hQ, hN, h3, by omega, by omega, ?_⟩
      intro m hm
      simp only [Option.mem_def, Option.some.injEq] at hm
      subst hm
      exact ⟨Nat.zero_le _, toUShort_lt _⟩
  · exact h

theorem inv_put_data_fill (Q N : Nat) (s : Impl) (data : List Nat) (total : Nat) (ok : Bool)
    (h : s.Inv Q N) : (put_data_fill s data total ok).1.Inv Q N := by
  obtain ⟨M0, Q0, N0, q, cur, w, sk, tmp⟩ := s
  obtain ⟨hQ, hN, h3, h4, h5, h6⟩ := h
  cases cur with
  | none =>
    simp only [put_data_fill]
    exact ⟨hQ, hN, h3, h4, h5, h6⟩
  | some m =>
    obtain ⟨ho, hs⟩ := h6 m rfl
    simp only [queuedBytes, targetSize, targetCount] at h3 h4 h5
    simp only [put_data_fill]
    split_ifs with c1 c2 c2
    all_goals
      simp only [Impl.Inv, queuedBytes, targetSize, targetCount, List.map_append, List.map_cons,
        List.map_nil, List.sum_append, List.sum_cons, List.sum_nil, List.length_append,
        List.length_singleton, Option.mem_def, Option.some.injEq, forall_eq', reduceCtorEq,
        false_implies, implies_true, and_true]
      simp only [subToSizeT, toUShort] at c1 c2 ⊢
      split_ifs at c1 c2 ⊢
      all_goals
        simp only at hQ hN
        refine ⟨hQ, hN, ?_⟩
        omega

theorem inv_put_data_loop (junk : Nat → Nat) (Q N : Nat) :
    ∀ (fuel : Nat) (s : Impl) (data : List Nat) (total : Nat) (ok : Bool)
      (r : Nat × Impl × Bool),
      s.Inv Q N → put_data_loop junk fuel s data total ok = some r → r.2.1.Inv Q N := by
  intro fuel
  induction fuel with
  | zero => intro s data total ok r _ h; simp [put_data_loop] at h
  | succ fuel ih =>
    intro s data total ok r hinv h
    rw [put_data_loop] at h
    by_cases hd : data.length = 0
    · rw [if_pos hd] at h
      simp only [Option.some.injEq] at h
      subst h
      exact hinv
    · rw [if_neg hd] at h
      have hsz := inv_put_data_size Q N s data total ok hinv
      cases hs : put_data_size s data total ok with
      | error e =>
        rw [hs] at h
        simp only [Option.some.injEq] at h
        subst h
        exact hsz.1 e hs
      | ok v =>
        rw [hs] at h
        simp only at h
        have h1 : v.1.Inv Q N := hsz.2 v hs
        have h2 := inv_put_data_alloc junk Q N v.1 v.2.2.2 h1
        have h3 := inv_put_data_fill Q N (put_data_alloc junk v.1 v.2.2.2).1 v.2.1 v.2.2.1
          (put_data_alloc junk v.1 v.2.2.2).2 h2
        exact ih _ _ _ _ r h3 h

theorem inv_put_data (junk : Nat → Nat) (Q N : Nat) (s : Impl) (data : List Nat)
    (r : Int × Impl × Bool) (hinv : s.Inv Q N) (h : put_data junk s data = some r) :
    r.2.1.Inv Q N := by
  unfold put_data at h
  cases hl : put_data_loop junk (2 * data.length + 2) s data 0 true with
  | none => rw [hl] at h; simp at h
  | some v =>
    rw [hl] at h
    simp only [Option.map_some', Option.some.injEq] at h
    subst h
    exact inv_put_data_loop junk Q N _ s data 0 true v hinv hl

theorem inv_put_message (junk : Nat → Nat) (Q N : Nat) (s : Impl) (msg : List Nat)
    (hinv : s.Inv Q N) (hc : s.curTarget_ = none) :
    (put_message junk s msg).2.Inv Q N ∧ (put_message junk s msg).2.curTarget_ = none := by
  unfold put_message
  cases hn : new_message junk s msg.length with
  | none => exact ⟨hinv, hc⟩
  | some m =>
    unfold new_message at hn
    split_ifs at hn with c1 c2 c3
    simp only [Option.some.injEq] at hn
    subst hn
    obtain ⟨hQ, hN, h3, h4, h5, h6⟩ := hinv
    simp only [Impl.Inv, queuedBytes, targetSize, targetCount, hc, List.map_append,
      List.map_cons, List.map_nil, List.sum_append, List.sum_cons, List.sum_nil,
      List.length_append, List.length_singleton, Option.mem_def, reduceCtorEq, false_implies,
      implies_true, and_true] at h3 h4 h5 ⊢
    have hle : toUShort msg.length ≤ msg.length := Nat.mod_le _ _
    refine ⟨hQ, hN, ?_⟩
    omega

theorem inv_get_data_loop (Q N : Nat) :
    ∀ (fuel : Nat) (s : Impl) (mSize : Nat) (out : List Nat) (total : Nat)
      (r : Impl × List Nat × Nat),
      s.Inv Q N → get_data_loop fuel s mSize out total = some r →
      r.1.Inv Q N ∧ r.1.curTarget_ = s.curTarget_ := by
  intro fuel
  induction fuel with
  | zero => intro s mSize out total r _ h; simp [get_data_loop] at h
  | succ fuel ih =>
    intro s mSize out total r hinv h
    obtain ⟨M0, Q0, N0, q, cur, w, sk, tmp⟩ := s
    rw [get_data_loop] at h
    cases q with
    | nil =>
      simp only [Option.some.injEq] at h
      subst h
      exact ⟨hinv, rfl⟩
    | cons m rest =>
      simp only at h
      obtain ⟨hQ, hN, h3, h4, h5, h6⟩ := hinv
      simp only [queuedBytes, targetSize, targetCount, List.map_cons, List.sum_cons,
        List.length_cons] at h3 h4 h5 hQ hN h6
      split_ifs at h with c1 c2 c3 c3 c2 c3 c3
      all_goals first
        | (simp only [Option.some.injEq] at h
           subst h
           refine ⟨⟨hQ, hN, ?_, ?_, ?_, h6⟩, rfl⟩ <;>
             simp only [queuedBytes, targetSize, targetCount, List.map_cons, List.sum_cons,
               List.length_cons] <;> omega)
        | exact (ih _ _ _ _ r (by
            refine ⟨hQ, hN, ?_, ?_, ?_, h6⟩ <;>
              simp only [queuedBytes, targetSize, targetCount, List.map_cons, List.sum_cons,
                List.length_cons] <;> omega) h :)

theorem inv_get_data (Q N : Nat) (s : Impl) (mSize : Nat) (r : Int × List Nat × Impl)
    (hinv : s.Inv Q N) (h : get_data s mSize = some r) :
    r.2.2.Inv Q N ∧ r.2.2.curTarget_ = s.curTarget_ := by
  unfold get_data at h
  split_ifs at h
  · simp only [Option.some.injEq] at h
    subst h
    exact ⟨hinv, rfl⟩
  · cases hl : get_data_loop (s.queue_.length + 1) s mSize [] 0 with
    | none => rw [hl] at h; simp at h
    | some v =>
      rw [hl] at h
      simp only [Option.map_some', Option.some.injEq] at h
      subst h
      exact inv_get_data_loop Q N _ s mSize [] 0 v hinv hl

theorem inv_of_reachData (M Q N : Nat) (s : Impl) (h : ReachData M Q N s) : s.Inv Q N := by
  induction h with
  | fresh => exact inv_fresh M Q N
  | put_data junk s data r _ hr ih => exact inv_put_data junk Q N s data r ih hr
  | get_message s mSize _ ih => exact inv_get_message Q N s mSize ih

theorem inv_of_reachMsg (M Q N : Nat) (s : Impl) (h : ReachMsg M Q N s) :
    s.Inv Q N ∧ s.curTarget_ = none := by
  induction h with
  | fresh => exact ⟨inv_fresh M Q N, rfl⟩
  | put_message junk s msg _ ih => exact inv_put_message junk Q N s msg ih.1 ih.2
  | get_message s mSize _ ih =>
    refine ⟨inv_get_message Q N s mSize ih.1, ?_⟩
    have := ih.2
    unfold get_message
    split
    · exact this
    · split_ifs
      · exact this
      · exact this
  | get_data s mSize r _ hr ih =>
    have := inv_get_data Q N s mSize r ih.1 hr
    exact ⟨this.1, this.2.trans ih.2⟩

theorem inv_bounds (Q N : Nat) (s : Impl) (h : s.Inv Q N) :
    queuedBytes s + assembledPrefix s ≤ Q ∧ message_count s ≤ N := by
  obtain ⟨_, _, h3, h4, h5, h6⟩ := h
  unfold assembledPrefix message_count
  unfold targetSize at h4
  cases hc : s.curTarget_ with
  | none =>
    rw [hc] at h4
    simp only at h4 ⊢
    omega
  | some m =>
    rw [hc] at h4
    have := (h6 m (by simp [hc])).1
    simp only at h4 ⊢
    omega

/-- C10: capacity invariant of the framed buffer.  In every state reached from
a fresh `Buffer(M, Q, N)` by `put_data` and `get_message` calls, or by
`put_message`, `get_message` and `get_data` calls, the lengths of the finished
queued packets plus the filled prefix of the packet under assembly sum to at
most `Q`, and at most `N` finished packets are queued. -/
theorem capacity_invariant (M Q N : Nat) (s : Impl)
    (h : ReachData M Q N s ∨ ReachMsg M Q N s) :
    queuedBytes s + assembledPrefix s ≤ Q ∧ message_count s ≤ N := by
  rcases h with h | h
  · exact inv_bounds Q N s (inv_of_reachData M Q N s h)
  · exact inv_bounds Q N s (inv_of_reachMsg M Q N s h).1

/-- Witness for `capacity_invariant`: a `Buffer(10, 20, 5)` after the bytes
`00 03 07 08`, a packet of three bytes of which two have arrived. -/
theorem capacity_invariant_witness :
    ReachData 10 20 5 (⟨10, 20, 5, [], some ⟨2, 3, [7, 8, 0]⟩, 0, 0, SIZE_T_MAX⟩ : Impl) ∧
    queuedBytes (⟨10, 20, 5, [], some ⟨2, 3, [7, 8, 0]⟩, 0, 0, SIZE_T_MAX⟩ : Impl) +
      assembledPrefix (⟨10, 20, 5, [], some ⟨2, 3, [7, 8, 0]⟩, 0, 0, SIZE_T_MAX⟩ : Impl) ≤ 20 ∧
    message_count (⟨10, 20, 5, [], some ⟨2, 3, [7, 8, 0]⟩, 0, 0, SIZE_T_MAX⟩ : Impl) ≤ 5 :=
  have hr : ReachData 10 20 5
      (⟨10, 20, 5, [], some ⟨2, 3, [7, 8, 0]⟩, 0, 0, SIZE_T_MAX⟩ : Impl) :=
    ReachData.put_data (fun _ => 0) (Impl.new 10 20 5) [0, 3, 7, 8]
      (4, ⟨10, 20, 5, [], some ⟨2, 3, [7, 8, 0]⟩, 0, 0, SIZE_T_MAX⟩, true)
      ReachData.fresh (by decide)
  ⟨hr, capacity_invariant 10 20 5 _ (Or.inl hr)⟩

/-! ## The byte block and the byte loops -/

theorem left_of_inRange {b : Block} (h : b.InRange) : b.left = b.size - b.pos_ := by
  unfold Block.left
  exact if_pos h

theorem loadBytes_append (w : Nat) (l : List Nat) (s : Nat) :
    ∀ ret, loadBytes w ret (l ++ [s]) = (loadBytes w ret l * 256) % 2 ^ w + toUChar s := by
  induction l with
  | nil => intro ret; rfl
  | cons a l ih => intro ret; simp only [List.cons_append, loadBytes]; exact ih _

theorem storeBytes_length (c : Nat) : ∀ val, (storeBytes c val).length = c := by
  induction c with
  | zero => intro val; rfl
  | succ c ih => intro val; simp [storeBytes, ih]

/-- The load loop reads back what the store loop wrote, as long as the bytes
fit the word that the load loop computes in. -/
theorem loadBytes_storeBytes (w c : Nat) (hc : 256 ^ c ≤ 2 ^ w) :
    ∀ val, loadBytes w 0 (storeBytes c val) = val % 256 ^ c := by
  induction c with
  | zero => intro val; simp [storeBytes, loadBytes, Nat.mod_one]
  | succ c ih =>
    intro val
    have h1 : 256 ^ c ≤ 2 ^ w := le_trans (Nat.pow_le_pow_right (by decide) (Nat.le_succ c)) hc
    have hp : 0 < 256 ^ c := Nat.pow_pos (by decide)
    rw [storeBytes, loadBytes_append, ih h1]
    have h2 : val / 256 % 256 ^ c < 256 ^ c := Nat.mod_lt _ hp
    have h3 : val / 256 % 256 ^ c * 256 < 2 ^ w := by
      calc val / 256 % 256 ^ c * 256 < 256 ^ c * 256 := by omega
        _ = 256 ^ (c + 1) := by ring
        _ ≤ 2 ^ w := hc
    rw [Nat.mod_eq_of_lt h3]
    unfold toUChar
    rw [Nat.mod_mod]
    have h4 : val % 256 ^ (c + 1) = val % 256 + 256 * (val / 256 % 256 ^ c) := by
      rw [pow_succ, mul_comm (256 ^ c) 256]
      exact Nat.mod_mul
    omega

theorem poke_size {b : Block} {bytes : List Nat} (h : b.pos_ + bytes.length ≤ b.size) :
    (b.poke bytes).size = b.size := by
  unfold Block.size at h ⊢
  simp only [Block.poke, List.length_append, List.length_take, List.length_drop]
  omega

theorem poke_cur {b : Block} {bytes : List Nat} (h : b.pos_ ≤ b.size) :
    (b.poke bytes).cur = bytes ++ b.buf_.drop (b.pos_ + bytes.length) := by
  unfold Block.size at h
  have hl : (b.buf_.take b.pos_).length = b.pos_ := by
    rw [List.length_take]; omega
  unfold Block.cur
  simp only [Block.poke, List.append_assoc]
  nth_rewrite 1 [← hl]
  rw [List.drop_left]

theorem poke_cur_take {b : Block} {bytes : List Nat} (h : b.pos_ ≤ b.size) :
    (b.poke bytes).cur.take bytes.length = bytes := by
  rw [poke_cur h, List.take_left]

/-! ## Int fields (C11, C18) -/

theorem toInt32_of_range {n : Int} (h1 : -2 ^ 31 ≤ n) (h2 : n < 2 ^ 31) : toInt32 n = n := by
  unfold toInt32
  omega

theorem toUInt32_of_nonneg {n : Int} (h1 : 0 ≤ n) (h2 : n < 2 ^ 32) :
    toUInt32 n = n.toNat := by
  unfold toUInt32
  rw [Int.emod_eq_of_lt h1 h2]

/-- C11: the int round trip fails for ranges that do not start at 0.
`IntMarshaller::marshal` stores the value itself and
`IntMarshaller::demarshal` adds `min_` to what it reads.  With the range
`[10, 20]` the value 15 is stored as the byte 15 and read back as 25, which
raises the range error; with the range `[-1, 1]` the value 0 is read back as
-1 without any error. -/
theorem int_round_trip_nonzero_min :
    (IntMarshaller.setRange 10 20).marshal 15 (Block.new [0, 0, 0, 0]) =
        .ret 1 { buf_ := [15, 0, 0, 0], pos_ := 1, atEof_ := false } ∧
    (IntMarshaller.setRange 10 20).demarshal
        (Block.seek { buf_ := [15, 0, 0, 0], pos_ := 1, atEof_ := false } 0) 0 =
        .raise (.invalid_argument "IntMarshaller demarshal is out of bounds")
          { buf_ := [15, 0, 0, 0], pos_ := 0, atEof_ := false } 25 ∧
    (IntMarshaller.setRange (-1) 1).marshal 0 (Block.new [7, 7, 7, 7]) =
        .ret 1 { buf_ := [0, 7, 7, 7], pos_ := 1, atEof_ := false } ∧
    (IntMarshaller.setRange (-1) 1).demarshal
        (Block.seek { buf_ := [0, 7, 7, 7], pos_ := 1, atEof_ := false } 0) 0 =
        .ret 1 { buf_ := [0, 7, 7, 7], pos_ := 1, atEof_ := false } (-1) := by
  decide

/-- C18: int fields are range-checked on marshal.  For every int marshaller,
value and block: if the value is below `min_` or above `max_`, `marshal`
throws `std::invalid_argument` (a `std::logic_error`) and the block is as it
was before the call, bytes and position, whatever space it has; and whenever
`marshal` returns (so whenever it encodes a value), the value lies in
`[min_, max_]`. -/
theorem int_marshal_range_checked (m : IntMarshaller) (v : Int) (dst : Block) :
    ((v < m.min_ ∨ v > m.max_) →
      ∃ what, m.marshal v dst = .raise (.invalid_argument what) dst ∧
        (Exn.invalid_argument what).isLogicError = true) ∧
    (∀ n dst1, m.marshal v dst = .ret n dst1 → m.min_ ≤ v ∧ v ≤ m.max_) := by
  constructor
  · intro h
    exact ⟨_, by unfold IntMarshaller.marshal; rw [if_pos h], rfl⟩
  · intro n dst1 h
    unfold IntMarshaller.marshal at h
    by_cases hv : v < m.min_ ∨ v > m.max_
    · rw [if_pos hv] at h
      cases h
    · omega

/-- Witness for `int_marshal_range_checked`: the range `[0, 200]` with the
values 201 (on a block with room and on a full block) and 200. -/
theorem int_marshal_range_checked_witness :
    (∃ what, (IntMarshaller.setRange 0 200).marshal 201 (Block.new [7, 7]) =
        .raise (.invalid_argument what) (Block.new [7, 7]) ∧
        (Exn.invalid_argument what).isLogicError = true) ∧
    (∃ what, (IntMarshaller.setRange 0 200).marshal (-1) (Block.new []) =
        .raise (.invalid_argument what) (Block.new []) ∧
        (Exn.invalid_argument what).isLogicError = true) ∧
    ((IntMarshaller.setRange 0 200).min_ ≤ 200 ∧ 200 ≤ (IntMarshaller.setRange 0 200).max_) :=
  ⟨(int_marshal_range_checked (IntMarshaller.setRange 0 200) 201 (Block.new [7, 7])).1
      (by decide),
   (int_marshal_range_checked (IntMarshaller.setRange 0 200) (-1) (Block.new [])).1
      (by decide),
   (int_marshal_range_checked (IntMarshaller.setRange 0 200) 200 (Block.new [7, 7])).2 1
      { buf_ := [200, 7], pos_ := 1, atEof_ := false } (by decide)⟩

/-! ## 64-bit fields (C20) -/

theorem uint64_setBits_64 :
    Uint64Marshaller.setBits 64 = { bits_ := 64, bytes_ := 8 } := by decide

theorem uint64_limit_64 :
    Uint64Marshaller.limit { bits_ := 64, bytes_ := 8 } = 2 ^ 64 - 1 := by decide

theorem storeBytes_eight (v : Nat) :
    storeBytes 8 v =
      [v / 2 ^ 56 % 256, v / 2 ^ 48 % 256, v / 2 ^ 40 % 256, v / 2 ^ 32 % 256,
       v / 2 ^ 24 % 256, v / 2 ^ 16 % 256, v / 2 ^ 8 % 256, v % 256] := by
  simp only [storeBytes, List.nil_append, List.cons_append, List.cons.injEq, and_true,
    Nat.div_div_eq_div_mul]
  norm_num

/-- C20: 64-bit values round trip bit for bit.  For every 64-bit value `v` and
every block with at least 8 bytes left, a `Uint64Marshaller` declared with 64
bits, and the `DoubleMarshaller` (which hands the bits of the `double` to
such a marshaller), return 8 without throwing, store the 8 bytes of `v`, most
significant first, at the old position and advance the position by 8; after
seeking back, `demarshal` returns 8 and yields exactly `v`. -/
theorem uint64_round_trip (v : Nat) (hv : v < 2 ^ 64) (dst : Block) (hr : dst.InRange)
    (hs : 8 ≤ dst.left) (old : Nat) :
    ∃ dst1,
      (Uint64Marshaller.setBits 64).marshal v dst = .ret 8 dst1 ∧
      DoubleMarshaller.new.marshal v dst = .ret 8 dst1 ∧
      dst1.pos_ = dst.pos_ + 8 ∧
      (dst1.seek dst.pos_).cur.take 8 =
        [v / 2 ^ 56 % 256, v / 2 ^ 48 % 256, v / 2 ^ 40 % 256, v / 2 ^ 32 % 256,
         v / 2 ^ 24 % 256, v / 2 ^ 16 % 256, v / 2 ^ 8 % 256, v % 256] ∧
      (Uint64Marshaller.setBits 64).demarshal (dst1.seek dst.pos_) old = .ret 8 dst1 v ∧
      DoubleMarshaller.new.demarshal (dst1.seek dst.pos_) old = .ret 8 dst1 v := by
  have hlen : (storeBytes 8 v).length = 8 := storeBytes_length 8 v
  have hcur : ((dst.poke (storeBytes 8 v)).seek (dst.pos_ + 8)).seek dst.pos_ =
      (dst.poke (storeBytes 8 v)).seek dst.pos_ := rfl
  have htake : ((dst.poke (storeBytes 8 v)).seek dst.pos_).cur.take 8 = storeBytes 8 v := by
    have h := @poke_cur_take dst (storeBytes 8 v) hr
    rw [hlen] at h
    exact h
  have hsize : (dst.poke (storeBytes 8 v)).size = dst.size :=
    poke_size (by rw [hlen]; rw [left_of_inRange hr] at hs; unfold Block.InRange at hr; omega)
  have hleft : ¬ ((dst.poke (storeBytes 8 v)).seek dst.pos_).left < 8 := by
    have hr2 : ((dst.poke (storeBytes 8 v)).seek dst.pos_).InRange := by
      unfold Block.InRange at hr ⊢
      rw [show ((dst.poke (storeBytes 8 v)).seek dst.pos_).size =
        (dst.poke (storeBytes 8 v)).size from rfl, hsize]
      exact hr
    rw [left_of_inRange hr2, show ((dst.poke (storeBytes 8 v)).seek dst.pos_).size =
        (dst.poke (storeBytes 8 v)).size from rfl, hsize]
    rw [left_of_inRange hr] at hs
    exact Nat.not_lt.2 hs
  have hm : (Uint64Marshaller.setBits 64).marshal v dst =
      .ret 8 ((dst.poke (storeBytes 8 v)).seek (dst.pos_ + 8)) := by
    rw [uint64_setBits_64]
    unfold Uint64Marshaller.marshal
    rw [uint64_limit_64, if_neg (by omega), if_neg (Nat.not_lt.2 hs)]
  have hd : (Uint64Marshaller.setBits 64).demarshal
      (((dst.poke (storeBytes 8 v)).seek (dst.pos_ + 8)).seek dst.pos_) old =
      .ret 8 ((dst.poke (storeBytes 8 v)).seek (dst.pos_ + 8)) v := by
    rw [uint64_setBits_64, hcur]
    unfold Uint64Marshaller.demarshal
    rw [if_neg hleft]
    simp only
    rw [htake, loadBytes_storeBytes 64 8 (by decide), Nat.mod_eq_of_lt (by omega)]
    rfl
  refine ⟨_, hm, hm, rfl, ?_, hd, hd⟩
  rw [hcur, htake, storeBytes_eight]

/-- Witness for `uint64_round_trip`: the value 1234 of `TestMarshalBugs` in a
block of 9 bytes. -/
theorem uint64_round_trip_witness :
    ∃ dst1,
      (Uint64Marshaller.setBits 64).marshal 1234 (Block.new [7, 7, 7, 7, 7, 7, 7, 7, 7]) =
        .ret 8 dst1 ∧
      DoubleMarshaller.new.marshal 1234 (Block.new [7, 7, 7, 7, 7, 7, 7, 7, 7]) = .ret 8 dst1 ∧
      dst1.pos_ = (Block.new [7, 7, 7, 7, 7, 7, 7, 7, 7]).pos_ + 8 ∧
      (dst1.seek (Block.new [7, 7, 7, 7, 7, 7, 7, 7, 7]).pos_).cur.take 8 =
        [1234 / 2 ^ 56 % 256, 1234 / 2 ^ 48 % 256, 1234 / 2 ^ 40 % 256, 1234 / 2 ^ 32 % 256,
         1234 / 2 ^ 24 % 256, 1234 / 2 ^ 16 % 256, 1234 / 2 ^ 8 % 256, 1234 % 256] ∧
      (Uint64Marshaller.setBits 64).demarshal
        (dst1.seek (Block.new [7, 7, 7, 7, 7, 7, 7, 7, 7]).pos_) 0 = .ret 8 dst1 1234 ∧
      DoubleMarshaller.new.demarshal
        (dst1.seek (Block.new [7, 7, 7, 7, 7, 7, 7, 7, 7]).pos_) 0 = .ret 8 dst1 1234 :=
  uint64_round_trip 1234 (by decide) (Block.new [7, 7, 7, 7, 7, 7, 7, 7, 7]) (by decide)
    (by decide) 0

/-! ## Zero-based int fields -/

theorem cur_eq_drop (b : Block) : b.cur = b.buf_.drop b.pos_ := rfl

theorem buf_eq_take_cur (b : Block) : b.buf_ = b.buf_.take b.pos_ ++ b.cur := by
  rw [cur_eq_drop, List.take_append_drop]

theorem cur_length {b : Block} (h : b.InRange) : b.cur.length = b.left := by
  rw [left_of_inRange h, cur_eq_drop, List.length_drop]
  rfl

/-- The marshaller that `setRange(0, max)` makes is zero-based. -/
theorem setRange_zeroBased (max : Int) (h0 : 0 ≤ max) (h1 : max < 2 ^ 31) :
    (IntMarshaller.setRange 0 max).ZeroBased ∧ (IntMarshaller.setRange 0 max).max_ = max := by
  have ht : toInt32 (max - 0) = max := by
    rw [sub_zero]
    exact toInt32_of_range (by omega) h1
  unfold IntMarshaller.ZeroBased
  simp only [IntMarshaller.setRange, ht]
  refine ⟨⟨trivial, h0, h1, ?_⟩, trivial⟩
  split_ifs with ha hb hc
  · norm_num; omega
  · norm_num; omega
  · norm_num; omega
  · norm_num; omega

/-- What `IntMarshaller::marshal` does with a value of a zero-based range
when the block has room. -/
theorem int_marshal_zero_based (m : IntMarshaller) (hz : m.ZeroBased) (v : Int) (h0 : 0 ≤ v)
    (hv : v ≤ m.max_) (dst : Block) (hs : m.bytes_ ≤ dst.left) :
    m.marshal v dst =
      .ret m.bytes_ ((dst.poke (storeBytes m.bytes_ v.toNat)).seek (dst.pos_ + m.bytes_)) := by
  obtain ⟨hmin, _, hmax, _, _, _⟩ := hz
  unfold IntMarshaller.marshal
  rw [hmin, if_neg (by omega), if_neg (Nat.not_lt.2 hs), toUInt32_of_nonneg h0 (by omega)]

/-- What `IntMarshaller::demarshal` does with the bytes that `marshal` stored
for a value of a zero-based range. -/
theorem int_demarshal_zero_based (m : IntMarshaller) (hz : m.ZeroBased) (v : Int) (h0 : 0 ≤ v)
    (hv : v ≤ m.max_) (src : Block) (old : Int) (hs : m.bytes_ ≤ src.left)
    (hb : src.cur.take m.bytes_ = storeBytes m.bytes_ v.toNat) :
    m.demarshal src old = .ret m.bytes_ (src.seek (src.pos_ + m.bytes_)) v := by
  obtain ⟨hmin, _, hmax, hb1, hb4, hlt⟩ := hz
  have hpow : (256 : Nat) ^ m.bytes_ ≤ 2 ^ 32 := by
    calc (256 : Nat) ^ m.bytes_ ≤ 256 ^ 4 := Nat.pow_le_pow_right (by decide) hb4
      _ = 2 ^ 32 := by norm_num
  have hvn : v.toNat < 256 ^ m.bytes_ := by
    have : ((v.toNat : Nat) : Int) < ((256 ^ m.bytes_ : Nat) : Int) := by
      rw [Int.toNat_of_nonneg h0]
      push_cast
      omega
    exact_mod_cast this
  unfold IntMarshaller.demarshal
  rw [if_neg (Nat.not_lt.2 hs)]
  simp only
  rw [hb, loadBytes_storeBytes 32 _ hpow, Nat.mod_eq_of_lt hvn, hmin, add_zero,
    Int.toNat_of_nonneg h0, toInt32_of_range (by omega) (by omega), if_neg (by omega)]

/-! ## Bounded strings (C19) -/

/-- A block described by the bytes before and from its cursor. -/
theorem block_decomp (b : Block) (h : b.InRange) :
    b.buf_ = b.buf_.take b.pos_ ++ b.cur ∧ b.pos_ = (b.buf_.take b.pos_).length := by
  refine ⟨buf_eq_take_cur b, ?_⟩
  unfold Block.InRange Block.size at h
  rw [List.length_take]
  omega

theorem left_of_decomp {x : Block} {A B : List Nat} (hbuf : x.buf_ = A ++ B)
    (hpos : x.pos_ = A.length) : x.left = B.length := by
  have hr : x.InRange := by
    unfold Block.InRange Block.size
    rw [hbuf, hpos, List.length_append]
    omega
  rw [left_of_inRange hr]
  unfold Block.size
  rw [hbuf, hpos, List.length_append]
  omega

theorem cur_of_decomp {x : Block} {A B : List Nat} (hbuf : x.buf_ = A ++ B)
    (hpos : x.pos_ = A.length) : x.cur = B := by
  rw [cur_eq_drop, hbuf, hpos, List.drop_left]

theorem poke_of_decomp {x : Block} {A B : List Nat} (bytes : List Nat) (hbuf : x.buf_ = A ++ B)
    (hpos : x.pos_ = A.length) :
    (x.poke bytes).buf_ = (A ++ bytes) ++ B.drop bytes.length := by
  simp only [Block.poke, hbuf, hpos, List.take_left, List.drop_append, List.append_assoc]

theorem write_of_decomp {x : Block} {A B : List Nat} (s : List Nat) (hbuf : x.buf_ = A ++ B)
    (hpos : x.pos_ = A.length) (hs : s.length ≤ B.length) :
    x.write s =
      (s.length, { buf_ := (A ++ s) ++ B.drop s.length, pos_ := x.pos_ + s.length,
                   atEof_ := x.atEof_ }) := by
  unfold Block.write
  rw [left_of_decomp hbuf hpos, if_neg (Nat.not_lt.2 hs)]
  have h := poke_of_decomp s hbuf hpos
  simp only [Block.poke] at h ⊢
  rw [h]

theorem toSizeT_natCast {n : Nat} (h : n < 2 ^ 32) : toSizeT (n : Int) = n := by
  unfold toSizeT
  rw [Int.emod_eq_of_lt (by omega) (by omega)]
  exact Int.toNat_natCast n

/-- C19: a string field whose maximum length is 2^31 or more does not marshal
at all.  The constructor converts `maxSize` to `int` for the range of the
length field, so with `maxSize = 2^31` the range is `[0, -2^31]` and the
length of every string, here the empty one, is out of bounds. -/
theorem string_marshal_huge_bound :
    (StringMarshaller.new 2147483648).marshal [] (Block.new [7, 7, 7, 7]) =
      .raise (.invalid_argument "IntMarshaller argument is out of bounds")
        (Block.new [7, 7, 7, 7]) := by
  decide


/-- `StringMarshaller::marshal` with a zero-based length field, on a block
described by the bytes before and from its cursor. -/
theorem string_marshal_of_decomp (m : StringMarshaller) (hz : m.int_.ZeroBased)
    (hmax : m.int_.max_ = (m.maxSize_ : Int)) (s : List Nat) (hs : s.length ≤ m.maxSize_)
    (x : Block) (A B : List Nat) (hbuf : x.buf_ = A ++ B) (hpos : x.pos_ = A.length)
    (hsp : m.int_.bytes_ + s.length ≤ B.length) :
    m.marshal s x =
      .ret (s.length + m.int_.bytes_)
        { buf_ := (A ++ storeBytes m.int_.bytes_ s.length ++ s) ++
            (B.drop m.int_.bytes_).drop s.length
          pos_ := x.pos_ + m.int_.bytes_ + s.length
          atEof_ := false } := by
  have hz2 := hz
  obtain ⟨hmin, _, hmax31, hb1, _, _⟩ := hz2
  have hsi : toInt32 (s.length : Int) = s.length := toInt32_of_range (by omega) (by omega)
  have henc : (storeBytes m.int_.bytes_ s.length).length = m.int_.bytes_ :=
    storeBytes_length _ _
  have hleft := left_of_decomp hbuf hpos
  have hI := int_marshal_zero_based m.int_ hz s.length (by omega) (by omega) x (by omega)
  rw [Int.toNat_natCast] at hI
  have h1buf : ((x.poke (storeBytes m.int_.bytes_ s.length)).seek (x.pos_ + m.int_.bytes_)).buf_ =
      (A ++ storeBytes m.int_.bytes_ s.length) ++ B.drop m.int_.bytes_ := by
    have h := poke_of_decomp (storeBytes m.int_.bytes_ s.length) hbuf hpos
    rw [henc] at h
    exact h
  have h1pos : ((x.poke (storeBytes m.int_.bytes_ s.length)).seek (x.pos_ + m.int_.bytes_)).pos_ =
      (A ++ storeBytes m.int_.bytes_ s.length).length := by
    rw [List.length_append, henc, ← hpos]
    rfl
  have hw := write_of_decomp s h1buf h1pos (by rw [List.length_drop]; omega)
  unfold StringMarshaller.marshal
  rw [if_neg (by omega), hleft, if_neg (by omega), hsi, hI]
  simp only
  rw [hw]
  rfl

/-- `StringMarshaller::demarshal` with a zero-based length field, on a block
whose bytes from the cursor on are a length field followed by the characters. -/
theorem string_demarshal_of_decomp (m : StringMarshaller) (hz : m.int_.ZeroBased)
    (hmax : m.int_.max_ = (m.maxSize_ : Int)) (s : List Nat) (hs : s.length ≤ m.maxSize_)
    (x : Block) (A R : List Nat)
    (hbuf : x.buf_ = A ++ (storeBytes m.int_.bytes_ s.length ++ (s ++ R)))
    (hpos : x.pos_ = A.length) (old : List Nat) :
    m.demarshal x old =
      .ret (m.int_.bytes_ + s.length) (x.seek (x.pos_ + m.int_.bytes_ + s.length)) s := by
  have hz2 := hz
  obtain ⟨hmin, _, hmax31, hb1, _, _⟩ := hz2
  have henc : (storeBytes m.int_.bytes_ s.length).length = m.int_.bytes_ :=
    storeBytes_length _ _
  have hleft := left_of_decomp hbuf hpos
  have hcur := cur_of_decomp hbuf hpos
  have hD : m.int_.demarshal x 0 =
      .ret m.int_.bytes_ (x.seek (x.pos_ + m.int_.bytes_)) (s.length : Int) := by
    apply int_demarshal_zero_based m.int_ hz s.length (by omega) (by omega) x 0
    · rw [hleft, List.length_append, henc]
      omega
    · rw [hcur, Int.toNat_natCast, List.take_left' henc]
  have h3buf : (x.seek (x.pos_ + m.int_.bytes_)).buf_ =
      (A ++ storeBytes m.int_.bytes_ s.length) ++ (s ++ R) := by
    rw [show (x.seek (x.pos_ + m.int_.bytes_)).buf_ = x.buf_ from rfl, hbuf,
      List.append_assoc]
  have h3pos : (x.seek (x.pos_ + m.int_.bytes_)).pos_ =
      (A ++ storeBytes m.int_.bytes_ s.length).length := by
    rw [List.length_append, henc, ← hpos]
    rfl
  unfold StringMarshaller.demarshal
  rw [hD]
  simp only
  rw [if_neg (by omega), toSizeT_natCast (by omega), left_of_decomp h3buf h3pos,
    cur_of_decomp h3buf h3pos, if_neg (by rw [List.length_append]; omega), List.take_left]
  rfl

/-- C19 (amended): the format and the round trip of a bounded string whose
maximum length `L` fits an `int`.  For every string `s` of at most `L`
characters and every block with room for the length field and the
characters, `marshal` returns the size of the length field plus the length of
`s`; the bytes it stores at the old position are the bytes that an int field
of range `[0, L]` stores for the length of `s`, followed by the characters of
`s`; and after seeking back `demarshal` returns the same size, ends at the
same position and yields `s`. -/
theorem string_round_trip (L : Nat) (hL : L < 2 ^ 31) (s : List Nat) (hs : s.length ≤ L)
    (dst : Block) (hr : dst.InRange)
    (hsp : (IntMarshaller.setRange 0 L).bytes_ + s.length ≤ dst.left) (old : List Nat) :
    ∃ dst1 dstI,
      (StringMarshaller.new L).marshal s dst =
        .ret (s.length + (IntMarshaller.setRange 0 L).bytes_) dst1 ∧
      (IntMarshaller.setRange 0 L).marshal s.length dst =
        .ret (IntMarshaller.setRange 0 L).bytes_ dstI ∧
      (dst1.seek dst.pos_).cur.take ((IntMarshaller.setRange 0 L).bytes_ + s.length) =
        (dstI.seek dst.pos_).cur.take (IntMarshaller.setRange 0 L).bytes_ ++ s ∧
      dst1.pos_ = dst.pos_ + ((IntMarshaller.setRange 0 L).bytes_ + s.length) ∧
      (StringMarshaller.new L).demarshal (dst1.seek dst.pos_) old =
        .ret ((IntMarshaller.setRange 0 L).bytes_ + s.length) dst1 s := by
  have hLi : toInt32 (L : Int) = L := toInt32_of_range (by omega) (by omega)
  have hm : StringMarshaller.new L =
      { int_ := IntMarshaller.setRange 0 L, maxSize_ := L } := by
    unfold StringMarshaller.new
    rw [hLi]
  obtain ⟨hz, hmaxeq⟩ := setRange_zeroBased L (by omega) (by exact_mod_cast hL)
  rw [hm]
  generalize IntMarshaller.setRange 0 (L : Int) = im at hz hmaxeq hsp ⊢
  obtain ⟨hbuf, hpos⟩ := block_decomp dst hr
  have hleft : dst.left = dst.cur.length := (cur_length hr).symm
  generalize dst.buf_.take dst.pos_ = A at hbuf hpos
  generalize dst.cur = B at hbuf hleft
  have henc : (storeBytes im.bytes_ s.length).length = im.bytes_ := storeBytes_length _ _
  have hM := string_marshal_of_decomp { int_ := im, maxSize_ := L } hz hmaxeq s hs dst A B
    hbuf hpos (by show im.bytes_ + s.length ≤ B.length; omega)
  have hI := int_marshal_zero_based im hz s.length (by omega) (by omega) dst (by omega)
  rw [Int.toNat_natCast] at hI
  have hD := string_demarshal_of_decomp { int_ := im, maxSize_ := L } hz hmaxeq s hs
    (Block.seek { buf_ := (A ++ storeBytes im.bytes_ s.length ++ s) ++
                    (B.drop im.bytes_).drop s.length,
                  pos_ := dst.pos_ + im.bytes_ + s.length,
                  atEof_ := false } dst.pos_)
    A ((B.drop im.bytes_).drop s.length)
    (by simp only [Block.seek, List.append_assoc]) hpos old
  dsimp only at hM hD
  refine ⟨_, _, hM, hI, ?_, ?_, ?_⟩
  · have h1 :
        (Block.seek
          { buf_ := (A ++ storeBytes im.bytes_ s.length ++ s) ++
              (B.drop im.bytes_).drop s.length,
            pos_ := dst.pos_ + im.bytes_ + s.length,
            atEof_ := false } dst.pos_).cur =
        storeBytes im.bytes_ s.length ++ (s ++ (B.drop im.bytes_).drop s.length) :=
      cur_of_decomp (A := A) (by simp only [Block.seek, List.append_assoc]) hpos
    have h2 : (((dst.poke (storeBytes im.bytes_ s.length)).seek (dst.pos_ + im.bytes_)).seek
        dst.pos_).cur = storeBytes im.bytes_ s.length ++ B.drop im.bytes_ := by
      have h := poke_of_decomp (storeBytes im.bytes_ s.length) hbuf hpos
      rw [henc, List.append_assoc] at h
      exact cur_of_decomp
        (x := ((dst.poke (storeBytes im.bytes_ s.length)).seek (dst.pos_ + im.bytes_)).seek
          dst.pos_) (A := A) h hpos
    rw [h1, h2, List.take_left' henc, ← List.append_assoc, List.take_left']
    rw [List.length_append, henc]
  · show dst.pos_ + im.bytes_ + s.length = dst.pos_ + (im.bytes_ + s.length)
    omega
  · rw [hD]
    rfl

/-- Witness for `string_round_trip`: a two-character string in a field of
maximum length 200. -/
theorem string_round_trip_witness :
    ∃ dst1 dstI,
      (StringMarshaller.new 200).marshal [104, 105] (Block.new [7, 7, 7, 7, 7]) =
        .ret (([104, 105] : List Nat).length + (IntMarshaller.setRange 0 (200 : Nat)).bytes_)
          dst1 ∧
      (IntMarshaller.setRange 0 (200 : Nat)).marshal (([104, 105] : List Nat).length)
          (Block.new [7, 7, 7, 7, 7]) =
        .ret (IntMarshaller.setRange 0 (200 : Nat)).bytes_ dstI ∧
      (dst1.seek (Block.new [7, 7, 7, 7, 7]).pos_).cur.take
          ((IntMarshaller.setRange 0 (200 : Nat)).bytes_ + ([104, 105] : List Nat).length) =
        (dstI.seek (Block.new [7, 7, 7, 7, 7]).pos_).cur.take
          (IntMarshaller.setRange 0 (200 : Nat)).bytes_ ++ [104, 105] ∧
      dst1.pos_ = (Block.new [7, 7, 7, 7, 7]).pos_ +
        ((IntMarshaller.setRange 0 (200 : Nat)).bytes_ + ([104, 105] : List Nat).length) ∧
      (StringMarshaller.new 200).demarshal (dst1.seek (Block.new [7, 7, 7, 7, 7]).pos_) [] =
        .ret ((IntMarshaller.setRange 0 (200 : Nat)).bytes_ + ([104, 105] : List Nat).length)
          dst1 [104, 105] :=
  string_round_trip 200 (by decide) [104, 105] (by decide) (Block.new [7, 7, 7, 7, 7])
    (by decide) (by decide) []

/-! ## Records of zero-based int fields (C12) -/

theorem toInt32_toUInt32 {v : Int} (h1 : -2 ^ 31 ≤ v) (h2 : v < 2 ^ 31) :
    toInt32 (toUInt32 v : Int) = v := by
  unfold toInt32 toUInt32
  rw [Int.toNat_of_nonneg (Int.emod_nonneg _ (by norm_num))]
  omega

theorem intFieldsWire_length (mem : Mem) (src : Nat) (ms : List (Nat × IntMarshaller)) :
    (intFieldsWire mem src ms).length = intFieldsSize ms := by
  induction ms with
  | nil => rfl
  | cons f rest ih =>
    simp only [intFieldsWire, intFieldsSize, List.length_append, storeBytes_length,
      List.map_cons, List.sum_cons] at ih ⊢
    rw [ih]

/-- The loop of `TypeMarshal::marshal` over zero-based int fields whose values
are in range, in a block with room: it stores the bytes of the fields one
after the other and advances the position by their number. -/
theorem marshalFrom_intFields (mem : Mem) (src : Nat) :
    ∀ (ms : List (Nat × IntMarshaller)) (x : Block) (A B : List Nat) (pos : Nat),
      (∀ f ∈ ms, f.2.ZeroBased ∧ 0 ≤ readInt mem (src + f.1) ∧
        readInt mem (src + f.1) ≤ f.2.max_) →
      x.buf_ = A ++ B → x.pos_ = A.length → intFieldsSize ms ≤ B.length →
      ∃ x1, TypeMarshal.marshalFrom (intFields ms) mem src x pos =
          .ret (x.pos_ + intFieldsSize ms - pos) x1 ∧
        x1.buf_ = A ++ (intFieldsWire mem src ms ++ B.drop (intFieldsSize ms)) ∧
        x1.pos_ = x.pos_ + intFieldsSize ms := by
  intro ms
  induction ms with
  | nil =>
    intro x A B pos _ hbuf hpos _
    refine ⟨x, ?_, ?_, ?_⟩
    · simp [intFields, TypeMarshal.marshalFrom, intFieldsSize]
    · simpa [intFieldsWire, intFieldsSize] using hbuf
    · simp [intFieldsSize]
  | cons f rest ih =>
    intro x A B pos hf hbuf hpos hsz
    obtain ⟨hz, h0, hv⟩ := hf f (List.mem_cons_self _ _)
    have hsz2 : f.2.bytes_ + intFieldsSize rest ≤ B.length := by
      simpa [intFieldsSize] using hsz
    have henc : (storeBytes f.2.bytes_ (readInt mem (src + f.1)).toNat).length = f.2.bytes_ :=
      storeBytes_length _ _
    have hI := int_marshal_zero_based f.2 hz _ h0 hv x
      (by rw [left_of_decomp hbuf hpos]; omega)
    have h1buf : ((x.poke (storeBytes f.2.bytes_ (readInt mem (src + f.1)).toNat)).seek
        (x.pos_ + f.2.bytes_)).buf_ =
        (A ++ storeBytes f.2.bytes_ (readInt mem (src + f.1)).toNat) ++ B.drop f.2.bytes_ := by
      have h := poke_of_decomp (storeBytes f.2.bytes_ (readInt mem (src + f.1)).toNat) hbuf hpos
      rw [henc] at h
      exact h
    have h1pos : ((x.poke (storeBytes f.2.bytes_ (readInt mem (src + f.1)).toNat)).seek
        (x.pos_ + f.2.bytes_)).pos_ =
        (A ++ storeBytes f.2.bytes_ (readInt mem (src + f.1)).toNat).length := by
      rw [List.length_append, henc, ← hpos]
      rfl
    obtain ⟨x1, hx1, hb1, hp1⟩ := ih _ _ _ pos
      (fun g hg => hf g (List.mem_cons_of_mem _ hg)) h1buf h1pos
      (by rw [List.length_drop]; omega)
    have hb0 : f.2.bytes_ ≠ 0 := by
      obtain ⟨_, _, _, hb, _, _⟩ := hz
      omega
    refine ⟨x1, ?_, ?_, ?_⟩
    · have hstep : TypeMarshal.marshalFrom (intFields (f :: rest)) mem src x pos =
          TypeMarshal.marshalFrom (intFields rest) mem src
            ((x.poke (storeBytes f.2.bytes_ (readInt mem (src + f.1)).toNat)).seek
              (x.pos_ + f.2.bytes_)) pos := by
        simp only [intFields, List.map_cons, TypeMarshal.marshalFrom, IMarshaller.marshal,
          FieldMarshaller.marshal, hI, hb0, if_false]
      rw [hstep, hx1]
      congr 1
      show x.pos_ + f.2.bytes_ + intFieldsSize rest - pos =
        x.pos_ + intFieldsSize (f :: rest) - pos
      simp only [intFieldsSize, List.map_cons, List.sum_cons]
      omega
    · rw [hb1]
      simp only [intFieldsWire, intFieldsSize, List.map_cons, List.sum_cons, List.append_assoc,
        List.drop_drop]
    · rw [hp1]
      show x.pos_ + f.2.bytes_ + intFieldsSize rest = x.pos_ + intFieldsSize (f :: rest)
      simp only [intFieldsSize, List.map_cons, List.sum_cons]
      omega

/-- The loop of `TypeMarshal::demarshal` over zero-based int fields, on a block
that holds the bytes of the fields of the record at `src`: it advances the
position by their number and stores into each field at `dst` the value that
the field has at `src`; no other address is written. -/
theorem demarshalFrom_intFields (mem : Mem) (src dst : Nat) :
    ∀ (ms : List (Nat × IntMarshaller)) (x : Block) (A R : List Nat) (pos : Nat) (mem0 : Mem),
      (∀ f ∈ ms, f.2.ZeroBased ∧ 0 ≤ readInt mem (src + f.1) ∧
        readInt mem (src + f.1) ≤ f.2.max_) →
      x.buf_ = A ++ (intFieldsWire mem src ms ++ R) → x.pos_ = A.length →
      ∃ x1 mem1, TypeMarshal.demarshalFrom (intFields ms) x mem0 dst pos =
          .ret (x.pos_ + intFieldsSize ms - pos) x1 mem1 ∧
        x1.buf_ = x.buf_ ∧ x1.pos_ = x.pos_ + intFieldsSize ms ∧
        (∀ f ∈ ms, readInt mem1 (dst + f.1) = readInt mem (src + f.1)) ∧
        (∀ a, (∀ f ∈ ms, a ≠ dst + f.1) → mem1 a = mem0 a) := by
  intro ms
  induction ms with
  | nil =>
    intro x A R pos mem0 _ hbuf hpos
    refine ⟨x, mem0, ?_, rfl, ?_, ?_, ?_⟩
    · simp [intFields, TypeMarshal.demarshalFrom, intFieldsSize]
    · simp [intFieldsSize]
    · intro f hf; cases hf
    · intro a _; rfl
  | cons f rest ih =>
    intro x A R pos mem0 hf hbuf hpos
    obtain ⟨hz, h0, hv⟩ := hf f (List.mem_cons_self _ _)
    have henc : (storeBytes f.2.bytes_ (readInt mem (src + f.1)).toNat).length = f.2.bytes_ :=
      storeBytes_length _ _
    have hbuf2 : x.buf_ = A ++ (storeBytes f.2.bytes_ (readInt mem (src + f.1)).toNat ++
        (intFieldsWire mem src rest ++ R)) := by
      rw [hbuf]
      simp only [intFieldsWire, List.append_assoc]
    have hD := int_demarshal_zero_based f.2 hz _ h0 hv x (readInt mem0 (dst + f.1))
      (by rw [left_of_decomp hbuf2 hpos, List.length_append, henc]; omega)
      (by rw [cur_of_decomp hbuf2 hpos, List.take_left' henc])
    have h1buf : (x.seek (x.pos_ + f.2.bytes_)).buf_ =
        (A ++ storeBytes f.2.bytes_ (readInt mem (src + f.1)).toNat) ++
          (intFieldsWire mem src rest ++ R) := by
      rw [show (x.seek (x.pos_ + f.2.bytes_)).buf_ = x.buf_ from rfl, hbuf2, List.append_assoc]
    have h1pos : (x.seek (x.pos_ + f.2.bytes_)).pos_ =
        (A ++ storeBytes f.2.bytes_ (readInt mem (src + f.1)).toNat).length := by
      rw [List.length_append, henc, ← hpos]
      rfl
    obtain ⟨x1, mem1, hx1, hb1, hp1, hval, hframe⟩ := ih _ _ _ pos
      (mem0.store (dst + f.1) (.word (toUInt32 (readInt mem (src + f.1)))))
      (fun g hg => hf g (List.mem_cons_of_mem _ hg)) h1buf h1pos
    have hb0 : f.2.bytes_ ≠ 0 := by
      obtain ⟨_, _, _, hb, _, _⟩ := hz
      omega
    have hrange : -2 ^ 31 ≤ readInt mem (src + f.1) ∧ readInt mem (src + f.1) < 2 ^ 31 := by
      obtain ⟨_, _, hm, _, _, _⟩ := hz
      omega
    refine ⟨x1, mem1, ?_, hb1, ?_, ?_, ?_⟩
    · have hstep : TypeMarshal.demarshalFrom (intFields (f :: rest)) x mem0 dst pos =
          TypeMarshal.demarshalFrom (intFields rest) (x.seek (x.pos_ + f.2.bytes_))
            (mem0.store (dst + f.1) (.word (toUInt32 (readInt mem (src + f.1))))) dst pos := by
        simp only [intFields, List.map_cons, TypeMarshal.demarshalFrom, IMarshaller.demarshal,
          FieldMarshaller.demarshal, hD, Demarshalled.toMem, hb0, if_false]
      rw [hstep, hx1]
      congr 1
      show x.pos_ + f.2.bytes_ + intFieldsSize rest - pos =
        x.pos_ + intFieldsSize (f :: rest) - pos
      simp only [intFieldsSize, List.map_cons, List.sum_cons]
      omega
    · rw [hp1]
      show x.pos_ + f.2.bytes_ + intFieldsSize rest = x.pos_ + intFieldsSize (f :: rest)
      simp only [intFieldsSize, List.map_cons, List.sum_cons]
      omega
    · intro g hg
      by_cases hlater : ∃ g2 ∈ rest, g2.1 = g.1
      · obtain ⟨g2, hg2, he⟩ := hlater
        have := hval g2 hg2
        rw [he] at this
        exact this
      · have hg1 : g.1 = f.1 := by
          rcases List.mem_cons.1 hg with h | h
          · rw [h]
          · exact absurd ⟨g, h, rfl⟩ hlater
        rw [hg1]
        have hne : ∀ g2 ∈ rest, dst + f.1 ≠ dst + g2.1 := by
          intro g2 hg2 he
          exact hlater ⟨g2, hg2, by omega⟩
        rw [readInt, hframe _ hne]
        simp only [Mem.store, if_true, Cell.bits]
        exact toInt32_toUInt32 hrange.1 hrange.2
    · intro a ha
      rw [hframe a (fun g hg => ha g (List.mem_cons_of_mem _ hg))]
      simp only [Mem.store, if_neg (ha f (List.mem_cons_self _ _))]

/-- C12: the record round trip for zero-based int ranges.  For every record
type declared with int fields of ranges `[0, max_i]`, every record whose
field values lie within their ranges, and every block with at least as many
bytes left as the fields take: `marshal` returns the wire size of the record
and advances the block by it; after seeking back to where the block was (0
for a fresh block), `demarshal` into any memory returns the same size, and
every field of the demarshalled record equals the field of the original.
The size is positive as soon as the record has a field, so both calls
succeed. -/
theorem record_round_trip (fs : List (Nat × Int)) (hmax : ∀ f ∈ fs, f.2 < 2 ^ 31)
    (mem : Mem) (src : Nat)
    (hval : ∀ f ∈ fs, 0 ≤ readInt mem (src + f.1) ∧ readInt mem (src + f.1) ≤ f.2)
    (dst : Block) (hr : dst.InRange) (hsp : intRecordSize fs ≤ dst.left)
    (mem0 : Mem) (d : Nat) :
    ∃ dst1 src1 mem1,
      (intRecord fs).marshal mem src dst = .ret (intRecordSize fs) dst1 ∧
      dst1.pos_ = dst.pos_ + intRecordSize fs ∧
      (intRecord fs).demarshal (dst1.seek dst.pos_) mem0 d =
        .ret (intRecordSize fs) src1 mem1 ∧
      src1.pos_ = dst.pos_ + intRecordSize fs ∧
      (∀ f ∈ fs, readInt mem1 (d + f.1) = readInt mem (src + f.1)) ∧
      (fs ≠ [] → 0 < intRecordSize fs) := by
  have hms : ∀ g ∈ fs.map (fun f => (f.1, IntMarshaller.setRange 0 f.2)),
      g.2.ZeroBased ∧ 0 ≤ readInt mem (src + g.1) ∧ readInt mem (src + g.1) ≤ g.2.max_ := by
    intro g hg
    obtain ⟨f, hf, rfl⟩ := List.mem_map.1 hg
    obtain ⟨h0, hv⟩ := hval f hf
    obtain ⟨hz, hmx⟩ := setRange_zeroBased f.2 (by omega) (hmax f hf)
    exact ⟨hz, h0, by rw [hmx]; exact hv⟩
  have hlink : ∀ f ∈ fs, ∃ g ∈ fs.map (fun f => (f.1, IntMarshaller.setRange 0 f.2)),
      g.1 = f.1 := fun f hf => ⟨_, List.mem_map_of_mem _ hf, rfl⟩
  have hne : fs ≠ [] → fs.map (fun f => (f.1, IntMarshaller.setRange 0 f.2)) ≠ [] := by
    intro h1 h2
    exact h1 (List.map_eq_nil_iff.1 h2)
  obtain ⟨hbuf, hpos⟩ := block_decomp dst hr
  have hleft : dst.left = dst.cur.length := (cur_length hr).symm
  unfold intRecordSize at hsp ⊢
  unfold intRecord
  generalize fs.map (fun f => (f.1, IntMarshaller.setRange 0 f.2)) = ms at hms hsp hlink hne ⊢
  generalize dst.buf_.take dst.pos_ = A at hbuf hpos
  generalize dst.cur = B at hbuf hleft
  obtain ⟨x1, hx1, hb1, hp1⟩ := marshalFrom_intFields mem src ms dst A B dst.pos_ hms hbuf hpos
    (by omega)
  rw [Nat.add_sub_cancel_left] at hx1
  obtain ⟨x2, mem1, hx2, hb2, hp2, hv2, _⟩ := demarshalFrom_intFields mem src d ms
    (x1.seek dst.pos_) A (B.drop (intFieldsSize ms)) dst.pos_ mem0 hms hb1 hpos
  rw [show (x1.seek dst.pos_).pos_ = dst.pos_ from rfl, Nat.add_sub_cancel_left] at hx2
  refine ⟨x1, x2, mem1, hx1, hp1, hx2, hp2, ?_, ?_⟩
  · intro f hf
    obtain ⟨g, hg, he⟩ := hlink f hf
    rw [← he]
    exact hv2 g hg
  · intro h
    cases ms with
    | nil => exact absurd rfl (hne h)
    | cons g rest =>
      obtain ⟨⟨_, _, _, hb, _, _⟩, _⟩ := hms g (List.mem_cons_self _ _)
      simp only [intFieldsSize, List.map_cons, List.sum_cons]
      omega

/-- Witness for `record_round_trip`: the `AcceptPacket` of `TestMarshalBugs`,
with the fields 100, 100 and 4 in the ranges up to 1000, 30000 and 10000,
marshalled into a block of 8 bytes. -/
theorem record_round_trip_witness :
    ∃ dst1 src1 mem1,
      (intRecord [(0, 1000), (4, 30000), (8, 10000)]).marshal
          (fun p => if p = 0 then .word 100 else if p = 4 then .word 100 else .word 4) 0
          (Block.new [7, 7, 7, 7, 7, 7, 7, 7]) =
        .ret (intRecordSize [(0, 1000), (4, 30000), (8, 10000)]) dst1 ∧
      dst1.pos_ = (Block.new [7, 7, 7, 7, 7, 7, 7, 7]).pos_ +
        intRecordSize [(0, 1000), (4, 30000), (8, 10000)] ∧
      (intRecord [(0, 1000), (4, 30000), (8, 10000)]).demarshal
          (dst1.seek (Block.new [7, 7, 7, 7, 7, 7, 7, 7]).pos_) (fun _ => .word 0) 0 =
        .ret (intRecordSize [(0, 1000), (4, 30000), (8, 10000)]) src1 mem1 ∧
      src1.pos_ = (Block.new [7, 7, 7, 7, 7, 7, 7, 7]).pos_ +
        intRecordSize [(0, 1000), (4, 30000), (8, 10000)] ∧
      (∀ f ∈ ([(0, 1000), (4, 30000), (8, 10000)] : List (Nat × Int)),
        readInt mem1 (0 + f.1) =
          readInt (fun p => if p = 0 then .word 100 else if p = 4 then .word 100 else .word 4)
            (0 + f.1)) ∧
      (([(0, 1000), (4, 30000), (8, 10000)] : List (Nat × Int)) ≠ [] →
        0 < intRecordSize [(0, 1000), (4, 30000), (8, 10000)]) :=
  record_round_trip [(0, 1000), (4, 30000), (8, 10000)] (by decide)
    (fun p => if p = 0 then .word 100 else if p = 4 then .word 100 else .word 4) 0
    (by decide) (Block.new [7, 7, 7, 7, 7, 7, 7, 7]) (by decide) (by decide)
    (fun _ => .word 0) 0

/-! ## Ids (C15, C17) -/

/-- C15: duplicate ids are not detected.  Two distinct types, `A` and `B`,
each with one int field, are registered with the same id 5.  Both
registrations are accepted, `startup()` returns the null pointer that
reports success, both marshallers report the id 5, and the id map keeps only
one of them (`B`, which is resolved last). -/
theorem duplicate_ids_accepted :
    (startupAfter
        [(5, MarshalOp.addInt (TypeMarshal.new "A") "i" 0 0 10),
         (5, MarshalOp.addInt (TypeMarshal.new "B") "j" 0 0 10)]).map
      (fun r => (r.1, (r.2.object "A").map TypeMarshal.id, (r.2.object "B").map TypeMarshal.id,
        r.2.marshallerById 5, r.2.countMarshallers)) =
      some (none, some 5, some 5, some "B", 2) := by
  decide

/-- C17: `id()` is 0 for a type that is resolved on demand.  The types of
`TestMarshal`: `AMarshalTest2` (id 2) has a member of type `MarshalTest`
(id 1) and is resolved first, so `MarshalTest` is resolved on demand by
`MarshalManager::marshaller(char const *)`, which enters it in the id map but
does not store `id_`.  `startup()` succeeds, the marshaller found under the
name `AMarshalTest2` reports the id 2, the marshaller found under the name
`MarshalTest` reports 0 although it was registered with 1, and it is the
marshaller that the id map returns for 1. -/
theorem id_lost_when_resolved_on_demand :
    (startupAfter
        [(2, MarshalOp.addSomeType
              (MarshalOp.addInt (TypeMarshal.new "AMarshalTest2") "i" 0 0 2)
              "MarshalTest" "mt" 4),
         (1, MarshalOp.addBool
              (MarshalOp.addString
                (MarshalOp.addInt (TypeMarshal.new "MarshalTest") "i" 40 0 200) "s" 8 200)
              "b" 4)]).map
      (fun r => (r.1, (r.2.object "AMarshalTest2").map TypeMarshal.id,
        (r.2.object "MarshalTest").map TypeMarshal.id, r.2.marshallerById 1)) =
      some (none, some 2, some 0, some "MarshalTest") := by
  decide

/-! ## Partial failure (C13) -/

theorem seek_pos (b : Block) (p : Nat) : (b.seek p).pos_ = p := rfl

theorem seek_size (b : Block) (p : Nat) : (b.seek p).size = b.size := rfl

theorem seek_buf (b : Block) (p : Nat) : (b.seek p).buf_ = b.buf_ := rfl

/-- A marshaller that checks its value, then the space, then stores `bytes`
bytes and advances, keeps the contract. -/
theorem marshalOK_store (c : Prop) [Decidable c] (e : Exn) (bytes val : Nat) :
    MarshalOK (fun dst =>
      if c then .raise e dst
      else if dst.left < bytes then .ret 0 dst
      else .ret bytes ((dst.poke (storeBytes bytes val)).seek (dst.pos_ + bytes))) := by
  intro dst n dst1 hr h
  simp only at h
  by_cases hc : c
  · rw [if_pos hc] at h; cases h
  · rw [if_neg hc] at h
    have hl := left_of_inRange hr
    have hrr : dst.pos_ ≤ dst.size := hr
    by_cases hs : dst.left < bytes
    · rw [if_pos hs] at h
      cases h
      exact ⟨⟨rfl, rfl, hrr⟩, fun h0 => absurd h0 (Nat.lt_irrefl 0)⟩
    · rw [if_neg hs] at h
      cases h
      have hsz : (dst.poke (storeBytes bytes val)).size = dst.size :=
        poke_size (by rw [storeBytes_length]; omega)
      refine ⟨⟨rfl, hsz, by omega⟩, ?_⟩
      intro _ dst2 _
      constructor
      · intro h2
        exact ⟨(dst2.poke (storeBytes bytes val)).seek (dst2.pos_ + bytes),
          by simp only [if_neg hc, if_neg (Nat.not_lt.2 h2)]⟩
      · intro h2
        exact ⟨dst2, by simp only [if_neg hc, if_pos h2], rfl⟩

theorem int_marshal_ok (m : IntMarshaller) (v : Int) : MarshalOK (m.marshal v) :=
  marshalOK_store (v < m.min_ ∨ v > m.max_) _ m.bytes_ (toUInt32 v)

theorem uint_marshal_ok (m : UintMarshaller) (v : Nat) : MarshalOK (m.marshal v) :=
  marshalOK_store (v > m.limit) _ m.bytes_ v

theorem uint64_marshal_ok (m : Uint64Marshaller) (v : Nat) : MarshalOK (m.marshal v) :=
  marshalOK_store (v > m.limit) _ m.bytes_ v

theorem float_marshal_ok (m : FloatMarshaller) (f : ℚ) : MarshalOK (m.marshal f) := by
  intro dst n dst1 hr h
  unfold FloatMarshaller.marshal at h
  by_cases hc : f < m.min_ ∨ f > m.max_
  · rw [if_pos hc] at h; cases h
  · rw [if_neg hc] at h
    obtain ⟨h1, h2⟩ := int_marshal_ok m.int_ _ dst n dst1 hr h
    refine ⟨h1, fun hn dst2 hr2 => ?_⟩
    obtain ⟨h3, h4⟩ := h2 hn dst2 hr2
    unfold FloatMarshaller.marshal
    rw [if_neg hc]
    exact ⟨h3, h4⟩

theorem bool_marshal_ok (v : Bool) : MarshalOK (BoolMarshaller.marshal v) := by
  intro dst n dst1 hr h
  have hl := left_of_inRange hr
  have hrr : dst.pos_ ≤ dst.size := hr
  unfold BoolMarshaller.marshal at h
  by_cases hs : dst.left < 1
  · rw [if_pos hs] at h
    cases h
    exact ⟨⟨rfl, rfl, hrr⟩, fun h0 => absurd h0 (Nat.lt_irrefl 0)⟩
  · rw [if_neg hs] at h
    have hw : ∀ (x : Block), ¬ x.left < 1 →
        x.write [if v then 1 else 0] =
          (1, { (x.poke [if v then 1 else 0]) with pos_ := x.pos_ + 1 }) := by
      intro x hx
      unfold Block.write
      rw [if_neg (by simpa using hx)]
      rfl
    rw [hw dst hs] at h
    simp only [Marshalled.ret.injEq] at h
    obtain ⟨rfl, rfl⟩ := h
    have hsz : (dst.poke [if v then 1 else 0]).size = dst.size :=
      poke_size (by simp only [List.length_singleton]; omega)
    refine ⟨⟨rfl, hsz, by omega⟩, ?_⟩
    intro _ dst2 _
    constructor
    · intro h2
      refine ⟨{ (dst2.poke [if v then 1 else 0]) with pos_ := dst2.pos_ + 1 }, ?_⟩
      unfold BoolMarshaller.marshal
      rw [if_neg (by omega), hw dst2 (by omega)]
    · intro h2
      refine ⟨dst2, ?_, rfl⟩
      unfold BoolMarshaller.marshal
      rw [if_pos h2]

theorem write_of_room (x : Block) (s : List Nat) (h : ¬ x.left < s.length) :
    x.write s = (s.length, { (x.poke s) with pos_ := x.pos_ + s.length }) := by
  unfold Block.write
  rw [if_neg h]

theorem string_marshal_ok (m : StringMarshaller) (s : List Nat) : MarshalOK (m.marshal s) := by
  intro dst n dst1 hr h
  have hl := left_of_inRange hr
  have hrr : dst.pos_ ≤ dst.size := hr
  unfold StringMarshaller.marshal at h
  by_cases hc : s.length > m.maxSize_
  · rw [if_pos hc] at h; cases h
  rw [if_neg hc] at h
  by_cases hs : dst.left < m.int_.bytes_ + s.length
  · rw [if_pos hs] at h
    cases h
    exact ⟨⟨rfl, rfl, hrr⟩, fun h0 => absurd h0 (Nat.lt_irrefl 0)⟩
  rw [if_neg hs] at h
  by_cases hv : toInt32 s.length < m.int_.min_ ∨ toInt32 s.length > m.int_.max_
  · unfold IntMarshaller.marshal at h
    rw [if_pos hv] at h
    cases h
  have hI : ∀ x : Block, ¬ x.left < m.int_.bytes_ + s.length →
      m.int_.marshal (toInt32 s.length) x =
        .ret m.int_.bytes_
          ((x.poke (storeBytes m.int_.bytes_ (toUInt32 (toInt32 s.length)))).seek
            (x.pos_ + m.int_.bytes_)) := by
    intro x hx
    unfold IntMarshaller.marshal
    rw [if_neg hv, if_neg (by omega)]
  have hW : ∀ x : Block, x.InRange → ¬ x.left < m.int_.bytes_ + s.length →
      ∃ x1, m.marshal s x = .ret (s.length + m.int_.bytes_) x1 ∧
        x1.pos_ = x.pos_ + (s.length + m.int_.bytes_) ∧ x1.size = x.size := by
    intro x hx hsp
    have hxl := left_of_inRange hx
    have hxr : x.pos_ ≤ x.size := hx
    have hsz1 : (x.poke (storeBytes m.int_.bytes_ (toUInt32 (toInt32 s.length)))).size =
        x.size := poke_size (by rw [storeBytes_length]; omega)
    have hr1 : ((x.poke (storeBytes m.int_.bytes_ (toUInt32 (toInt32 s.length)))).seek
        (x.pos_ + m.int_.bytes_)).InRange := by
      unfold Block.InRange
      rw [seek_size, seek_pos, hsz1]
      omega
    have hl1 := left_of_inRange hr1
    rw [seek_size, seek_pos, hsz1] at hl1
    have hw := write_of_room
      ((x.poke (storeBytes m.int_.bytes_ (toUInt32 (toInt32 s.length)))).seek
        (x.pos_ + m.int_.bytes_)) s (by omega)
    refine ⟨(((x.poke (storeBytes m.int_.bytes_ (toUInt32 (toInt32 s.length)))).seek
        (x.pos_ + m.int_.bytes_)).write s).2, ?_, ?_, ?_⟩
    · unfold StringMarshaller.marshal
      rw [if_neg hc, if_neg hsp, hI x hsp]
    · rw [hw]
      simp only [seek_pos]
      omega
    · rw [hw]
      have hsz2 : (((x.poke (storeBytes m.int_.bytes_ (toUInt32 (toInt32 s.length)))).seek
          (x.pos_ + m.int_.bytes_)).poke s).size = x.size := by
        rw [poke_size (by rw [seek_size, seek_pos, hsz1]; omega), seek_size, hsz1]
      exact hsz2
  obtain ⟨x1, hx1, hp1, hs1⟩ := hW dst hr hs
  have hm : m.marshal s dst = .ret n dst1 := by
    unfold StringMarshaller.marshal
    rw [if_neg hc, if_neg hs]
    exact h
  rw [hx1] at hm
  simp only [Marshalled.ret.injEq] at hm
  obtain ⟨rfl, rfl⟩ := hm
  refine ⟨⟨hp1, hs1, by omega⟩, ?_⟩
  intro _ dst2 hr2
  constructor
  · intro h2
    obtain ⟨x2, hx2, _, _⟩ := hW dst2 hr2 (by omega)
    exact ⟨x2, hx2⟩
  · intro h2
    refine ⟨dst2, ?_, rfl⟩
    unfold StringMarshaller.marshal
    rw [if_neg hc, if_pos (by omega)]

theorem field_marshal_ok (f : FieldMarshaller) (mem : Mem) (p : Nat) :
    MarshalOK (f.marshal mem p) := by
  cases f with
  | int m => exact int_marshal_ok m _
  | uint m => exact uint_marshal_ok m _
  | uint64 m => exact uint64_marshal_ok m _
  | float m => exact float_marshal_ok m _
  | double m => exact uint64_marshal_ok m.int_ _
  | bool => exact bool_marshal_ok _
  | string m => exact string_marshal_ok m _

/-- One step of the loop of `TypeMarshal::marshal`: if the marshaller of the
first member and the loop over the other members keep their contracts, so
does the loop over all members. -/
theorem marshalFrom_cons_ok (F : Block → Marshalled) (R : Block → Nat → Marshalled)
    (hF : MarshalOK F) (hR : MarshalFromOK R) :
    MarshalFromOK (fun dst pos =>
      match F dst with
      | .raise e dst1 => .raise e dst1
      | .ret sz dst1 => if sz = 0 then .ret 0 (dst1.seek pos) else R dst1 pos) := by
  intro dst pos n dst1 hr hpos h
  have hrr : dst.pos_ ≤ dst.size := hr
  simp only at h
  rcases hFd : F dst with ⟨sz, dA⟩ | ⟨e, dA⟩
  · rw [hFd] at h
    simp only at h
    obtain ⟨⟨hA1, hA2, hA3⟩, hA4⟩ := hF dst sz dA hr hFd
    by_cases hz : sz = 0
    · rw [if_pos hz] at h
      simp only [Marshalled.ret.injEq] at h
      obtain ⟨rfl, rfl⟩ := h
      refine ⟨⟨rfl, ?_, by omega, fun h0 => absurd h0 (Nat.lt_irrefl 0)⟩,
        fun h0 => absurd h0 (Nat.lt_irrefl 0)⟩
      rw [seek_size, hA2]
    · rw [if_neg hz] at h
      have hrA : dA.InRange := by
        unfold Block.InRange
        rw [hA1, hA2]
        exact hA3
      obtain ⟨⟨hR1, hR2, hR3, hR4⟩, hR5⟩ := hR dA pos n dst1 hrA (by omega) h
      refine ⟨⟨hR1, by rw [hR2, hA2], by rw [← hA2]; exact hR3, fun hn => ?_⟩, ?_⟩
      · have := hR4 hn
        omega
      · intro hn dst2 pos2 hr2 hpos2
        have hge := hR4 hn
        have hl2 := left_of_inRange hr2
        have hrr2 : dst2.pos_ ≤ dst2.size := hr2
        have hszpos : 0 < sz := Nat.pos_of_ne_zero hz
        constructor
        · intro ht
          have hszle : sz ≤ dst2.left := by omega
          obtain ⟨dB, hdB⟩ := (hA4 hszpos dst2 hr2).1 hszle
          obtain ⟨⟨hB1, hB2, hB3⟩, _⟩ := hF dst2 sz dB hr2 hdB
          have hrB : dB.InRange := by
            unfold Block.InRange
            rw [hB1, hB2]
            exact hB3
          have hlB := left_of_inRange hrB
          have hpB : pos2 ≤ dB.pos_ := by omega
          have hroom : pos + n - dA.pos_ ≤ dB.left := by
            rw [hlB, hB1, hB2]
            omega
          obtain ⟨dst3, hd3⟩ := (hR5 hn dB pos2 hrB hpB).1 hroom
          refine ⟨dst3, ?_⟩
          simp only [hdB, if_neg hz, hd3]
          congr 1
          rw [hB1]
          omega
        · intro ht
          by_cases hsz : dst2.left < sz
          · obtain ⟨dB, hdB, _⟩ := (hA4 hszpos dst2 hr2).2 hsz
            exact ⟨dB.seek pos2, by simp only [hdB, if_true], rfl⟩
          · have hszle : sz ≤ dst2.left := by omega
            obtain ⟨dB, hdB⟩ := (hA4 hszpos dst2 hr2).1 hszle
            obtain ⟨⟨hB1, hB2, hB3⟩, _⟩ := hF dst2 sz dB hr2 hdB
            have hrB : dB.InRange := by
              unfold Block.InRange
              rw [hB1, hB2]
              exact hB3
            have hlB := left_of_inRange hrB
            have hpB : pos2 ≤ dB.pos_ := by omega
            have hroom : dB.left < pos + n - dA.pos_ := by
              rw [hlB, hB1, hB2]
              omega
            obtain ⟨dst3, hd3, hp3⟩ := (hR5 hn dB pos2 hrB hpB).2 hroom
            exact ⟨dst3, by simp only [hdB, if_neg hz, hd3], hp3⟩
  · rw [hFd] at h
    cases h

theorem marshalFrom_nil_ok : MarshalFromOK (fun dst pos => .ret (dst.pos_ - pos) dst) := by
  intro dst pos n dst1 hr hpos h
  have hrr : dst.pos_ ≤ dst.size := hr
  simp only [Marshalled.ret.injEq] at h
  obtain ⟨rfl, rfl⟩ := h
  refine ⟨⟨by omega, rfl, by omega, fun _ => by omega⟩, ?_⟩
  intro hn dst2 pos2 hr2 hpos2
  constructor
  · intro _
    exact ⟨dst2, by simp only [Marshalled.ret.injEq, and_true]; omega⟩
  · intro ht
    omega

mutual
/-- Every resolved marshaller keeps the contract of `marshal`. -/
theorem marshal_ok (mem : Mem) : ∀ (m : IMarshaller) (p : Nat), MarshalOK (m.marshal mem p)
  | .field f, p => by
    have h := field_marshal_ok f mem p
    simpa only [IMarshaller.marshal] using h
  | .type descs, p => by
    have h := marshalFrom_ok mem descs p
    intro dst n dst1 hr hm
    rw [IMarshaller.marshal] at hm
    obtain ⟨⟨h1, h2, h3, _⟩, h5⟩ := h dst dst.pos_ n dst1 hr (le_refl _) hm
    refine ⟨⟨h1, h2, h3⟩, fun hn dst2 hr2 => ?_⟩
    obtain ⟨h6, h7⟩ := h5 hn dst2 dst2.pos_ hr2 (le_refl _)
    rw [Nat.add_sub_cancel_left] at h6 h7
    constructor
    · intro hl
      obtain ⟨dst3, hd3⟩ := h6 hl
      rw [Nat.add_sub_cancel_left] at hd3
      exact ⟨dst3, by rw [IMarshaller.marshal]; exact hd3⟩
    · intro hl
      obtain ⟨dst3, hd3, hp3⟩ := h7 hl
      exact ⟨dst3, by rw [IMarshaller.marshal]; exact hd3, hp3⟩
/-- The loop of `TypeMarshal::marshal` keeps its contract. -/
theorem marshalFrom_ok (mem : Mem) :
    ∀ (descs : List (Nat × IMarshaller)) (p : Nat),
      MarshalFromOK (fun dst pos => TypeMarshal.marshalFrom descs mem p dst pos)
  | [], p => by
    have h := marshalFrom_nil_ok
    simpa only [TypeMarshal.marshalFrom] using h
  | (offset, m) :: rest, p => by
    have h := marshalFrom_cons_ok _ _ (marshal_ok mem m (p + offset)) (marshalFrom_ok mem rest p)
    simpa only [TypeMarshal.marshalFrom] using h
end

theorem cur_of_advance {x x1 : Block} {n : Nat} (hb : x1.buf_ = x.buf_)
    (hp : x1.pos_ = x.pos_ + n) : x1.cur = x.cur.drop n := by
  rw [cur_eq_drop, cur_eq_drop, hb, hp, List.drop_drop, Nat.add_comm]

/-- A block that holds the first `k` of the bytes of another one has
`min k left` bytes left. -/
theorem left_of_take {x x2 : Block} {k : Nat} (hr : x.InRange) (hr2 : x2.InRange)
    (h : x2.cur = x.cur.take k) : x2.left = min k x.left := by
  rw [← cur_length hr2, h, List.length_take, cur_length hr]

/-- A demarshaller that checks the space, then decodes `bytes` bytes, checks
the value and advances, keeps the contract. -/
theorem demarshalOK_load {α : Type} (bytes : Nat) (bad : List Nat → Prop) [DecidablePred bad]
    (e : Exn) (val : List Nat → α) :
    DemarshalOK (fun src (old : α) =>
      if src.left < bytes then .ret 0 src old
      else if bad (src.cur.take bytes) then .raise e src (val (src.cur.take bytes))
      else .ret bytes (src.seek (src.pos_ + bytes)) (val (src.cur.take bytes))) := by
  intro src old n src1 v hr h
  simp only at h
  have hl := left_of_inRange hr
  have hrr : src.pos_ ≤ src.size := hr
  by_cases hs : src.left < bytes
  · rw [if_pos hs] at h
    simp only [Demarshalled.ret.injEq] at h
    obtain ⟨rfl, rfl, rfl⟩ := h
    exact ⟨⟨rfl, rfl, hrr⟩, fun h0 => absurd h0 (Nat.lt_irrefl 0)⟩
  · rw [if_neg hs] at h
    by_cases hb : bad (src.cur.take bytes)
    · rw [if_pos hb] at h; cases h
    · rw [if_neg hb] at h
      simp only [Demarshalled.ret.injEq] at h
      obtain ⟨rfl, rfl, rfl⟩ := h
      refine ⟨⟨rfl, rfl, by omega⟩, ?_⟩
      intro _ src2 old2 k hr2 hk
      have hl2 := left_of_take hr hr2 hk
      constructor
      · intro hn
        have htake : src2.cur.take bytes = src.cur.take bytes := by
          rw [hk, List.take_take, Nat.min_eq_left hn]
        have hroom : ¬ src2.left < bytes := by
          rw [hl2]
          omega
        refine ⟨src2.seek (src2.pos_ + bytes), val (src.cur.take bytes), ?_⟩
        simp only
        rw [if_neg hroom, htake, if_neg hb]
      · intro hn
        have hroom : src2.left < bytes := by
          rw [hl2]
          omega
        refine ⟨src2, old2, ?_, rfl⟩
        simp only
        rw [if_pos hroom]

theorem int_demarshal_ok (m : IntMarshaller) : DemarshalOK m.demarshal :=
  demarshalOK_load m.bytes_
    (fun l => toInt32 ((loadBytes 32 0 l : Nat) + m.min_) < m.min_ ∨
      toInt32 ((loadBytes 32 0 l : Nat) + m.min_) > m.max_) _
    (fun l => toInt32 ((loadBytes 32 0 l : Nat) + m.min_))

theorem uint_demarshal_ok (m : UintMarshaller) : DemarshalOK m.demarshal :=
  demarshalOK_load m.bytes_ (fun l => loadBytes 32 0 l > m.limit) _ (fun l => loadBytes 32 0 l)

theorem uint64_demarshal_ok (m : Uint64Marshaller) : DemarshalOK m.demarshal := by
  have h := demarshalOK_load m.bytes_ (fun _ => False) (.logic_error "")
    (fun l => loadBytes 64 0 l)
  simpa only [if_false] using h

theorem float_demarshal_ok (m : FloatMarshaller) : DemarshalOK m.demarshal := by
  intro src old n src1 v hr h
  unfold FloatMarshaller.demarshal at h
  rcases hI : m.int_.demarshal src 0 with ⟨siz, sA, i⟩ | ⟨e, sA, i⟩
  · rw [hI] at h
    simp only at h
    obtain ⟨hA1, hA2⟩ := int_demarshal_ok m.int_ src 0 siz sA i hr hI
    by_cases hz : siz = 0
    · rw [if_pos hz] at h
      simp only [Demarshalled.ret.injEq] at h
      obtain ⟨rfl, rfl, rfl⟩ := h
      subst hz
      exact ⟨hA1, fun h0 => absurd h0 (Nat.lt_irrefl 0)⟩
    · rw [if_neg hz] at h
      simp only [Demarshalled.ret.injEq] at h
      obtain ⟨rfl, rfl, rfl⟩ := h
      refine ⟨hA1, fun hn src2 old2 k hr2 hk => ?_⟩
      constructor
      · intro hle
        obtain ⟨s3, v3, h3⟩ := (hA2 hn src2 0 k hr2 hk).1 hle
        refine ⟨s3, m.value v3, ?_⟩
        unfold FloatMarshaller.demarshal
        rw [h3]
        simp only [if_neg hz]
      · intro hlt
        obtain ⟨s3, v3, h3, hp3⟩ := (hA2 hn src2 0 k hr2 hk).2 hlt
        refine ⟨s3, old2, ?_, hp3⟩
        unfold FloatMarshaller.demarshal
        rw [h3]
        simp only [if_true]
  · rw [hI] at h
    cases h

theorem read_one_empty (x : Block) (h : x.left = 0) :
    x.read 1 = (0, [], { x with pos_ := x.pos_ + 0, atEof_ := true }) := by
  unfold Block.read
  rw [if_pos (by omega), h]
  simp only [List.take_zero, if_true]

theorem read_one_room (x : Block) (h : ¬ x.left < 1) :
    x.read 1 = (1, x.cur.take 1, { x with pos_ := x.pos_ + 1 }) := by
  unfold Block.read
  rw [if_neg h]

theorem bool_demarshal_ok : DemarshalOK BoolMarshaller.demarshal := by
  intro src old n src1 v hr h
  have hl := left_of_inRange hr
  have hrr : src.pos_ ≤ src.size := hr
  unfold BoolMarshaller.demarshal at h
  by_cases hs : src.left < 1
  · have h0 : src.left = 0 := by omega
    rw [read_one_empty src h0] at h
    simp only [if_true, Demarshalled.ret.injEq] at h
    obtain ⟨rfl, rfl, rfl⟩ := h
    exact ⟨⟨rfl, rfl, hrr⟩, fun h0 => absurd h0 (Nat.lt_irrefl 0)⟩
  · rw [read_one_room src hs] at h
    simp only [if_neg (show ¬ (1 = 0) by decide), Demarshalled.ret.injEq] at h
    obtain ⟨rfl, rfl, rfl⟩ := h
    refine ⟨⟨rfl, rfl, by omega⟩, fun _ src2 old2 k hr2 hk => ?_⟩
    have hl2 := left_of_take hr hr2 hk
    constructor
    · intro hn
      have hroom : ¬ src2.left < 1 := by
        rw [hl2]
        omega
      refine ⟨{ src2 with pos_ := src2.pos_ + 1 },
        decide (((src2.cur.take 1).map toUChar) ≠ [0]), ?_⟩
      unfold BoolMarshaller.demarshal
      rw [read_one_room src2 hroom]
      simp only [if_neg (show ¬ (1 = 0) by decide)]
    · intro hn
      have hroom : src2.left = 0 := by
        rw [hl2]
        omega
      refine ⟨{ src2 with pos_ := src2.pos_ + 0, atEof_ := true }, old2, ?_, rfl⟩
      unfold BoolMarshaller.demarshal
      rw [read_one_empty src2 hroom]
      simp only [if_true]

theorem string_demarshal_ok (m : StringMarshaller) : DemarshalOK m.demarshal := by
  intro src old n src1 v hr h
  have hl := left_of_inRange hr
  have hrr : src.pos_ ≤ src.size := hr
  -- the length field, on any block
  have hI : ∀ x : Block,
      m.int_.demarshal x 0 =
        if x.left < m.int_.bytes_ then .ret 0 x 0
        else if toInt32 ((loadBytes 32 0 (x.cur.take m.int_.bytes_) : Nat) + m.int_.min_) <
              m.int_.min_ ∨
            toInt32 ((loadBytes 32 0 (x.cur.take m.int_.bytes_) : Nat) + m.int_.min_) >
              m.int_.max_ then
          .raise (.invalid_argument "IntMarshaller demarshal is out of bounds") x
            (toInt32 ((loadBytes 32 0 (x.cur.take m.int_.bytes_) : Nat) + m.int_.min_))
        else
          .ret m.int_.bytes_ (x.seek (x.pos_ + m.int_.bytes_))
            (toInt32 ((loadBytes 32 0 (x.cur.take m.int_.bytes_) : Nat) + m.int_.min_)) :=
    fun x => rfl
  unfold StringMarshaller.demarshal at h
  rw [hI src] at h
  by_cases hs : src.left < m.int_.bytes_
  · rw [if_pos hs] at h
    simp only [if_true, Demarshalled.ret.injEq] at h
    obtain ⟨rfl, rfl, rfl⟩ := h
    exact ⟨⟨rfl, rfl, hrr⟩, fun h0 => absurd h0 (Nat.lt_irrefl 0)⟩
  rw [if_neg hs] at h
  by_cases hb : toInt32 ((loadBytes 32 0 (src.cur.take m.int_.bytes_) : Nat) + m.int_.min_) <
      m.int_.min_ ∨
      toInt32 ((loadBytes 32 0 (src.cur.take m.int_.bytes_) : Nat) + m.int_.min_) > m.int_.max_
  · rw [if_pos hb] at h
    cases h
  rw [if_neg hb] at h
  simp only at h
  by_cases hz : m.int_.bytes_ = 0
  · rw [if_pos hz] at h
    simp only [Demarshalled.ret.injEq] at h
    obtain ⟨rfl, rfl, rfl⟩ := h
    refine ⟨⟨?_, rfl, hrr⟩, fun h0 => absurd h0 (Nat.lt_irrefl 0)⟩
    rw [seek_pos, hz]
  rw [if_neg hz] at h
  generalize hi : toSizeT (toInt32 ((loadBytes 32 0 (src.cur.take m.int_.bytes_) : Nat) +
    m.int_.min_)) = I at h
  have hrA : (src.seek (src.pos_ + m.int_.bytes_)).InRange := by
    unfold Block.InRange
    rw [seek_pos, seek_size]
    omega
  have hlA := left_of_inRange hrA
  rw [seek_pos, seek_size] at hlA
  by_cases hsI : (src.seek (src.pos_ + m.int_.bytes_)).left < I
  · rw [if_pos hsI] at h
    simp only [Demarshalled.ret.injEq] at h
    obtain ⟨rfl, rfl, rfl⟩ := h
    exact ⟨⟨rfl, rfl, hrr⟩, fun h0 => absurd h0 (Nat.lt_irrefl 0)⟩
  rw [if_neg hsI] at h
  simp only [Demarshalled.ret.injEq] at h
  obtain ⟨rfl, rfl, rfl⟩ := h
  refine ⟨⟨by rw [seek_pos, seek_pos]; omega, rfl, by omega⟩, fun _ src2 old2 k hr2 hk => ?_⟩
  have hl2 := left_of_take hr hr2 hk
  have hl2' := left_of_inRange hr2
  have hrr2 : src2.pos_ ≤ src2.size := hr2
  constructor
  · intro hn
    have htake : src2.cur.take m.int_.bytes_ = src.cur.take m.int_.bytes_ := by
      rw [hk, List.take_take, Nat.min_eq_left (by omega)]
    have hroom : ¬ src2.left < m.int_.bytes_ := by
      rw [hl2]
      omega
    have hrB : (src2.seek (src2.pos_ + m.int_.bytes_)).InRange := by
      unfold Block.InRange
      rw [seek_pos, seek_size]
      omega
    have hlB := left_of_inRange hrB
    rw [seek_pos, seek_size] at hlB
    have hroomI : ¬ (src2.seek (src2.pos_ + m.int_.bytes_)).left < I := by
      rw [hlB]
      omega
    refine ⟨(src2.seek (src2.pos_ + m.int_.bytes_)).seek
        ((src2.seek (src2.pos_ + m.int_.bytes_)).pos_ + I),
      (src2.seek (src2.pos_ + m.int_.bytes_)).cur.take I, ?_⟩
    unfold StringMarshaller.demarshal
    rw [hI src2, if_neg hroom, htake, if_neg hb]
    simp only
    rw [if_neg hz, hi, if_neg hroomI]
  · intro hn
    by_cases hkb : k < m.int_.bytes_
    · have hroom : src2.left < m.int_.bytes_ := by
        rw [hl2]
        omega
      refine ⟨src2, old2, ?_, rfl⟩
      unfold StringMarshaller.demarshal
      rw [hI src2, if_pos hroom]
      simp only [if_true]
    · have htake : src2.cur.take m.int_.bytes_ = src.cur.take m.int_.bytes_ := by
        rw [hk, List.take_take, Nat.min_eq_left (by omega)]
      have hroom : ¬ src2.left < m.int_.bytes_ := by
        rw [hl2]
        omega
      have hrB : (src2.seek (src2.pos_ + m.int_.bytes_)).InRange := by
        unfold Block.InRange
        rw [seek_pos, seek_size]
        omega
      have hlB := left_of_inRange hrB
      rw [seek_pos, seek_size] at hlB
      have hroomI : (src2.seek (src2.pos_ + m.int_.bytes_)).left < I := by
        rw [hlB]
        omega
      refine ⟨(src2.seek (src2.pos_ + m.int_.bytes_)).seek src2.pos_, old2, ?_, rfl⟩
      unfold StringMarshaller.demarshal
      rw [hI src2, if_neg hroom, htake, if_neg hb]
      simp only
      rw [if_neg hz, hi, if_pos hroomI]

/-- Storing the destination of a field marshaller into the memory keeps the
contract. -/
theorem demarshalOK_toMem {α : Type} (G : Block → α → Demarshalled α) (hG : DemarshalOK G)
    (rd : Mem → α) (d : Nat) (cell : α → Cell) :
    DemarshalOK (fun src (mem : Mem) => (G src (rd mem)).toMem mem d cell) := by
  intro src mem n src1 mem1 hr h
  simp only at h
  rcases hI : G src (rd mem) with ⟨siz, sA, v⟩ | ⟨e, sA, v⟩
  · rw [hI] at h
    simp only [Demarshalled.toMem, Demarshalled.ret.injEq] at h
    obtain ⟨rfl, rfl, rfl⟩ := h
    obtain ⟨h1, h2⟩ := hG src (rd mem) siz sA v hr hI
    refine ⟨h1, fun hn src2 mem2 k hr2 hk => ?_⟩
    constructor
    · intro hle
      obtain ⟨s3, v3, h3⟩ := (h2 hn src2 (rd mem2) k hr2 hk).1 hle
      exact ⟨s3, mem2.store d (cell v3), by simp only [h3, Demarshalled.toMem]⟩
    · intro hlt
      obtain ⟨s3, v3, h3, hp3⟩ := (h2 hn src2 (rd mem2) k hr2 hk).2 hlt
      exact ⟨s3, mem2.store d (cell v3), by simp only [h3, Demarshalled.toMem], hp3⟩
  · rw [hI] at h
    simp only [Demarshalled.toMem] at h
    cases h

theorem field_demarshal_ok (f : FieldMarshaller) (d : Nat) :
    DemarshalOK (fun src (mem : Mem) => f.demarshal src mem d) := by
  cases f with
  | int m => exact demarshalOK_toMem _ (int_demarshal_ok m) (fun mem => readInt mem d) d _
  | uint m => exact demarshalOK_toMem _ (uint_demarshal_ok m) (fun mem => readUint mem d) d _
  | uint64 m =>
    exact demarshalOK_toMem _ (uint64_demarshal_ok m) (fun mem => readUint64 mem d) d _
  | float m => exact demarshalOK_toMem _ (float_demarshal_ok m) (fun mem => readFloat mem d) d _
  | double m =>
    exact demarshalOK_toMem _ (uint64_demarshal_ok m.int_) (fun mem => readUint64 mem d) d _
  | bool => exact demarshalOK_toMem _ bool_demarshal_ok (fun mem => readBool mem d) d _
  | string m =>
    exact demarshalOK_toMem _ (string_demarshal_ok m) (fun mem => readString mem d) d _

/-- One step of the loop of `TypeMarshal::demarshal`: if the marshaller of the
first member and the loop over the other members keep their contracts, so
does the loop over all members. -/
theorem demarshalFrom_cons_ok (G : Block → Mem → Demarshalled Mem)
    (R : Block → Mem → Nat → Demarshalled Mem) (hG : DemarshalOK G) (hR : DemarshalFromOK R) :
    DemarshalFromOK (fun src mem pos =>
      match G src mem with
      | .raise e src1 mem1 => .raise e src1 mem1
      | .ret s src1 mem1 => if s = 0 then .ret 0 (src1.seek pos) mem1 else R src1 mem1 pos) := by
  intro src mem pos n src1 mem1 hr hpos h
  have hrr : src.pos_ ≤ src.size := hr
  simp only at h
  rcases hGd : G src mem with ⟨sz, sA, mA⟩ | ⟨e, sA, mA⟩
  · rw [hGd] at h
    simp only at h
    obtain ⟨⟨hA1, hA2, hA3⟩, hA4⟩ := hG src mem sz sA mA hr hGd
    by_cases hz : sz = 0
    · rw [if_pos hz] at h
      simp only [Demarshalled.ret.injEq] at h
      obtain ⟨rfl, rfl, rfl⟩ := h
      refine ⟨⟨rfl, ?_, by omega, fun h0 => absurd h0 (Nat.lt_irrefl 0)⟩,
        fun h0 => absurd h0 (Nat.lt_irrefl 0)⟩
      rw [seek_buf, hA2]
    · rw [if_neg hz] at h
      have hsA : sA.size = src.size := by
        unfold Block.size
        rw [hA2]
      have hrA : sA.InRange := by
        unfold Block.InRange
        rw [hA1, hsA]
        exact hA3
      have hposA : pos ≤ sA.pos_ := by omega
      obtain ⟨⟨hR1, hR2, hR3, hR4⟩, hR5⟩ := hR sA mA pos n src1 mem1 hrA hposA h
      have hcurA : sA.cur = src.cur.drop sz := cur_of_advance hA2 hA1
      refine ⟨⟨hR1, by rw [hR2, hA2], by rw [← hsA]; exact hR3, fun hn => ?_⟩, ?_⟩
      · have := hR4 hn
        omega
      · intro hn src2 mem2 pos2 k hr2 hpos2 hk
        have hge := hR4 hn
        have hrr2 : src2.pos_ ≤ src2.size := hr2
        have hszpos : 0 < sz := Nat.pos_of_ne_zero hz
        have hstep : ∀ sB mB, G src2 mem2 = .ret sz sB mB →
            sB.InRange ∧ pos2 ≤ sB.pos_ ∧ sB.pos_ = src2.pos_ + sz ∧
              sB.cur = sA.cur.take (k - sz) := by
          intro sB mB hdB
          obtain ⟨⟨hB1, hB2, hB3⟩, _⟩ := hG src2 mem2 sz sB mB hr2 hdB
          have hsB : sB.size = src2.size := by
            unfold Block.size
            rw [hB2]
          refine ⟨?_, by omega, hB1, ?_⟩
          · unfold Block.InRange
            rw [hB1, hsB]
            exact hB3
          · rw [cur_of_advance hB2 hB1, hk, List.drop_take, hcurA]
        constructor
        · intro ht
          have hszle : sz ≤ k := by omega
          obtain ⟨sB, mB, hdB⟩ := (hA4 hszpos src2 mem2 k hr2 hk).1 hszle
          obtain ⟨hrB, hpB, hB1, hcB⟩ := hstep sB mB hdB
          have hroom : pos + n - sA.pos_ ≤ k - sz := by omega
          obtain ⟨s3, m3, hd3⟩ := (hR5 hn sB mB pos2 (k - sz) hrB hpB hcB).1 hroom
          refine ⟨s3, m3, ?_⟩
          simp only [hdB, if_neg hz, hd3]
          congr 1
          rw [hB1]
          omega
        · intro ht
          by_cases hsz : k < sz
          · obtain ⟨sB, mB, hdB, _⟩ := (hA4 hszpos src2 mem2 k hr2 hk).2 hsz
            exact ⟨sB.seek pos2, mB, by simp only [hdB, if_true], rfl⟩
          · have hszle : sz ≤ k := by omega
            obtain ⟨sB, mB, hdB⟩ := (hA4 hszpos src2 mem2 k hr2 hk).1 hszle
            obtain ⟨hrB, hpB, hB1, hcB⟩ := hstep sB mB hdB
            have hroom : k - sz < pos + n - sA.pos_ := by omega
            obtain ⟨s3, m3, hd3, hp3⟩ := (hR5 hn sB mB pos2 (k - sz) hrB hpB hcB).2 hroom
            exact ⟨s3, m3, by simp only [hdB, if_neg hz, hd3], hp3⟩
  · rw [hGd] at h
    cases h

theorem demarshalFrom_nil_ok :
    DemarshalFromOK (fun src mem pos => .ret (src.pos_ - pos) src mem) := by
  intro src mem pos n src1 mem1 hr hpos h
  have hrr : src.pos_ ≤ src.size := hr
  simp only [Demarshalled.ret.injEq] at h
  obtain ⟨rfl, rfl, rfl⟩ := h
  refine ⟨⟨by omega, rfl, by omega, fun _ => by omega⟩, ?_⟩
  intro hn src2 mem2 pos2 k hr2 hpos2 _
  constructor
  · intro _
    exact ⟨src2, mem2, by simp only [Demarshalled.ret.injEq, and_true]; omega⟩
  · intro ht
    omega

mutual
/-- Every resolved marshaller keeps the contract of `demarshal`. -/
theorem demarshal_ok :
    ∀ (m : IMarshaller) (d : Nat), DemarshalOK (fun src (mem : Mem) => m.demarshal src mem d)
  | .field f, d => by
    have h := field_demarshal_ok f d
    simpa only [IMarshaller.demarshal] using h
  | .type descs, d => by
    have h := demarshalFrom_ok descs d
    intro src mem n src1 mem1 hr hm
    simp only [IMarshaller.demarshal] at hm
    obtain ⟨⟨h1, h2, h3, _⟩, h5⟩ := h src mem src.pos_ n src1 mem1 hr (le_refl _) hm
    refine ⟨⟨h1, h2, h3⟩, fun hn src2 mem2 k hr2 hk => ?_⟩
    obtain ⟨h6, h7⟩ := h5 hn src2 mem2 src2.pos_ k hr2 (le_refl _) hk
    rw [Nat.add_sub_cancel_left] at h6 h7
    constructor
    · intro hl
      obtain ⟨s3, m3, hd3⟩ := h6 hl
      rw [Nat.add_sub_cancel_left] at hd3
      exact ⟨s3, m3, by simp only [IMarshaller.demarshal]; exact hd3⟩
    · intro hl
      obtain ⟨s3, m3, hd3, hp3⟩ := h7 hl
      exact ⟨s3, m3, by simp only [IMarshaller.demarshal]; exact hd3, hp3⟩
/-- The loop of `TypeMarshal::demarshal` keeps its contract. -/
theorem demarshalFrom_ok :
    ∀ (descs : List (Nat × IMarshaller)) (d : Nat),
      DemarshalFromOK (fun src mem pos => TypeMarshal.demarshalFrom descs src mem d pos)
  | [], d => by
    have h := demarshalFrom_nil_ok
    simpa only [TypeMarshal.demarshalFrom] using h
  | (offset, m) :: rest, d => by
    have h := demarshalFrom_cons_ok _ _ (demarshal_ok m (d + offset)) (demarshalFrom_ok rest d)
    simpa only [TypeMarshal.demarshalFrom] using h
end

/-- C13: partial failure is position-atomic.  For every resolved marshaller
(a field of any kind or a record type, with string and nested-type members
anywhere), every record and all blocks whose cursor is in range:
if marshalling the record takes `n > 0` bytes where there is room, then on
every block with fewer than `n` bytes left `marshal` returns 0 and the
position is where it was before the call; if demarshalling takes `n > 0`
bytes of a block, then on every block that holds only the first `k < n` of
these bytes `demarshal` returns 0 and the position is where it was before the
call; and whenever `marshal` or `demarshal` returns 0, the position is where
it was before the call. -/
theorem partial_failure_restores_position (m : IMarshaller) (mem : Mem) (p : Nat) :
    (∀ dst n dst1 dst2, dst.InRange → dst2.InRange →
      m.marshal mem p dst = .ret n dst1 → 0 < n → dst2.left < n →
      ∃ dst3, m.marshal mem p dst2 = .ret 0 dst3 ∧ dst3.pos_ = dst2.pos_) ∧
    (∀ src mem0 n src1 mem1 src2 mem2 k, src.InRange → src2.InRange →
      m.demarshal src mem0 p = .ret n src1 mem1 → 0 < n → k < n →
      src2.cur = src.cur.take k →
      ∃ src3 mem3, m.demarshal src2 mem2 p = .ret 0 src3 mem3 ∧ src3.pos_ = src2.pos_) ∧
    (∀ dst dst1, dst.InRange → m.marshal mem p dst = .ret 0 dst1 → dst1.pos_ = dst.pos_) ∧
    (∀ src mem0 src1 mem1, src.InRange → m.demarshal src mem0 p = .ret 0 src1 mem1 →
      src1.pos_ = src.pos_) := by
  refine ⟨?_, ?_, ?_, ?_⟩
  · intro dst n dst1 dst2 hr hr2 h hn hl
    exact ((marshal_ok mem m p dst n dst1 hr h).2 hn dst2 hr2).2 hl
  · intro src mem0 n src1 mem1 src2 mem2 k hr hr2 h hn hk hc
    exact ((demarshal_ok m p src mem0 n src1 mem1 hr h).2 hn src2 mem2 k hr2 hc).2 hk
  · intro dst dst1 hr h
    exact (marshal_ok mem m p dst 0 dst1 hr h).1.1
  · intro src mem0 src1 mem1 hr h
    exact (demarshal_ok m p src mem0 0 src1 mem1 hr h).1.1

/-- Witness for `partial_failure_restores_position`: the record `sampleMem` of
type `sampleRecord` takes 7 bytes.  Marshalling it into a block of 6 bytes
fails at the last member, inside the nested type, and demarshalling from the
first 2 of its bytes fails at the string member; both return 0 with the
position where it was. -/
theorem partial_failure_restores_position_witness :
    (∃ dst3, sampleRecord.marshal sampleMem 0 (Block.new [0, 0, 0, 0, 0, 0]) = .ret 0 dst3 ∧
      dst3.pos_ = (Block.new [0, 0, 0, 0, 0, 0]).pos_) ∧
    (∃ src3 mem3, sampleRecord.demarshal (Block.new [7, 2]) zeroMem 0 = .ret 0 src3 mem3 ∧
      src3.pos_ = (Block.new [7, 2]).pos_) :=
  ⟨(partial_failure_restores_position sampleRecord sampleMem 0).1
      (Block.new [0, 0, 0, 0, 0, 0, 0, 0, 0, 0]) 7
      { buf_ := [7, 2, 104, 105, 1, 1, 44, 0, 0, 0], pos_ := 7, atEof_ := false }
      (Block.new [0, 0, 0, 0, 0, 0]) (by decide) (by decide) (by decide) (by decide)
      (by decide),
   (partial_failure_restores_position sampleRecord sampleMem 0).2.1
      (Block.new [7, 2, 104, 105, 1, 1, 44, 0, 0, 0]) zeroMem 7
      { buf_ := [7, 2, 104, 105, 1, 1, 44, 0, 0, 0], pos_ := 7, atEof_ := false }
      ((((zeroMem.store 0 (.word 7)).store 4 (.str [104, 105])).store 40 (.word 1)).store 44
        (.word 300))
      (Block.new [7, 2]) zeroMem 2 (by decide) (by decide) rfl (by decide) (by decide)
      (by decide)⟩

/-! ## Maps -/

theorem mapFind_mapSet {K V : Type} [DecidableEq K] (lt : K → K → Bool) (k : K) (v : V)
    (k1 : K) : ∀ m : List (K × V),
      mapFind k1 (mapSet lt k v m) = if k1 = k then some v else mapFind k1 m := by
  intro m
  induction m with
  | nil =>
    by_cases h : k1 = k <;> simp [mapSet, mapFind, h]
  | cons e rest ih =>
    simp only [mapSet]
    by_cases hk : k = e.1
    · rw [if_pos hk]
      by_cases h : k1 = k
      · simp [mapFind, h]
      · have h2 : ¬ k1 = e.1 := by rw [← hk]; exact h
        simp [mapFind, h, h2]
    · rw [if_neg hk]
      by_cases hl : lt k e.1 = true
      · rw [if_pos hl]
        by_cases h : k1 = k
        · simp [mapFind, h]
        · simp [mapFind, h]
      · rw [if_neg hl]
        by_cases h : k1 = k
        · have h2 : ¬ k1 = e.1 := by rw [h]; exact hk
          simp only [mapFind, if_neg h2, ih, if_pos h]
        · by_cases h2 : k1 = e.1
          · simp only [mapFind, if_pos h2, if_neg h]
          · simp only [mapFind, if_neg h2, ih, if_neg h]

theorem mapFind_mapErase {K V : Type} [DecidableEq K] (k k1 : K) : ∀ m : List (K × V),
    mapFind k1 (mapErase k m) = if k1 = k then none else mapFind k1 m := by
  intro m
  induction m with
  | nil => by_cases h : k1 = k <;> simp [mapErase, mapFind, h]
  | cons e rest ih =>
    unfold mapErase at ih ⊢
    by_cases he : e.1 = k
    · rw [List.filter_cons_of_neg (by simp [he]), ih]
      by_cases h : k1 = k
      · simp [h]
      · have h2 : ¬ k1 = e.1 := by rw [he]; exact h
        simp [mapFind, h, h2]
    · rw [List.filter_cons_of_pos (by simp [he])]
      by_cases h2 : k1 = e.1
      · have h : ¬ k1 = k := by rw [h2]; exact he
        simp only [mapFind, if_pos h2, if_neg h]
      · simp only [mapFind, if_neg h2, ih]

theorem mapErase_sublist {K V : Type} [DecidableEq K] (k : K) (m : List (K × V)) :
    (mapErase k m).Sublist m :=
  List.filter_sublist m

theorem mapFind_mem {K V : Type} [DecidableEq K] (k : K) (v : V) : ∀ m : List (K × V),
    mapFind k m = some v → (k, v) ∈ m := by
  intro m
  induction m with
  | nil => intro h; cases h
  | cons e rest ih =>
    intro h
    simp only [mapFind] at h
    by_cases he : k = e.1
    · rw [if_pos he] at h
      cases h
      rw [he]
      exact List.mem_cons_self _ _
    · rw [if_neg he] at h
      exact List.mem_cons_of_mem _ (ih h)

theorem mapFind_none_of_not_mem {K V : Type} [DecidableEq K] (k : K) : ∀ m : List (K × V),
    k ∉ m.map Prod.fst → mapFind k m = none := by
  intro m
  induction m with
  | nil => intro _; rfl
  | cons e rest ih =>
    intro h
    simp only [List.map_cons, List.mem_cons, not_or] at h
    simp only [mapFind, if_neg h.1]
    exact ih h.2

theorem mapFind_of_mem {K V : Type} [DecidableEq K] (k : K) (v : V) : ∀ m : List (K × V),
    (m.map Prod.fst).Nodup → (k, v) ∈ m → mapFind k m = some v := by
  intro m
  induction m with
  | nil => intro _ h; cases h
  | cons e rest ih =>
    intro hn h
    simp only [List.map_cons, List.nodup_cons] at hn
    rcases List.mem_cons.1 h with h1 | h1
    · rw [← h1]
      simp [mapFind]
    · have hne : ¬ k = e.1 := by
        intro he
        apply hn.1
        rw [← he]
        exact List.mem_map_of_mem Prod.fst h1
      simp only [mapFind, if_neg hne]
      exact ih hn.2 h1

theorem mapErase_length_lt {K V : Type} [DecidableEq K] (k : K) (v : V) (m : List (K × V))
    (h : mapFind k m = some v) : (mapErase k m).length < m.length := by
  unfold mapErase
  apply List.length_filter_lt_length_iff_exists.2
  exact ⟨(k, v), mapFind_mem k v m h, by simp⟩

theorem mapFind_sublist {K V : Type} [DecidableEq K] (k : K) (v : V) (l1 l : List (K × V))
    (hs : l1.Sublist l) (hn : (l.map Prod.fst).Nodup) (h : mapFind k l1 = some v) :
    mapFind k l = some v :=
  mapFind_of_mem k v l hn (hs.subset (mapFind_mem k v l1 h))

theorem keys_nodup_sublist {K V : Type} (l1 l : List (K × V)) (hs : l1.Sublist l)
    (hn : (l.map Prod.fst).Nodup) : (l1.map Prod.fst).Nodup :=
  (hs.map Prod.fst).nodup hn

theorem mapSet_keys_perm {K V : Type} [DecidableEq K] (lt : K → K → Bool) (k : K) (v : V) :
    ∀ m : List (K × V), mapFind k m = none →
      ((mapSet lt k v m).map Prod.fst).Perm (k :: m.map Prod.fst) := by
  intro m
  induction m with
  | nil => intro _; exact List.Perm.refl _
  | cons e rest ih =>
    intro h
    simp only [mapFind] at h
    by_cases he : k = e.1
    · rw [if_pos he] at h; cases h
    · rw [if_neg he] at h
      simp only [mapSet, if_neg he]
      by_cases hl : lt k e.1 = true
      · rw [if_pos hl]
        exact List.Perm.refl _
      · rw [if_neg hl]
        simp only [List.map_cons]
        exact ((ih h).cons e.1).trans (List.Perm.swap _ _ _)

/-! ## Resolution of the registered types (C14, C16) -/

theorem isSome_of_eq_some {α : Type} {o : Option α} {v : α} (h : o = some v) :
    o.isSome = true := by
  rw [h]
  rfl

theorem ResolveStep.refl (mgr : MarshalManager) : ResolveStep mgr mgr :=
  { resolved_keep := fun _ _ h => h
    pending_sub := fun _ _ h => h
    pending_done := fun _ _ h => Or.inl h
    resolved_from := fun _ _ h => Or.inl (isSome_of_eq_some h)
    sublist := List.Sublist.refl _ }

theorem ResolveStep.trans {a b c : MarshalManager} (h1 : ResolveStep a b)
    (h2 : ResolveStep b c) : ResolveStep a c :=
  { resolved_keep := fun n t h => h2.resolved_keep n t (h1.resolved_keep n t h)
    pending_sub := fun n e h => h1.pending_sub n e (h2.pending_sub n e h)
    pending_done := by
      intro n e h
      rcases h1.pending_done n e h with hb | hb
      · exact h2.pending_done n e hb
      · obtain ⟨t, ht⟩ := Option.isSome_iff_exists.1 hb
        exact Or.inr (isSome_of_eq_some (h2.resolved_keep n t ht))
    resolved_from := by
      intro n t h
      rcases h2.resolved_from n t h with hb | hb
      · obtain ⟨t1, ht1⟩ := Option.isSome_iff_exists.1 hb
        exact h1.resolved_from n t1 ht1
      · obtain ⟨e, he⟩ := Option.isSome_iff_exists.1 hb
        exact Or.inr (isSome_of_eq_some (h1.pending_sub n e he))
    sublist := h2.sublist.trans h1.sublist }

theorem Available.step_to {a b : MarshalManager} {n : String} (h : Available a n)
    (hs : ResolveStep a b) : Available b n := by
  rcases h with h | h
  · obtain ⟨e, he⟩ := Option.isSome_iff_exists.1 h
    rcases hs.pending_done n e he with h1 | h1
    · exact Or.inl (isSome_of_eq_some h1)
    · exact Or.inr h1
  · obtain ⟨t, ht⟩ := Option.isSome_iff_exists.1 h
    exact Or.inr (isSome_of_eq_some (hs.resolved_keep n t ht))

theorem Good.step_all {reg : String → Option (Int × TypeMarshal)} {rank : String → Nat}
    {a b : MarshalManager} {ty : String} (h : Good reg rank a ty) (hs : ResolveStep a b) :
    Good reg rank b ty :=
  ⟨h.1, h.2.1, fun n hn hr => (h.2.2 n hn hr).step_to hs⟩

theorem bound_of_some (md : MemberDesc) (p : MarshallerPtr) (h : md.marshaller_ = some p) :
    { md with marshaller_ := some p } = md.bound := by
  simp only [MemberDesc.bound, h]

theorem bound_of_none (md : MemberDesc) (h : md.marshaller_ = none) :
    { md with marshaller_ := some (.type md.type_) } = md.bound := by
  simp only [MemberDesc.bound, h]

/-- The loop of `TypeMarshal::resolve`, given what the calls of
`marshaller(char const *)` achieve. -/
theorem resolveFrom_post (reg : String → Option (Int × TypeMarshal)) (rank : String → Nat)
    (call : MarshalManager → String → Option (Outcome (Option String))) (bnd : Nat)
    (hcall : ∀ mgr ty, ResolveInv reg mgr → mgr.toResolve_.length ≤ bnd →
      ∃ out, call mgr ty = some out ∧ ResolvePost reg rank mgr ty out)
    (name : String) :
    ∀ (descs : List MemberDesc) (mgr : MarshalManager) (done : List MemberDesc)
      (mSize memSize maxMemSize : Nat),
      ResolveInv reg mgr → mgr.toResolve_.length ≤ bnd →
      ∃ out, TypeMarshal.resolveFrom call name descs mgr done mSize memSize maxMemSize = some out ∧
        ResolveFromPost reg rank mgr descs done out := by
  intro descs
  induction descs with
  | nil =>
    intro mgr done mSize memSize maxMemSize hinv _
    refine ⟨_, rfl, ?_⟩
    exact ⟨hinv, ResolveStep.refl mgr, by simp, fun d hd => by cases hd⟩
  | cons md rest ih =>
    intro mgr done mSize memSize maxMemSize hinv hlen
    cases hmd : md.marshaller_ with
    | some p =>
      have hm : TypeMarshal.resolveMember call name md mgr = some (.ret p mgr) := by
        simp only [TypeMarshal.resolveMember, hmd]
      obtain ⟨out, hout, hpost⟩ := ih mgr (done ++ [{ md with marshaller_ := some p }])
        ((mSize + mgr.maxMarshalledSize p) % 2 ^ 32)
        (if md.offset_ + mgr.instanceSize p > memSize then md.offset_ + mgr.instanceSize p
         else memSize)
        (if mgr.instanceSize p > maxMemSize then mgr.instanceSize p else maxMemSize) hinv hlen
      refine ⟨out, ?_, ?_⟩
      · rw [TypeMarshal.resolveFrom, hm]
        exact hout
      · cases out with
        | ret res mgr1 =>
          obtain ⟨h1, h2, h3, h4⟩ := hpost
          refine ⟨h1, h2, ?_, ?_⟩
          · rw [h3, bound_of_some md p hmd]
            simp
          · intro d hd hn
            rcases List.mem_cons.1 hd with h | h
            · rw [h, hmd] at hn
              cases hn
            · exact h4 d h hn
        | raise e mgr1 =>
          intro hall
          exact hpost (fun d hd hn => hall d (List.mem_cons_of_mem _ hd) hn)
    | none =>
      obtain ⟨out0, hout0, hpost0⟩ := hcall mgr md.type_ hinv hlen
      cases out0 with
      | raise e mgr1 =>
        refine ⟨.raise e mgr1, ?_, ?_⟩
        · rw [TypeMarshal.resolveFrom]
          simp only [TypeMarshal.resolveMember, hmd, hout0]
        · intro hall
          exact hpost0 (hall md (List.mem_cons_self _ _) hmd)
      | ret p mgr1 =>
        obtain ⟨hinv1, hstep1, hp⟩ := hpost0
        rcases hp with ⟨hp1, hres⟩ | ⟨hp1, hnot⟩
        · subst hp1
          have hm : TypeMarshal.resolveMember call name md mgr =
              some (.ret (.type md.type_) mgr1) := by
            simp only [TypeMarshal.resolveMember, hmd, hout0]
          have hlen1 : mgr1.toResolve_.length ≤ bnd :=
            le_trans hstep1.sublist.length_le hlen
          obtain ⟨out, hout, hpost⟩ := ih mgr1
            (done ++ [{ md with marshaller_ := some (.type md.type_) }])
            ((mSize + mgr1.maxMarshalledSize (.type md.type_)) % 2 ^ 32)
            (if md.offset_ + mgr1.instanceSize (.type md.type_) > memSize then
              md.offset_ + mgr1.instanceSize (.type md.type_) else memSize)
            (if mgr1.instanceSize (.type md.type_) > maxMemSize then
              mgr1.instanceSize (.type md.type_) else maxMemSize) hinv1 hlen1
          refine ⟨out, ?_, ?_⟩
          · rw [TypeMarshal.resolveFrom, hm]
            exact hout
          · cases out with
            | ret res mgr2 =>
              obtain ⟨h1, h2, h3, h4⟩ := hpost
              refine ⟨h1, hstep1.trans h2, ?_, ?_⟩
              · rw [h3, bound_of_none md hmd]
                simp
              · intro d hd hn
                rcases List.mem_cons.1 hd with h | h
                · rw [h]
                  obtain ⟨t, ht⟩ := Option.isSome_iff_exists.1 hres
                  exact isSome_of_eq_some (h2.resolved_keep _ t ht)
                · exact h4 d h hn
            | raise e mgr2 =>
              intro hall
              exact hpost (fun d hd hn => (hall d (List.mem_cons_of_mem _ hd) hn).step_all hstep1)
        · subst hp1
          refine ⟨.raise (.logic_error ("Marshaller for type " ++ name ++ " uses type " ++
            md.type_ ++ " which isn\x27t defined (or is recursively used).")) mgr1, ?_, ?_⟩
          · rw [TypeMarshal.resolveFrom]
            simp only [TypeMarshal.resolveMember, hmd, hout0]
          · intro hall
            have hg := hall md (List.mem_cons_self _ _) hmd
            exact hnot (hg.2.2 md.type_ hg.2.1 (le_refl _))

theorem inv_remove {reg : String → Option (Int × TypeMarshal)} {mgr mgr1 : MarshalManager}
    (hinv : ResolveInv reg mgr) (hsm : mgr1.stringMarshallers_ = mgr.stringMarshallers_)
    (hsub : ∀ n e, mapFind n mgr1.toResolve_ = some e → mapFind n mgr.toResolve_ = some e) :
    ResolveInv reg mgr1 :=
  { pending_reg := fun n e h => hinv.pending_reg n e (hsub n e h)
    resolved_reg := by
      intro n t1 h
      rw [hsm] at h
      exact hinv.resolved_reg n t1 h
    disjoint := by
      intro n t1 h
      rw [hsm] at h
      have h0 := hinv.disjoint n t1 h
      cases h1 : mapFind n mgr1.toResolve_ with
      | none => rfl
      | some e =>
        rw [hsub n e h1] at h0
        cases h0
    ranked := by
      obtain ⟨rk, hrk⟩ := hinv.ranked
      refine ⟨rk, ?_⟩
      intro n t1 h
      rw [hsm] at h ⊢
      exact hrk n t1 h }

theorem list_sum_ge {α : Type} (f : α → Nat) : ∀ (l : List α) (a : α), a ∈ l →
    f a ≤ (l.map f).sum := by
  intro l
  induction l with
  | nil => intro a h; cases h
  | cons b rest ih =>
    intro a h
    simp only [List.map_cons, List.sum_cons]
    rcases List.mem_cons.1 h with h1 | h1
    · rw [h1]
      omega
    · have := ih a h1
      omega

/-- The manager after a type is resolved and entered in `stringMarshallers_`:
`mgr` is the manager before the type was taken out of `toResolve_`, `mgr1`
the one after that, `mgr2` the one after `TypeMarshal::resolve`, `mgr3` the one
with the new entry. -/
theorem insert_post {reg : String → Option (Int × TypeMarshal)}
    {mgr mgr1 mgr2 mgr3 : MarshalManager} {ty : String} {id : Int} {t t1 : TypeMarshal}
    (hinv2 : ResolveInv reg mgr2) (hstep : ResolveStep mgr1 mgr2)
    (hsm1 : mgr1.stringMarshallers_ = mgr.stringMarshallers_)
    (hsub1 : mgr1.toResolve_.Sublist mgr.toResolve_)
    (hfind1 : ∀ n, n ≠ ty → mapFind n mgr1.toResolve_ = mapFind n mgr.toResolve_)
    (hgone : mapFind ty mgr1.toResolve_ = none)
    (hpend : mapFind ty mgr.toResolve_ = some (id, t))
    (hnr : mapFind ty mgr.stringMarshallers_ = none)
    (hreg : reg ty = some (id, t))
    (hdescs : t1.descs_ = t.descs_.map MemberDesc.bound)
    (hrefs : ∀ d ∈ t.descs_, d.marshaller_ = none →
      (mapFind d.type_ mgr2.stringMarshallers_).isSome = true)
    (hto : mgr3.toResolve_ = mgr2.toResolve_)
    (hsm : ∀ n, mapFind n mgr3.stringMarshallers_ =
      if n = ty then some t1 else mapFind n mgr2.stringMarshallers_) :
    ResolveInv reg mgr3 ∧ ResolveStep mgr mgr3 ∧
      (mapFind ty mgr3.stringMarshallers_).isSome = true := by
  have hnr2 : mapFind ty mgr2.stringMarshallers_ = none := by
    cases h : mapFind ty mgr2.stringMarshallers_ with
    | none => rfl
    | some t2 =>
      rcases hstep.resolved_from ty t2 h with h1 | h1
      · rw [hsm1, hnr] at h1
        cases h1
      · rw [hgone] at h1
        cases h1
  have hnp2 : mapFind ty mgr2.toResolve_ = none := by
    cases h : mapFind ty mgr2.toResolve_ with
    | none => rfl
    | some e =>
      rw [hstep.pending_sub ty e h] at hgone
      cases hgone
  have hne : ∀ n t2, mapFind n mgr2.stringMarshallers_ = some t2 → n ≠ ty := by
    intro n t2 h he
    rw [he, hnr2] at h
    cases h
  refine ⟨?_, ?_, ?_⟩
  · refine
      { pending_reg := ?_
        resolved_reg := ?_
        disjoint := ?_
        ranked := ?_ }
    · intro n e h
      rw [hto] at h
      exact hinv2.pending_reg n e h
    · intro n t2 h
      rw [hsm n] at h
      by_cases hn : n = ty
      · rw [if_pos hn] at h
        cases h
        rw [hn]
        exact ⟨id, t, hreg, hdescs⟩
      · rw [if_neg hn] at h
        exact hinv2.resolved_reg n t2 h
    · intro n t2 h
      rw [hsm n] at h
      rw [hto]
      by_cases hn : n = ty
      · rw [hn]
        exact hnp2
      · rw [if_neg hn] at h
        exact hinv2.disjoint n t2 h
    · obtain ⟨rk, hrk⟩ := hinv2.ranked
      refine ⟨fun n => if n = ty then 1 + (t.descs_.map (fun d => rk d.type_)).sum else rk n, ?_⟩
      intro n t2 h id2 t3 hreg2 d hd hdn
      rw [hsm n] at h
      by_cases hn : n = ty
      · subst hn
        rw [hreg] at hreg2
        cases hreg2
        have hres := hrefs d hd hdn
        obtain ⟨t4, ht4⟩ := Option.isSome_iff_exists.1 hres
        have hdne : d.type_ ≠ n := hne d.type_ t4 ht4
        refine ⟨?_, ?_⟩
        · rw [hsm d.type_, if_neg hdne]
          exact hres
        · simp only [if_neg hdne, if_true]
          have := list_sum_ge (fun d => rk d.type_) t.descs_ d hd
          simp only at this
          omega
      · rw [if_neg hn] at h
        obtain ⟨hres, hlt⟩ := hrk n t2 h id2 t3 hreg2 d hd hdn
        obtain ⟨t4, ht4⟩ := Option.isSome_iff_exists.1 hres
        have hdne : d.type_ ≠ ty := hne d.type_ t4 ht4
        refine ⟨?_, ?_⟩
        · rw [hsm d.type_, if_neg hdne]
          exact hres
        · simp only [if_neg hdne, if_neg hn]
          exact hlt
  · refine
      { resolved_keep := ?_
        pending_sub := ?_
        pending_done := ?_
        resolved_from := ?_
        sublist := ?_ }
    · intro n t2 h
      have hn : n ≠ ty := by
        intro he
        rw [he, hnr] at h
        cases h
      rw [hsm n, if_neg hn]
      rw [← hsm1] at h
      exact hstep.resolved_keep n t2 h
    · intro n e h
      rw [hto] at h
      have h1 := hstep.pending_sub n e h
      have hn : n ≠ ty := by
        intro he
        rw [he, hgone] at h1
        cases h1
      rw [← hfind1 n hn]
      exact h1
    · intro n e h
      by_cases hn : n = ty
      · right
        rw [hsm n, if_pos hn]
        rfl
      · rw [← hfind1 n hn] at h
        rcases hstep.pending_done n e h with h1 | h1
        · left
          rw [hto]
          exact h1
        · right
          rw [hsm n, if_neg hn]
          exact h1
    · intro n t2 h
      rw [hsm n] at h
      by_cases hn : n = ty
      · right
        rw [hn, hpend]
        rfl
      · rw [if_neg hn] at h
        rcases hstep.resolved_from n t2 h with h1 | h1
        · left
          rw [← hsm1]
          exact h1
        · right
          rw [← hfind1 n hn]
          exact h1
    · rw [hto]
      exact hstep.sublist.trans hsub1
  · rw [hsm ty, if_pos rfl]
    rfl

theorem good_member {reg : String → Option (Int × TypeMarshal)} {rank : String → Nat}
    {mgr1 : MarshalManager} {ty : String} {id : Int} {t : TypeMarshal}
    (hac : Acyclic reg rank) (hreg : reg ty = some (id, t))
    (hav : ∀ n, (reg n).isSome = true → rank n < rank ty → Available mgr1 n) :
    ∀ d ∈ t.descs_, d.marshaller_ = none → Good reg rank mgr1 d.type_ := by
  intro d hd hdn
  obtain ⟨h1, h2⟩ := hac ty id t hreg d hd hdn
  exact ⟨hac, h1, fun n hn hr => hav n hn (by omega)⟩

/-- The function `TypeMarshal::resolve`, given what the calls of
`marshaller(char const *)` achieve. -/
theorem resolve_post (reg : String → Option (Int × TypeMarshal)) (rank : String → Nat)
    (call : MarshalManager → String → Option (Outcome (Option String))) (bnd : Nat)
    (hcall : ∀ mgr ty, ResolveInv reg mgr → mgr.toResolve_.length ≤ bnd →
      ∃ out, call mgr ty = some out ∧ ResolvePost reg rank mgr ty out)
    (mgr : MarshalManager) (self : TypeMarshal) (hinv : ResolveInv reg mgr)
    (hlen : mgr.toResolve_.length ≤ bnd) :
    ∃ out, TypeMarshal.resolve call mgr self = some out ∧
      ResolveTypePost reg rank mgr self out := by
  obtain ⟨out, hout, hpost⟩ :=
    resolveFrom_post reg rank call bnd hcall self.name_ self.descs_ mgr [] 0 0 0 hinv hlen
  cases out with
  | raise e mgr1 =>
    refine ⟨.raise e mgr1, ?_, hpost⟩
    simp only [TypeMarshal.resolve, hout]
  | ret res mgr1 =>
    obtain ⟨descs, mSize, memSize, maxMemSize⟩ := res
    obtain ⟨h1, h2, h3, h4⟩ := hpost
    refine ⟨.ret
      { self with
        descs_ := descs
        instanceSize_ :=
          (memSize + ((if maxMemSize ≥ 3 then 4 else maxMemSize) - 1)) /
            (if maxMemSize ≥ 3 then 4 else maxMemSize) *
            (if maxMemSize ≥ 3 then 4 else maxMemSize)
        maxMarshalledSize_ := mSize } mgr1, ?_, ?_⟩
    · simp only [TypeMarshal.resolve, hout]
    · refine ⟨h1, h2, ?_, h4⟩
      simpa using h3

/-- What `MarshalManager::marshaller(char const *)` achieves, with enough
fuel for the entries that are pending. -/
theorem marshaller_post (reg : String → Option (Int × TypeMarshal)) (rank : String → Nat) :
    ∀ (fuel : Nat) (mgr : MarshalManager) (ty : String),
      ResolveInv reg mgr → mgr.toResolve_.length < fuel →
      ∃ out, MarshalManager.marshaller fuel mgr ty = some out ∧
        ResolvePost reg rank mgr ty out := by
  intro fuel
  induction fuel with
  | zero => intro mgr ty _ h; omega
  | succ fuel ih =>
    intro mgr ty hinv hlen
    cases hsm : mapFind ty mgr.stringMarshallers_ with
    | some t0 =>
      refine ⟨.ret (some ty) mgr, ?_, ?_⟩
      · simp only [MarshalManager.marshaller, hsm]
      · exact ⟨hinv, ResolveStep.refl mgr, Or.inl ⟨rfl, isSome_of_eq_some hsm⟩⟩
    | none =>
      cases hto : mapFind ty mgr.toResolve_ with
      | none =>
        refine ⟨.ret none mgr, ?_, ?_⟩
        · simp only [MarshalManager.marshaller, hsm, hto]
        · refine ⟨hinv, ResolveStep.refl mgr, Or.inr ⟨rfl, ?_⟩⟩
          intro h
          rcases h with h | h
          · rw [hto] at h; cases h
          · rw [hsm] at h; cases h
      | some e =>
        obtain ⟨id, mr⟩ := e
        have hfind1 : ∀ n, n ≠ ty → mapFind n (mapErase ty mgr.toResolve_) =
            mapFind n mgr.toResolve_ := by
          intro n hn
          rw [mapFind_mapErase, if_neg hn]
        have hgone : mapFind ty (mapErase ty mgr.toResolve_) = none := by
          rw [mapFind_mapErase, if_pos rfl]
        have hinv1 : ResolveInv reg { mgr with toResolve_ := mapErase ty mgr.toResolve_ } := by
          refine @inv_remove reg mgr { mgr with toResolve_ := mapErase ty mgr.toResolve_ }
            hinv rfl ?_
          intro n e h
          by_cases hn : n = ty
          · rw [hn] at h
            rw [show ({ mgr with toResolve_ := mapErase ty mgr.toResolve_ } :
              MarshalManager).toResolve_ = mapErase ty mgr.toResolve_ from rfl, hgone] at h
            cases h
          · rw [← hfind1 n hn]
            exact h
        have hlt := mapErase_length_lt ty (id, mr) mgr.toResolve_ hto
        have hcall : ∀ mgr2 ty2, ResolveInv reg mgr2 → mgr2.toResolve_.length ≤ fuel - 1 →
            ∃ out, MarshalManager.marshaller fuel mgr2 ty2 = some out ∧
              ResolvePost reg rank mgr2 ty2 out := by
          intro mgr2 ty2 h1 h2
          exact ih mgr2 ty2 h1 (by omega)
        obtain ⟨out, hout, hpost⟩ := resolve_post reg rank (MarshalManager.marshaller fuel)
          (fuel - 1) hcall { mgr with toResolve_ := mapErase ty mgr.toResolve_ } mr hinv1
          (by
            show (mapErase ty mgr.toResolve_).length ≤ fuel - 1
            omega)
        cases out with
        | raise e mgr2 =>
          refine ⟨.raise
            (if e.isLogicError then
              .logic_error ("While resolving marshaller for type: " ++ ty ++ "\n" ++ e.what)
             else e) mgr2, ?_, ?_⟩
          · simp only [MarshalManager.marshaller, hsm, hto, hout]
          · intro hg
            apply hpost
            apply good_member hg.1 (hinv.pending_reg ty (id, mr) hto)
            intro n hn hr
            have hne : n ≠ ty := by
              intro he
              rw [he] at hr
              omega
            rcases hg.2.2 n hn (by omega) with h | h
            · left
              rw [show ({ mgr with toResolve_ := mapErase ty mgr.toResolve_ } :
                MarshalManager).toResolve_ = mapErase ty mgr.toResolve_ from rfl, hfind1 n hne]
              exact h
            · right
              exact h
        | ret t1 mgr2 =>
          obtain ⟨hinv2, hstep, hdescs, hrefs⟩ := hpost
          have hins := @insert_post reg mgr
            { mgr with toResolve_ := mapErase ty mgr.toResolve_ } mgr2
            (if id ≠ 0 then
              { mgr2 with
                stringMarshallers_ := mapSet strLt ty t1 mgr2.stringMarshallers_
                intMarshallers_ := mapSet intLt id ty mgr2.intMarshallers_ }
             else
              { mgr2 with stringMarshallers_ := mapSet strLt ty t1 mgr2.stringMarshallers_ })
            ty id mr t1 hinv2 hstep rfl (mapErase_sublist ty mgr.toResolve_) hfind1 hgone hto hsm
            (hinv.pending_reg ty (id, mr) hto) hdescs hrefs
            (by split_ifs <;> rfl)
            (by
              intro n
              split_ifs <;> simp only [mapFind_mapSet] <;> simp_all)
          refine ⟨.ret (some ty) _, ?_, hins.1, hins.2.1, Or.inl ⟨rfl, hins.2.2⟩⟩
          simp only [MarshalManager.marshaller, hsm, hto, hout]

theorem mapFind_map_val {K V : Type} [DecidableEq K] (p : K) (g : V → V) (n : K) :
    ∀ m : List (K × V),
      mapFind n (m.map (fun e => if e.1 = p then (e.1, g e.2) else e)) =
        (mapFind n m).map (fun t => if n = p then g t else t) := by
  intro m
  induction m with
  | nil => rfl
  | cons e rest ih =>
    simp only [List.map_cons, mapFind]
    by_cases hp : e.1 = p
    · rw [if_pos hp]
      by_cases hn : n = e.1
      · rw [if_pos hn, if_pos hn]
        simp only [Option.map_some']
        rw [if_pos (hn.trans hp)]
      · rw [if_neg hn, if_neg hn]
        exact ih
    · rw [if_neg hp]
      by_cases hn : n = e.1
      · rw [if_pos hn, if_pos hn]
        simp only [Option.map_some']
        rw [if_neg (by rw [hn]; exact hp)]
      · rw [if_neg hn, if_neg hn]
        exact ih

theorem mapFind_setId (mgr : MarshalManager) (p : String) (id : Int) (n : String) :
    mapFind n (mgr.setId p id).stringMarshallers_ =
      (mapFind n mgr.stringMarshallers_).map
        (fun t => if n = p then { t with id_ := id } else t) :=
  mapFind_map_val p (fun t : TypeMarshal => { t with id_ := id }) n mgr.stringMarshallers_

/-- What the loop of `MarshalManager::resolve` achieves, with enough fuel for
the entries that are pending. -/
theorem resolveLoop_post (reg : String → Option (Int × TypeMarshal)) (rank : String → Nat) :
    ∀ (fuel : Nat) (mgr : MarshalManager),
      ResolveInv reg mgr → (mgr.toResolve_.map Prod.fst).Nodup →
      mgr.toResolve_.length < fuel →
      ∃ out, MarshalManager.resolveLoop fuel mgr = some out ∧
        ResolveLoopPost reg rank mgr out := by
  intro fuel
  induction fuel with
  | zero => intro mgr _ _ h; omega
  | succ fuel ih =>
    intro mgr hinv hnd hlen
    cases hto : mgr.toResolve_ with
    | nil =>
      refine ⟨.ret () mgr, ?_, hinv, ResolveStep.refl mgr, hto⟩
      rw [MarshalManager.resolveLoop]
      simp only [hto]
    | cons e rest =>
      obtain ⟨name, id, r⟩ := e
      rw [hto] at hnd hlen
      simp only [List.map_cons, List.nodup_cons, List.length_cons] at hnd hlen
      have hgone : mapFind name rest = none := mapFind_none_of_not_mem name rest hnd.1
      have hpend : mapFind name mgr.toResolve_ = some (id, r) := by
        rw [hto]
        simp only [mapFind, if_true]
      have hfind1 : ∀ n, n ≠ name → mapFind n rest = mapFind n mgr.toResolve_ := by
        intro n hn
        rw [hto]
        simp only [mapFind, if_neg hn]
      have hnr : mapFind name mgr.stringMarshallers_ = none := by
        cases h : mapFind name mgr.stringMarshallers_ with
        | none => rfl
        | some t0 =>
          have h0 := hinv.disjoint name t0 h
          rw [hpend] at h0
          cases h0
      have hreg := hinv.pending_reg name (id, r) hpend
      have hsub1 : rest.Sublist mgr.toResolve_ := by
        rw [hto]
        exact List.sublist_cons_self _ rest
      have hinv1 : ResolveInv reg { mgr with toResolve_ := rest } := by
        refine @inv_remove reg mgr { mgr with toResolve_ := rest } hinv rfl ?_
        intro n e h
        by_cases hn : n = name
        · rw [hn] at h
          rw [show ({ mgr with toResolve_ := rest } : MarshalManager).toResolve_ = rest from rfl,
            hgone] at h
          cases h
        · rw [← hfind1 n hn]
          exact h
      have hcall : ∀ mgr2 ty2, ResolveInv reg mgr2 → mgr2.toResolve_.length ≤ rest.length →
          ∃ out, MarshalManager.marshaller (rest.length + 1) mgr2 ty2 = some out ∧
            ResolvePost reg rank mgr2 ty2 out := by
        intro mgr2 ty2 h1 h2
        exact marshaller_post reg rank (rest.length + 1) mgr2 ty2 h1 (by omega)
      obtain ⟨out, hout, hpost⟩ := resolve_post reg rank
        (MarshalManager.marshaller (rest.length + 1)) rest.length hcall
        { mgr with toResolve_ := rest } r hinv1 (le_refl _)
      cases out with
      | raise e mgr2 =>
        refine ⟨.raise e mgr2, ?_, ?_⟩
        · rw [MarshalManager.resolveLoop]
          simp only [hto, hout]
        · intro hg
          apply hpost
          apply good_member hg.1 hreg
          intro n hn hr
          have hne : n ≠ name := by
            intro he
            rw [he] at hr
            omega
          rcases hg.2 n hn with h | h
          · left
            rw [show ({ mgr with toResolve_ := rest } : MarshalManager).toResolve_ = rest from rfl,
              hfind1 n hne]
            exact h
          · right
            exact h
      | ret m mgr2 =>
        obtain ⟨hinv2, hstep, hdescs, hrefs⟩ := hpost
        have hlen2 : mgr2.toResolve_.length ≤ rest.length := hstep.sublist.length_le
        have hnd2 : (mgr2.toResolve_.map Prod.fst).Nodup :=
          keys_nodup_sublist mgr2.toResolve_ rest hstep.sublist hnd.2
        by_cases hid : id ≠ 0
        · have hins := @insert_post reg mgr { mgr with toResolve_ := rest } mgr2
            (({ mgr2 with
               stringMarshallers_ := mapSet strLt name m mgr2.stringMarshallers_
               intMarshallers_ := mapSet intLt id name mgr2.intMarshallers_ }).setId name id)
            name id r { m with id_ := id } hinv2 hstep rfl hsub1 hfind1 hgone hpend hnr hreg
            hdescs hrefs rfl
            (by
              intro n
              rw [mapFind_setId]
              simp only [mapFind_mapSet]
              by_cases hn : n = name
              · simp only [if_pos hn, Option.map_some']
              · simp only [if_neg hn]
                cases mapFind n mgr2.stringMarshallers_ <;> rfl)
          obtain ⟨out3, hout3, hpost3⟩ := ih _ hins.1 hnd2 (by
            show mgr2.toResolve_.length < fuel
            omega)
          refine ⟨out3, ?_, ?_⟩
          · rw [MarshalManager.resolveLoop]
            simp only [hto, hout, if_pos hid]
            exact hout3
          · cases out3 with
            | ret u mgr4 =>
              exact ⟨hpost3.1, hins.2.1.trans hpost3.2.1, hpost3.2.2⟩
            | raise e4 mgr4 =>
              intro hg
              exact hpost3 ⟨hg.1, fun n hn => (hg.2 n hn).step_to hins.2.1⟩
        · have hins := @insert_post reg mgr { mgr with toResolve_ := rest } mgr2
            { mgr2 with stringMarshallers_ := mapSet strLt name m mgr2.stringMarshallers_ }
            name id r m hinv2 hstep rfl hsub1 hfind1 hgone hpend hnr hreg
            hdescs hrefs rfl
            (by
              intro n
              simp only [mapFind_mapSet])
          obtain ⟨out3, hout3, hpost3⟩ := ih _ hins.1 hnd2 (by
            show mgr2.toResolve_.length < fuel
            omega)
          refine ⟨out3, ?_, ?_⟩
          · rw [MarshalManager.resolveLoop]
            simp only [hto, hout, if_neg hid]
            exact hout3
          · cases out3 with
            | ret u mgr4 =>
              exact ⟨hpost3.1, hins.2.1.trans hpost3.2.1, hpost3.2.2⟩
            | raise e4 mgr4 =>
              intro hg
              exact hpost3 ⟨hg.1, fun n hn => (hg.2 n hn).step_to hins.2.1⟩

/-! ## Resolving registered types (C14, C16) -/

theorem not_mem_of_mapFind_none {K V : Type} [DecidableEq K] (k : K) : ∀ m : List (K × V),
    mapFind k m = none → k ∉ m.map Prod.fst := by
  intro m
  induction m with
  | nil => intro _ h; cases h
  | cons e rest ih =>
    intro h
    simp only [mapFind] at h
    by_cases he : k = e.1
    · rw [if_pos he] at h
      cases h
    · rw [if_neg he] at h
      simp only [List.map_cons, List.mem_cons, not_or]
      exact ⟨he, ih h⟩

theorem regOf_cons (r : Int × TypeMarshal) (rest : List (Int × TypeMarshal)) (n : String) :
    regOf (r :: rest) n = if n = r.2.name_ then some (r.1, r.2) else regOf rest n := by
  simp only [regOf, List.map_cons, mapFind]

theorem regOf_mem : ∀ (regs : List (Int × TypeMarshal)) (n : String) (e : Int × TypeMarshal),
    regOf regs n = some e → e ∈ regs ∧ e.2.name_ = n := by
  intro regs
  induction regs with
  | nil => intro n e h; cases h
  | cons r rest ih =>
    intro n e h
    rw [regOf_cons] at h
    by_cases hn : n = r.2.name_
    · rw [if_pos hn] at h
      cases h
      exact ⟨List.mem_cons_self _ _, hn.symm⟩
    · rw [if_neg hn] at h
      exact ⟨List.mem_cons_of_mem _ (ih n e h).1, (ih n e h).2⟩

theorem regOf_none : ∀ (regs : List (Int × TypeMarshal)) (n : String),
    n ∉ regs.map (fun r => r.2.name_) → regOf regs n = none := by
  intro regs
  induction regs with
  | nil => intro n _; rfl
  | cons r rest ih =>
    intro n h
    simp only [List.map_cons, List.mem_cons, not_or] at h
    rw [regOf_cons, if_neg h.1]
    exact ih n h.2

theorem regOf_of_mem : ∀ (regs : List (Int × TypeMarshal)),
    (regs.map (fun r => r.2.name_)).Nodup → ∀ r ∈ regs, regOf regs r.2.name_ = some r := by
  intro regs
  induction regs with
  | nil => intro _ r h; cases h
  | cons r0 rest ih =>
    intro hn r hr
    simp only [List.map_cons, List.nodup_cons] at hn
    rw [regOf_cons]
    rcases List.mem_cons.1 hr with h | h
    · rw [h, if_pos rfl]
    · have hne : r.2.name_ ≠ r0.2.name_ := by
        intro he
        apply hn.1
        rw [← he]
        exact List.mem_map.2 ⟨r, h, rfl⟩
      rw [if_neg hne]
      exact ih hn.2 r h

/-- The registrars of types with distinct names all succeed, and leave each
registration pending under its name. -/
theorem registerAll_ok : ∀ (regs : List (Int × TypeMarshal)) (mgr : MarshalManager),
    (regs.map (fun r => r.2.name_)).Nodup →
    (∀ r ∈ regs, mapFind r.2.name_ mgr.toResolve_ = none) →
    (mgr.toResolve_.map Prod.fst).Nodup →
    ∃ mgr1, registerAll regs mgr = .ok mgr1 ∧
      mgr1.stringMarshallers_ = mgr.stringMarshallers_ ∧
      (mgr1.toResolve_.map Prod.fst).Nodup ∧
      (∀ n e, regOf regs n = some e → mapFind n mgr1.toResolve_ = some e) ∧
      (∀ n, regOf regs n = none → mapFind n mgr1.toResolve_ = mapFind n mgr.toResolve_) := by
  intro regs
  induction regs with
  | nil =>
    intro mgr _ _ hk
    exact ⟨mgr, rfl, rfl, hk, fun n e h => (by cases h), fun n _ => rfl⟩
  | cons r rest ih =>
    intro mgr hn hfree hk
    obtain ⟨id, m⟩ := r
    simp only [List.map_cons, List.nodup_cons] at hn
    have hfree0 : mapFind m.name_ mgr.toResolve_ = none :=
      hfree (id, m) (List.mem_cons_self _ _)
    have hreg : MarshalRegistrar mgr id m =
        .ok { mgr with toResolve_ := mapSet strLt m.name_ (id, m) mgr.toResolve_ } := by
      simp only [MarshalRegistrar, MarshalManager.setMarshaller, hfree0, Option.isSome_none,
        Bool.false_eq_true, if_false]
    have hfree1 : ∀ r ∈ rest,
        mapFind r.2.name_ (mapSet strLt m.name_ (id, m) mgr.toResolve_) = none := by
      intro r hr
      have hne : r.2.name_ ≠ m.name_ := by
        intro he
        apply hn.1
        rw [← he]
        exact List.mem_map.2 ⟨r, hr, rfl⟩
      rw [mapFind_mapSet, if_neg hne]
      exact hfree r (List.mem_cons_of_mem _ hr)
    have hk1 : ((mapSet strLt m.name_ (id, m) mgr.toResolve_).map Prod.fst).Nodup := by
      apply (mapSet_keys_perm strLt m.name_ (id, m) mgr.toResolve_ hfree0).nodup_iff.2
      exact List.nodup_cons.2 ⟨not_mem_of_mapFind_none m.name_ mgr.toResolve_ hfree0, hk⟩
    obtain ⟨mgr1, h1, h2, h3, h4, h5⟩ :=
      ih { mgr with toResolve_ := mapSet strLt m.name_ (id, m) mgr.toResolve_ } hn.2 hfree1 hk1
    refine ⟨mgr1, ?_, h2, h3, ?_, ?_⟩
    · simp only [registerAll, hreg]
      exact h1
    · intro n e he
      rw [regOf_cons] at he
      by_cases hnm : n = m.name_
      · rw [if_pos hnm] at he
        cases he
        have hnone : regOf rest n = none := by
          apply regOf_none
          rw [hnm]
          exact hn.1
        rw [h5 n hnone]
        show mapFind n (mapSet strLt m.name_ (id, m) mgr.toResolve_) = some (id, m)
        rw [mapFind_mapSet, if_pos hnm]
      · rw [if_neg hnm] at he
        exact h4 n e he
    · intro n he
      rw [regOf_cons] at he
      by_cases hnm : n = m.name_
      · rw [if_pos hnm] at he
        cases he
      · rw [if_neg hnm] at he
        rw [h5 n he]
        show mapFind n (mapSet strLt m.name_ (id, m) mgr.toResolve_) = mapFind n mgr.toResolve_
        rw [mapFind_mapSet, if_neg hnm]

/-- The manager after the registrars of types with distinct names. -/
theorem registered_inv (regs : List (Int × TypeMarshal))
    (hnames : (regs.map (fun r => r.2.name_)).Nodup) :
    ∃ mgr0, registerAll regs MarshalManager.new = .ok mgr0 ∧
      ResolveInv (regOf regs) mgr0 ∧ (mgr0.toResolve_.map Prod.fst).Nodup ∧
      ∀ n, mapFind n mgr0.toResolve_ = regOf regs n := by
  obtain ⟨mgr0, h1, h2, h3, h4, h5⟩ := registerAll_ok regs MarshalManager.new hnames
    (fun _ _ => rfl) List.nodup_nil
  have hfind : ∀ n, mapFind n mgr0.toResolve_ = regOf regs n := by
    intro n
    cases h : regOf regs n with
    | none => rw [h5 n h]; rfl
    | some e => exact h4 n e h
  have hsm : ∀ n, mapFind n mgr0.stringMarshallers_ = none := by
    intro n
    rw [h2]
    rfl
  refine ⟨mgr0, h1, ?_, h3, hfind⟩
  exact
    { pending_reg := fun n e h => by rw [← hfind n]; exact h
      resolved_reg := fun n t1 h => by rw [hsm n] at h; cases h
      disjoint := fun n t1 h => by rw [hsm n] at h; cases h
      ranked := ⟨fun _ => 0, fun n t1 h => by rw [hsm n] at h; cases h⟩ }

/-- When the loop of `MarshalManager::resolve` has ended, every registered
type is resolved. -/
theorem registered_resolved {regs : List (Int × TypeMarshal)} {mgr0 mgr1 : MarshalManager}
    (hnames : (regs.map (fun r => r.2.name_)).Nodup)
    (hfind : ∀ n, mapFind n mgr0.toResolve_ = regOf regs n)
    (hstep : ResolveStep mgr0 mgr1) (hnil : mgr1.toResolve_ = []) :
    ∀ r ∈ regs, ∃ t1, mapFind r.2.name_ mgr1.stringMarshallers_ = some t1 := by
  intro r hr
  have h0 : mapFind r.2.name_ mgr0.toResolve_ = some r := by
    rw [hfind]
    exact regOf_of_mem regs hnames r hr
  rcases hstep.pending_done r.2.name_ r h0 with h | h
  · rw [hnil] at h
    cases h
  · exact Option.isSome_iff_exists.1 h

/-- A relation that a rank decreases along has no cycle. -/
theorem no_cycle_of_rank {R : String → String → Prop} (rk : String → Nat)
    (h : ∀ a b, R a b → rk b < rk a) : ∀ n, ¬ Relation.TransGen R n n := by
  have hlt : ∀ a b, Relation.TransGen R a b → rk b < rk a := by
    intro a b hab
    induction hab with
    | single h1 => exact h _ _ h1
    | tail _ h2 ih => exact lt_trans (h _ _ h2) ih
  intro n hn
  exact lt_irrefl _ (hlt n n hn)

/-- Nested-type references that name registered types only and have no cycle
can be ranked. -/
theorem rank_of_no_cycle (regs : List (Int × TypeMarshal))
    (hrefs : ∀ a b, refersTo regs a b → ∃ r ∈ regs, r.2.name_ = b)
    (hacyc : ∀ n, ¬ Relation.TransGen (refersTo regs) n n) :
    ∃ rank : String → Nat, ∀ a b, refersTo regs a b → rank b < rank a := by
  classical
  refine ⟨fun n => (((regs.map (fun r => r.2.name_)).toFinset).filter
    (fun z => Relation.TransGen (refersTo regs) n z)).card, ?_⟩
  intro a b hab
  apply Finset.card_lt_card
  refine (Finset.ssubset_iff_of_subset ?_).2 ⟨b, ?_, ?_⟩
  · intro z hz
    rw [Finset.mem_filter] at hz ⊢
    exact ⟨hz.1, Relation.TransGen.head hab hz.2⟩
  · rw [Finset.mem_filter]
    obtain ⟨r, hr, hrb⟩ := hrefs a b hab
    refine ⟨?_, Relation.TransGen.single hab⟩
    rw [List.mem_toFinset]
    exact List.mem_map.2 ⟨r, hr, hrb⟩
  · intro hb
    rw [Finset.mem_filter] at hb
    exact hacyc b hb.2

/-- The nested-type references of a list of registrations, read off member by
member. -/
theorem refersTo_of_members {regs : List (Int × TypeMarshal)} {P : String → String → Prop}
    (h : ∀ r ∈ regs, ∀ d ∈ r.2.descs_, d.marshaller_.isNone = true → P r.2.name_ d.type_) :
    ∀ a b, refersTo regs a b → P a b := by
  rintro a b ⟨r, hr, rfl, d, hd, hdn, rfl⟩
  exact h r hr d hd (by rw [hdn]; rfl)

/-- C14: registration order does not matter.  For registrars of types with
distinct names, run in any order, whose nested-type references all name
registered types and contain no cycle: `startup()` returns the null pointer
that reports success, and afterwards every registered type is found under its
name by `marshaller(char const *)`, the members of the object that is found
are the members that were declared, each member that was declared without a
marshaller being bound to the marshaller of the type that it names, and that
marshaller is in the manager. -/
theorem registration_order_free (regs : List (Int × TypeMarshal))
    (hnames : (regs.map (fun r => r.2.name_)).Nodup)
    (hrefs : ∀ a b, refersTo regs a b → ∃ r ∈ regs, r.2.name_ = b)
    (hacyc : ∀ n, ¬ Relation.TransGen (refersTo regs) n n) :
    ∃ mgr, startupAfter regs = some (none, mgr) ∧
      ∀ r ∈ regs, ∃ t,
        MarshalManager.marshaller 1 mgr r.2.name_ = some (.ret (some r.2.name_) mgr) ∧
        mgr.object r.2.name_ = some t ∧
        t.descs_ = r.2.descs_.map MemberDesc.bound ∧
        ∀ d ∈ r.2.descs_, d.marshaller_ = none →
          (d.bound).marshaller_ = some (.type d.type_) ∧ (mgr.object d.type_).isSome = true := by
  obtain ⟨rank, hrank⟩ := rank_of_no_cycle regs hrefs hacyc
  obtain ⟨mgr0, hreg, hinv, hkeys, hfind⟩ := registered_inv regs hnames
  obtain ⟨out, hout, hpost⟩ := resolveLoop_post (regOf regs) rank (mgr0.toResolve_.length + 1)
    mgr0 hinv hkeys (Nat.lt_succ_self _)
  have hac : Acyclic (regOf regs) rank := by
    intro n id t hn d hd hdn
    obtain ⟨hmem, hname⟩ := regOf_mem regs n (id, t) hn
    have hedge : refersTo regs n d.type_ := ⟨(id, t), hmem, hname, d, hd, hdn, rfl⟩
    obtain ⟨r2, hr2, hr2n⟩ := hrefs n d.type_ hedge
    refine ⟨?_, hrank n d.type_ hedge⟩
    rw [← hr2n, regOf_of_mem regs hnames r2 hr2]
    rfl
  cases out with
  | raise e mgr1 =>
    exfalso
    apply hpost
    refine ⟨hac, fun n hn => Or.inl ?_⟩
    rw [hfind n]
    exact hn
  | ret u mgr1 =>
    obtain ⟨hinv1, hstep, hnil⟩ := hpost
    refine ⟨mgr1, ?_, ?_⟩
    · simp only [startupAfter, hreg, IMarshalManager.startup, MarshalManager.resolve, hout]
    · intro r hr
      obtain ⟨t1, ht1⟩ := registered_resolved hnames hfind hstep hnil r hr
      obtain ⟨id, t, hrt, hdescs⟩ := hinv1.resolved_reg r.2.name_ t1 ht1
      rw [regOf_of_mem regs hnames r hr] at hrt
      have hr2 : r.2 = t := by rw [Option.some.inj hrt]
      rw [← hr2] at hdescs
      refine ⟨t1, ?_, ht1, hdescs, ?_⟩
      · simp only [MarshalManager.marshaller, ht1]
      · intro d hd hdn
        refine ⟨?_, ?_⟩
        · simp only [MemberDesc.bound, hdn]
        · obtain ⟨r2, hr2, hr2n⟩ := hrefs r.2.name_ d.type_ ⟨r, hr, rfl, d, hd, hdn, rfl⟩
          obtain ⟨t2, ht2⟩ := registered_resolved hnames hfind hstep hnil r2 hr2
          rw [← hr2n]
          exact isSome_of_eq_some ht2

/-- Witness for `registration_order_free`: the types of `TestMarshal`, where
`AMarshalTest2` has a member of type `MarshalTest` and is processed before
it. -/
theorem registration_order_free_witness :
    ∃ mgr, startupAfter testTypes = some (none, mgr) ∧
      ∀ r ∈ testTypes, ∃ t,
        MarshalManager.marshaller 1 mgr r.2.name_ = some (.ret (some r.2.name_) mgr) ∧
        mgr.object r.2.name_ = some t ∧
        t.descs_ = r.2.descs_.map MemberDesc.bound ∧
        ∀ d ∈ r.2.descs_, d.marshaller_ = none →
          (d.bound).marshaller_ = some (.type d.type_) ∧ (mgr.object d.type_).isSome = true :=
  registration_order_free testTypes (by decide)
    (refersTo_of_members (by decide))
    (no_cycle_of_rank (fun s => if s = "AMarshalTest2" then 1 else 0)
      (refersTo_of_members (by decide)))

/-- C16: cyclic type references fail cleanly.  For registrars of types with
distinct names whose nested-type references contain a cycle (a type with a
member of its own type is a cycle of length one): `startup()` returns, what
it returns is not the null pointer that reports success but an error message,
and the message is the text that the manager keeps in `error_`. -/
theorem cyclic_references_fail (regs : List (Int × TypeMarshal))
    (hnames : (regs.map (fun r => r.2.name_)).Nodup)
    (hcyc : ∃ n, Relation.TransGen (refersTo regs) n n) :
    ∃ what mgr, startupAfter regs = some (some what, mgr) ∧ mgr.error_ = what := by
  obtain ⟨mgr0, hreg, hinv, hkeys, hfind⟩ := registered_inv regs hnames
  obtain ⟨out, hout, hpost⟩ := resolveLoop_post (regOf regs) (fun _ => 0)
    (mgr0.toResolve_.length + 1) mgr0 hinv hkeys (Nat.lt_succ_self _)
  cases out with
  | ret u mgr1 =>
    exfalso
    obtain ⟨hinv1, hstep, hnil⟩ := hpost
    obtain ⟨rk, hrk⟩ := hinv1.ranked
    obtain ⟨n, hn⟩ := hcyc
    refine no_cycle_of_rank rk ?_ n hn
    rintro a b ⟨r, hr, rfl, d, hd, hdn, rfl⟩
    obtain ⟨t1, ht1⟩ := registered_resolved hnames hfind hstep hnil r hr
    exact (hrk r.2.name_ t1 ht1 r.1 r.2 (regOf_of_mem regs hnames r hr) d hd hdn).2
  | raise e mgr1 =>
    by_cases he : e.isLogicError = true
    · refine ⟨e.what, { mgr1 with error_ := e.what }, ?_, rfl⟩
      simp only [startupAfter, hreg, IMarshalManager.startup, MarshalManager.resolve, hout, he,
        if_true]
    · refine ⟨"Unknown exception thrown during MarshalManager::resolve().",
        { mgr1 with
          error_ := "Unknown exception thrown during MarshalManager::resolve()." }, ?_, rfl⟩
      simp only [startupAfter, hreg, IMarshalManager.startup, MarshalManager.resolve, hout, he,
        Bool.false_eq_true, if_false]

/-- Witness for `cyclic_references_fail`: the types `Ping` and `Pong`, each
with a member of the other type, registered along with a type that refers to
neither. -/
theorem cyclic_references_fail_witness :
    ∃ what mgr, startupAfter cyclicTypes = some (some what, mgr) ∧ mgr.error_ = what :=
  cyclic_references_fail cyclicTypes (by decide)
    ⟨"Ping", Relation.TransGen.tail
      (Relation.TransGen.single
        ⟨(4, MarshalOp.addSomeType (TypeMarshal.new "Ping") "Pong" "pong" 0), by decide, rfl,
          { name_ := "pong", type_ := "Pong", offset_ := 0, marshaller_ := none },
          by decide, rfl, rfl⟩)
      ⟨(5, MarshalOp.addSomeType
            (MarshalOp.addInt (TypeMarshal.new "Pong") "i" 0 0 10) "Ping" "ping" 4),
        by decide, rfl,
        { name_ := "ping", type_ := "Ping", offset_ := 4, marshaller_ := none },
        by decide, rfl, rfl⟩⟩

/-- The error text of `startup()` for a type that has a member of its own
type. -/
theorem self_reference_error_text :
    (startupAfter selfType).map (fun r => (r.1, r.2.error_, r.2.countMarshallers)) =
      some (some "Marshaller for type Node uses type Node which isn\x27t defined (or is recursively used).",
        "Marshaller for type Node uses type Node which isn\x27t defined (or is recursively used).",
        0) := by
  decide

/-- The error text of `startup()` for two types that refer to each other:
`Ping` is processed first and asks for `Pong`, which is resolved on demand
and asks for `Ping`. -/
theorem cyclic_reference_error_text :
    (startupAfter cyclicTypes).map (fun r => r.1) =
      some (some "While resolving marshaller for type: Pong\nMarshaller for type Pong uses type Ping which isn\x27t defined (or is recursively used).") := by
  decide

/-! ## The byte block (C22) -/

/-- C22: cursor and EOF of a block whose position is within `[0, size]`.
`read(out, n)` copies the `min n left` bytes at the cursor, advances the
position by that amount, returns it, leaves the bytes of the block alone and
sets EOF exactly when `n > 0` and nothing is left (otherwise the flag stays as
it was); `write(in, n)` stores the first `min n left` bytes of `in` at the
cursor, advances the position by that amount, returns it, keeps the size and
sets EOF exactly when it is truncated (otherwise the flag stays as it was);
`seek(pos)` sets the position to `pos`, clears EOF and leaves the bytes
alone. -/
theorem block_cursor_eof (b : Block) (h : b.InRange) :
    (∀ n : Nat,
      (b.read n).1 = min n b.left ∧
      (b.read n).2.1 = b.cur.take (min n b.left) ∧
      (b.read n).2.1.length = min n b.left ∧
      (b.read n).2.2.pos_ = b.pos_ + min n b.left ∧
      (b.read n).2.2.buf_ = b.buf_ ∧
      (b.read n).2.2.atEof_ = (b.atEof_ || decide (0 < n ∧ b.left = 0))) ∧
    (∀ inBuf : List Nat,
      (b.write inBuf).1 = min inBuf.length b.left ∧
      (b.write inBuf).2.pos_ = b.pos_ + min inBuf.length b.left ∧
      (b.write inBuf).2.buf_ =
        b.buf_.take b.pos_ ++ inBuf.take (min inBuf.length b.left) ++
          b.buf_.drop (b.pos_ + min inBuf.length b.left) ∧
      (b.write inBuf).2.size = b.size ∧
      (b.write inBuf).2.atEof_ = (b.atEof_ || decide (b.left < inBuf.length))) ∧
    (∀ pos : Nat,
      (b.seek pos).pos_ = pos ∧ (b.seek pos).atEof_ = false ∧ (b.seek pos).buf_ = b.buf_) := by
  have hl := left_of_inRange h
  have hc := cur_length h
  have hr : b.pos_ ≤ b.size := h
  refine ⟨?_, ?_, fun pos => ⟨rfl, rfl, rfl⟩⟩
  · intro n
    unfold Block.read
    by_cases hn : b.left < n
    · rw [if_pos hn]
      have hmin : min n b.left = b.left := by omega
      rw [hmin]
      refine ⟨rfl, rfl, ?_, rfl, rfl, ?_⟩
      · show (b.cur.take b.left).length = b.left
        rw [List.length_take, hc]
        omega
      · show (if b.left = 0 then true else b.atEof_) = _
        by_cases h0 : b.left = 0
        · rw [if_pos h0]
          have : 0 < n ∧ b.left = 0 := ⟨by omega, h0⟩
          simp [this]
        · rw [if_neg h0]
          simp [h0]
    · rw [if_neg hn]
      have hmin : min n b.left = n := by omega
      rw [hmin]
      refine ⟨rfl, rfl, ?_, rfl, rfl, ?_⟩
      · show (b.cur.take n).length = n
        rw [List.length_take, hc]
        omega
      · show b.atEof_ = _
        have : ¬ (0 < n ∧ b.left = 0) := by omega
        simp [this]
  · intro inBuf
    unfold Block.write
    by_cases hn : b.left < inBuf.length
    · rw [if_pos hn]
      have hmin : min inBuf.length b.left = b.left := by omega
      have hlen : (inBuf.take b.left).length = b.left := by
        rw [List.length_take]
        omega
      rw [hmin]
      refine ⟨rfl, rfl, ?_, ?_, ?_⟩
      · show (b.poke (inBuf.take b.left)).buf_ = _
        unfold Block.poke
        rw [hlen]
      · show (b.poke (inBuf.take b.left)).size = b.size
        apply poke_size
        rw [hlen]
        omega
      · show true = _
        simp [hn]
    · rw [if_neg hn]
      have hmin : min inBuf.length b.left = inBuf.length := by omega
      rw [hmin]
      refine ⟨rfl, rfl, ?_, ?_, ?_⟩
      · show (b.poke inBuf).buf_ = _
        unfold Block.poke
        rw [List.take_length]
      · show (b.poke inBuf).size = b.size
        apply poke_size
        omega
      · show b.atEof_ = _
        simp [hn]

/-- Witness for `block_cursor_eof`: a block of four bytes with the cursor at
2, as in `TestBlock`. -/
theorem block_cursor_eof_witness :
    (∀ n : Nat,
      (({ buf_ := [1, 2, 3, 4], pos_ := 2, atEof_ := false } : Block).read n).1 =
        min n ({ buf_ := [1, 2, 3, 4], pos_ := 2, atEof_ := false } : Block).left) ∧
    (({ buf_ := [1, 2, 3, 4], pos_ := 2, atEof_ := false } : Block).write [9, 9, 9]).2.atEof_ =
      true :=
  ⟨fun n => ((block_cursor_eof { buf_ := [1, 2, 3, 4], pos_ := 2, atEof_ := false }
      (by decide)).1 n).1,
    by decide⟩

/-! ## Exceptions inside a record (C29) -/

/-- C29: a constraint error in a later field leaves the block advanced.  A
record of two `int` fields with the range `[0, 10]` holds 5 and 11.
`TypeMarshal::marshal` stores the 5, then the marshaller of the second field
throws `std::invalid_argument`; nothing seeks back, so the exception leaves
the block at position 1, with the byte of the first field in it, although the
position before the call was 0. -/
theorem range_error_leaves_block_advanced :
    (IMarshaller.type
        [(0, .field (.int (IntMarshaller.setRange 0 10))),
         (4, .field (.int (IntMarshaller.setRange 0 10)))]).marshal
      (fun p => if p = 0 then .word 5 else .word 11) 0 (Block.new [0, 0, 0, 0]) =
      .raise (.invalid_argument "IntMarshaller argument is out of bounds")
        { buf_ := [5, 0, 0, 0], pos_ := 1, atEof_ := false } := by
  decide

/-! ## The assertions of `put_data` (C30) -/

/-- C30: two assertions of `put_data` can fail.  First, a `Buffer(10, 100, 1)`
takes the packet `[7]` and then the header of an empty packet: `new_message`
refuses it because the queue holds one packet, `toSkip_` becomes 0 and
`assert( toSkip_ > 0 )` fails.  Second, a `Buffer(10, 100, 5)` takes the
header of a packet of 20 bytes and two of its bytes, which leaves 18 bytes to
skip, and then three more bytes: the call reads them as a header of a packet
of 5 bytes and a first payload byte, so `assert( toSkip_ == 0 )` fails, and
afterwards a packet is under assembly while 18 bytes are still to be
skipped. -/
theorem put_data_assertions_fail :
    ((put_data (fun _ => 0) (Impl.new 10 100 1) [0, 1, 7]).bind
        (fun r => put_data (fun _ => 0) r.2.1 [0, 0])).map
      (fun r => (r.1, r.2.2, r.2.1.toSkip_, message_count r.2.1)) =
      some (2, false, 0, 1) ∧
    ((put_data (fun _ => 0) (Impl.new 10 100 5) [0, 20, 1, 2]).bind
        (fun r => put_data (fun _ => 0) r.2.1 [0, 5, 9])).map
      (fun r => (r.1, r.2.2, r.2.1.toSkip_, r.2.1.curTarget_.isSome, message_count r.2.1)) =
      some (3, false, 18, true, 0) := by
  decide

/-! ## Drip feeding (C27) -/

theorem drop_of_append_eq {α : Type} (D future A B : List α) (h : D ++ future = A ++ B)
    (hl : A.length ≤ D.length) : D.drop A.length ++ future = B := by
  have h1 : (D ++ future).drop A.length = (A ++ B).drop A.length := by rw [h]
  rw [List.drop_append_of_le_length hl, List.drop_left] at h1
  exact h1

theorem rest_of_append_eq {α : Type} (D future A B : List α) (h : D ++ future = A ++ B)
    (hl : D.length ≤ A.length) : future = A.drop D.length ++ B := by
  have h1 : (D ++ future).drop D.length = (A ++ B).drop D.length := by rw [h]
  rw [List.drop_left, List.drop_append_of_le_length hl] at h1
  exact h1

/-- The copy step of `put_data` on a packet that is within the caps. -/
theorem drip_fill (M Q N : Nat) (ps : List (List Nat)) (hcaps : WithinCaps M Q N ps)
    (s : Impl) (D future : List Nat) (total : Nat) (dn qs1 : List (List Nat))
    (p : List Nat) (m : Message)
    (hM : s.maxMsgSize_ = M) (hQ : s.queueSize_ = Q) (hN : s.maxNumMessages_ = N)
    (hsk : s.toSkip_ = 0) (hps : ps = dn ++ p :: qs1)
    (hq : s.queue_.map Message.size_ = dn.map List.length)
    (hw : s.written_ = (dn.map List.length).sum)
    (hc : s.curTarget_ = some m) (ht : s.tmpSize_ = SIZE_T_MAX)
    (hsz : m.size_ = p.length) (hoff : m.offset_ ≤ p.length)
    (hrest : D ++ future = p.drop m.offset_ ++ wire qs1) :
    ∃ s3 D3 total3,
      put_data_fill s D total true = (s3, D3, total3, true) ∧
      Drip M Q N ps s3 (D3 ++ future) ∧
      total3 + D3.length = total + D.length ∧
      ((s3.curTarget_ = none ∧ D3.length ≤ D.length) ∨ D3 = []) := by
  have hp16 : p.length < 65536 := by
    have := hcaps.1 p (by rw [hps]; simp)
    exact this.2
  have hsub : subToSizeT m.size_ m.offset_ = p.length - m.offset_ := by
    rw [subToSizeT_of_le (by omega), hsz]
  have hdl : (p.drop m.offset_).length = p.length - m.offset_ := List.length_drop _ _
  unfold put_data_fill
  rw [hc]
  simp only [hsub, ht, hsk, decide_True, Bool.and_self]
  by_cases hfit : p.length - m.offset_ > D.length
  · -- the chunk ends inside the packet
    rw [if_pos hfit]
    have ho : toUShort (m.offset_ + toUShort D.length) = m.offset_ + D.length := by
      rw [toUShort_of_lt (by omega : D.length < 65536), toUShort_of_lt (by omega)]
    rw [ho, if_neg (by omega)]
    refine ⟨_, _, _, rfl, ?_, ?_, Or.inr ?_⟩
    · refine ⟨hM, hQ, hN, rfl, dn, p :: qs1, hps, hq, hw, Or.inr (Or.inr ?_)⟩
      refine ⟨p, qs1, _, rfl, rfl, rfl, hsz, ?_, ?_⟩
      · show m.offset_ + D.length < p.length
        omega
      · show D.drop D.length ++ future = p.drop (m.offset_ + D.length) ++ wire qs1
        rw [List.drop_length, List.nil_append]
        have e : (p.drop m.offset_).drop D.length = p.drop (m.offset_ + D.length) := by
          rw [List.drop_drop]
        have := rest_of_append_eq D future _ _ hrest (by rw [hdl]; omega)
        rw [this, e]
    · simp only [List.drop_length, List.length_nil]
      omega
    · exact List.drop_length _
  · -- the chunk holds the rest of the packet
    rw [if_neg hfit]
    have ho : toUShort (m.offset_ + toUShort (p.length - m.offset_)) = p.length := by
      rw [toUShort_of_lt (by omega : p.length - m.offset_ < 65536), toUShort_of_lt (by omega)]
      omega
    rw [ho, if_pos hsz]
    refine ⟨_, _, _, rfl, ?_, ?_, Or.inl ⟨rfl, ?_⟩⟩
    · refine ⟨hM, hQ, hN, rfl, dn ++ [p], qs1, ?_, ?_, ?_, Or.inl ⟨rfl, rfl, ?_⟩⟩
      · rw [hps]
        simp
      · show (s.queue_ ++ [_]).map Message.size_ = _
        rw [List.map_append, hq]
        simp [hsz]
      · show s.written_ + m.size_ = _
        rw [hw, hsz]
        simp
      · show D.drop (p.length - m.offset_) ++ future = wire qs1
        have := drop_of_append_eq D future _ _ hrest (by rw [hdl]; omega)
        rw [hdl] at this
        exact this
    · simp only [List.length_drop]
      omega
    · simp only [List.length_drop]
      omega

/-- The allocation and copy steps of `put_data` once the header of a packet
within the caps has been read. -/
theorem drip_alloc_fill (junk : Nat → Nat) (M Q N : Nat) (ps : List (List Nat))
    (hcaps : WithinCaps M Q N ps)
    (s : Impl) (D future : List Nat) (total : Nat) (dn qs1 : List (List Nat)) (p : List Nat)
    (hM : s.maxMsgSize_ = M) (hQ : s.queueSize_ = Q) (hN : s.maxNumMessages_ = N)
    (hsk : s.toSkip_ = 0) (hps : ps = dn ++ p :: qs1)
    (hq : s.queue_.map Message.size_ = dn.map List.length)
    (hw : s.written_ = (dn.map List.length).sum)
    (hc : s.curTarget_ = none) (ht : s.tmpSize_ = p.length)
    (hrest : D ++ future = p ++ wire qs1) :
    ∃ s2 s3 D3 total3,
      put_data_alloc junk s true = (s2, true) ∧
      put_data_fill s2 D total true = (s3, D3, total3, true) ∧
      Drip M Q N ps s3 (D3 ++ future) ∧
      total3 + D3.length = total + D.length ∧
      ((s3.curTarget_ = none ∧ D3.length ≤ D.length) ∨ D3 = []) := by
  obtain ⟨hc1, hc2, hc3⟩ := hcaps
  have hp := hc1 p (by rw [hps]; simp)
  have hlen : s.queue_.length = dn.length := by
    have := congrArg List.length hq
    simpa using this
  have hsum : (ps.map List.length).sum = (dn.map List.length).sum + p.length +
      (qs1.map List.length).sum := by
    rw [hps]
    simp only [List.map_append, List.map_cons, List.sum_append, List.sum_cons]
    omega
  have hcnt : ps.length = dn.length + 1 + qs1.length := by
    rw [hps]
    simp only [List.length_append, List.length_cons]
    omega
  have hne : s.tmpSize_ ≠ SIZE_T_MAX := by
    rw [ht]
    unfold SIZE_T_MAX
    omega
  have hnew := new_message_some junk s p.length (by omega) (by omega) (by omega)
  have hal : put_data_alloc junk s true =
      ({ s with
         curTarget_ := some { offset_ := 0, size_ := toUShort p.length,
                              bytes := (List.range p.length).map junk }
         tmpSize_ := SIZE_T_MAX }, true) := by
    unfold put_data_alloc
    rw [if_pos hne, ht, hnew]
    simp only [hc, decide_True, Bool.and_self]
  obtain ⟨s3, D3, total3, h1, h2, h3, h4⟩ := drip_fill M Q N ps ⟨hc1, hc2, hc3⟩
    { s with
      curTarget_ := some { offset_ := 0, size_ := toUShort p.length,
                           bytes := (List.range p.length).map junk }
      tmpSize_ := SIZE_T_MAX } D future total dn qs1 p
    { offset_ := 0, size_ := toUShort p.length, bytes := (List.range p.length).map junk }
    hM hQ hN hsk hps hq hw rfl rfl (toUShort_of_lt hp.2) (Nat.zero_le _)
    (by simpa using hrest)
  exact ⟨_, s3, D3, total3, hal, h1, h2, h3, h4⟩

/-- The loop of `put_data` on a chunk of the wire form of packets within the
caps: it takes the whole chunk, no assertion fails, and the state afterwards
is the one for the longer prefix. -/
theorem drip_loop (junk : Nat → Nat) (M Q N : Nat) (ps : List (List Nat))
    (hcaps : WithinCaps M Q N ps) (future : List Nat) :
    ∀ (fuel : Nat) (s : Impl) (data : List Nat) (total : Nat),
      Drip M Q N ps s (data ++ future) → putMeasure s data < fuel →
      ∃ s1, put_data_loop junk fuel s data total true = some (total + data.length, s1, true) ∧
        Drip M Q N ps s1 future := by
  intro fuel
  induction fuel with
  | zero => intro s data total _ h; omega
  | succ fuel ih =>
    intro s data total hd hm
    cases data with
    | nil =>
      refine ⟨s, ?_, by simpa using hd⟩
      simp [put_data_loop]
    | cons b0 data =>
      rw [put_data_loop, if_neg (by simp)]
      obtain ⟨hM, hQ, hN, hsk, dn, qs, hps, hq, hw, hk⟩ := hd
      -- what remains after the size, allocation and copy steps
      have hcont : ∀ (s1 s2 s3 : Impl) (data1 D3 : List Nat) (total1 total3 : Nat),
          put_data_size s (b0 :: data) total true = .ok (s1, data1, total1, true) →
          put_data_alloc junk s1 true = (s2, true) →
          put_data_fill s2 data1 total1 true = (s3, D3, total3, true) →
          Drip M Q N ps s3 (D3 ++ future) →
          total3 + D3.length = total + (data.length + 1) →
          putMeasure s3 D3 < fuel →
          ∃ s4, (match put_data_size s (b0 :: data) total true with
              | .error r => some r
              | .ok (s1, data1, total1, ok1) =>
                let (s2, ok2) := put_data_alloc junk s1 ok1
                let (s3, data3, total3, ok3) := put_data_fill s2 data1 total1 ok2
                put_data_loop junk fuel s3 data3 total3 ok3) =
              some (total + (b0 :: data).length, s4, true) ∧ Drip M Q N ps s4 future := by
        intro s1 s2 s3 data1 D3 total1 total3 h1 h2 h3 h4 h5 h6
        obtain ⟨s4, h7, h8⟩ := ih s3 D3 total3 h4 h6
        refine ⟨s4, ?_, h8⟩
        rw [h1]
        simp only
        rw [h2]
        simp only
        rw [h3]
        simp only
        rw [h7, h5]
        rfl
      rcases hk with ⟨ht, hc, hrest⟩ | ⟨p, qs1, hqs, hc, ht, hrest⟩ |
        ⟨p, qs1, m, hqs, hc, ht, hsz, hoff, hrest⟩
      · -- between two packets
        cases qs with
        | nil =>
          simp only [wire, List.cons_append] at hrest
          cases hrest
        | cons p qs1 =>
          simp only [wire, frame_eq, List.cons_append, List.cons.injEq] at hrest
          obtain ⟨hb0, hrest⟩ := hrest
          cases data with
          | nil =>
            have hsize : put_data_size s [b0] total true =
                .error (total + 1, { s with tmpSize_ := toUChar b0 * 256 }, true) := by
              simp only [put_data_size]
              rw [if_neg (fun h => h ht), if_pos hc]
            rw [hsize]
            refine ⟨_, rfl, hM, hQ, hN, hsk, dn, p :: qs1, hps, hq, hw, Or.inr (Or.inl ?_)⟩
            refine ⟨p, qs1, rfl, hc, ?_, ?_⟩
            · show toUChar b0 * 256 = _
              rw [hb0, toUChar_toUChar]
            · simpa using hrest
          | cons b1 data2 =>
            simp only [List.cons_append, List.cons.injEq] at hrest
            obtain ⟨hb1, hrest⟩ := hrest
            have hp16 := (hcaps.1 p (by rw [hps]; simp)).2
            have hsize : put_data_size s (b0 :: b1 :: data2) total true =
                .ok ({ s with tmpSize_ := toUChar b0 * 256 + toUChar b1 }, data2, total + 2,
                  true) := by
              simp only [put_data_size]
              rw [if_neg (fun h => h ht), if_pos hc]
            obtain ⟨s2, s3, D3, total3, h2, h3, h4, h5, h6⟩ := drip_alloc_fill junk M Q N ps hcaps
              { s with tmpSize_ := toUChar b0 * 256 + toUChar b1 } data2 future (total + 2)
              dn qs1 p hM hQ hN hsk hps hq hw hc
              (by
                show toUChar b0 * 256 + toUChar b1 = p.length
                rw [hb0, hb1]
                exact header_value p hp16)
              hrest
            refine hcont _ s2 s3 data2 D3 (total + 2) total3 hsize h2 h3 h4 ?_ ?_
            · simp only [List.length_cons]
              omega
            · unfold putMeasure at hm ⊢
              simp only [List.length_cons] at hm
              rcases h6 with ⟨h6, h6l⟩ | h6
              · rw [if_pos h6]
                rw [if_pos hc] at hm
                omega
              · rw [h6]
                simp only [List.length_nil]
                split_ifs at hm ⊢ <;> omega
      · -- after the high byte of a header
        simp only [List.cons_append, List.cons.injEq] at hrest
        obtain ⟨hb0, hrest⟩ := hrest
        have hp16 := (hcaps.1 p (by rw [hps, hqs]; simp)).2
        have hne : s.tmpSize_ ≠ SIZE_T_MAX := by
          rw [ht]
          unfold SIZE_T_MAX toUChar
          omega
        have hval : (s.tmpSize_ + toUChar b0) % 2 ^ 32 = p.length := by
          rw [ht, hb0, toUChar_toUChar, frame_bytes p hp16]
          omega
        have hsize : put_data_size s (b0 :: data) total true =
            .ok ({ s with tmpSize_ := (s.tmpSize_ + toUChar b0) % 2 ^ 32 }, data, total + 1,
              true) := by
          simp only [put_data_size]
          rw [if_pos hne]
          simp only [hc, hsk, decide_True, Bool.and_self]
        obtain ⟨s2, s3, D3, total3, h2, h3, h4, h5, h6⟩ := drip_alloc_fill junk M Q N ps hcaps
          { s with tmpSize_ := (s.tmpSize_ + toUChar b0) % 2 ^ 32 } data future (total + 1)
          dn qs1 p hM hQ hN hsk (by rw [hps, hqs]) hq hw hc hval hrest
        refine hcont _ s2 s3 data D3 (total + 1) total3 hsize h2 h3 h4 ?_ ?_
        · omega
        · unfold putMeasure at hm ⊢
          simp only [List.length_cons] at hm
          rcases h6 with ⟨h6, h6l⟩ | h6
          · rw [if_pos h6]
            rw [if_pos hc] at hm
            omega
          · rw [h6]
            simp only [List.length_nil]
            split_ifs at hm ⊢ <;> omega
      · -- inside a packet
        have hsome : s.curTarget_ ≠ none := by rw [hc]; simp
        have hsize : put_data_size s (b0 :: data) total true =
            .ok (s, b0 :: data, total, true) := by
          simp only [put_data_size]
          rw [if_neg (fun h => h ht), if_neg hsome]
        have hal : put_data_alloc junk s true = (s, true) := by
          unfold put_data_alloc
          rw [if_neg (fun h => h ht)]
        obtain ⟨s3, D3, total3, h3, h4, h5, h6⟩ := drip_fill M Q N ps hcaps s (b0 :: data)
          future total dn qs1 p m hM hQ hN hsk (by rw [hps, hqs]) hq hw hc ht hsz
          (Nat.le_of_lt hoff) hrest
        refine hcont s s s3 (b0 :: data) D3 total total3 hsize hal h3 h4 ?_ ?_
        · simp only [List.length_cons] at h5
          omega
        · unfold putMeasure at hm ⊢
          simp only [List.length_cons] at hm h6
          rw [if_neg hsome] at hm
          rcases h6 with ⟨h6, h6l⟩ | h6
          · rw [if_pos h6]
            omega
          · rw [h6]
            simp only [List.length_nil]
            split_ifs <;> omega

/-- One `put_data` call on a chunk of the wire form of packets within the
caps. -/
theorem drip_put_data (junk : Nat → Nat) (M Q N : Nat) (ps : List (List Nat))
    (hcaps : WithinCaps M Q N ps) (s : Impl) (chunk future : List Nat)
    (hd : Drip M Q N ps s (chunk ++ future)) :
    ∃ s1, put_data junk s chunk = some ((chunk.length : Int), s1, true) ∧
      Drip M Q N ps s1 future := by
  obtain ⟨s1, h1, h2⟩ := drip_loop junk M Q N ps hcaps future (2 * chunk.length + 2) s chunk 0
    hd (by unfold putMeasure; split_ifs <;> omega)
  refine ⟨s1, ?_, h2⟩
  unfold put_data
  rw [h1]
  simp

/-- Any number of `put_data` calls on consecutive chunks of the wire form of
packets within the caps. -/
theorem drip_put_datas (junk : Nat → Nat) (M Q N : Nat) (ps : List (List Nat))
    (hcaps : WithinCaps M Q N ps) (future : List Nat) :
    ∀ (chunks : List (List Nat)) (s : Impl),
      Drip M Q N ps s (chunks.flatten ++ future) →
      ∃ s1, put_datas junk s chunks = some (chunks.map (fun c => (c.length : Int)), s1, true) ∧
        Drip M Q N ps s1 future := by
  intro chunks
  induction chunks with
  | nil =>
    intro s hd
    exact ⟨s, rfl, by simpa using hd⟩
  | cons c cs ih =>
    intro s hd
    obtain ⟨s1, h1, h2⟩ := drip_put_data junk M Q N ps hcaps s c (cs.flatten ++ future)
      (by simpa [List.append_assoc] using hd)
    obtain ⟨s2, h3, h4⟩ := ih s1 h2
    refine ⟨s2, ?_, h4⟩
    simp only [put_datas, h1, h3, List.map_cons, Bool.and_self]

theorem drip_fresh (M Q N : Nat) (ps : List (List Nat)) :
    Drip M Q N ps (Impl.new M Q N) (wire ps) :=
  ⟨rfl, rfl, rfl, rfl, [], ps, rfl, rfl, rfl, Or.inl ⟨rfl, rfl, rfl⟩⟩

theorem wire_append (a b : List (List Nat)) : wire (a ++ b) = wire a ++ wire b := by
  induction a with
  | nil => rfl
  | cons p a ih =>
    show frame p ++ wire (a ++ b) = (frame p ++ wire a) ++ wire b
    rw [ih, List.append_assoc]

theorem wire_eq_nil (qs : List (List Nat)) (h : wire qs = []) : qs = [] := by
  cases qs with
  | nil => rfl
  | cons p qs => simp [wire, frame_eq] at h

/-- The results of `get_message` on a queue, by the sizes of the queued
messages. -/
theorem get_messages_lengths (cap : Nat) : ∀ (ls : List Nat) (s : Impl),
    s.queue_.map Message.size_ = ls → (∀ l ∈ ls, l ≤ cap) →
    (get_messages ls.length s cap).1.map Prod.fst = ls.map (fun l : Nat => (l : Int)) := by
  intro ls
  induction ls with
  | nil => intro s _ _; rfl
  | cons l ls ih =>
    intro s hq hcap
    cases hs : s.queue_ with
    | nil => rw [hs] at hq; cases hq
    | cons m rest =>
      rw [hs] at hq
      simp only [List.map_cons, List.cons.injEq] at hq
      obtain ⟨hm, hrest⟩ := hq
      have hfit : m.size_ ≤ cap := by
        rw [hm]
        exact hcap l (List.mem_cons_self _ _)
      have hg := get_message_fits s cap m rest hs hfit
      simp only [get_messages, List.length_cons, List.map_cons, hg, hm, List.cons.injEq,
        true_and]
      exact ih { s with written_ := s.written_ - l, queue_ := rest } hrest
        (fun x hx => hcap x (List.mem_cons_of_mem _ hx))

/-- C27: packet lengths survive drip feeding.  Packets `ps` within the caps
of a `Buffer(M, Q, N)`, each with a length that fits the two-byte header, are
written in wire form and the stream is cut into chunks at arbitrary places
(inside a header, inside a payload, empty chunks included); `future` is the
part of the stream that has not been fed yet.  Every `put_data` call on a
fresh buffer takes its whole chunk and no assertion fails.  Afterwards the
queue holds, with their lengths and in order, exactly the packets `dn` whose
last byte has been fed: `message_count()` is their number, `space_used()` the
sum of their lengths, the bytes fed cover the wire form of `dn`, and they do
not cover the next packet.  Once the whole stream has been fed, successive
`get_message` calls return the lengths that the headers declare, in order. -/
theorem lengths_survive_drip_feeding (junk : Nat → Nat) (M Q N : Nat)
    (ps : List (List Nat)) (chunks : List (List Nat)) (future : List Nat)
    (hcaps : WithinCaps M Q N ps) (hstream : chunks.flatten ++ future = wire ps) :
    ∃ s, put_datas junk (Impl.new M Q N) chunks =
        some (chunks.map (fun c => (c.length : Int)), s, true) ∧
      (∃ dn qs, ps = dn ++ qs ∧
        s.queue_.map Message.size_ = dn.map List.length ∧
        message_count s = dn.length ∧
        space_used s = (dn.map List.length).sum ∧
        (wire dn).length ≤ chunks.flatten.length ∧
        (∀ p ∈ qs.head?, chunks.flatten.length < (wire dn).length + (frame p).length)) ∧
      (future = [] → ∀ cap, (∀ p ∈ ps, p.length ≤ cap) →
        (get_messages ps.length s cap).1.map Prod.fst = ps.map (fun p => (p.length : Int))) := by
  obtain ⟨s, h1, h2⟩ := drip_put_datas junk M Q N ps hcaps future chunks (Impl.new M Q N)
    (by rw [hstream]; exact drip_fresh M Q N ps)
  refine ⟨s, h1, ?_, ?_⟩
  · obtain ⟨_, _, _, _, dn, qs, hps, hq, hw, hk⟩ := h2
    have hcount : message_count s = dn.length := by
      have := congrArg List.length hq
      simpa [message_count] using this
    have hlen : chunks.flatten.length + future.length = (wire dn).length + (wire qs).length := by
      have := congrArg List.length hstream
      rw [hps, wire_append] at this
      simpa using this
    refine ⟨dn, qs, hps, hq, hcount, hw, ?_, ?_⟩
    · rcases hk with ⟨_, _, hrest⟩ | ⟨p, qs1, hqs, _, _, hrest⟩ |
        ⟨p, qs1, m, hqs, _, _, _, hoff, hrest⟩
      · rw [hrest] at hlen
        omega
      · rw [hrest, hqs] at hlen
        simp only [wire, List.length_append, frame_length, List.length_cons] at hlen
        omega
      · rw [hrest, hqs] at hlen
        simp only [wire, List.length_append, frame_length, List.length_drop] at hlen
        omega
    · intro p0 hp0
      rcases hk with ⟨_, _, hrest⟩ | ⟨p, qs1, hqs, _, _, hrest⟩ |
        ⟨p, qs1, m, hqs, _, _, _, hoff, hrest⟩
      · rw [hrest] at hlen
        cases qs with
        | nil => cases hp0
        | cons q qs1 =>
          simp only [List.head?_cons, Option.mem_def, Option.some.injEq] at hp0
          subst hp0
          rw [frame_length]
          omega
      · rw [hqs] at hp0
        simp only [List.head?_cons, Option.mem_def, Option.some.injEq] at hp0
        subst hp0
        rw [hrest, hqs] at hlen
        simp only [wire, List.length_append, frame_length, List.length_cons] at hlen
        rw [frame_length]
        omega
      · rw [hqs] at hp0
        simp only [List.head?_cons, Option.mem_def, Option.some.injEq] at hp0
        subst hp0
        rw [hrest, hqs] at hlen
        simp only [wire, List.length_append, frame_length, List.length_drop] at hlen
        rw [frame_length]
        omega
  · intro hf cap hcap
    obtain ⟨_, _, _, _, dn, qs, hps, hq, hw, hk⟩ := h2
    have hqs : qs = [] := by
      rcases hk with ⟨_, _, hrest⟩ | ⟨p, qs1, hqs, _, _, hrest⟩ |
        ⟨p, qs1, m, hqs, _, _, _, hoff, hrest⟩
      · rw [hf] at hrest
        exact wire_eq_nil qs hrest.symm
      · rw [hf] at hrest
        cases hrest
      · rw [hf] at hrest
        have := congrArg List.length hrest
        simp only [List.length_nil, List.length_append, List.length_drop] at this
        omega
    rw [hqs, List.append_nil] at hps
    rw [← hps] at hq
    have := get_messages_lengths cap (ps.map List.length) s hq
      (by
        intro l hl
        obtain ⟨p, hp, rfl⟩ := List.mem_map.1 hl
        exact hcap p hp)
    rw [List.length_map, List.map_map] at this
    exact this

/-- Witness for `lengths_survive_drip_feeding`: the stream of
`TestEtworkBufferEvil`, a packet of ten bytes and an empty packet, cut after
1, 2, 11 and 13 bytes. -/
theorem lengths_survive_drip_feeding_witness :
    ∃ s, put_datas (fun _ => 0) (Impl.new 10 20 5)
          [[0], [10], [1, 2, 3, 4, 5, 6, 7, 8, 9], [0, 0], [0]] =
        some ([1, 1, 9, 2, 1], s, true) ∧
      (get_messages 2 s 100).1.map Prod.fst = [10, 0] := by
  obtain ⟨s, h1, _, h3⟩ := lengths_survive_drip_feeding (fun _ => 0) 10 20 5
    [[1, 2, 3, 4, 5, 6, 7, 8, 9, 0], []]
    [[0], [10], [1, 2, 3, 4, 5, 6, 7, 8, 9], [0, 0], [0]] []
    (by unfold WithinCaps; decide) (by decide)
  exact ⟨s, h1, h3 rfl 100 (by decide)⟩

/-! ## Maximum marshalled size (C28) -/

theorem sizeSum_nil (mgr : MarshalManager) : mgr.sizeSum [] = 0 := rfl

theorem sizeSum_cons (mgr : MarshalManager) (d : MemberDesc) (ds : List MemberDesc) :
    mgr.sizeSum (d :: ds) =
      (match d.marshaller_ with
        | some p => mgr.maxMarshalledSize p
        | none => 0) + mgr.sizeSum ds := by
  simp only [MarshalManager.sizeSum, List.map_cons, List.sum_cons]

theorem sizeSum_congr (a b : MarshalManager) : ∀ descs : List MemberDesc,
    (∀ d ∈ descs, ∀ q, d.marshaller_ = some (.type q) →
      mapFind q b.stringMarshallers_ = mapFind q a.stringMarshallers_) →
    b.sizeSum descs = a.sizeSum descs := by
  intro descs
  induction descs with
  | nil => intro _; rfl
  | cons d ds ih =>
    intro h
    rw [sizeSum_cons, sizeSum_cons, ih (fun d1 hd1 => h d1 (List.mem_cons_of_mem _ hd1))]
    congr 1
    cases hd : d.marshaller_ with
    | none => rfl
    | some p =>
      cases p with
      | field f => rfl
      | type q =>
        simp only [MarshalManager.maxMarshalledSize]
        rw [h d (List.mem_cons_self _ _) q hd]

theorem max_keep {a b : MarshalManager} (hs : ResolveStep a b) (q : String)
    (hq : (mapFind q a.stringMarshallers_).isSome = true) :
    b.maxMarshalledSize (.type q) = a.maxMarshalledSize (.type q) := by
  obtain ⟨t, ht⟩ := Option.isSome_iff_exists.1 hq
  simp only [MarshalManager.maxMarshalledSize, ht, hs.resolved_keep q t ht]

theorem mod_add_mod_64 (a b c : Nat) :
    ((a + b) % 2 ^ 32 + c) % 2 ^ 32 = (a + (b + c)) % 2 ^ 32 := by
  omega

/-- The sizes that the loop of `TypeMarshal::resolve` adds up. -/
theorem resolveFrom_sized (reg : String → Option (Int × TypeMarshal)) (rank : String → Nat)
    (call : MarshalManager → String → Option (Outcome (Option String))) (bnd : Nat)
    (hcall : ∀ mgr ty, ResolveInv reg mgr → mgr.toResolve_.length ≤ bnd →
      ∃ out, call mgr ty = some out ∧ ResolvePost reg rank mgr ty out)
    (hcallS : ∀ mgr ty p mgr1, ResolveInv reg mgr → mgr.toResolve_.length ≤ bnd →
      SizeInv mgr → call mgr ty = some (.ret p mgr1) → SizeInv mgr1)
    (name : String) :
    ∀ (descs : List MemberDesc) (mgr : MarshalManager) (done : List MemberDesc)
      (mSize memSize maxMemSize : Nat) (res : List MemberDesc × Nat × Nat × Nat)
      (mgr1 : MarshalManager),
      ResolveInv reg mgr → mgr.toResolve_.length ≤ bnd → SizeInv mgr →
      (∀ d ∈ descs, d.Plain) → mSize < 2 ^ 32 →
      TypeMarshal.resolveFrom call name descs mgr done mSize memSize maxMemSize =
        some (.ret res mgr1) →
      SizeInv mgr1 ∧
        res.2.1 = (mSize + mgr1.sizeSum (descs.map MemberDesc.bound)) % 2 ^ 32 := by
  intro descs
  induction descs with
  | nil =>
    intro mgr done mSize memSize maxMemSize res mgr1 _ _ hs _ hm h
    simp only [TypeMarshal.resolveFrom, Option.some.injEq, Outcome.ret.injEq] at h
    obtain ⟨h1, h2⟩ := h
    subst h1 h2
    refine ⟨hs, ?_⟩
    simp only [List.map_nil, sizeSum_nil]
    omega
  | cons md rest ih =>
    intro mgr done mSize memSize maxMemSize res mgr1 hinv hlen hs hplain hm h
    have hprest : ∀ d ∈ rest, d.Plain := fun d hd => hplain d (List.mem_cons_of_mem _ hd)
    cases hmd : md.marshaller_ with
    | some p =>
      have hmem : TypeMarshal.resolveMember call name md mgr = some (.ret p mgr) := by
        simp only [TypeMarshal.resolveMember, hmd]
      rw [TypeMarshal.resolveFrom, hmem] at h
      obtain ⟨h1, h2⟩ := ih mgr _ _ _ _ res mgr1 hinv hlen hs hprest
        (Nat.mod_lt _ (by norm_num)) h
      refine ⟨h1, ?_⟩
      rw [h2, List.map_cons, sizeSum_cons]
      have hb : md.bound.marshaller_ = some p := by
        simp only [MemberDesc.bound, hmd]
      rw [hb]
      have hp : mgr1.maxMarshalledSize p = mgr.maxMarshalledSize p := by
        cases p with
        | field f => rfl
        | type q => exact absurd hmd (hplain md (List.mem_cons_self _ _) q)
      simp only [hp]
      exact mod_add_mod_64 _ _ _
    | none =>
      obtain ⟨out0, hout0, hpost0⟩ := hcall mgr md.type_ hinv hlen
      cases out0 with
      | raise e mgrA =>
        rw [TypeMarshal.resolveFrom] at h
        simp only [TypeMarshal.resolveMember, hmd, hout0] at h
        cases h
      | ret p mgrA =>
        obtain ⟨hinvA, hstepA, hp⟩ := hpost0
        have hsA := hcallS mgr md.type_ p mgrA hinv hlen hs hout0
        rcases hp with ⟨hp1, hres⟩ | ⟨hp1, _⟩
        · subst hp1
          have hmem : TypeMarshal.resolveMember call name md mgr =
              some (.ret (.type md.type_) mgrA) := by
            simp only [TypeMarshal.resolveMember, hmd, hout0]
          have hlenA : mgrA.toResolve_.length ≤ bnd :=
            le_trans hstepA.sublist.length_le hlen
          have hrec : TypeMarshal.resolveFrom call name (md :: rest) mgr done mSize memSize
              maxMemSize =
              TypeMarshal.resolveFrom call name rest mgrA
                (done ++ [{ md with marshaller_ := some (.type md.type_) }])
                ((mSize + mgrA.maxMarshalledSize (.type md.type_)) % 2 ^ 32)
                (if md.offset_ + mgrA.instanceSize (.type md.type_) > memSize then
                  md.offset_ + mgrA.instanceSize (.type md.type_) else memSize)
                (if mgrA.instanceSize (.type md.type_) > maxMemSize then
                  mgrA.instanceSize (.type md.type_) else maxMemSize) := by
            rw [TypeMarshal.resolveFrom, hmem]
          rw [hrec] at h
          obtain ⟨h1, h2⟩ := ih mgrA _ _ _ _ res mgr1 hinvA hlenA hsA hprest
            (Nat.mod_lt _ (by norm_num)) h
          obtain ⟨out, hout, hpost⟩ := resolveFrom_post reg rank call bnd hcall name rest mgrA
            (done ++ [{ md with marshaller_ := some (.type md.type_) }])
            ((mSize + mgrA.maxMarshalledSize (.type md.type_)) % 2 ^ 32)
            (if md.offset_ + mgrA.instanceSize (.type md.type_) > memSize then
              md.offset_ + mgrA.instanceSize (.type md.type_) else memSize)
            (if mgrA.instanceSize (.type md.type_) > maxMemSize then
              mgrA.instanceSize (.type md.type_) else maxMemSize) hinvA hlenA
          rw [h] at hout
          cases hout
          have hstep1 : ResolveStep mgrA mgr1 := hpost.2.1
          refine ⟨h1, ?_⟩
          rw [h2, List.map_cons, sizeSum_cons]
          have hb : md.bound.marshaller_ = some (.type md.type_) := by
            simp only [MemberDesc.bound, hmd]
          rw [hb]
          simp only [max_keep hstep1 md.type_ hres]
          exact mod_add_mod_64 _ _ _
        · subst hp1
          rw [TypeMarshal.resolveFrom] at h
          simp only [TypeMarshal.resolveMember, hmd, hout0] at h
          cases h

/-- The size that `TypeMarshal::resolve` stores. -/
theorem resolve_sized (reg : String → Option (Int × TypeMarshal)) (rank : String → Nat)
    (call : MarshalManager → String → Option (Outcome (Option String))) (bnd : Nat)
    (hcall : ∀ mgr ty, ResolveInv reg mgr → mgr.toResolve_.length ≤ bnd →
      ∃ out, call mgr ty = some out ∧ ResolvePost reg rank mgr ty out)
    (hcallS : ∀ mgr ty p mgr1, ResolveInv reg mgr → mgr.toResolve_.length ≤ bnd →
      SizeInv mgr → call mgr ty = some (.ret p mgr1) → SizeInv mgr1)
    (mgr : MarshalManager) (self t : TypeMarshal) (mgr1 : MarshalManager)
    (hinv : ResolveInv reg mgr) (hlen : mgr.toResolve_.length ≤ bnd) (hs : SizeInv mgr)
    (hplain : ∀ d ∈ self.descs_, d.Plain)
    (h : TypeMarshal.resolve call mgr self = some (.ret t mgr1)) :
    SizeInv mgr1 ∧ t.descs_ = self.descs_.map MemberDesc.bound ∧
      t.maxMarshalledSize_ = mgr1.sizeSum t.descs_ % 2 ^ 32 ∧
      ResolveInv reg mgr1 ∧ ResolveStep mgr mgr1 ∧
      ∀ d ∈ self.descs_, d.marshaller_ = none →
        (mapFind d.type_ mgr1.stringMarshallers_).isSome = true := by
  obtain ⟨out, hout, hpost⟩ := resolve_post reg rank call bnd hcall mgr self hinv hlen
  rw [h] at hout
  cases hout
  obtain ⟨hinv1, hstep, hdescs, hrefs⟩ := hpost
  cases hr : TypeMarshal.resolveFrom call self.name_ self.descs_ mgr [] 0 0 0 with
  | none =>
    simp only [TypeMarshal.resolve, hr] at h
    cases h
  | some o =>
    cases o with
    | raise e mgr2 =>
      simp only [TypeMarshal.resolve, hr] at h
      cases h
    | ret res mgr2 =>
      obtain ⟨h1, h2⟩ := resolveFrom_sized reg rank call bnd hcall hcallS self.name_
        self.descs_ mgr [] 0 0 0 res mgr2 hinv hlen hs hplain (by norm_num) hr
      obtain ⟨descs, mSize, memSize, maxMemSize⟩ := res
      simp only [TypeMarshal.resolve, hr, Option.some.injEq, Outcome.ret.injEq] at h
      obtain ⟨ht, hm⟩ := h
      subst hm
      refine ⟨h1, hdescs, ?_, hinv1, hstep, hrefs⟩
      rw [hdescs]
      rw [← ht]
      simp only at h2 ⊢
      rw [h2]
      simp

/-- The sizes in the manager after a resolved object is entered in
`stringMarshallers_`. -/
theorem insert_sized {mgr2 mgr3 : MarshalManager} {ty : String} {t1 : TypeMarshal}
    (hs2 : SizeInv mgr2) (hnr2 : mapFind ty mgr2.stringMarshallers_ = none)
    (hto : mgr3.toResolve_ = mgr2.toResolve_)
    (hsm : ∀ n, mapFind n mgr3.stringMarshallers_ =
      if n = ty then some t1 else mapFind n mgr2.stringMarshallers_)
    (ht1 : t1.maxMarshalledSize_ = mgr2.sizeSum t1.descs_ % 2 ^ 32)
    (hcl : ∀ d ∈ t1.descs_, ∀ q, d.marshaller_ = some (.type q) →
      (mapFind q mgr2.stringMarshallers_).isSome = true) :
    SizeInv mgr3 := by
  have hsame : ∀ q, (mapFind q mgr2.stringMarshallers_).isSome = true →
      mapFind q mgr3.stringMarshallers_ = mapFind q mgr2.stringMarshallers_ := by
    intro q hq
    have hne : q ≠ ty := by
      intro he
      rw [he, hnr2] at hq
      cases hq
    rw [hsm q, if_neg hne]
  have hkey : ∀ descs : List MemberDesc,
      (∀ d ∈ descs, ∀ q, d.marshaller_ = some (.type q) →
        (mapFind q mgr2.stringMarshallers_).isSome = true) →
      mgr3.sizeSum descs = mgr2.sizeSum descs :=
    fun descs h => sizeSum_congr mgr2 mgr3 descs (fun d hd q hq => hsame q (h d hd q hq))
  refine { sized := ?_, closed := ?_, pending_plain := ?_ }
  · intro n t h
    rw [hsm n] at h
    by_cases hn : n = ty
    · rw [if_pos hn] at h
      cases h
      rw [hkey t1.descs_ hcl]
      exact ht1
    · rw [if_neg hn] at h
      rw [hkey t.descs_ (hs2.closed n t h)]
      exact hs2.sized n t h
  · intro n t h d hd q hq
    rw [hsm n] at h
    by_cases hn : n = ty
    · rw [if_pos hn] at h
      cases h
      have := hcl d hd q hq
      rw [hsame q this]
      exact this
    · rw [if_neg hn] at h
      have := hs2.closed n t h d hd q hq
      rw [hsame q this]
      exact this
  · rw [hto]
    exact hs2.pending_plain

theorem bound_closed (descs : List MemberDesc) (mgr : MarshalManager)
    (hplain : ∀ d ∈ descs, d.Plain)
    (hrefs : ∀ d ∈ descs, d.marshaller_ = none →
      (mapFind d.type_ mgr.stringMarshallers_).isSome = true) :
    ∀ d ∈ descs.map MemberDesc.bound, ∀ q, d.marshaller_ = some (.type q) →
      (mapFind q mgr.stringMarshallers_).isSome = true := by
  intro d hd q hq
  obtain ⟨d0, hd0, rfl⟩ := List.mem_map.1 hd
  cases h0 : d0.marshaller_ with
  | none =>
    simp only [MemberDesc.bound, h0, Option.some.injEq, MarshallerPtr.type.injEq] at hq
    rw [← hq]
    exact hrefs d0 hd0 h0
  | some p =>
    simp only [MemberDesc.bound, h0, Option.some.injEq] at hq
    rw [hq] at h0
    exact absurd h0 (hplain d0 hd0 q)

/-- The sizes in the manager after `MarshalManager::marshaller(char const *)`
returned. -/
theorem marshaller_sized (reg : String → Option (Int × TypeMarshal)) (rank : String → Nat) :
    ∀ (fuel : Nat) (mgr : MarshalManager) (ty : String) (p : Option String)
      (mgr1 : MarshalManager),
      ResolveInv reg mgr → mgr.toResolve_.length < fuel → SizeInv mgr →
      MarshalManager.marshaller fuel mgr ty = some (.ret p mgr1) → SizeInv mgr1 := by
  intro fuel
  induction fuel with
  | zero => intro mgr ty p mgr1 _ h; omega
  | succ fuel ih =>
    intro mgr ty p mgr1 hinv hlen hs h
    cases hsm : mapFind ty mgr.stringMarshallers_ with
    | some t0 =>
      simp only [MarshalManager.marshaller, hsm, Option.some.injEq, Outcome.ret.injEq] at h
      rw [← h.2]
      exact hs
    | none =>
      cases hto : mapFind ty mgr.toResolve_ with
      | none =>
        simp only [MarshalManager.marshaller, hsm, hto, Option.some.injEq,
          Outcome.ret.injEq] at h
        rw [← h.2]
        exact hs
      | some e =>
        obtain ⟨id, mr⟩ := e
        have hfind1 : ∀ n, n ≠ ty → mapFind n (mapErase ty mgr.toResolve_) =
            mapFind n mgr.toResolve_ := by
          intro n hn
          rw [mapFind_mapErase, if_neg hn]
        have hgone : mapFind ty (mapErase ty mgr.toResolve_) = none := by
          rw [mapFind_mapErase, if_pos rfl]
        have hinv0 : ResolveInv reg { mgr with toResolve_ := mapErase ty mgr.toResolve_ } := by
          refine @inv_remove reg mgr { mgr with toResolve_ := mapErase ty mgr.toResolve_ }
            hinv rfl ?_
          intro n e h
          by_cases hn : n = ty
          · rw [hn] at h
            rw [show ({ mgr with toResolve_ := mapErase ty mgr.toResolve_ } :
              MarshalManager).toResolve_ = mapErase ty mgr.toResolve_ from rfl, hgone] at h
            cases h
          · rw [← hfind1 n hn]
            exact h
        have hs0 : SizeInv { mgr with toResolve_ := mapErase ty mgr.toResolve_ } :=
          { sized := hs.sized
            closed := hs.closed
            pending_plain := fun e he =>
              hs.pending_plain e ((mapErase_sublist ty mgr.toResolve_).subset he) }
        have hlt := mapErase_length_lt ty (id, mr) mgr.toResolve_ hto
        have hcall : ∀ mgr2 ty2, ResolveInv reg mgr2 → mgr2.toResolve_.length ≤ fuel - 1 →
            ∃ out, MarshalManager.marshaller fuel mgr2 ty2 = some out ∧
              ResolvePost reg rank mgr2 ty2 out := by
          intro mgr2 ty2 h1 h2
          exact marshaller_post reg rank fuel mgr2 ty2 h1 (by omega)
        have hcallS : ∀ mgr2 ty2 p2 mgr3, ResolveInv reg mgr2 →
            mgr2.toResolve_.length ≤ fuel - 1 → SizeInv mgr2 →
            MarshalManager.marshaller fuel mgr2 ty2 = some (.ret p2 mgr3) → SizeInv mgr3 := by
          intro mgr2 ty2 p2 mgr3 h1 h2 h3 h4
          exact ih mgr2 ty2 p2 mgr3 h1 (by omega) h3 h4
        have hmem : (ty, (id, mr)) ∈ mgr.toResolve_ := mapFind_mem ty (id, mr) _ hto
        have hplain : ∀ d ∈ mr.descs_, d.Plain := hs.pending_plain (ty, (id, mr)) hmem
        cases hres : TypeMarshal.resolve (MarshalManager.marshaller fuel)
            { mgr with toResolve_ := mapErase ty mgr.toResolve_ } mr with
        | none =>
          simp only [MarshalManager.marshaller, hsm, hto, hres] at h
          cases h
        | some o =>
          cases o with
          | raise e mgr2 =>
            simp only [MarshalManager.marshaller, hsm, hto, hres, Option.some.injEq] at h
            cases h
          | ret t1 mgr2 =>
            obtain ⟨hs2, hdescs, ht1, hinv2, hstep, hrefs⟩ := resolve_sized reg rank
              (MarshalManager.marshaller fuel) (fuel - 1) hcall hcallS
              { mgr with toResolve_ := mapErase ty mgr.toResolve_ } mr t1 mgr2 hinv0
              (by
                show (mapErase ty mgr.toResolve_).length ≤ fuel - 1
                omega)
              hs0 hplain hres
            have hnr2 : mapFind ty mgr2.stringMarshallers_ = none := by
              cases h2 : mapFind ty mgr2.stringMarshallers_ with
              | none => rfl
              | some t2 =>
                rcases hstep.resolved_from ty t2 h2 with h3 | h3
                · rw [show ({ mgr with toResolve_ := mapErase ty mgr.toResolve_ } :
                    MarshalManager).stringMarshallers_ = mgr.stringMarshallers_ from rfl,
                    hsm] at h3
                  cases h3
                · rw [show ({ mgr with toResolve_ := mapErase ty mgr.toResolve_ } :
                    MarshalManager).toResolve_ = mapErase ty mgr.toResolve_ from rfl,
                    hgone] at h3
                  cases h3
            have hcl := bound_closed mr.descs_ mgr2 hplain hrefs
            rw [← hdescs] at hcl
            simp only [MarshalManager.marshaller, hsm, hto, hres, Option.some.injEq,
              Outcome.ret.injEq] at h
            rw [← h.2]
            refine insert_sized hs2 hnr2 ?_ ?_ ht1 hcl
            · split_ifs <;> rfl
            · intro n
              split_ifs <;> simp only [mapFind_mapSet] <;> simp_all

/-- The sizes in the manager after the loop of `MarshalManager::resolve`
ended without an exception. -/
theorem resolveLoop_sized (reg : String → Option (Int × TypeMarshal)) (rank : String → Nat) :
    ∀ (fuel : Nat) (mgr : MarshalManager) (u : Unit) (mgr1 : MarshalManager),
      ResolveInv reg mgr → (mgr.toResolve_.map Prod.fst).Nodup →
      mgr.toResolve_.length < fuel → SizeInv mgr →
      MarshalManager.resolveLoop fuel mgr = some (.ret u mgr1) → SizeInv mgr1 := by
  intro fuel
  induction fuel with
  | zero => intro mgr u mgr1 _ _ h; omega
  | succ fuel ih =>
    intro mgr u mgr1 hinv hnd hlen hs h
    cases hto : mgr.toResolve_ with
    | nil =>
      rw [MarshalManager.resolveLoop] at h
      simp only [hto, Option.some.injEq, Outcome.ret.injEq] at h
      rw [← h.2]
      exact hs
    | cons e rest =>
      obtain ⟨name, id, r⟩ := e
      rw [hto] at hnd hlen
      simp only [List.map_cons, List.nodup_cons, List.length_cons] at hnd hlen
      have hgone : mapFind name rest = none := mapFind_none_of_not_mem name rest hnd.1
      have hpend : mapFind name mgr.toResolve_ = some (id, r) := by
        rw [hto]
        simp only [mapFind, if_true]
      have hfind1 : ∀ n, n ≠ name → mapFind n rest = mapFind n mgr.toResolve_ := by
        intro n hn
        rw [hto]
        simp only [mapFind, if_neg hn]
      have hnr : mapFind name mgr.stringMarshallers_ = none := by
        cases h0 : mapFind name mgr.stringMarshallers_ with
        | none => rfl
        | some t0 =>
          have h1 := hinv.disjoint name t0 h0
          rw [hpend] at h1
          cases h1
      have hreg := hinv.pending_reg name (id, r) hpend
      have hsub1 : rest.Sublist mgr.toResolve_ := by
        rw [hto]
        exact List.sublist_cons_self _ rest
      have hinv0 : ResolveInv reg { mgr with toResolve_ := rest } := by
        refine @inv_remove reg mgr { mgr with toResolve_ := rest } hinv rfl ?_
        intro n e h
        by_cases hn : n = name
        · rw [hn] at h
          rw [show ({ mgr with toResolve_ := rest } : MarshalManager).toResolve_ = rest from rfl,
            hgone] at h
          cases h
        · rw [← hfind1 n hn]
          exact h
      have hs0 : SizeInv { mgr with toResolve_ := rest } :=
        { sized := hs.sized
          closed := hs.closed
          pending_plain := fun e he => hs.pending_plain e (hsub1.subset he) }
      have hcall : ∀ mgr2 ty2, ResolveInv reg mgr2 → mgr2.toResolve_.length ≤ rest.length →
          ∃ out, MarshalManager.marshaller (rest.length + 1) mgr2 ty2 = some out ∧
            ResolvePost reg rank mgr2 ty2 out := by
        intro mgr2 ty2 h1 h2
        exact marshaller_post reg rank (rest.length + 1) mgr2 ty2 h1 (by omega)
      have hcallS : ∀ mgr2 ty2 p2 mgr3, ResolveInv reg mgr2 →
          mgr2.toResolve_.length ≤ rest.length → SizeInv mgr2 →
          MarshalManager.marshaller (rest.length + 1) mgr2 ty2 = some (.ret p2 mgr3) →
          SizeInv mgr3 := by
        intro mgr2 ty2 p2 mgr3 h1 h2 h3 h4
        exact marshaller_sized reg rank (rest.length + 1) mgr2 ty2 p2 mgr3 h1 (by omega) h3 h4
      have hplain : ∀ d ∈ r.descs_, d.Plain :=
        hs.pending_plain (name, (id, r)) (by rw [hto]; exact List.mem_cons_self _ _)
      cases hres : TypeMarshal.resolve (MarshalManager.marshaller (rest.length + 1))
          { mgr with toResolve_ := rest } r with
      | none =>
        rw [MarshalManager.resolveLoop] at h
        simp only [hto, hres] at h
        cases h
      | some o =>
        cases o with
        | raise e mgr2 =>
          rw [MarshalManager.resolveLoop] at h
          simp only [hto, hres, Option.some.injEq] at h
          cases h
        | ret m mgr2 =>
          obtain ⟨hs2, hdescs, ht1, hinv2, hstep, hrefs⟩ := resolve_sized reg rank
            (MarshalManager.marshaller (rest.length + 1)) rest.length hcall hcallS
            { mgr with toResolve_ := rest } r m mgr2 hinv0 (le_refl _) hs0 hplain hres
          have hnr2 : mapFind name mgr2.stringMarshallers_ = none := by
            cases h2 : mapFind name mgr2.stringMarshallers_ with
            | none => rfl
            | some t2 =>
              rcases hstep.resolved_from name t2 h2 with h3 | h3
              · rw [show ({ mgr with toResolve_ := rest } :
                  MarshalManager).stringMarshallers_ = mgr.stringMarshallers_ from rfl,
                  hnr] at h3
                cases h3
              · rw [show ({ mgr with toResolve_ := rest } :
                  MarshalManager).toResolve_ = rest from rfl, hgone] at h3
                cases h3
          have hcl := bound_closed r.descs_ mgr2 hplain hrefs
          rw [← hdescs] at hcl
          have hlen2 : mgr2.toResolve_.length ≤ rest.length := hstep.sublist.length_le
          have hnd2 : (mgr2.toResolve_.map Prod.fst).Nodup :=
            keys_nodup_sublist mgr2.toResolve_ rest hstep.sublist hnd.2
          by_cases hid : id ≠ 0
          · have hsm3 : ∀ n, mapFind n (({ mgr2 with
                  stringMarshallers_ := mapSet strLt name m mgr2.stringMarshallers_
                  intMarshallers_ := mapSet intLt id name mgr2.intMarshallers_ }).setId name
                  id).stringMarshallers_ =
                if n = name then some { m with id_ := id }
                else mapFind n mgr2.stringMarshallers_ := by
              intro n
              rw [mapFind_setId]
              simp only [mapFind_mapSet]
              by_cases hn : n = name
              · simp only [if_pos hn, Option.map_some']
              · simp only [if_neg hn]
                cases mapFind n mgr2.stringMarshallers_ <;> rfl
            have hins := @insert_post reg mgr { mgr with toResolve_ := rest } mgr2
              (({ mgr2 with
                 stringMarshallers_ := mapSet strLt name m mgr2.stringMarshallers_
                 intMarshallers_ := mapSet intLt id name mgr2.intMarshallers_ }).setId name id)
              name id r { m with id_ := id } hinv2 hstep rfl hsub1 hfind1 hgone hpend hnr hreg
              hdescs hrefs rfl hsm3
            have hs3 := @insert_sized mgr2
              (({ mgr2 with
                 stringMarshallers_ := mapSet strLt name m mgr2.stringMarshallers_
                 intMarshallers_ := mapSet intLt id name mgr2.intMarshallers_ }).setId name id)
              name { m with id_ := id } hs2 hnr2 rfl hsm3 ht1 hcl
            rw [MarshalManager.resolveLoop] at h
            simp only [hto, hres, if_pos hid] at h
            exact ih _ u mgr1 hins.1 hnd2 (by
              show mgr2.toResolve_.length < fuel
              omega) hs3 h
          · have hsm3 : ∀ n, mapFind n ({ mgr2 with
                  stringMarshallers_ := mapSet strLt name m mgr2.stringMarshallers_ } :
                  MarshalManager).stringMarshallers_ =
                if n = name then some m else mapFind n mgr2.stringMarshallers_ := by
              intro n
              simp only [mapFind_mapSet]
            have hins := @insert_post reg mgr { mgr with toResolve_ := rest } mgr2
              { mgr2 with stringMarshallers_ := mapSet strLt name m mgr2.stringMarshallers_ }
              name id r m hinv2 hstep rfl hsub1 hfind1 hgone hpend hnr hreg
              hdescs hrefs rfl hsm3
            have hs3 := @insert_sized mgr2
              { mgr2 with stringMarshallers_ := mapSet strLt name m mgr2.stringMarshallers_ }
              name m hs2 hnr2 rfl hsm3 ht1 hcl
            rw [MarshalManager.resolveLoop] at h
            simp only [hto, hres, if_neg hid] at h
            exact ih _ u mgr1 hins.1 hnd2 (by
              show mgr2.toResolve_.length < fuel
              omega) hs3 h

theorem int_marshal_ret (m : IntMarshaller) (v : Int) (dst dst1 : Block) (n : Nat)
    (h : m.marshal v dst = .ret n dst1) : n = 0 ∨ n = m.bytes_ := by
  unfold IntMarshaller.marshal at h
  split_ifs at h
  · simp only [Marshalled.ret.injEq] at h
    exact Or.inl h.1.symm
  · simp only [Marshalled.ret.injEq] at h
    exact Or.inr h.1.symm

theorem uint_marshal_ret (m : UintMarshaller) (v : Nat) (dst dst1 : Block) (n : Nat)
    (h : m.marshal v dst = .ret n dst1) : n = 0 ∨ n = m.bytes_ := by
  unfold UintMarshaller.marshal at h
  split_ifs at h
  · simp only [Marshalled.ret.injEq] at h
    exact Or.inl h.1.symm
  · simp only [Marshalled.ret.injEq] at h
    exact Or.inr h.1.symm

theorem uint64_marshal_ret (m : Uint64Marshaller) (v : Nat) (dst dst1 : Block) (n : Nat)
    (h : m.marshal v dst = .ret n dst1) : n = 0 ∨ n = m.bytes_ := by
  unfold Uint64Marshaller.marshal at h
  split_ifs at h
  · simp only [Marshalled.ret.injEq] at h
    exact Or.inl h.1.symm
  · simp only [Marshalled.ret.injEq] at h
    exact Or.inr h.1.symm

/-- What a field marshaller returns is at most the maximum wire size of the
field. -/
theorem field_marshal_le (f : FieldMarshaller) (mem : Mem) (p : Nat) (dst dst1 : Block)
    (n : Nat) (h : f.marshal mem p dst = .ret n dst1) : n ≤ f.wireBound := by
  cases f with
  | int m =>
    rcases int_marshal_ret m _ dst dst1 n h with h1 | h1 <;>
      simp only [FieldMarshaller.wireBound] <;> omega
  | uint m =>
    rcases uint_marshal_ret m _ dst dst1 n h with h1 | h1 <;>
      simp only [FieldMarshaller.wireBound] <;> omega
  | uint64 m =>
    rcases uint64_marshal_ret m _ dst dst1 n h with h1 | h1 <;>
      simp only [FieldMarshaller.wireBound] <;> omega
  | float m =>
    simp only [FieldMarshaller.marshal, FloatMarshaller.marshal] at h
    split_ifs at h
    rcases int_marshal_ret m.int_ _ dst dst1 n h with h1 | h1 <;>
      simp only [FieldMarshaller.wireBound] <;> omega
  | double m =>
    simp only [FieldMarshaller.marshal, DoubleMarshaller.marshal] at h
    rcases uint64_marshal_ret m.int_ _ dst dst1 n h with h1 | h1 <;>
      simp only [FieldMarshaller.wireBound] <;> omega
  | bool =>
    simp only [FieldMarshaller.marshal] at h
    unfold BoolMarshaller.marshal at h
    simp only [FieldMarshaller.wireBound]
    by_cases hl : dst.left < 1
    · rw [if_pos hl] at h
      simp only [Marshalled.ret.injEq] at h
      omega
    · rw [if_neg hl] at h
      simp only [Marshalled.ret.injEq] at h
      rw [← h.1, write_of_room dst _ (by simpa using hl)]
      simp
  | string m =>
    simp only [FieldMarshaller.marshal, StringMarshaller.marshal] at h
    simp only [FieldMarshaller.wireBound]
    split_ifs at h with h1 h2
    · simp only [Marshalled.ret.injEq] at h
      omega
    · cases hi : m.int_.marshal (toInt32 (readString mem p).length) dst with
      | raise e d =>
        rw [hi] at h
        cases h
      | ret k d =>
        rw [hi] at h
        simp only [Marshalled.ret.injEq] at h
        omega

mutual
/-- What `marshal` returns is at most the sum of the maximum wire sizes of
the fields. -/
theorem marshal_le (mem : Mem) : ∀ (m : IMarshaller) (p : Nat) (dst dst1 : Block) (n : Nat),
    dst.InRange → m.marshal mem p dst = .ret n dst1 → n ≤ m.wireBound
  | .field f, p, dst, dst1, n => by
    intro _ h
    rw [IMarshaller.marshal] at h
    rw [IMarshaller.wireBound]
    exact field_marshal_le f mem p dst dst1 n h
  | .type descs, p, dst, dst1, n => by
    intro hr h
    rw [IMarshaller.marshal] at h
    rw [IMarshaller.wireBound]
    rcases marshalFrom_le mem descs p dst dst1 dst.pos_ n hr (le_refl _) h with h1 | h1 <;> omega
/-- The loop of `TypeMarshal::marshal` advances the position by at most the
sum of the maximum wire sizes of the members that are left. -/
theorem marshalFrom_le (mem : Mem) :
    ∀ (descs : List (Nat × IMarshaller)) (p : Nat) (dst dst1 : Block) (pos n : Nat),
      dst.InRange → pos ≤ dst.pos_ → TypeMarshal.marshalFrom descs mem p dst pos = .ret n dst1 →
      n = 0 ∨ pos + n ≤ dst.pos_ + TypeMarshal.wireBoundFrom descs
  | [], p, dst, dst1, pos, n => by
    intro _ hpos h
    simp only [TypeMarshal.marshalFrom, Marshalled.ret.injEq] at h
    right
    rw [TypeMarshal.wireBoundFrom]
    omega
  | (offset, m) :: rest, p, dst, dst1, pos, n => by
    intro hr hpos h
    rw [TypeMarshal.marshalFrom] at h
    rw [TypeMarshal.wireBoundFrom]
    cases hm : m.marshal mem (p + offset) dst with
    | raise e dA =>
      rw [hm] at h
      cases h
    | ret sz dA =>
      rw [hm] at h
      simp only at h
      by_cases hz : sz = 0
      · rw [if_pos hz] at h
        simp only [Marshalled.ret.injEq] at h
        exact Or.inl h.1.symm
      · rw [if_neg hz] at h
        obtain ⟨⟨hA1, hA2, hA3⟩, _⟩ := marshal_ok mem m (p + offset) dst sz dA hr hm
        have hrA : dA.InRange := by
          unfold Block.InRange
          rw [hA1, hA2]
          exact hA3
        have hle := marshal_le mem m (p + offset) dst dA sz hr hm
        rcases marshalFrom_le mem rest p dA dst1 pos n hrA (by omega) h with h1 | h1
        · exact Or.inl h1
        · right
          omega
end

theorem tree_field (mgr : MarshalManager) (fuel : Nat) (f : FieldMarshaller) :
    mgr.tree fuel (.field f) = some (.field f) := by
  cases fuel <;> rfl

theorem field_max_eq (f : FieldMarshaller) (h : f.wireBound < 2 ^ 32) :
    f.maxMarshalledSize = f.wireBound := by
  cases f with
  | string m =>
    simp only [FieldMarshaller.wireBound] at h
    simp only [FieldMarshaller.maxMarshalledSize, FieldMarshaller.wireBound]
    omega
  | _ => rfl

/-- In a manager whose types are all resolved, the pointer to a resolved type
leads to a marshaller, and the `maxMarshalledSize_` of the type is the sum of
the maximum wire sizes of its fields when that sum is below `2 ^ 32`. -/
theorem tree_total (reg : String → Option (Int × TypeMarshal)) (mgr : MarshalManager)
    (hinv : ResolveInv reg mgr) (hs : SizeInv mgr)
    (hplain : ∀ n id t, reg n = some (id, t) → ∀ d ∈ t.descs_, d.Plain)
    (rk : String → Nat)
    (hrk : ∀ n t1, mapFind n mgr.stringMarshallers_ = some t1 →
      ∀ id t, reg n = some (id, t) → ∀ d ∈ t.descs_, d.marshaller_ = none →
        (mapFind d.type_ mgr.stringMarshallers_).isSome = true ∧ rk d.type_ < rk n) :
    ∀ (fuel : Nat) (n : String) (t : TypeMarshal),
      mapFind n mgr.stringMarshallers_ = some t → rk n < fuel →
      ∃ tr, mgr.tree fuel (.type n) = some tr ∧
        (tr.wireBound < 2 ^ 32 → t.maxMarshalledSize_ = tr.wireBound) := by
  intro fuel
  induction fuel with
  | zero => intro n t _ h; omega
  | succ fuel ih =>
    intro n t ht hfuel
    obtain ⟨id, t0, hreg, hdescs⟩ := hinv.resolved_reg n t ht
    have hlist : ∀ ds0 : List MemberDesc, (∀ d ∈ ds0, d ∈ t0.descs_) →
        ∃ trs, allSome ((ds0.map MemberDesc.bound).map (fun d =>
            match d.marshaller_ with
            | none => none
            | some q => (MarshalManager.tree mgr fuel q).map (fun m => (d.offset_, m)))) =
            some trs ∧
          (TypeMarshal.wireBoundFrom trs < 2 ^ 32 →
            mgr.sizeSum (ds0.map MemberDesc.bound) = TypeMarshal.wireBoundFrom trs) := by
      intro ds0
      induction ds0 with
      | nil =>
        intro _
        exact ⟨[], rfl, fun _ => rfl⟩
      | cons d0 ds ihl =>
        intro hmem
        obtain ⟨trs, htrs, hsum⟩ := ihl (fun d hd => hmem d (List.mem_cons_of_mem _ hd))
        have hd0 : d0 ∈ t0.descs_ := hmem d0 (List.mem_cons_self _ _)
        cases hm0 : d0.marshaller_ with
        | some p =>
          cases p with
          | type q => exact absurd hm0 (hplain n id t0 hreg d0 hd0 q)
          | field f =>
            have hb : d0.bound.marshaller_ = some (.field f) := by
              simp only [MemberDesc.bound, hm0]
            refine ⟨(d0.bound.offset_, .field f) :: trs, ?_, ?_⟩
            · simp only [List.map_cons, hb, tree_field, Option.map_some', allSome, htrs]
            · intro hw
              rw [TypeMarshal.wireBoundFrom, IMarshaller.wireBound] at hw ⊢
              rw [List.map_cons, sizeSum_cons, hb, hsum (by omega)]
              simp only [MarshalManager.maxMarshalledSize]
              rw [field_max_eq f (by omega)]
        | none =>
          have hb : d0.bound.marshaller_ = some (.type d0.type_) := by
            simp only [MemberDesc.bound, hm0]
          obtain ⟨hres, hlt⟩ := hrk n t ht id t0 hreg d0 hd0 hm0
          obtain ⟨t2, ht2⟩ := Option.isSome_iff_exists.1 hres
          obtain ⟨tr2, htr2, hw2⟩ := ih d0.type_ t2 ht2 (by omega)
          refine ⟨(d0.bound.offset_, tr2) :: trs, ?_, ?_⟩
          · simp only [List.map_cons, hb, htr2, Option.map_some', allSome, htrs]
          · intro hw
            rw [TypeMarshal.wireBoundFrom] at hw ⊢
            rw [List.map_cons, sizeSum_cons, hb, hsum (by omega)]
            simp only [MarshalManager.maxMarshalledSize, ht2]
            rw [hw2 (by omega)]
    obtain ⟨trs, htrs, hsum⟩ := hlist t0.descs_ (fun d hd => hd)
    refine ⟨.type trs, ?_, ?_⟩
    · rw [MarshalManager.tree]
      simp only [ht, hdescs, htrs, Option.map_some']
    · intro hw
      rw [IMarshaller.wireBound] at hw ⊢
      rw [hs.sized n t ht, hdescs, hsum hw]
      omega

/-- The sizes in the manager after the registrars of types with distinct
names and plain members. -/
theorem registered_sized (regs : List (Int × TypeMarshal))
    (hnames : (regs.map (fun r => r.2.name_)).Nodup)
    (hplain : ∀ r ∈ regs, ∀ d ∈ r.2.descs_, d.Plain) (mgr0 : MarshalManager)
    (h : registerAll regs MarshalManager.new = .ok mgr0) : SizeInv mgr0 := by
  obtain ⟨mgr1, h1, h2, h3, h4, h5⟩ := registerAll_ok regs MarshalManager.new hnames
    (fun _ _ => rfl) List.nodup_nil
  rw [h] at h1
  cases h1
  have hsm : ∀ n, mapFind n mgr0.stringMarshallers_ = none := by
    intro n
    rw [h2]
    rfl
  refine { sized := ?_, closed := ?_, pending_plain := ?_ }
  · intro n t ht
    rw [hsm n] at ht
    cases ht
  · intro n t ht
    rw [hsm n] at ht
    cases ht
  · intro e he
    obtain ⟨k, v⟩ := e
    have hf : mapFind k mgr0.toResolve_ = some v := mapFind_of_mem k v _ h3 he
    cases hr : regOf regs k with
    | none =>
      rw [h5 k hr] at hf
      cases hf
    | some e0 =>
      rw [h4 k e0 hr] at hf
      cases hf
      exact hplain v (regOf_mem regs k v hr).1

/-- The stored `maxMarshalledSize()` of a resolved record type, and what it
bounds when the sum does not wrap.  For registrars of
types with distinct names whose members are int, uint, uint64, float, double,
bool and string fields and members of nested types, whose nested-type
references all name registered types and contain no cycle: `startup()`
succeeds, and for every registered type the `maxMarshalledSize_` that
`TypeMarshal::resolve` stores is the sum of what `maxMarshalledSize()` returns
for its members, formed in `size_t`; it is the sum of the maximum wire sizes
of its fields, nested types included, whenever that sum is below `2 ^ 32`;
and every `marshal` that returns, on a block whose position is within its
size, returns at most the sum of the maximum wire sizes and advances the
position by what it returns. -/
theorem maxMarshalledSize_bounds (regs : List (Int × TypeMarshal))
    (hnames : (regs.map (fun r => r.2.name_)).Nodup)
    (hrefs : ∀ a b, refersTo regs a b → ∃ r ∈ regs, r.2.name_ = b)
    (hacyc : ∀ n, ¬ Relation.TransGen (refersTo regs) n n)
    (hplain : ∀ r ∈ regs, ∀ d ∈ r.2.descs_, d.Plain) :
    ∃ mgr, startupAfter regs = some (none, mgr) ∧
      ∀ r ∈ regs, ∃ t fuel tr,
        mgr.object r.2.name_ = some t ∧
        mgr.tree fuel (.type r.2.name_) = some tr ∧
        t.maxMarshalledSize_ = mgr.sizeSum t.descs_ % 2 ^ 32 ∧
        (tr.wireBound < 2 ^ 32 → t.maxMarshalledSize_ = tr.wireBound) ∧
        ∀ (mem : Mem) (src : Nat) (dst dst1 : Block) (n : Nat), dst.InRange →
          tr.marshal mem src dst = .ret n dst1 →
          n ≤ tr.wireBound ∧ dst1.pos_ = dst.pos_ + n := by
  obtain ⟨rank, hrank⟩ := rank_of_no_cycle regs hrefs hacyc
  obtain ⟨mgr0, hreg, hinv, hkeys, hfind⟩ := registered_inv regs hnames
  obtain ⟨out, hout, hpost⟩ := resolveLoop_post (regOf regs) rank (mgr0.toResolve_.length + 1)
    mgr0 hinv hkeys (Nat.lt_succ_self _)
  have hac : Acyclic (regOf regs) rank := by
    intro n id t hn d hd hdn
    obtain ⟨hmem, hname⟩ := regOf_mem regs n (id, t) hn
    have hedge : refersTo regs n d.type_ := ⟨(id, t), hmem, hname, d, hd, hdn, rfl⟩
    obtain ⟨r2, hr2, hr2n⟩ := hrefs n d.type_ hedge
    refine ⟨?_, hrank n d.type_ hedge⟩
    rw [← hr2n, regOf_of_mem regs hnames r2 hr2]
    rfl
  cases out with
  | raise e mgr1 =>
    exfalso
    apply hpost
    refine ⟨hac, fun n hn => Or.inl ?_⟩
    rw [hfind n]
    exact hn
  | ret u mgr1 =>
    obtain ⟨hinv1, hstep, hnil⟩ := hpost
    have hs0 := registered_sized regs hnames hplain mgr0 hreg
    have hs1 := resolveLoop_sized (regOf regs) rank (mgr0.toResolve_.length + 1) mgr0 u mgr1
      hinv hkeys (Nat.lt_succ_self _) hs0 hout
    obtain ⟨rk, hrk⟩ := hinv1.ranked
    have hplainReg : ∀ n id t, regOf regs n = some (id, t) → ∀ d ∈ t.descs_, d.Plain :=
      fun n id t hn => hplain (id, t) (regOf_mem regs n (id, t) hn).1
    refine ⟨mgr1, ?_, ?_⟩
    · simp only [startupAfter, hreg, IMarshalManager.startup, MarshalManager.resolve, hout]
    · intro r hr
      obtain ⟨t1, ht1⟩ := registered_resolved hnames hfind hstep hnil r hr
      obtain ⟨tr, htr, hw⟩ := tree_total (regOf regs) mgr1 hinv1 hs1 hplainReg rk hrk
        (rk r.2.name_ + 1) r.2.name_ t1 ht1 (Nat.lt_succ_self _)
      refine ⟨t1, rk r.2.name_ + 1, tr, ht1, htr, hs1.sized _ t1 ht1, hw, ?_⟩
      intro mem src dst dst1 n hrange hm
      exact ⟨marshal_le mem tr src dst dst1 n hrange hm,
        (marshal_ok mem tr src dst n dst1 hrange hm).1.1⟩

/-- Witness for `maxMarshalledSize_bounds`: the types of `TestMarshal`. -/
theorem maxMarshalledSize_bounds_witness :
    ∃ mgr, startupAfter testTypes = some (none, mgr) ∧
      ∀ r ∈ testTypes, ∃ t fuel tr,
        mgr.object r.2.name_ = some t ∧
        mgr.tree fuel (.type r.2.name_) = some tr ∧
        t.maxMarshalledSize_ = mgr.sizeSum t.descs_ % 2 ^ 32 ∧
        (tr.wireBound < 2 ^ 32 → t.maxMarshalledSize_ = tr.wireBound) ∧
        ∀ (mem : Mem) (src : Nat) (dst dst1 : Block) (n : Nat), dst.InRange →
          tr.marshal mem src dst = .ret n dst1 →
          n ≤ tr.wireBound ∧ dst1.pos_ = dst.pos_ + n :=
  maxMarshalledSize_bounds testTypes (by decide)
    (refersTo_of_members (by decide))
    (no_cycle_of_rank (fun s => if s = "AMarshalTest2" then 1 else 0)
      (refersTo_of_members (by decide)))
    (by decide)

/-- Claim C28, the divergence: `maxMarshalledSize()` is not an upper bound
when the sum of the maximum marshalled sizes wraps in `size_t`.  The type
`Texts` has three string members with the declared maximum `0x55555555`; each
member has the maximum marshalled size `4 + 0x55555555`, and the sum of the
three, formed in the 32 bits of `size_t`, is 11.  `startup()` succeeds,
`maxMarshalledSize()` of the type is 11, and the marshal of a record with
three strings of ten characters returns 42. -/
theorem maxMarshalledSize_wraps :
    ((startupAfter hugeStrings).bind (fun r =>
        (r.2.object "Texts").bind (fun t =>
          (r.2.tree 1 (.type "Texts")).map (fun tr =>
            (r.1, t.maxMarshalledSize_,
              (tr.marshal textsMem 0 (Block.new (List.replicate 64 0))).size?))))) =
      some (none, 11, some 42) := by
  decide

/-! ## Creating a manager -/

/-- Claim C23, the divergence: an oversized configuration is accepted when
the sum `queueSize + maxMessageSize` wraps in `size_t`.  With
`queueSize = 2 ^ 32 - 1` and `maxMessageSize = 2` the sum is far above 65536,
the sum in the 32 bits of `size_t` is 1, the check passes and a manager is
returned; the only record delivered to the error sink is the note about the
default message count, not the error "queueSize + maxMessageSize must be <=
65536." -/
theorem oversized_queue_accepted :
    (CreateEtwork (freshGlobals (some 1)) quietOs
        (some { EtworkSettings.new with queueSize := 2 ^ 32 - 1, maxMessageSize := 2 })).manager.isSome
      = true ∧
    (CreateEtwork (freshGlobals (some 1)) quietOs
        (some { EtworkSettings.new with queueSize := 2 ^ 32 - 1, maxMessageSize := 2 })).globals.received
      = [(1, { error := { error_ := 0x00070000, text_ := some "Setting maxMessageCount to 50." }
               osError := 0, socket := none })] := by
  decide

/-- The settings after the default blocks. -/
theorem defaults_settings (g : Globals) (s : EtworkSettings) :
    (CreateEtwork.defaults g s).2 =
      { s with
        maxMessageCount := if s.maxMessageCount = 0 then 50 else s.maxMessageCount
        maxMessageSize := s.sizesWithDefaults.2
        queueSize := s.sizesWithDefaults.1 } := by
  unfold CreateEtwork.defaults EtworkSettings.sizesWithDefaults
  by_cases h1 : s.maxMessageCount = 0 <;> by_cases h2 : s.maxMessageSize = 0 <;>
    by_cases h3 : s.queueSize = 0 <;> simp [h1, h2, h3]

/-- What `etwork_log` does to the globals: one record for the global sink, if
there is one. -/
theorem etwork_log_globals (g : Globals) (sev : Nat) (text : String) :
    (etwork_log g sev text).gErrorNotify = g.gErrorNotify ∧
    (etwork_log g sev text).wsOpen = g.wsOpen ∧
    (etwork_log g sev text).gDebugging = g.gDebugging ∧
    (etwork_log g sev text).received = g.received ++
      (match g.gErrorNotify with
       | some n => [(n, { error := (EtworkError.new sev EA_unknown EO_no_error).setText text
                          osError := 0, socket := none })]
       | none => []) := by
  unfold etwork_log etwork_info_from
  cases hg : g.gErrorNotify <;> simp [hg]

/-- A note of `etwork_log` has severity note and option no error. -/
theorem note_severity (text : String) :
    ((EtworkError.new ES_note EA_unknown EO_no_error).setText text).severity = ES_note ∧
    ((EtworkError.new ES_note EA_unknown EO_no_error).setText text).option = EO_no_error := by
  constructor
  · show (ES_note ||| EA_unknown ||| EO_no_error) &&& ES_mask = ES_note
    decide
  · show (ES_note ||| EA_unknown ||| EO_no_error) &&& EO_mask = EO_no_error
    decide

/-- Nothing logged adds no notes. -/
theorem addsNotes_refl (g : Globals) : AddsNotes g g :=
  ⟨rfl, rfl, rfl, [], (List.append_nil _).symm, fun _ => rfl, fun x hx => by cases hx⟩

/-- A step of the default blocks adds at most one note. -/
theorem addsNotes_ite (g g2 : Globals) (c : Prop) [Decidable c] (text : String)
    (h : AddsNotes g g2) : AddsNotes g (if c then etwork_log g2 ES_note text else g2) := by
  by_cases hc : c
  · rw [if_pos hc]
    obtain ⟨h1, h2, h3, h4⟩ := etwork_log_globals g2 ES_note text
    obtain ⟨a1, a2, a3, n1, a4, a5, a6⟩ := h
    rw [a1] at h4
    cases hg : g.gErrorNotify with
    | none =>
      rw [hg] at h4
      refine ⟨h1.trans a1, h2.trans a2, h3.trans a3, n1, ?_, a5, a6⟩
      rw [h4, a4, List.append_nil]
    | some n =>
      rw [hg] at h4
      refine ⟨h1.trans a1, h2.trans a2, h3.trans a3,
        n1 ++ [(n, { error := (EtworkError.new ES_note EA_unknown EO_no_error).setText text
                     osError := 0, socket := none })], ?_, ?_, ?_⟩
      · rw [h4, a4, List.append_assoc]
      · intro hn
        rw [hg] at hn
        cases hn
      · intro x hx
        rcases List.mem_append.1 hx with hx | hx
        · exact a6 x hx
        · simp only [List.mem_singleton] at hx
          subst hx
          exact ⟨hg.symm, (note_severity text).1, (note_severity text).2⟩
  · rw [if_neg hc]
    exact h

/-- The default blocks only add notes to what the global sink received, and
leave the other globals alone. -/
theorem defaults_globals (g : Globals) (s : EtworkSettings) :
    AddsNotes g (CreateEtwork.defaults g s).1 := by
  unfold CreateEtwork.defaults
  simp only
  apply addsNotes_ite
  apply addsNotes_ite
  apply addsNotes_ite
  exact addsNotes_refl g

/-- Where the size check works: when the queue size and the maximum message
size, a zero replaced by the default, add up to more than 65536 and to less
than `2 ^ 32`, `CreateEtwork` returns no manager and makes no call into the
operating system, whatever the other settings are. -/
theorem oversized_settings_rejected (g : Globals) (os : OsOpen) (s : EtworkSettings)
    (hsum : 65536 < s.sizesWithDefaults.1 + s.sizesWithDefaults.2)
    (hfit : s.sizesWithDefaults.1 + s.sizesWithDefaults.2 < 2 ^ 32) :
    (CreateEtwork g os (some s)).manager = none ∧ (CreateEtwork g os (some s)).calls = [] := by
  have hmod : (s.sizesWithDefaults.1 + s.sizesWithDefaults.2) % 2 ^ 32
      = s.sizesWithDefaults.1 + s.sizesWithDefaults.2 := Nat.mod_eq_of_lt hfit
  unfold CreateEtwork
  simp only
  by_cases hv : s.etworkVersion &&& 0xffff > (EtworkSettings.new.etworkVersion >>> 16) &&& 0xffff
  · rw [if_pos hv]
    exact ⟨rfl, rfl⟩
  · rw [if_neg hv, defaults_settings]
    simp only
    rw [hmod, if_pos hsum]
    exact ⟨rfl, rfl⟩

/-- An instance of `oversized_settings_rejected`: a queue of 65000 bytes with
messages of up to 1000 bytes is refused. -/
theorem oversized_settings_rejected_witness :
    65536 < ({ EtworkSettings.new with queueSize := 65000, maxMessageSize := 1000 } :
        EtworkSettings).sizesWithDefaults.1 +
      ({ EtworkSettings.new with queueSize := 65000, maxMessageSize := 1000 } :
        EtworkSettings).sizesWithDefaults.2 ∧
    (CreateEtwork (freshGlobals (some 1)) quietOs
        (some { EtworkSettings.new with queueSize := 65000, maxMessageSize := 1000 })).manager = none ∧
    (CreateEtwork (freshGlobals (some 1)) quietOs
        (some { EtworkSettings.new with queueSize := 65000, maxMessageSize := 1000 })).calls = [] :=
  ⟨by decide,
   oversized_settings_rejected (freshGlobals (some 1)) quietOs
     { EtworkSettings.new with queueSize := 65000, maxMessageSize := 1000 } (by decide) (by decide)⟩

/-- The version that this build supports. -/
theorem supported_version : (EtworkSettings.new.etworkVersion >>> 16) &&& 0xffff = 0x1300 := by
  decide

/-- The function `open` of an accepting manager without a port: it fails,
makes no call into the operating system, leaves the listening socket alone
and hands the record `portError` to the global sink. -/
theorem open_without_port (mgr : SocketManager) (g : Globals) (os : OsOpen) (s : EtworkSettings)
    (hacc : s.accepting = true) (hport : s.port = 0) :
    mgr.open g os s =
      (false, { mgr with settings_ := s }, etwork_info_from g none portError, []) := by
  unfold SocketManager.open
  exact (if_pos ⟨hacc, hport⟩).trans rfl

/-- What `etwork_info_from` does with a null manager: one record for the
global sink, if there is one. -/
theorem info_from_global (g : Globals) (e : ErrorInfo) :
    (etwork_info_from g none e).received = g.received ++
      (match g.gErrorNotify with
       | some n => [(n, e)]
       | none => []) := by
  unfold etwork_info_from
  cases hg : g.gErrorNotify <;> simp [hg]

/-- What `etwork_error_from` does with a null manager: one record for the
global sink, if there is one. -/
theorem error_from_global (g : Globals) (sock : Option Nat) (e : EtworkError) :
    (etwork_error_from g sock none e).received = g.received ++
      (match g.gErrorNotify with
       | some n => [(n, { error := e, osError := 0, socket := sock })]
       | none => []) := by
  unfold etwork_error_from
  cases hg : g.gErrorNotify <;> simp [hg]

/-- Claim C24, the divergence: the error about the missing port does not
reach the error sink that the settings name.  `CreateEtwork` with accepting
set, port 0 and `notify` set to sink 7 returns no manager and opens no socket.
Without a process-wide sink no record is delivered at all.  With the
process-wide sink 1 installed as well, the record with option invalid
parameters, severity error and area init goes to sink 1, after the notes
about the defaults, and sink 7 gets nothing.  When it is `socket()` that fails
in the same `open`, with port 5000, the record is delivered to sink 7. -/
theorem port_error_not_delivered :
    (CreateEtwork (freshGlobals none) quietOs
        (some { EtworkSettings.new with accepting := true, port := 0, notify := some 7 })).manager
      = none ∧
    (CreateEtwork (freshGlobals none) quietOs
        (some { EtworkSettings.new with accepting := true, port := 0, notify := some 7 })).calls
      = [OsCall.WSAStartup] ∧
    (CreateEtwork (freshGlobals none) quietOs
        (some { EtworkSettings.new with accepting := true, port := 0, notify := some 7 })).globals.received
      = [] ∧
    (CreateEtwork (freshGlobals (some 1)) quietOs
        (some { EtworkSettings.new with accepting := true, port := 0, notify := some 7 })).globals.received
      = [(1, { error := { error_ := 0x00070000, text_ := some "Setting maxMessageCount to 50." }
               osError := 0, socket := none }),
         (1, { error := { error_ := 0x00070000, text_ := some "Setting maxMessageSize to 1400." }
               osError := 0, socket := none }),
         (1, { error := { error_ := 0x00070000, text_ := some "Setting maxMessageSize to 4000." }
               osError := 0, socket := none }),
         (1, portError)] ∧
    portError.error.option = EO_invalid_parameters ∧
    portError.error.severity = ES_error ∧
    portError.error.area = EA_init ∧
    (CreateEtwork (freshGlobals none) refusingOs
        (some { EtworkSettings.new with accepting := true, port := 5000, notify := some 7 })).manager
      = none ∧
    (CreateEtwork (freshGlobals none) refusingOs
        (some { EtworkSettings.new with accepting := true, port := 5000, notify := some 7 })).globals.received
      = [(7, { error := { error_ := 0x0c010006, text_ := none }, osError := 10024, socket := none })] := by
  refine ⟨by decide, by decide, by decide, by decide, by decide, by decide, by decide, by decide,
    by decide⟩

/-- What `CreateEtwork` does with accepting set and port 0, in general: it returns
no manager and opens no socket (the only call into the operating system that
it can make is `WSAStartup`).  Without a global error sink nothing is
delivered.  With a global sink, when the version is supported, the sizes pass
the check and the socket library starts, the last record delivered to the
global sink is `portError`, with option invalid parameters, severity error
and area init, and the records before it are notes about defaults. -/
theorem accepting_needs_port (g : Globals) (os : OsOpen) (s : EtworkSettings)
    (hacc : s.accepting = true) (hport : s.port = 0) :
    (CreateEtwork g os (some s)).manager = none ∧
    (∀ c ∈ (CreateEtwork g os (some s)).calls, c = OsCall.WSAStartup) ∧
    (g.gErrorNotify = none → (CreateEtwork g os (some s)).globals.received = g.received) ∧
    (s.etworkVersion &&& 0xffff ≤ 0x1300 →
      (s.sizesWithDefaults.1 + s.sizesWithDefaults.2) % 2 ^ 32 ≤ 65536 →
      (g.wsOpen = true ∨ os.wsaStartup = 0) →
      ∀ n, g.gErrorNotify = some n →
        ∃ notes, (CreateEtwork g os (some s)).globals.received
            = g.received ++ notes ++ [(n, portError)] ∧
          ∀ x ∈ notes, x.1 = n ∧ x.2.error.severity = ES_note) ∧
    portError.error.option = EO_invalid_parameters ∧
    portError.error.severity = ES_error ∧
    portError.error.area = EA_init := by
  obtain ⟨d1, d2, -, notes, d4, d5, d6⟩ :=
    defaults_globals { g with gDebugging := s.debug } s
  have e1 : (CreateEtwork.defaults { g with gDebugging := s.debug } s).2.accepting = true := by
    rw [defaults_settings]
    exact hacc
  have e2 : (CreateEtwork.defaults { g with gDebugging := s.debug } s).2.port = 0 := by
    rw [defaults_settings]
    exact hport
  have e3 : (CreateEtwork.defaults { g with gDebugging := s.debug } s).2.queueSize
      = s.sizesWithDefaults.1 := by rw [defaults_settings]
  have e4 : (CreateEtwork.defaults { g with gDebugging := s.debug } s).2.maxMessageSize
      = s.sizesWithDefaults.2 := by rw [defaults_settings]
  replace d1 : (CreateEtwork.defaults { g with gDebugging := s.debug } s).1.gErrorNotify
      = g.gErrorNotify := d1
  replace d2 : (CreateEtwork.defaults { g with gDebugging := s.debug } s).1.wsOpen = g.wsOpen := d2
  replace d4 : (CreateEtwork.defaults { g with gDebugging := s.debug } s).1.received
      = g.received ++ notes := d4
  replace d5 : g.gErrorNotify = none → notes = [] := d5
  replace d6 : ∀ x ∈ notes, some x.1 = g.gErrorNotify ∧ x.2.error.severity = ES_note ∧
      x.2.error.option = EO_no_error := d6
  have key : CreateEtwork g os (some s) =
      if s.etworkVersion &&& 0xffff > 0x1300 then
        { manager := none, settings := some s
          globals := etwork_error_from g none none
            (EtworkError.new ES_catastrophe EA_init EO_unsupported_version)
          calls := [] }
      else if (s.sizesWithDefaults.1 + s.sizesWithDefaults.2) % 2 ^ 32 > 65536 then
        { manager := none
          settings := some (CreateEtwork.defaults { g with gDebugging := s.debug } s).2
          globals := etwork_log (CreateEtwork.defaults { g with gDebugging := s.debug } s).1 ES_error
            "queueSize + maxMessageSize must be <= 65536."
          calls := [] }
      else if g.wsOpen = false ∧ os.wsaStartup ≠ 0 then
        { manager := none
          settings := some (CreateEtwork.defaults { g with gDebugging := s.debug } s).2
          globals := etwork_error_from (CreateEtwork.defaults { g with gDebugging := s.debug } s).1
            none none (EtworkError.new ES_catastrophe EA_init EO_unsupported_version)
          calls := [.WSAStartup] }
      else
        { manager := none
          settings := some (CreateEtwork.defaults { g with gDebugging := s.debug } s).2
          globals := etwork_info_from
            { (CreateEtwork.defaults { g with gDebugging := s.debug } s).1 with wsOpen := true }
            none portError
          calls := (if g.wsOpen then [] else [.WSAStartup]) } := by
    unfold CreateEtwork
    simp only
    rw [supported_version, open_without_port _ _ _ _ e1 e2, e3, e4, d2]
    simp only [Bool.false_eq_true, if_false, SocketManager.dispose, SocketManager.new,
      ne_eq, not_true_eq_false, List.append_nil]
  rw [key]
  generalize (CreateEtwork.defaults { g with gDebugging := s.debug } s).1 = g4 at d1 d2 d4 ⊢
  generalize (CreateEtwork.defaults { g with gDebugging := s.debug } s).2 = s4
  refine ⟨?_, ?_, ?_, ?_, by decide, by decide, by decide⟩
  · split_ifs <;> rfl
  · split_ifs <;> simp
  · intro hn
    split_ifs
    · rw [error_from_global, hn, List.append_nil]
    · rw [(etwork_log_globals _ _ _).2.2.2, d1, hn, d4, d5 hn, List.append_nil, List.append_nil]
    · rw [error_from_global, d1, hn, d4, d5 hn, List.append_nil, List.append_nil]
    all_goals rw [info_from_global]
    all_goals show g4.received ++ (match g4.gErrorNotify with
      | some n => [(n, portError)]
      | none => []) = _
    all_goals rw [d1, hn, d4, d5 hn, List.append_nil, List.append_nil]
  · intro hv hsz hws n hn
    have hw : ¬ (g.wsOpen = false ∧ os.wsaStartup ≠ 0) := by
      rintro ⟨h1, h2⟩
      rcases hws with h | h
      · rw [h] at h1
        cases h1
      · exact h2 h
    rw [if_neg (by omega), if_neg (by omega), if_neg hw]
    refine ⟨notes, ?_, ?_⟩
    · rw [info_from_global]
      show g4.received ++ (match g4.gErrorNotify with
        | some n => [(n, portError)]
        | none => []) = _
      rw [d1, hn, d4]
    · intro x hx
      have := d6 x hx
      rw [hn] at this
      exact ⟨(Option.some.inj this.1), this.2.1⟩

/-- An instance of `accepting_needs_port`: the settings of
`TestEtworkErrors`, with sink 1 installed by `SetEtworkErrorNotify`. -/
theorem accepting_needs_port_witness :
    (CreateEtwork (freshGlobals (some 1)) quietOs
        (some { EtworkSettings.new with port := 0, accepting := true })).manager = none ∧
    (CreateEtwork (freshGlobals (some 1)) quietOs
        (some { EtworkSettings.new with port := 0, accepting := true })).globals.received.getLast?
      = some (1, portError) := by
  have h := accepting_needs_port (freshGlobals (some 1)) quietOs
    { EtworkSettings.new with port := 0, accepting := true } rfl rfl
  exact ⟨h.1, by decide⟩

/-! ## Writing to a connection -/

/-- Claim C25, the divergence: when the packet has a legal size and the output
queue has no room for it, because it holds the maximum number of messages or
because the queued bytes and the packet exceed the queue size, `write`
returns -1 and leaves the connection as it was.  It does not return 0, the
value that `etwork.h` documents for a lack of queuing space. -/
theorem write_without_room_returns_minus_one (junk : Nat → Nat) (so : Socket) (buffer : List Nat)
    (hsize : buffer.length ≤ so.bufOut_.maxMsgSize_)
    (hfull : so.bufOut_.maxNumMessages_ ≤ so.bufOut_.queue_.length ∨
      so.bufOut_.queueSize_ < so.bufOut_.written_ + buffer.length) :
    Socket.write junk so buffer = (-1, so) := by
  have hn : new_message junk so.bufOut_ buffer.length = none := by
    unfold new_message
    rw [if_neg (by omega)]
    rcases hfull with h | h
    · rw [if_pos h]
    · by_cases h2 : so.bufOut_.queue_.length ≥ so.bufOut_.maxNumMessages_
      · rw [if_pos h2]
      · rw [if_neg h2, if_pos h]
  unfold Socket.write put_message
  simp only [hn]

/-- Claim C25, an instance: a connection that queues up to 15 bytes holds ten
of them; a write of six bytes, which is a legal size, returns -1. -/
theorem write_without_room_returns_minus_one_witness :
    [1, 2, 3, 4, 5, 6].length ≤ busySocket.bufOut_.maxMsgSize_ ∧
    busySocket.bufOut_.queueSize_ < busySocket.bufOut_.written_ + [1, 2, 3, 4, 5, 6].length ∧
    Socket.write (fun _ => 0) busySocket [1, 2, 3, 4, 5, 6] = (-1, busySocket) :=
  ⟨by decide, by decide,
   write_without_room_returns_minus_one (fun _ => 0) busySocket [1, 2, 3, 4, 5, 6] (by decide)
     (Or.inr (by decide))⟩

/-! ## The indices of the manager -/

/-- The entries of a map after `map[k] = v`, when `k` was not a key. -/
theorem mem_mapSet_of_none {K V : Type} [DecidableEq K] (lt : K → K → Bool) (k : K) (v : V)
    (k1 : K) (v1 : V) : ∀ m : List (K × V), mapFind k m = none →
      ((k1, v1) ∈ mapSet lt k v m ↔ (k1, v1) = (k, v) ∨ (k1, v1) ∈ m) := by
  intro m
  induction m with
  | nil => intro _; simp [mapSet]
  | cons e rest ih =>
    intro h
    simp only [mapFind] at h
    by_cases hk : k = e.1
    · rw [if_pos hk] at h
      cases h
    · rw [if_neg hk] at h
      simp only [mapSet, if_neg hk]
      by_cases hl : lt k e.1 = true
      · rw [if_pos hl]
        simp only [List.mem_cons]
      · rw [if_neg hl]
        simp only [List.mem_cons, ih h]
        tauto

/-- The entries of a map after `erase`. -/
theorem mem_mapErase {K V : Type} [DecidableEq K] (k : K) (k1 : K) (v1 : V) (m : List (K × V)) :
    (k1, v1) ∈ mapErase k m ↔ (k1, v1) ∈ m ∧ k1 ≠ k := by
  unfold mapErase
  simp [List.mem_filter]

/-- The keys of a map stay distinct under `erase`. -/
theorem mapErase_keys_nodup {K V : Type} [DecidableEq K] (k : K) (m : List (K × V))
    (h : (m.map Prod.fst).Nodup) : ((mapErase k m).map Prod.fst).Nodup :=
  keys_nodup_sublist _ _ (mapErase_sublist k m) h

/-- The keys of a map stay distinct under `map[k] = v` with a new key. -/
theorem mapSet_keys_nodup {K V : Type} [DecidableEq K] (lt : K → K → Bool) (k : K) (v : V)
    (m : List (K × V)) (hk : mapFind k m = none) (h : (m.map Prod.fst).Nodup) :
    ((mapSet lt k v m).map Prod.fst).Nodup := by
  rw [(mapSet_keys_perm lt k v m hk).nodup_iff]
  exact List.nodup_cons.2 ⟨not_mem_of_mapFind_none k m hk, h⟩

/-- A key without an entry is not found. -/
theorem mapFind_none_of_no_entry {K V : Type} [DecidableEq K] (k : K) (m : List (K × V))
    (h : ∀ v, (k, v) ∉ m) : mapFind k m = none := by
  cases hf : mapFind k m with
  | none => rfl
  | some v => exact absurd (mapFind_mem k v m hf) (h v)

/-- The invariant looks at a world through the indices, the mode, the counter
of ids and the identity of the sockets. -/
theorem inv_congr (w w1 : World) (hinv : w.Inv)
    (hT : w1.mgr.sockets_ = w.mgr.sockets_) (hA : w1.mgr.socketAddrs_ = w.mgr.socketAddrs_)
    (hQ : w1.mgr.accepted_ = w.mgr.accepted_)
    (hR : w1.mgr.settings_.reliable = w.mgr.settings_.reliable)
    (hN : w1.mgr.nextSocket_ = w.mgr.nextSocket_) (hok : w1.asserts = w.asserts)
    (hH : ∀ p, (w1.heap p).map Socket.ident = (w.heap p).map Socket.ident) : w1.Inv := by
  have fwd : ∀ p so, w.heap p = some so → ∃ so1, w1.heap p = some so1 ∧ so1.ident = so.ident := by
    intro p so h
    have := hH p
    rw [h] at this
    cases h1 : w1.heap p with
    | none => rw [h1] at this; cases this
    | some so1 =>
      rw [h1] at this
      exact ⟨so1, rfl, Option.some.inj this⟩
  have bwd : ∀ p so1, w1.heap p = some so1 → ∃ so, w.heap p = some so ∧ so1.ident = so.ident := by
    intro p so1 h1
    have := hH p
    rw [h1] at this
    cases h : w.heap p with
    | none => rw [h] at this; cases this
    | some so =>
      rw [h] at this
      exact ⟨so, rfl, Option.some.inj this⟩
  have idn : ∀ a b : Socket, a.ident = b.ident →
      a.s_ = b.s_ ∧ a.addr_ = b.addr_ ∧ a.closed_ = b.closed_ ∧ a.accepted_ = b.accepted_ := by
    intro a b h
    simp only [Socket.ident, Prod.mk.injEq] at h
    exact h
  refine ⟨by rw [hT]; exact hinv.table_keys, by rw [hA]; exact hinv.addr_keys,
    by rw [hQ]; exact hinv.queue_nodup, ?_, ?_, ?_, ?_, ?_, ?_, by rw [hok]; exact hinv.asserts_ok⟩
  · intro k p hm
    rw [hT] at hm
    obtain ⟨so, h1, h2, h3, h4⟩ := hinv.table k p hm
    obtain ⟨so1, g1, g2⟩ := fwd p so h1
    obtain ⟨i1, i2, i3, i4⟩ := idn _ _ g2
    exact ⟨so1, g1, i1.trans h2, i3.trans h3, i4.trans h4⟩
  · intro p hm
    rw [hQ] at hm
    obtain ⟨so, h1, h3, h4⟩ := hinv.queue p hm
    obtain ⟨so1, g1, g2⟩ := fwd p so h1
    obtain ⟨i1, i2, i3, i4⟩ := idn _ _ g2
    exact ⟨so1, g1, i3.trans h3, i4.trans h4⟩
  · intro a p hm
    rw [hA] at hm
    obtain ⟨so, h1, h2, h3, h4⟩ := hinv.addrs a p hm
    obtain ⟨so1, g1, g2⟩ := fwd p so h1
    obtain ⟨i1, i2, i3, i4⟩ := idn _ _ g2
    exact ⟨so1, g1, i2.trans h2, i3.trans h3, hR.trans h4⟩
  · intro p so1 h1 hc
    obtain ⟨so, g1, g2⟩ := bwd p so1 h1
    obtain ⟨i1, i2, i3, i4⟩ := idn _ _ g2
    obtain ⟨l1, l2, l3⟩ := hinv.live p so g1 (i3.symm.trans hc)
    rw [hT, hA, hQ, hR, i1, i2, i4]
    exact ⟨l1, l2, l3⟩
  · intro p q sp sq hp hq cp cq hs
    obtain ⟨so, g1, g2⟩ := bwd p sp hp
    obtain ⟨so2, g3, g4⟩ := bwd q sq hq
    obtain ⟨i1, i2, i3, i4⟩ := idn _ _ g2
    obtain ⟨j1, j2, j3, j4⟩ := idn _ _ g4
    exact hinv.ids p q so so2 g1 g3 (i3.symm.trans cp) (j3.symm.trans cq)
      (i1.symm.trans (hs.trans j1))
  · intro hr
    rw [hR] at hr
    obtain ⟨c1, c2⟩ := hinv.counter hr
    rw [hN]
    refine ⟨c1, ?_⟩
    intro p so1 h1 hc
    obtain ⟨so, g1, g2⟩ := bwd p so1 h1
    obtain ⟨i1, i2, i3, i4⟩ := idn _ _ g2
    rw [i1]
    exact c2 p so g1 (i3.symm.trans hc)

/-- Replacing a socket by one with the same identity keeps the invariant. -/
theorem inv_store_same (w : World) (hinv : w.Inv) (p : Nat) (so so1 : Socket)
    (h : w.heap p = some so) (hid : so1.ident = so.ident) : (w.store p (some so1)).Inv := by
  refine inv_congr w _ hinv rfl rfl rfl rfl rfl rfl ?_
  intro q
  unfold World.store
  simp only
  by_cases hq : q = p
  · rw [if_pos hq, hq, h]
    simp only [Option.map_some', hid]
  · rw [if_neg hq]

/-- Taking the entries of one socket out of the indices, and closing or
deleting that socket, keeps the invariant. -/
theorem inv_unindex (w : World) (hinv : w.Inv) (p : Nat) (w1 : World)
    (hheap : ∀ q, q ≠ p → w1.heap q = w.heap q)
    (hp : ∀ s, w1.heap p = some s → s.closed_ = true)
    (hT : ∀ k q, (k, q) ∈ w1.mgr.sockets_ ↔ (k, q) ∈ w.mgr.sockets_ ∧ q ≠ p)
    (hA : ∀ a q, (a, q) ∈ w1.mgr.socketAddrs_ ↔ (a, q) ∈ w.mgr.socketAddrs_ ∧ q ≠ p)
    (hQ : ∀ q, q ∈ w1.mgr.accepted_ ↔ q ∈ w.mgr.accepted_ ∧ q ≠ p)
    (nT : (w1.mgr.sockets_.map Prod.fst).Nodup)
    (nA : (w1.mgr.socketAddrs_.map Prod.fst).Nodup)
    (nQ : w1.mgr.accepted_.Nodup)
    (hR : w1.mgr.settings_.reliable = w.mgr.settings_.reliable)
    (hN : w1.mgr.nextSocket_ = w.mgr.nextSocket_) (hok : w1.asserts = true) : w1.Inv := by
  have open_ne : ∀ q s, w1.heap q = some s → s.closed_ = false → q ≠ p := by
    intro q s hq hc hqp
    rw [hqp] at hq
    rw [hp s hq] at hc
    cases hc
  refine ⟨nT, nA, nQ, ?_, ?_, ?_, ?_, ?_, ?_, hok⟩
  · intro k q hm
    obtain ⟨hm1, hne⟩ := (hT k q).1 hm
    rw [hheap q hne]
    exact hinv.table k q hm1
  · intro q hm
    obtain ⟨hm1, hne⟩ := (hQ q).1 hm
    rw [hheap q hne]
    exact hinv.queue q hm1
  · intro a q hm
    obtain ⟨hm1, hne⟩ := (hA a q).1 hm
    rw [hheap q hne, hR]
    exact hinv.addrs a q hm1
  · intro q s hq hc
    have hne := open_ne q s hq hc
    rw [hheap q hne] at hq
    obtain ⟨l1, l2, l3⟩ := hinv.live q s hq hc
    rw [hR]
    exact ⟨fun ha => (hT _ _).2 ⟨l1 ha, hne⟩, fun ha => (hQ _).2 ⟨l2 ha, hne⟩,
      fun hr => (hA _ _).2 ⟨l3 hr, hne⟩⟩
  · intro q1 q2 s1 s2 h1 h2 c1 c2 hs
    rw [hheap q1 (open_ne q1 s1 h1 c1)] at h1
    rw [hheap q2 (open_ne q2 s2 h2 c2)] at h2
    exact hinv.ids q1 q2 s1 s2 h1 h2 c1 c2 hs
  · intro hr
    rw [hR] at hr
    obtain ⟨c1, c2⟩ := hinv.counter hr
    rw [hN]
    refine ⟨c1, ?_⟩
    intro q s hq hc
    rw [hheap q (open_ne q s hq hc)] at hq
    exact c2 q s hq hc

/-- Under the invariant a socket that is closed, or deleted, has no entry in
an index. -/
theorem not_indexed_of_closed (w : World) (hinv : w.Inv) (p : Nat)
    (h : w.heap p = none ∨ ∃ so, w.heap p = some so ∧ so.closed_ = true) : ¬ w.Indexed p := by
  have key : ∀ so, w.heap p = some so → so.closed_ = false → False := by
    intro so hs hc
    rcases h with h | ⟨so1, h1, h2⟩
    · rw [h] at hs
      cases hs
    · rw [h1] at hs
      cases hs
      rw [h2] at hc
      cases hc
  rintro (⟨k, hm⟩ | ⟨a, hm⟩ | hm)
  · obtain ⟨so, h1, _, h3, _⟩ := hinv.table k p hm
    exact key so h1 h3
  · obtain ⟨so, h1, _, h3, _⟩ := hinv.addrs a p hm
    exact key so h1 h3
  · obtain ⟨so, h1, h3, _⟩ := hinv.queue p hm
    exact key so h1 h3

/-- Under the invariant, an entry of the connection table has a key other
than the key of the open socket at `p`, if and only if it is the entry of
another socket. -/
theorem table_key_ne (w : World) (hinv : w.Inv) (p : Nat) (so : Socket) (h : w.heap p = some so)
    (hc : so.closed_ = false) (k q : Nat) (hm : (k, q) ∈ w.mgr.sockets_) :
    k ≠ so.s_ ↔ q ≠ p := by
  obtain ⟨sq, h1, h2, h3, h4⟩ := hinv.table k q hm
  constructor
  · intro hk hq
    rw [hq, h] at h1
    cases h1
    exact hk h2.symm
  · intro hq hk
    exact hq (hinv.ids q p sq so h1 h h3 hc (h2.trans hk))

/-- Under the invariant, an entry of the address index has a key other than
the address of the open socket at `p`, if and only if it is the entry of
another socket. -/
theorem addr_key_ne (w : World) (hinv : w.Inv) (p : Nat) (so : Socket) (h : w.heap p = some so)
    (hc : so.closed_ = false) (a : sockaddr_in) (q : Nat) (hm : (a, q) ∈ w.mgr.socketAddrs_) :
    a ≠ so.addr_ ↔ q ≠ p := by
  obtain ⟨sq, h1, h2, h3, h4⟩ := hinv.addrs a q hm
  constructor
  · intro hk hq
    rw [hq, h] at h1
    cases h1
    exact hk h2.symm
  · intro hq hk
    have hp := (hinv.live p so h hc).2.2 h4
    rw [← hk] at hp
    have e1 := mapFind_of_mem a q _ hinv.addr_keys hm
    have e2 := mapFind_of_mem a p _ hinv.addr_keys hp
    rw [e1] at e2
    exact hq (Option.some.inj e2)

/-- What `close_socket` does to the indices and the objects, under the
invariant, for the socket at `p`: its entries go, all other entries stay, the
socket is closed, the other objects are untouched and the `ASSERT` of
`remove_socket` holds. -/
theorem close_socket_facts (w : World) (hinv : w.Inv) (p : Nat) (so : Socket)
    (h : w.heap p = some so) :
    (∀ q, q ≠ p → (w.close_socket p so).heap q = w.heap q) ∧
    (∃ s, (w.close_socket p so).heap p = some s ∧ s.closed_ = true ∧
      s.accepted_ = so.accepted_) ∧
    (∀ k q, (k, q) ∈ (w.close_socket p so).mgr.sockets_ ↔ (k, q) ∈ w.mgr.sockets_ ∧ q ≠ p) ∧
    (∀ a q, (a, q) ∈ (w.close_socket p so).mgr.socketAddrs_ ↔
      (a, q) ∈ w.mgr.socketAddrs_ ∧ q ≠ p) ∧
    (∀ q, q ∈ (w.close_socket p so).mgr.accepted_ ↔ q ∈ w.mgr.accepted_ ∧ q ≠ p) ∧
    (((w.close_socket p so).mgr.sockets_.map Prod.fst).Nodup) ∧
    (((w.close_socket p so).mgr.socketAddrs_.map Prod.fst).Nodup) ∧
    ((w.close_socket p so).mgr.accepted_.Nodup) ∧
    (w.close_socket p so).mgr.settings_ = w.mgr.settings_ ∧
    (w.close_socket p so).mgr.nextSocket_ = w.mgr.nextSocket_ ∧
    (w.close_socket p so).mgr.notify_ = w.mgr.notify_ ∧
    (w.close_socket p so).mgr.active_ = w.mgr.active_ ∧
    (w.close_socket p so).mgr.curTime_ = w.mgr.curTime_ ∧
    (w.close_socket p so).asserts = true := by
  have hTne : ∀ k q, (k, q) ∈ w.mgr.sockets_ → so.accepted_ = false → q ≠ p := by
    intro k q hm ha hq
    obtain ⟨sq, h1, _, _, h4⟩ := hinv.table k q hm
    rw [hq, h] at h1
    cases h1
    rw [ha] at h4
    cases h4
  have hQne : ∀ q, q ∈ w.mgr.accepted_ → so.accepted_ = true → q ≠ p := by
    intro q hm ha hq
    obtain ⟨sq, h1, _, h4⟩ := hinv.queue q hm
    rw [hq, h] at h1
    cases h1
    rw [ha] at h4
    cases h4
  by_cases hc : so.closed_ = false
  · have hAiff : ∀ a q, (a, q) ∈ mapErase so.addr_ w.mgr.socketAddrs_ ↔
        (a, q) ∈ w.mgr.socketAddrs_ ∧ q ≠ p := by
      intro a q
      rw [mem_mapErase]
      constructor
      · rintro ⟨hm, hne⟩
        exact ⟨hm, (addr_key_ne w hinv p so h hc a q hm).1 hne⟩
      · rintro ⟨hm, hne⟩
        exact ⟨hm, (addr_key_ne w hinv p so h hc a q hm).2 hne⟩
    by_cases ha : so.accepted_ = true
    · have hmem := (hinv.live p so h hc).1 ha
      have hfind := mapFind_of_mem so.s_ p _ hinv.table_keys hmem
      have hcl : w.close_socket p so =
          { w with
            mgr := { w.mgr with
                     socketAddrs_ := mapErase so.addr_ w.mgr.socketAddrs_
                     sockets_ := mapErase so.s_ w.mgr.sockets_ }
            heap := fun q =>
              if q = p then some { so with closed_ := true, s_ := INVALID_SOCKET } else w.heap q
            asserts := w.asserts && true } := by
        unfold World.close_socket SocketManager.remove_socket
        simp only [hc, if_true, hfind]
      rw [hcl]
      refine ⟨fun q hq => if_neg hq, ⟨_, if_pos rfl, rfl, rfl⟩, ?_, hAiff, ?_,
        mapErase_keys_nodup _ _ hinv.table_keys, mapErase_keys_nodup _ _ hinv.addr_keys,
        hinv.queue_nodup, rfl, rfl, rfl, rfl, rfl, ?_⟩
      · intro k q
        show (k, q) ∈ mapErase so.s_ w.mgr.sockets_ ↔ _
        rw [mem_mapErase]
        constructor
        · rintro ⟨hm, hne⟩
          exact ⟨hm, (table_key_ne w hinv p so h hc k q hm).1 hne⟩
        · rintro ⟨hm, hne⟩
          exact ⟨hm, (table_key_ne w hinv p so h hc k q hm).2 hne⟩
      · intro q
        exact ⟨fun hm => ⟨hm, hQne q hm ha⟩, fun hm => hm.1⟩
      · show (w.asserts && true) = true
        rw [hinv.asserts_ok]
        rfl
    · have ha1 : so.accepted_ = false := by
        cases hx : so.accepted_ with
        | true => exact absurd hx ha
        | false => rfl
      have hmem := (hinv.live p so h hc).2.1 ha1
      have hfind : mapFind so.s_ w.mgr.sockets_ = none := by
        apply mapFind_none_of_no_entry
        intro v hv
        obtain ⟨sv, h1, h2, h3, h4⟩ := hinv.table so.s_ v hv
        have := hinv.ids v p sv so h1 h h3 hc h2
        rw [this, h] at h1
        cases h1
        rw [ha1] at h4
        cases h4
      have hcl : w.close_socket p so =
          { w with
            mgr := { w.mgr with
                     socketAddrs_ := mapErase so.addr_ w.mgr.socketAddrs_
                     accepted_ := w.mgr.accepted_.erase p }
            heap := fun q =>
              if q = p then some { so with closed_ := true, s_ := INVALID_SOCKET } else w.heap q
            asserts := w.asserts && true } := by
        unfold World.close_socket SocketManager.remove_socket
        simp only [hc, if_true, hfind, hmem]
      rw [hcl]
      refine ⟨fun q hq => if_neg hq, ⟨_, if_pos rfl, rfl, rfl⟩, ?_, hAiff, ?_,
        hinv.table_keys, mapErase_keys_nodup _ _ hinv.addr_keys,
        hinv.queue_nodup.erase p, rfl, rfl, rfl, rfl, rfl, ?_⟩
      · intro k q
        exact ⟨fun hm => ⟨hm, hTne k q hm ha1⟩, fun hm => hm.1⟩
      · intro q
        show q ∈ w.mgr.accepted_.erase p ↔ _
        rw [hinv.queue_nodup.mem_erase_iff]
        tauto
      · show (w.asserts && true) = true
        rw [hinv.asserts_ok]
        rfl
  · have hc1 : so.closed_ = true := by
      cases hx : so.closed_ with
      | true => rfl
      | false => exact absurd hx hc
    have hcl : w.close_socket p so = w := by
      unfold World.close_socket
      rw [if_neg hc]
    rw [hcl]
    have hni := not_indexed_of_closed w hinv p (Or.inr ⟨so, h, hc1⟩)
    refine ⟨fun _ _ => rfl, ⟨so, h, hc1, rfl⟩, ?_, ?_, ?_, hinv.table_keys, hinv.addr_keys,
      hinv.queue_nodup, rfl, rfl, rfl, rfl, rfl, hinv.asserts_ok⟩
    · intro k q
      refine ⟨fun hm => ⟨hm, ?_⟩, fun hm => hm.1⟩
      intro hq
      rw [hq] at hm
      exact hni (Or.inl ⟨k, hm⟩)
    · intro a q
      refine ⟨fun hm => ⟨hm, ?_⟩, fun hm => hm.1⟩
      intro hq
      rw [hq] at hm
      exact hni (Or.inr (Or.inl ⟨a, hm⟩))
    · intro q
      refine ⟨fun hm => ⟨hm, ?_⟩, fun hm => hm.1⟩
      intro hq
      rw [hq] at hm
      exact hni (Or.inr (Or.inr hm))

/-- The function `close_socket` keeps the invariant. -/
theorem inv_close_socket (w : World) (hinv : w.Inv) (p : Nat) (so : Socket)
    (h : w.heap p = some so) : (w.close_socket p so).Inv := by
  obtain ⟨f1, ⟨s, f2, f3, _⟩, f4, f5, f6, f7, f8, f9, f10, f11, _, _, _, f12⟩ :=
    close_socket_facts w hinv p so h
  refine inv_unindex w hinv p _ f1 ?_ f4 f5 f6 f7 f8 f9 (by rw [f10]) f11 f12
  intro s1 hs1
  rw [f2] at hs1
  cases hs1
  exact f3

/-- The function `dispose` keeps the invariant. -/
theorem inv_dispose (w : World) (hinv : w.Inv) (p : Nat) (so : Socket)
    (h : w.heap p = some so) : (w.dispose p so).Inv := by
  obtain ⟨f1, _, f4, f5, f6, f7, f8, f9, f10, f11, _, _, _, f12⟩ :=
    close_socket_facts w hinv p so h
  refine inv_unindex w hinv p _ ?_ ?_ f4 f5 f6 f7 f8 f9 (by
    show (w.close_socket p so).mgr.settings_.reliable = _
    rw [f10]) f11 f12
  · intro q hq
    show (if q = p then none else (w.close_socket p so).heap q) = _
    rw [if_neg hq]
    exact f1 q hq
  · intro s hs
    have : (w.dispose p so).heap p = none := by
      show (if p = p then none else (w.close_socket p so).heap p) = _
      rw [if_pos rfl]
    rw [this] at hs
    cases hs

/-- Under the invariant a pointer without an object has no entry in an index. -/
theorem not_indexed_of_fresh (w : World) (hinv : w.Inv) (p : Nat) (h : w.heap p = none) :
    (∀ k, (k, p) ∉ w.mgr.sockets_) ∧ (∀ a, (a, p) ∉ w.mgr.socketAddrs_) ∧
    p ∉ w.mgr.accepted_ := by
  have hn := not_indexed_of_closed w hinv p (Or.inl h)
  exact ⟨fun k hm => hn (Or.inl ⟨k, hm⟩), fun a hm => hn (Or.inr (Or.inl ⟨a, hm⟩)),
    fun hm => hn (Or.inr (Or.inr hm))⟩

/-- A new open socket at a fresh address, with a key that no open socket has,
entered in the table or in the queue, and for an unreliable manager in the
address index, keeps the invariant. -/
theorem inv_add (w : World) (hinv : w.Inv) (pn : Nat) (obj : Socket) (w1 : World)
    (hfresh : w.heap pn = none) (hopen : obj.closed_ = false)
    (hkey : ∀ q sq, w.heap q = some sq → sq.closed_ = false → sq.s_ ≠ obj.s_)
    (hheap : ∀ q, w1.heap q = if q = pn then some obj else w.heap q)
    (hT : ∀ k q, (k, q) ∈ w1.mgr.sockets_ ↔
      (k, q) ∈ w.mgr.sockets_ ∨ (obj.accepted_ = true ∧ (k, q) = (obj.s_, pn)))
    (hQ : ∀ q, q ∈ w1.mgr.accepted_ ↔ q ∈ w.mgr.accepted_ ∨ (obj.accepted_ = false ∧ q = pn))
    (hA : ∀ a q, (a, q) ∈ w1.mgr.socketAddrs_ ↔
      (a, q) ∈ w.mgr.socketAddrs_ ∨
        (w.mgr.settings_.reliable = false ∧ (a, q) = (obj.addr_, pn)))
    (nT : (w1.mgr.sockets_.map Prod.fst).Nodup)
    (nA : (w1.mgr.socketAddrs_.map Prod.fst).Nodup)
    (nQ : w1.mgr.accepted_.Nodup)
    (hR : w1.mgr.settings_.reliable = w.mgr.settings_.reliable)
    (hN : w.mgr.settings_.reliable = false →
      w.mgr.nextSocket_ ≤ w1.mgr.nextSocket_ ∧ (obj.s_ : Int) < w1.mgr.nextSocket_)
    (hok : w1.asserts = w.asserts) : w1.Inv := by
  have hne : ∀ q s, w.heap q = some s → q ≠ pn := by
    intro q s hq hx
    rw [hx, hfresh] at hq
    cases hq
  have hold : ∀ q s, w.heap q = some s → w1.heap q = some s := by
    intro q s hq
    rw [hheap q, if_neg (hne q s hq)]
    exact hq
  have hnew : w1.heap pn = some obj := by rw [hheap pn, if_pos rfl]
  refine ⟨nT, nA, nQ, ?_, ?_, ?_, ?_, ?_, ?_, by rw [hok]; exact hinv.asserts_ok⟩
  · intro k q hm
    rcases (hT k q).1 hm with hm | ⟨ha, he⟩
    · obtain ⟨s, h1, h2⟩ := hinv.table k q hm
      exact ⟨s, hold q s h1, h2⟩
    · cases he
      exact ⟨obj, hnew, rfl, hopen, ha⟩
  · intro q hm
    rcases (hQ q).1 hm with hm | ⟨ha, he⟩
    · obtain ⟨s, h1, h2⟩ := hinv.queue q hm
      exact ⟨s, hold q s h1, h2⟩
    · rw [he]
      exact ⟨obj, hnew, hopen, ha⟩
  · intro a q hm
    rw [hR]
    rcases (hA a q).1 hm with hm | ⟨ha, he⟩
    · obtain ⟨s, h1, h2⟩ := hinv.addrs a q hm
      exact ⟨s, hold q s h1, h2⟩
    · cases he
      exact ⟨obj, hnew, rfl, hopen, ha⟩
  · intro q s hq hc
    rw [hheap q] at hq
    rw [hR]
    by_cases hx : q = pn
    · rw [if_pos hx] at hq
      cases hq
      rw [hx]
      exact ⟨fun ha => (hT _ _).2 (Or.inr ⟨ha, rfl⟩), fun ha => (hQ _).2 (Or.inr ⟨ha, rfl⟩),
        fun hr => (hA _ _).2 (Or.inr ⟨hr, rfl⟩)⟩
    · rw [if_neg hx] at hq
      obtain ⟨l1, l2, l3⟩ := hinv.live q s hq hc
      exact ⟨fun ha => (hT _ _).2 (Or.inl (l1 ha)), fun ha => (hQ _).2 (Or.inl (l2 ha)),
        fun hr => (hA _ _).2 (Or.inl (l3 hr))⟩
  · intro q1 q2 s1 s2 h1 h2 c1 c2 hs
    rw [hheap q1] at h1
    rw [hheap q2] at h2
    by_cases x1 : q1 = pn
    · rw [if_pos x1] at h1
      cases h1
      by_cases x2 : q2 = pn
      · rw [x1, x2]
      · rw [if_neg x2] at h2
        exact absurd hs.symm (hkey q2 s2 h2 c2)
    · rw [if_neg x1] at h1
      by_cases x2 : q2 = pn
      · rw [if_pos x2] at h2
        cases h2
        exact absurd hs (hkey q1 s1 h1 c1)
      · rw [if_neg x2] at h2
        exact hinv.ids q1 q2 s1 s2 h1 h2 c1 c2 hs
  · intro hr
    rw [hR] at hr
    obtain ⟨c1, c2⟩ := hinv.counter hr
    obtain ⟨n1, n2⟩ := hN hr
    refine ⟨lt_of_lt_of_le c1 n1, ?_⟩
    intro q s hq hc
    rw [hheap q] at hq
    by_cases hx : q = pn
    · rw [if_pos hx] at hq
      cases hq
      exact n2
    · rw [if_neg hx] at hq
      exact lt_of_lt_of_le (c2 q s hq hc) n1

/-- The key of an open socket that waits in the queue is not a key of the
connection table. -/
theorem pending_key_fresh (w : World) (hinv : w.Inv) (p : Nat) (so : Socket)
    (h : w.heap p = some so) (hc : so.closed_ = false) (ha : so.accepted_ = false) :
    mapFind so.s_ w.mgr.sockets_ = none := by
  apply mapFind_none_of_no_entry
  intro v hv
  obtain ⟨sv, h1, h2, h3, h4⟩ := hinv.table so.s_ v hv
  have := hinv.ids v p sv so h1 h h3 hc h2
  rw [this, h] at h1
  cases h1
  rw [ha] at h4
  cases h4

/-- Moving the first socket of the queue to the connection table, and marking
it accepted, keeps the invariant. -/
theorem inv_promote (w : World) (hinv : w.Inv) (s : Nat) (rest : List Nat) (so so1 : Socket)
    (hq : w.mgr.accepted_ = s :: rest) (h : w.heap s = some so) (w1 : World)
    (i1 : so1.s_ = so.s_) (i2 : so1.addr_ = so.addr_) (i3 : so1.closed_ = so.closed_)
    (i4 : so1.accepted_ = true)
    (hheap : ∀ q, w1.heap q = if q = s then some so1 else w.heap q)
    (hT : w1.mgr.sockets_ = mapSet natLt so.s_ s w.mgr.sockets_)
    (hA : w1.mgr.socketAddrs_ = w.mgr.socketAddrs_)
    (hQ : w1.mgr.accepted_ = rest)
    (hR : w1.mgr.settings_.reliable = w.mgr.settings_.reliable)
    (hN : w1.mgr.nextSocket_ = w.mgr.nextSocket_) (hok : w1.asserts = w.asserts) : w1.Inv := by
  have hsq : s ∈ w.mgr.accepted_ := by
    rw [hq]
    exact List.mem_cons_self _ _
  obtain ⟨so0, g1, hc, ha⟩ := hinv.queue s hsq
  rw [h] at g1
  cases g1
  have hfind := pending_key_fresh w hinv s so h hc ha
  have hnd := hinv.queue_nodup
  rw [hq] at hnd
  obtain ⟨hs_notin, hrest⟩ := List.nodup_cons.1 hnd
  have hTiff := fun k q => mem_mapSet_of_none natLt so.s_ s k q w.mgr.sockets_ hfind
  have hnew : w1.heap s = some so1 := by rw [hheap s, if_pos rfl]
  have hold : ∀ q, q ≠ s → w1.heap q = w.heap q := by
    intro q hx
    rw [hheap q, if_neg hx]
  have key : ∀ q sq, w1.heap q = some sq →
      ∃ sq0, w.heap q = some sq0 ∧ sq0.s_ = sq.s_ ∧ sq0.closed_ = sq.closed_ := by
    intro q sq hh
    by_cases hx : q = s
    · rw [hx, hnew] at hh
      cases hh
      rw [hx]
      exact ⟨so, h, i1.symm, i3.symm⟩
    · rw [hold q hx] at hh
      exact ⟨sq, hh, rfl, rfl⟩
  refine ⟨?_, ?_, ?_, ?_, ?_, ?_, ?_, ?_, ?_, ?_⟩
  · rw [hT]
    exact mapSet_keys_nodup _ _ _ _ hfind hinv.table_keys
  · rw [hA]
    exact hinv.addr_keys
  · rw [hQ]
    exact hrest
  · intro k q hm
    rw [hT] at hm
    rcases (hTiff k q).1 hm with he | hm
    · cases he
      exact ⟨so1, hnew, i1, i3.trans hc, i4⟩
    · obtain ⟨sq, h1, h2, h3, h4⟩ := hinv.table k q hm
      have hne : q ≠ s := by
        intro hx
        rw [hx, h] at h1
        cases h1
        rw [ha] at h4
        cases h4
      exact ⟨sq, (hold q hne).trans h1, h2, h3, h4⟩
  · intro q hm
    rw [hQ] at hm
    have hne : q ≠ s := fun hx => hs_notin (hx ▸ hm)
    obtain ⟨sq, h1, h2⟩ := hinv.queue q (by rw [hq]; exact List.mem_cons_of_mem _ hm)
    exact ⟨sq, (hold q hne).trans h1, h2⟩
  · intro a q hm
    rw [hA] at hm
    rw [hR]
    obtain ⟨sq, h1, h2, h3, h4⟩ := hinv.addrs a q hm
    by_cases hx : q = s
    · rw [hx, h] at h1
      cases h1
      rw [hx]
      exact ⟨so1, hnew, i2.trans h2, i3.trans h3, h4⟩
    · exact ⟨sq, (hold q hx).trans h1, h2, h3, h4⟩
  · intro q sq hqh hcq
    rw [hT, hA, hQ, hR]
    by_cases hx : q = s
    · rw [hx, hnew] at hqh
      cases hqh
      rw [hx]
      refine ⟨fun _ => (hTiff _ _).2 (Or.inl (by rw [i1])), ?_, ?_⟩
      · intro hcontra
        rw [i4] at hcontra
        cases hcontra
      · intro hr
        rw [i2]
        exact (hinv.live s so h hc).2.2 hr
    · rw [hold q hx] at hqh
      obtain ⟨l1, l2, l3⟩ := hinv.live q sq hqh hcq
      refine ⟨fun hacc => (hTiff _ _).2 (Or.inr (l1 hacc)), ?_, l3⟩
      intro hacc
      have := l2 hacc
      rw [hq] at this
      rcases List.mem_cons.1 this with e | e
      · exact absurd e hx
      · exact e
  · intro q1 q2 s1 s2 h1 h2 c1 c2 hs
    obtain ⟨a1, b1, d1, e1⟩ := key q1 s1 h1
    obtain ⟨a2, b2, d2, e2⟩ := key q2 s2 h2
    exact hinv.ids q1 q2 a1 a2 b1 b2 (e1.trans c1) (e2.trans c2) (d1.trans (hs.trans d2.symm))
  · intro hr
    rw [hR] at hr
    obtain ⟨c1, c2⟩ := hinv.counter hr
    rw [hN]
    refine ⟨c1, ?_⟩
    intro q sq hh hcq
    obtain ⟨a1, b1, d1, e1⟩ := key q sq hh
    rw [← d1]
    exact c2 q a1 b1 (e1.trans hcq)
  · rw [hok]
    exact hinv.asserts_ok

/-- The loop of `accept` keeps the invariant. -/
theorem inv_acceptLoop : ∀ (n : Nat) (w : World) (out : List Nat) (r : World × List Nat),
    w.Inv → World.acceptLoop n w out = some r → r.1.Inv := by
  intro n
  induction n with
  | zero =>
    intro w out r hinv h
    simp only [World.acceptLoop, Option.some.injEq] at h
    rw [← h]
    exact hinv
  | succ n ih =>
    intro w out r hinv h
    rw [World.acceptLoop] at h
    cases hq : w.mgr.accepted_ with
    | nil =>
      rw [hq] at h
      simp only [Option.some.injEq] at h
      rw [← h]
      exact hinv
    | cons s rest =>
      rw [hq] at h
      simp only at h
      cases hs : w.heap s with
      | none =>
        rw [hs] at h
        cases h
      | some so =>
        rw [hs] at h
        simp only at h
        refine ih _ _ r ?_ h
        exact inv_promote w hinv s rest so { so with accepted_ := true } hq hs _ rfl rfl rfl rfl
          (fun _ => rfl) rfl rfl rfl rfl rfl rfl
/-- The manager after `change_queuing_space`: only `curQueueSpace_` can differ. -/
theorem change_queuing_space_cases (mgr : SocketManager) (g : Globals) (os : OsOpen) :
    ∃ (c : Int) (g1 : Globals) (calls : List OsCall),
      mgr.change_queuing_space g os = ({ mgr with curQueueSpace_ := c }, g1, calls) := by
  unfold SocketManager.change_queuing_space
  simp only []
  split_ifs
  all_goals exact ⟨_, _, _, rfl⟩

/-- The function `accept` keeps the invariant. -/
theorem inv_accept (w : World) (hinv : w.Inv) (os : OsOpen) (maxAccepted : Int)
    (r : World × List Nat) (h : w.accept os maxAccepted = some r) : r.1.Inv := by
  unfold World.accept at h
  cases hl : World.acceptLoop maxAccepted.toNat w [] with
  | none =>
    rw [hl] at h
    cases h
  | some r1 =>
    rw [hl] at h
    simp only at h
    have hi := inv_acceptLoop _ _ _ _ hinv hl
    by_cases hne : r1.2 ≠ []
    · rw [if_pos hne] at h
      simp only [Option.some.injEq] at h
      rw [← h]
      obtain ⟨c, g1, calls, hc⟩ := change_queuing_space_cases r1.1.mgr r1.1.globals os
      rw [hc]
      exact inv_congr r1.1 _ hi rfl rfl rfl rfl rfl rfl (fun _ => rfl)
    · rw [if_neg hne] at h
      simp only [Option.some.injEq] at h
      rw [← h]
      exact hi

/-- The value `(SOCKET)n` of a positive `int`. -/
theorem toSizeT_of_pos {n : Int} (h1 : 0 ≤ n) (h2 : n < 2 ^ 31) : toSizeT n = n.toNat := by
  unfold toSizeT
  rw [Int.emod_eq_of_lt h1 (by omega)]

/-- One round of the loop of `socket_id` while the counter is positive and
below `2 ^ 31 - 1`. -/
theorem socket_id_loop_step (fuel : Nat) (mgr : SocketManager) (hpos : 0 < mgr.nextSocket_)
    (hlt : mgr.nextSocket_ + 1 < 2 ^ 31) :
    mgr.socket_id_loop (fuel + 1) =
      if mgr.nextSocket_.toNat = mgr.listening_ ∨
          (mapFind mgr.nextSocket_.toNat mgr.sockets_).isSome then
        SocketManager.socket_id_loop fuel { mgr with nextSocket_ := mgr.nextSocket_ + 1 }
      else some (mgr.nextSocket_.toNat, { mgr with nextSocket_ := mgr.nextSocket_ + 1 }) := by
  have e1 : toSizeT mgr.nextSocket_ = mgr.nextSocket_.toNat :=
    toSizeT_of_pos (le_of_lt hpos) (by omega)
  have e2 : toInt32 (mgr.nextSocket_ + 1) = mgr.nextSocket_ + 1 :=
    toInt32_of_range (by omega) hlt
  have e3 : ¬ (mgr.nextSocket_ + 1 = 0) := by omega
  rw [SocketManager.socket_id_loop, e1, e2, if_neg e3]

/-- The function `socket_id` returns, while the counter is positive and below
`2 ^ 31 - 2` and above the keys of the connection table: the id is the counter
or the value after it, and the counter moves past the id. -/
theorem socket_id_spec (mgr : SocketManager) (hpos : 0 < mgr.nextSocket_)
    (hlt : mgr.nextSocket_ + 2 < 2 ^ 31)
    (hkeys : ∀ k v, (k, v) ∈ mgr.sockets_ → (k : Int) < mgr.nextSocket_) :
    ∃ (id : Nat) (next : Int), mgr.socket_id = some (id, { mgr with nextSocket_ := next }) ∧
      mgr.nextSocket_ ≤ (id : Int) ∧ (id : Int) < next ∧ next ≤ mgr.nextSocket_ + 2 := by
  have nofind : ∀ k : Nat, mgr.nextSocket_ ≤ (k : Int) → (mapFind k mgr.sockets_).isSome = false := by
    intro k hk
    cases hf : mapFind k mgr.sockets_ with
    | none => rfl
    | some v =>
      have := hkeys k v (mapFind_mem k v _ hf)
      omega
  have hn : ((mgr.nextSocket_.toNat : Nat) : Int) = mgr.nextSocket_ := Int.toNat_of_nonneg (le_of_lt hpos)
  unfold SocketManager.socket_id
  rw [socket_id_loop_step _ mgr hpos (by omega)]
  by_cases hl : mgr.nextSocket_.toNat = mgr.listening_
  · rw [if_pos (Or.inl hl)]
    rw [socket_id_loop_step _ _ (by show 0 < mgr.nextSocket_ + 1; omega)
      (by show mgr.nextSocket_ + 1 + 1 < 2 ^ 31; omega)]
    have hn1 : (((mgr.nextSocket_ + 1).toNat : Nat) : Int) = mgr.nextSocket_ + 1 :=
      Int.toNat_of_nonneg (by omega)
    have hne : ¬ ((mgr.nextSocket_ + 1).toNat = mgr.listening_ ∨
        (mapFind (mgr.nextSocket_ + 1).toNat mgr.sockets_).isSome = true) := by
      rintro (h | h)
      · rw [← hl] at h
        have := congrArg (fun x : Nat => (x : Int)) h
        simp only [hn, hn1] at this
        omega
      · rw [nofind _ (by rw [hn1]; omega)] at h
        cases h
    rw [if_neg hne]
    exact ⟨_, _, rfl, by rw [hn1]; omega, by rw [hn1]; show mgr.nextSocket_ + 1 < mgr.nextSocket_ + 1 + 1; omega,
      by show mgr.nextSocket_ + 1 + 1 ≤ _; omega⟩
  · have hne : ¬ (mgr.nextSocket_.toNat = mgr.listening_ ∨
        (mapFind mgr.nextSocket_.toNat mgr.sockets_).isSome = true) := by
      rintro (h | h)
      · exact hl h
      · rw [nofind _ (by rw [hn])] at h
        cases h
    rw [if_neg hne]
    exact ⟨_, _, rfl, by rw [hn], by rw [hn]; omega, by omega⟩

/-- Under the invariant the keys of the connection table of an unreliable
manager are below the counter of ids. -/
theorem table_keys_below (w : World) (hinv : w.Inv) (hr : w.mgr.settings_.reliable = false) :
    ∀ k v, (k, v) ∈ w.mgr.sockets_ → (k : Int) < w.mgr.nextSocket_ := by
  intro k v hm
  obtain ⟨so, h1, h2, h3, _⟩ := hinv.table k v hm
  rw [← h2]
  exact (hinv.counter hr).2 v so h1 h3

/-- The constructor of `Socket` returns: the object is open and not accepted,
it has the address given; for a reliable manager it has the handle given and
the manager is unchanged, for an unreliable one it has an id at or above the
counter, and the counter moves past it. -/
theorem socket_new_spec (mgr : SocketManager) (s : Nat) (addr : sockaddr_in)
    (h : mgr.settings_.reliable = false →
      0 < mgr.nextSocket_ ∧ mgr.nextSocket_ + 2 < 2 ^ 31 ∧
      ∀ k v, (k, v) ∈ mgr.sockets_ → (k : Int) < mgr.nextSocket_) :
    ∃ (obj : Socket) (next : Int),
      Socket.new mgr s addr = some (obj, { mgr with nextSocket_ := next }) ∧
      obj.closed_ = false ∧ obj.accepted_ = false ∧ obj.addr_ = addr ∧
      (mgr.settings_.reliable = true → obj.s_ = s ∧ next = mgr.nextSocket_) ∧
      (mgr.settings_.reliable = false →
        mgr.nextSocket_ ≤ (obj.s_ : Int) ∧ (obj.s_ : Int) < next ∧ next ≤ mgr.nextSocket_ + 2) := by
  unfold Socket.new
  simp only []
  by_cases hr : mgr.settings_.reliable = false
  · obtain ⟨h1, h2, h3⟩ := h hr
    obtain ⟨id, next, e, b1, b2, b3⟩ := socket_id_spec mgr h1 h2 h3
    rw [if_pos hr, e]
    refine ⟨_, next, rfl, rfl, rfl, rfl, ?_, fun _ => ⟨b1, b2, b3⟩⟩
    intro hx
    rw [hr] at hx
    cases hx
  · rw [if_neg hr]
    refine ⟨_, mgr.nextSocket_, rfl, rfl, rfl, rfl, fun _ => ⟨rfl, rfl⟩, fun hx => absurd hx hr⟩

/-- A handle that the operating system hands out, or an id at or above the
counter, is not the key of an open socket, nor a key of the connection table. -/
theorem key_is_fresh (w : World) (hinv : w.Inv) (k : Nat)
    (h1 : w.mgr.settings_.reliable = true → w.FreshHandle k)
    (h2 : w.mgr.settings_.reliable = false → w.mgr.nextSocket_ ≤ (k : Int)) :
    (∀ q sq, w.heap q = some sq → sq.closed_ = false → sq.s_ ≠ k) ∧
    mapFind k w.mgr.sockets_ = none := by
  have key : ∀ q sq, w.heap q = some sq → sq.closed_ = false → sq.s_ ≠ k := by
    intro q sq hq hc
    cases hr : w.mgr.settings_.reliable with
    | true => exact h1 hr q sq hq hc
    | false =>
      have a := (hinv.counter hr).2 q sq hq hc
      have b := h2 hr
      intro hx
      rw [hx] at a
      omega
  refine ⟨key, ?_⟩
  apply mapFind_none_of_no_entry
  intro v hv
  obtain ⟨sv, g1, g2, g3, _⟩ := hinv.table k v hv
  exact key v sv g1 g3 g2

/-- The function `debug_sock_error` keeps the invariant. -/
theorem inv_debug_sock_error (w : World) (hinv : w.Inv) (sock : Option Nat) (err : Int)
    (error : EtworkError) : (w.debug_sock_error sock err error).Inv :=
  inv_congr w _ hinv rfl rfl rfl rfl rfl rfl (fun _ => rfl)

/-- The function `connect` keeps the invariant. -/
theorem inv_connect (junk : Nat → Nat) (w : World) (hinv : w.Inv) (os : OsConnect)
    (port pn : Nat) (r : World × Int × Option Nat) (hfresh : w.heap pn = none)
    (hrel : w.mgr.settings_.reliable = true → w.FreshHandle os.socket)
    (hun : w.mgr.settings_.reliable = false → w.mgr.nextSocket_ + 2 < 2 ^ 31 ∧
      ∀ host, os.host = some host →
        mapFind ({ sin_family := AF_INET, sin_addr := host, sin_port := htons port } : sockaddr_in)
          w.mgr.socketAddrs_ = none)
    (h : w.connect junk os port pn = some r) : r.1.Inv := by
  unfold World.connect at h
  cases hh : os.host with
  | none =>
    rw [hh] at h
    simp only [Option.some.injEq] at h
    rw [← h]
    exact inv_debug_sock_error w hinv _ _ _
  | some host =>
    rw [hh] at h
    simp only [] at h
    by_cases c1 : w.mgr.settings_.reliable = true ∧ os.socket = INVALID_SOCKET
    · rw [if_pos c1] at h
      simp only [Option.some.injEq] at h
      rw [← h]
      exact inv_debug_sock_error w hinv _ _ _
    · rw [if_neg c1] at h
      by_cases c2 : w.mgr.settings_.reliable = true ∧ os.connect < 0
      · rw [if_pos c2] at h
        simp only [Option.some.injEq] at h
        rw [← h]
        exact inv_debug_sock_error w hinv _ _ _
      · rw [if_neg c2] at h
        obtain ⟨w1, e1, hheap1, hmgr1, hok1⟩ : ∃ w1 : World,
            w1 = (if w.mgr.settings_.reliable = true ∧ os.nodelay < 0 then
                w.debug_sock_error none os.lastError os.error else w) ∧
            w1.heap = w.heap ∧ w1.mgr = w.mgr ∧ w1.asserts = w.asserts := by
          refine ⟨_, rfl, ?_⟩
          split_ifs <;> exact ⟨rfl, rfl, rfl⟩
        rw [← e1] at h
        rw [hmgr1] at h
        obtain ⟨obj, next, en, o1, o2, o3, o4, o5⟩ := socket_new_spec w.mgr
          (if w.mgr.settings_.reliable = true then os.socket else w.mgr.listening_)
          { sin_family := AF_INET, sin_addr := host, sin_port := htons port }
          (fun hr => ⟨(hinv.counter hr).1, (hun hr).1, table_keys_below w hinv hr⟩)
        rw [en] at h
        simp only [] at h
        have hk := key_is_fresh w hinv obj.s_
          (fun hr => by
            rw [(o4 hr).1, if_pos hr]
            exact hrel hr)
          (fun hr => (o5 hr).1)
        have hTiff := fun k q => mem_mapSet_of_none natLt obj.s_ pn k q w.mgr.sockets_ hk.2
        have hni := not_indexed_of_fresh w hinv pn hfresh
        cases hr : w.mgr.settings_.reliable with
        | false =>
          rw [hr] at h
          simp only [if_true, Option.some.injEq] at h
          rw [← h]
          have hfa := (hun hr).2 host hh
          have hAiff := fun a q => mem_mapSet_of_none addrLt
            ({ sin_family := AF_INET, sin_addr := host, sin_port := htons port } : sockaddr_in)
            pn a q w.mgr.socketAddrs_ hfa
          refine inv_add w hinv pn (Socket.write junk { obj with accepted_ := true } []).2 _ hfresh
            o1 hk.1 (fun q => by
              show (if q = pn then _ else w1.heap q) = _
              rw [hheap1]) ?_ ?_ ?_ ?_ ?_ hinv.queue_nodup rfl ?_ hok1
          · intro k q
            show (k, q) ∈ mapSet natLt obj.s_ pn w.mgr.sockets_ ↔ _
            rw [hTiff]
            constructor
            · rintro (e | e)
              · exact Or.inr ⟨rfl, e⟩
              · exact Or.inl e
            · rintro (e | ⟨_, e⟩)
              · exact Or.inr e
              · exact Or.inl e
          · intro q
            show q ∈ w.mgr.accepted_ ↔ _
            constructor
            · exact fun e => Or.inl e
            · rintro (e | ⟨e, _⟩)
              · exact e
              · cases e
          · intro a q
            show (a, q) ∈ mapSet addrLt _ pn w.mgr.socketAddrs_ ↔ _
            rw [hAiff]
            constructor
            · rintro (e | e)
              · exact Or.inr ⟨hr, by rw [e]; exact congrArg (fun x => (x, pn)) o3.symm⟩
              · exact Or.inl e
            · rintro (e | ⟨_, e⟩)
              · exact Or.inr e
              · left
                rw [e]
                exact congrArg (fun x => (x, pn)) o3
          · show ((mapSet natLt obj.s_ pn w.mgr.sockets_).map Prod.fst).Nodup
            exact mapSet_keys_nodup _ _ _ _ hk.2 hinv.table_keys
          · show ((mapSet addrLt _ pn w.mgr.socketAddrs_).map Prod.fst).Nodup
            exact mapSet_keys_nodup _ _ _ _ hfa hinv.addr_keys
          · intro _
            exact ⟨by show w.mgr.nextSocket_ ≤ next; have := o5 hr; omega, (o5 hr).2.1⟩
        | true =>
          rw [hr] at h
          simp only [Bool.true_eq_false, if_false, Option.some.injEq] at h
          rw [← h]
          refine inv_add w hinv pn { obj with accepted_ := true } _ hfresh
            o1 hk.1 (fun q => by
              show (if q = pn then _ else w1.heap q) = _
              rw [hheap1]) ?_ ?_ ?_ ?_ hinv.addr_keys hinv.queue_nodup rfl ?_ hok1
          · intro k q
            show (k, q) ∈ mapSet natLt obj.s_ pn w.mgr.sockets_ ↔ _
            rw [hTiff]
            constructor
            · rintro (e | e)
              · exact Or.inr ⟨rfl, e⟩
              · exact Or.inl e
            · rintro (e | ⟨_, e⟩)
              · exact Or.inr e
              · exact Or.inl e
          · intro q
            show q ∈ w.mgr.accepted_ ↔ _
            constructor
            · exact fun e => Or.inl e
            · rintro (e | ⟨e, _⟩)
              · exact e
              · cases e
          · intro a q
            show (a, q) ∈ w.mgr.socketAddrs_ ↔ _
            constructor
            · exact fun e => Or.inl e
            · rintro (e | ⟨e, _⟩)
              · exact e
              · rw [hr] at e
                cases e
          · show ((mapSet natLt obj.s_ pn w.mgr.sockets_).map Prod.fst).Nodup
            exact mapSet_keys_nodup _ _ _ _ hk.2 hinv.table_keys
          · intro e
            rw [hr] at e
            cases e

/-- A change of the sets `active_` and `notify_`, of the time and of the
globals keeps the invariant. -/
theorem inv_bookkeeping (w w1 : World) (hinv : w.Inv)
    (hT : w1.mgr.sockets_ = w.mgr.sockets_) (hA : w1.mgr.socketAddrs_ = w.mgr.socketAddrs_)
    (hQ : w1.mgr.accepted_ = w.mgr.accepted_) (hS : w1.mgr.settings_ = w.mgr.settings_)
    (hN : w1.mgr.nextSocket_ = w.mgr.nextSocket_) (hok : w1.asserts = w.asserts)
    (hH : w1.heap = w.heap) : w1.Inv :=
  inv_congr w w1 hinv hT hA hQ (congrArg EtworkSettings.reliable hS) hN hok
    (fun p => by rw [hH])

/-- The loop of `timeout_sockets` keeps the invariant. -/
theorem inv_timeoutLoop (junk : Nat → Nat) : ∀ (es : List (Nat × Nat)) (w w1 : World),
    w.Inv → World.timeoutLoop junk es w = some w1 → w1.Inv := by
  intro es
  induction es with
  | nil =>
    intro w w1 hinv h
    simp only [World.timeoutLoop, Option.some.injEq] at h
    rw [← h]
    exact hinv
  | cons e rest ih =>
    intro w w1 hinv h
    rw [World.timeoutLoop] at h
    cases hcl : w.heap e.2 with
    | none =>
      rw [hcl] at h
      cases h
    | some cl =>
      rw [hcl] at h
      simp only [] at h
      by_cases c1 : w.mgr.settings_.timeout > 0 ∧
          cl.lastActive_ + w.mgr.settings_.timeout < w.mgr.curTime_
      · rw [if_pos c1] at h
        refine ih _ w1 ?_ h
        have hw1 : ({ w with
            globals :=
              etwork_error_from w.globals (some e.2) (some w.mgr.settings_.notify)
                (EtworkError.new ES_note EA_session EO_peer_timeout) } : World).Inv :=
          inv_bookkeeping w _ hinv rfl rfl rfl rfl rfl rfl rfl
        have hw2 := inv_close_socket _ hw1 e.2 cl hcl
        split_ifs
        · exact inv_bookkeeping _ _ hw2 rfl rfl rfl rfl rfl rfl rfl
        · exact inv_bookkeeping _ _ hw2 rfl rfl rfl rfl rfl rfl rfl
        · exact hw2
      · rw [if_neg c1] at h
        by_cases c2 : w.mgr.settings_.keepalive > 0 ∧
            cl.lastKeepalive_ + w.mgr.settings_.keepalive < w.mgr.curTime_
        · rw [if_pos c2] at h
          exact ih _ w1 (inv_store_same w hinv e.2 cl (Socket.write junk cl []).2 hcl rfl) h
        · rw [if_neg c2] at h
          exact ih _ w1 hinv h

/-- The start of `poll` keeps the invariant. -/
theorem inv_poll_enter (junk : Nat → Nat) (w : World) (hinv : w.Inv) (now : ℚ) (w1 : World)
    (h : w.poll_enter junk now = some w1) : w1.Inv := by
  unfold World.poll_enter World.timeout_sockets at h
  exact inv_timeoutLoop junk _ { w with mgr := { w.mgr with active_ := [], curTime_ := now } } w1
    (inv_bookkeeping w _ hinv rfl rfl rfl rfl rfl rfl rfl) h

/-- The function `do_read` keeps the invariant. -/
theorem inv_do_read (junk : Nat → Nat) (w : World) (hinv : w.Inv) (p : Nat) (so : Socket)
    (os : OsRecv) (r : World × Bool) (hp : w.heap p = some so)
    (h : w.do_read junk p so os = some r) : r.1.Inv := by
  unfold World.do_read at h
  cases os with
  | error err error =>
    simp only [] at h
    have hw1 := inv_debug_sock_error w hinv (some p) err error
    by_cases c : err = WSAEWOULDBLOCK
    · rw [if_pos c] at h
      simp only [Option.some.injEq] at h
      rw [← h]
      exact hw1
    · rw [if_neg c] at h
      simp only [Option.some.injEq] at h
      rw [← h]
      exact inv_close_socket _ hw1 p so hp
  | bytes data =>
    simp only [] at h
    by_cases c : data.length = 0
    · rw [if_pos c] at h
      simp only [Option.some.injEq] at h
      rw [← h]
      exact inv_close_socket _ hinv p so hp
    · rw [if_neg c] at h
      cases hd : put_data junk so.bufIn_ data with
      | none =>
        rw [hd] at h
        cases h
      | some d =>
        rw [hd] at h
        simp only [] at h
        have hs := inv_store_same w hinv p so
          { so with lastActive_ := w.mgr.curTime_, bufIn_ := d.2.1 } hp rfl
        by_cases c2 : d.1 < 0
        · rw [if_pos c2] at h
          simp only [Option.some.injEq] at h
          rw [← h]
          exact inv_bookkeeping _ _ hs rfl rfl rfl rfl rfl rfl rfl
        · rw [if_neg c2] at h
          simp only [Option.some.injEq] at h
          rw [← h]
          exact hs

/-- The function `do_except` keeps the invariant. -/
theorem inv_do_except (w : World) (hinv : w.Inv) (p : Nat) (so : Socket) (err : Int)
    (error : EtworkError) (hp : w.heap p = some so) : (w.do_except p so err error).1.Inv := by
  unfold World.do_except
  simp only []
  have hw1 := inv_debug_sock_error w hinv (some p) err error
  by_cases c : err = 0
  · rw [if_pos c]
    exact hw1
  · rw [if_neg c]
    exact inv_close_socket _ hw1 p so hp

/-- The object at `p` after `store`. -/
theorem store_heap_self (w : World) (p : Nat) (o : Option Socket) : (w.store p o).heap p = o := by
  unfold World.store
  simp only [if_true]

/-- The function `do_write` keeps the invariant. -/
theorem inv_do_write (w : World) (hinv : w.Inv) (p : Nat) (so : Socket) (os : OsSend)
    (r : World × Bool) (hp : w.heap p = some so) (h : w.do_write p so os = some r) :
    r.1.Inv := by
  unfold World.do_write at h
  generalize (if so.writebufData_ = 0 then get_data so.bufOut_ w.mgr.settings_.queueSize
    else some ((toInt32 so.writebufData_ : Int), [], so.bufOut_)) = gd at h
  cases gd with
  | none => cases h
  | some g =>
    simp only [] at h
    by_cases c1 : g.1 < 0
    · rw [if_pos c1] at h
      simp only [Option.some.injEq] at h
      rw [← h]
      exact inv_store_same w hinv p so _ hp rfl
    · rw [if_neg c1] at h
      by_cases c2 : g.1 = 0
      · rw [if_pos c2] at h
        simp only [Option.some.injEq] at h
        rw [← h]
        exact inv_store_same w hinv p so _ hp rfl
      · rw [if_neg c2] at h
        have hs := inv_store_same w hinv p so
          { so with bufOut_ := g.2.2, writebufData_ := g.1.toNat } hp rfl
        cases os with
        | error err error =>
          simp only [] at h
          have hw1 := inv_debug_sock_error _ hs (some p) err error
          have hp1 : ((w.store p (some { so with bufOut_ := g.2.2, writebufData_ := g.1.toNat })
              ).debug_sock_error (some p) err error).heap p =
              some { so with bufOut_ := g.2.2, writebufData_ := g.1.toNat } :=
            store_heap_self w p _
          by_cases c3 : err = WSAEWOULDBLOCK
          · rw [if_pos c3] at h
            simp only [Option.some.injEq] at h
            rw [← h]
            exact inv_store_same _ hw1 p _ _ hp1 rfl
          · rw [if_neg c3] at h
            simp only [Option.some.injEq] at h
            rw [← h]
            exact inv_close_socket _ hw1 p _ hp1
        | sent n =>
          simp only [Option.some.injEq] at h
          rw [← h]
          exact inv_store_same w hinv p so _ hp rfl

/-- The function `handle_listening_read` of a reliable manager keeps the
invariant. -/
theorem inv_listening_read_reliable (junk : Nat → Nat) (w : World) (hinv : w.Inv) (os : OsListen)
    (r : World × Bool) (hr : w.mgr.settings_.reliable = true)
    (hfresh : w.heap os.obj = none) (hhandle : w.FreshHandle os.accept)
    (h : w.handle_listening_read junk os = some r) : r.1.Inv := by
  unfold World.handle_listening_read at h
  rw [if_pos hr] at h
  by_cases c1 : os.accept = INVALID_SOCKET
  · rw [if_pos c1] at h
    simp only [Option.some.injEq] at h
    rw [← h]
    exact inv_debug_sock_error w hinv _ _ _
  · rw [if_neg c1] at h
    obtain ⟨obj, next, en, o1, o2, o3, o4, o5⟩ := socket_new_spec w.mgr os.accept os.addr
      (fun hx => by rw [hr] at hx; cases hx)
    rw [en] at h
    simp only [Option.some.injEq] at h
    rw [← h]
    have hk := key_is_fresh w hinv obj.s_
      (fun _ => by
        rw [(o4 hr).1]
        exact hhandle)
      (fun hx => by rw [hr] at hx; cases hx)
    refine inv_add w hinv os.obj obj _ hfresh o1 hk.1 (fun q => rfl) ?_ ?_ ?_ hinv.table_keys
      hinv.addr_keys ?_ rfl ?_ rfl
    · intro k q
      show (k, q) ∈ w.mgr.sockets_ ↔ _
      constructor
      · exact fun e => Or.inl e
      · rintro (e | ⟨e, _⟩)
        · exact e
        · rw [o2] at e
          cases e
    · intro q
      show q ∈ w.mgr.accepted_ ++ [os.obj] ↔ _
      rw [List.mem_append, List.mem_singleton]
      constructor
      · rintro (e | e)
        · exact Or.inl e
        · exact Or.inr ⟨o2, e⟩
      · rintro (e | ⟨_, e⟩)
        · exact Or.inl e
        · exact Or.inr e
    · intro a q
      show (a, q) ∈ w.mgr.socketAddrs_ ↔ _
      constructor
      · exact fun e => Or.inl e
      · rintro (e | ⟨e, _⟩)
        · exact e
        · rw [hr] at e
          cases e
    · show (w.mgr.accepted_ ++ [os.obj]).Nodup
      rw [List.nodup_append]
      refine ⟨hinv.queue_nodup, List.nodup_singleton _, ?_⟩
      intro a ha hb
      rw [List.mem_singleton] at hb
      rw [hb] at ha
      exact (not_indexed_of_fresh w hinv os.obj hfresh).2.2 ha
    · intro hx
      rw [hr] at hx
      cases hx

/-- The loop of `handle_listening_read` for an unreliable manager keeps the
invariant, when `new` returns addresses without an object, one for each
datagram, and the counter of ids has room. -/
theorem inv_recvLoop (junk : Nat → Nat) (os : OsListen) : ∀ (ds : List Datagram) (w w1 : World),
    w.Inv → w.mgr.settings_.reliable = false → (∀ d ∈ ds, w.heap d.obj = none) →
    (ds.map Datagram.obj).Nodup → w.mgr.nextSocket_ + 2 * ds.length < 2 ^ 31 →
    World.recvLoop junk os ds w = some w1 → w1.Inv := by
  intro ds
  induction ds with
  | nil =>
    intro w w1 hinv _ _ _ _ h
    simp only [World.recvLoop, Option.some.injEq] at h
    rw [← h]
    exact hinv
  | cons d ds ih =>
    intro w w1 hinv hr hfresh hnd hroom h
    rw [World.recvLoop] at h
    have hd : w.heap d.obj = none := hfresh d (List.mem_cons_self _ _)
    have hds : ∀ d1 ∈ ds, w.heap d1.obj = none := fun d1 hm => hfresh d1 (List.mem_cons_of_mem _ hm)
    rw [List.map_cons, List.nodup_cons] at hnd
    obtain ⟨hdn, hnd1⟩ := hnd
    rw [List.length_cons] at hroom
    cases hf : mapFind d.addr w.mgr.socketAddrs_ with
    | none =>
      rw [hf] at h
      simp only [] at h
      by_cases ca : w.mgr.settings_.accepting = true
      · rw [if_pos ca] at h
        obtain ⟨obj, next, en, o1, o2, o3, o4, o5⟩ := socket_new_spec w.mgr 0 d.addr
          (fun hx => ⟨(hinv.counter hx).1, by omega, table_keys_below w hinv hx⟩)
        rw [en] at h
        simp only [] at h
        have hk := key_is_fresh w hinv obj.s_
          (fun hx => by rw [hr] at hx; cases hx) (fun hx => (o5 hx).1)
        have hAiff := fun a q => mem_mapSet_of_none addrLt d.addr d.obj a q w.mgr.socketAddrs_ hf
        have hni := not_indexed_of_fresh w hinv d.obj hd
        have hw1 : ({ w with
            mgr := { ({ w.mgr with nextSocket_ := next } : SocketManager) with
                     accepted_ := w.mgr.accepted_ ++ [d.obj]
                     socketAddrs_ := mapSet addrLt d.addr d.obj w.mgr.socketAddrs_ }
            heap := fun q => if q = d.obj then some obj else w.heap q } : World).Inv := by
          refine inv_add w hinv d.obj obj _ hd o1 hk.1 (fun q => rfl) ?_ ?_ ?_ hinv.table_keys
            ?_ ?_ rfl ?_ rfl
          · intro k q
            show (k, q) ∈ w.mgr.sockets_ ↔ _
            constructor
            · exact fun e => Or.inl e
            · rintro (e | ⟨e, _⟩)
              · exact e
              · rw [o2] at e
                cases e
          · intro q
            show q ∈ w.mgr.accepted_ ++ [d.obj] ↔ _
            rw [List.mem_append, List.mem_singleton]
            constructor
            · rintro (e | e)
              · exact Or.inl e
              · exact Or.inr ⟨o2, e⟩
            · rintro (e | ⟨_, e⟩)
              · exact Or.inl e
              · exact Or.inr e
          · intro a q
            show (a, q) ∈ mapSet addrLt d.addr d.obj w.mgr.socketAddrs_ ↔ _
            rw [hAiff, o3]
            constructor
            · rintro (e | e)
              · exact Or.inr ⟨hr, e⟩
              · exact Or.inl e
            · rintro (e | ⟨_, e⟩)
              · exact Or.inr e
              · exact Or.inl e
          · show ((mapSet addrLt d.addr d.obj w.mgr.socketAddrs_).map Prod.fst).Nodup
            exact mapSet_keys_nodup _ _ _ _ hf hinv.addr_keys
          · show (w.mgr.accepted_ ++ [d.obj]).Nodup
            rw [List.nodup_append]
            refine ⟨hinv.queue_nodup, List.nodup_singleton _, ?_⟩
            intro a ha hb
            rw [List.mem_singleton] at hb
            rw [hb] at ha
            exact hni.2.2 ha
          · intro _
            exact ⟨by show w.mgr.nextSocket_ ≤ next; have := o5 hr; omega, (o5 hr).2.1⟩
        refine ih _ w1 ?_ ?_ ?_ hnd1 ?_ h
        · split_ifs
          · exact inv_debug_sock_error _ hw1 _ _ _
          · exact hw1
        · split_ifs <;> exact hr
        · intro d1 hm
          have hne : d1.obj ≠ d.obj := by
            intro hx
            exact hdn (hx ▸ List.mem_map_of_mem Datagram.obj hm)
          split_ifs
          · show (if d1.obj = d.obj then some obj else w.heap d1.obj) = none
            rw [if_neg hne]
            exact hds d1 hm
          · show (if d1.obj = d.obj then some obj else w.heap d1.obj) = none
            rw [if_neg hne]
            exact hds d1 hm
        · have hb := (o5 hr).2.2
          split_ifs
          · show next + 2 * (ds.length : Int) < 2 ^ 31
            omega
          · show next + 2 * (ds.length : Int) < 2 ^ 31
            omega
      · rw [if_neg ca] at h
        exact ih w w1 hinv hr hds hnd1 (by omega) h
    | some s =>
      rw [hf] at h
      simp only [] at h
      cases hs : w.heap s with
      | none =>
        rw [hs] at h
        cases h
      | some so =>
        rw [hs] at h
        simp only [] at h
        obtain ⟨mgr1, em, m1, m2, m3, m4, m5⟩ : ∃ mgr1 : SocketManager,
            mgr1 = (if so.accepted_ = true then
                if so.notify_.isSome = true then
                  { w.mgr with notify_ := setInsert s w.mgr.notify_ }
                else { w.mgr with active_ := setInsert s w.mgr.active_ }
              else w.mgr) ∧
            mgr1.sockets_ = w.mgr.sockets_ ∧ mgr1.socketAddrs_ = w.mgr.socketAddrs_ ∧
            mgr1.accepted_ = w.mgr.accepted_ ∧ mgr1.settings_ = w.mgr.settings_ ∧
            mgr1.nextSocket_ = w.mgr.nextSocket_ := by
          refine ⟨_, rfl, ?_⟩
          split_ifs <;> exact ⟨rfl, rfl, rfl, rfl, rfl⟩
        obtain ⟨so1, es, s1⟩ : ∃ so1 : Socket,
            so1 = (if so.accepted_ = true then { so with lastActive_ := w.mgr.curTime_ } else so) ∧
            so1.ident = so.ident := by
          refine ⟨_, rfl, ?_⟩
          split_ifs <;> rfl
        rw [← em, ← es] at h
        refine ih _ w1 ?_ ?_ ?_ hnd1 ?_ h
        · refine inv_congr w _ hinv m1 m2 m3 (congrArg EtworkSettings.reliable m4) m5 rfl ?_
          intro q
          show Option.map Socket.ident (if q = s then some { so1 with bufIn_ := _ } else w.heap q) = _
          by_cases hq : q = s
          · rw [if_pos hq, hq, hs]
            show some (Socket.ident { so1 with bufIn_ := _ }) = some so.ident
            rw [← s1]
            rfl
          · rw [if_neg hq]
        · show mgr1.settings_.reliable = false
          rw [m4]
          exact hr
        · intro d1 hm
          have hne : d1.obj ≠ s := by
            intro hx
            have := hds d1 hm
            rw [hx, hs] at this
            cases this
          show (if d1.obj = s then _ else w.heap d1.obj) = none
          rw [if_neg hne]
          exact hds d1 hm
        · show mgr1.nextSocket_ + 2 * (ds.length : Int) < 2 ^ 31
          rw [m5]
          omega

/-- The function `handle_listening_read` keeps the invariant. -/
theorem inv_listening_read (junk : Nat → Nat) (w : World) (hinv : w.Inv) (os : OsListen)
    (r : World × Bool)
    (hrel : w.mgr.settings_.reliable = true → w.heap os.obj = none ∧ w.FreshHandle os.accept)
    (hun : w.mgr.settings_.reliable = false →
      (∀ d ∈ os.datagrams, w.heap d.obj = none) ∧ (os.datagrams.map Datagram.obj).Nodup ∧
      w.mgr.nextSocket_ + 2 * os.datagrams.length < 2 ^ 31)
    (h : w.handle_listening_read junk os = some r) : r.1.Inv := by
  cases hr : w.mgr.settings_.reliable with
  | true => exact inv_listening_read_reliable junk w hinv os r hr (hrel hr).1 (hrel hr).2 h
  | false =>
    unfold World.handle_listening_read at h
    rw [hr] at h
    simp only [Bool.false_eq_true, if_false] at h
    cases hl : World.recvLoop junk os os.datagrams w with
    | none =>
      rw [hl] at h
      cases h
    | some w1 =>
      rw [hl] at h
      simp only [Option.some.injEq] at h
      rw [← h]
      have hw1 := inv_recvLoop junk os _ w w1 hinv hr (hun hr).1 (hun hr).2.1 (hun hr).2.2 hl
      show (if os.lastError = WSAEWOULDBLOCK then w1 else _).Inv
      split_ifs
      · exact hw1
      · exact inv_debug_sock_error _ hw1 _ _ _

/-- A world in which no connection has been made satisfies the invariant. -/
theorem inv_initial (w : World) (h : w.Initial) : w.Inv := by
  obtain ⟨h1, h2, h3, h4, h5, h6⟩ := h
  refine ⟨by rw [h2]; exact List.nodup_nil, by rw [h3]; exact List.nodup_nil,
    by rw [h4]; exact List.nodup_nil, ?_, ?_, ?_, ?_, ?_, ?_, h6⟩
  · intro k p hm
    rw [h2] at hm
    cases hm
  · intro p hm
    rw [h4] at hm
    cases hm
  · intro a p hm
    rw [h3] at hm
    cases hm
  · intro p so hp
    rw [h1 p] at hp
    cases hp
  · intro p q sp sq hp
    rw [h1 p] at hp
    cases hp
  · intro _
    refine ⟨by rw [h5]; decide, ?_⟩
    intro p so hp
    rw [h1 p] at hp
    cases hp

/-- A socket found in the connection table has an object, under the
invariant. -/
theorem table_find_live (w : World) (hinv : w.Inv) (k p : Nat)
    (h : mapFind k w.mgr.sockets_ = some p) :
    ∃ so, w.heap p = some so ∧ so.closed_ = false ∧ so.accepted_ = true := by
  obtain ⟨so, h1, _, h3, h4⟩ := hinv.table k p (mapFind_mem k p _ h)
  exact ⟨so, h1, h3, h4⟩

/-- Every call keeps the invariant. -/
theorem inv_step (junk : Nat → Nat) (w w1 : World) (hinv : w.Inv) (hs : Step junk w w1) :
    w1.Inv := by
  cases hs with
  | accept os maxAccepted r h => exact inv_accept w hinv os maxAccepted r h
  | connect os port so r h1 h2 h3 h => exact inv_connect junk w hinv os port so r h1 h2 h3 h
  | listening_read os r h1 h2 h => exact inv_listening_read junk w hinv os r h1 h2 h
  | poll_enter now w2 hpe => exact inv_poll_enter junk w hinv now _ hpe
  | do_read k p so os r _ hp h => exact inv_do_read junk w hinv p so os r hp h
  | do_write k p so os r _ hp h => exact inv_do_write w hinv p so os r hp h
  | do_except k p so err error _ hp => exact inv_do_except w hinv p so err error hp
  | read p so maxSize hp _ => exact inv_store_same w hinv p so _ hp rfl
  | write p so buffer hp _ => exact inv_store_same w hinv p so _ hp rfl
  | set_notify p so notify hp _ => exact inv_store_same w hinv p so _ hp rfl
  | dispose p so hp _ => exact inv_dispose w hinv p so hp

/-- The invariant holds in every world that a sequence of calls leads to. -/
theorem inv_reach (junk : Nat → Nat) (w0 w : World) (h0 : w0.Initial) (hr : Reach junk w0 w) :
    w.Inv := by
  induction hr with
  | start => exact inv_initial w0 h0
  | next w w1 _ hs ih => exact inv_step junk w w1 ih hs

/-- The function `close_socket` deletes no object. -/
theorem close_socket_keeps_objects (w : World) (p : Nat) (so : Socket) (q : Nat)
    (h : (w.heap q).isSome = true) : ((w.close_socket p so).heap q).isSome = true := by
  unfold World.close_socket
  by_cases hc : so.closed_ = false
  · rw [if_pos hc]
    show (if q = p then some _ else w.heap q).isSome = true
    by_cases hq : q = p
    · rw [if_pos hq]
      rfl
    · rw [if_neg hq]
      exact h
  · rw [if_neg hc]
    exact h

/-- The loop of `timeout_sockets` returns when the sockets that it visits
have objects. -/
theorem timeoutLoop_returns (junk : Nat → Nat) : ∀ (es : List (Nat × Nat)) (w : World),
    (∀ e ∈ es, (w.heap e.2).isSome = true) → ∃ w1, World.timeoutLoop junk es w = some w1 := by
  intro es
  induction es with
  | nil =>
    intro w _
    exact ⟨w, rfl⟩
  | cons e rest ih =>
    intro w hl
    have he := hl e (List.mem_cons_self _ _)
    have hrest : ∀ e1 ∈ rest, (w.heap e1.2).isSome = true :=
      fun e1 hm => hl e1 (List.mem_cons_of_mem _ hm)
    rw [World.timeoutLoop]
    cases hcl : w.heap e.2 with
    | none =>
      rw [hcl] at he
      cases he
    | some cl =>
      simp only []
      by_cases c1 : w.mgr.settings_.timeout > 0 ∧
          cl.lastActive_ + w.mgr.settings_.timeout < w.mgr.curTime_
      · rw [if_pos c1]
        apply ih
        intro e1 hm
        have := close_socket_keeps_objects
          { w with
            globals :=
              etwork_error_from w.globals (some e.2) (some w.mgr.settings_.notify)
                (EtworkError.new ES_note EA_session EO_peer_timeout) } e.2 cl e1.2 (hrest e1 hm)
        split_ifs <;> exact this
      · rw [if_neg c1]
        by_cases c2 : w.mgr.settings_.keepalive > 0 ∧
            cl.lastKeepalive_ + w.mgr.settings_.keepalive < w.mgr.curTime_
        · rw [if_pos c2]
          apply ih
          intro e1 hm
          show (if e1.2 = e.2 then some _ else w.heap e1.2).isSome = true
          by_cases hq : e1.2 = e.2
          · rw [if_pos hq]
            rfl
          · rw [if_neg hq]
            exact hrest e1 hm
        · rw [if_neg c2]
          exact ih w hrest

/-- Under the invariant the start of `poll` returns. -/
theorem poll_enter_returns (junk : Nat → Nat) (w : World) (hinv : w.Inv) (now : ℚ) :
    ∃ w1, w.poll_enter junk now = some w1 := by
  unfold World.poll_enter World.timeout_sockets
  apply timeoutLoop_returns
  intro e hm
  obtain ⟨so, h1, _⟩ := hinv.table e.1 e.2 hm
  show (w.heap e.2).isSome = true
  rw [h1]
  rfl

/-- The loop of `accept` returns under the invariant; the sockets that it
hands out are those given in `out` and sockets that are now in the
connection table. -/
theorem acceptLoop_returns : ∀ (n : Nat) (w : World) (out : List Nat), w.Inv →
    ∃ r, World.acceptLoop n w out = some r ∧ r.1.Inv ∧
      (∀ k q, (k, q) ∈ w.mgr.sockets_ → (k, q) ∈ r.1.mgr.sockets_) ∧
      ∀ p ∈ r.2, p ∈ out ∨ ∃ k, (k, p) ∈ r.1.mgr.sockets_ := by
  intro n
  induction n with
  | zero =>
    intro w out hinv
    exact ⟨(w, out), rfl, hinv, fun _ _ h => h, fun p hp => Or.inl hp⟩
  | succ n ih =>
    intro w out hinv
    rw [World.acceptLoop]
    cases hq : w.mgr.accepted_ with
    | nil => exact ⟨(w, out), rfl, hinv, fun _ _ h => h, fun p hp => Or.inl hp⟩
    | cons s rest =>
      simp only []
      obtain ⟨so, hs, hc, ha⟩ := hinv.queue s (by rw [hq]; exact List.mem_cons_self _ _)
      rw [hs]
      simp only []
      have hi := inv_promote w hinv s rest so { so with accepted_ := true } hq hs
        ({ w with
           mgr := { w.mgr with accepted_ := rest, sockets_ := mapSet natLt so.s_ s w.mgr.sockets_ }
           heap := fun q => if q = s then some { so with accepted_ := true } else w.heap q } : World)
        rfl rfl rfl rfl (fun _ => rfl) rfl rfl rfl rfl rfl rfl
      obtain ⟨r, e, ri, rt, ro⟩ := ih _ (out ++ [s]) hi
      have hfind := pending_key_fresh w hinv s so hs hc ha
      have hTiff := fun k q => mem_mapSet_of_none natLt so.s_ s k q w.mgr.sockets_ hfind
      refine ⟨r, e, ri, ?_, ?_⟩
      · intro k q hm
        exact rt k q ((hTiff k q).2 (Or.inr hm))
      · intro p hp
        rcases ro p hp with h | h
        · rcases List.mem_append.1 h with h | h
          · exact Or.inl h
          · rw [List.mem_singleton] at h
            rw [h]
            exact Or.inr ⟨so.s_, rt _ _ ((hTiff _ _).2 (Or.inl rfl))⟩
        · exact Or.inr h

/-- Under the invariant `accept` returns, and the connections that it hands
out are accepted and open. -/
theorem accept_returns (w : World) (hinv : w.Inv) (os : OsOpen) (maxAccepted : Int) :
    ∃ r, w.accept os maxAccepted = some r ∧
      ∀ p ∈ r.2, ∃ so, r.1.heap p = some so ∧ so.accepted_ = true ∧ so.closed_ = false := by
  obtain ⟨r1, e, ri, _, ro⟩ := acceptLoop_returns maxAccepted.toNat w [] hinv
  have hout : ∀ p ∈ r1.2, ∃ so, r1.1.heap p = some so ∧ so.accepted_ = true ∧
      so.closed_ = false := by
    intro p hp
    rcases ro p hp with h | ⟨k, h⟩
    · cases h
    · obtain ⟨so, h1, _, h3, h4⟩ := ri.table k p h
      exact ⟨so, h1, h4, h3⟩
  unfold World.accept
  rw [e]
  simp only []
  by_cases hne : r1.2 ≠ []
  · rw [if_pos hne]
    exact ⟨_, rfl, hout⟩
  · rw [if_neg hne]
    exact ⟨_, rfl, hout⟩

/-- Under the invariant `connect` returns, while the counter of ids has room;
a connection that it hands out is accepted and open. -/
theorem connect_returns (junk : Nat → Nat) (w : World) (hinv : w.Inv) (os : OsConnect)
    (port pn : Nat)
    (hun : w.mgr.settings_.reliable = false → w.mgr.nextSocket_ + 2 < 2 ^ 31) :
    ∃ r, w.connect junk os port pn = some r ∧
      ∀ p, r.2.2 = some p →
        ∃ so, r.1.heap p = some so ∧ so.accepted_ = true ∧ so.closed_ = false := by
  unfold World.connect
  cases hh : os.host with
  | none => exact ⟨_, rfl, fun p hp => by cases hp⟩
  | some host =>
    simp only []
    by_cases c1 : w.mgr.settings_.reliable = true ∧ os.socket = INVALID_SOCKET
    · rw [if_pos c1]
      exact ⟨_, rfl, fun p hp => by cases hp⟩
    · rw [if_neg c1]
      by_cases c2 : w.mgr.settings_.reliable = true ∧ os.connect < 0
      · rw [if_pos c2]
        exact ⟨_, rfl, fun p hp => by cases hp⟩
      · rw [if_neg c2]
        obtain ⟨w1, e1, hmgr1⟩ : ∃ w1 : World,
            w1 = (if w.mgr.settings_.reliable = true ∧ os.nodelay < 0 then
                w.debug_sock_error none os.lastError os.error else w) ∧
            w1.mgr = w.mgr := by
          refine ⟨_, rfl, ?_⟩
          split_ifs <;> rfl
        rw [← e1, hmgr1]
        obtain ⟨obj, next, en, o1, o2, o3, o4, o5⟩ := socket_new_spec w.mgr
          (if w.mgr.settings_.reliable = true then os.socket else w.mgr.listening_)
          { sin_family := AF_INET, sin_addr := host, sin_port := htons port }
          (fun hr => ⟨(hinv.counter hr).1, hun hr, table_keys_below w hinv hr⟩)
        rw [en]
        simp only []
        cases hr : w.mgr.settings_.reliable with
        | false =>
          simp only [if_true]
          refine ⟨_, rfl, ?_⟩
          intro p hp
          cases hp
          exact ⟨_, if_pos rfl, rfl, o1⟩
        | true =>
          simp only [Bool.true_eq_false, if_false]
          refine ⟨_, rfl, ?_⟩
          intro p hp
          cases hp
          exact ⟨_, if_pos rfl, rfl, o1⟩

/-- One round of the loop of `handle_listening_read` for an unreliable
manager returns, under the invariant: the loop goes on in a world in which
the only new object is at the address that `new` returned for the datagram. -/
theorem recv_one (junk : Nat → Nat) (os : OsListen) (d : Datagram) (w : World) (hinv : w.Inv)
    (hr : w.mgr.settings_.reliable = false) (hroom : w.mgr.nextSocket_ + 2 < 2 ^ 31) :
    ∃ w1 : World, (∀ ds, World.recvLoop junk os (d :: ds) w = World.recvLoop junk os ds w1) ∧
      w1.mgr.settings_.reliable = false ∧
      (∀ q, q ≠ d.obj → w.heap q = none → w1.heap q = none) ∧
      w1.mgr.nextSocket_ ≤ w.mgr.nextSocket_ + 2 := by
  cases hf : mapFind d.addr w.mgr.socketAddrs_ with
  | none =>
    by_cases ca : w.mgr.settings_.accepting = true
    · obtain ⟨obj, next, en, o1, o2, o3, o4, o5⟩ := socket_new_spec w.mgr 0 d.addr
        (fun hx => ⟨(hinv.counter hx).1, hroom, table_keys_below w hinv hx⟩)
      refine ⟨if d.sendto < 0 then
          World.debug_sock_error
            { w with
              mgr := { ({ w.mgr with nextSocket_ := next } : SocketManager) with
                       accepted_ := w.mgr.accepted_ ++ [d.obj]
                       socketAddrs_ := mapSet addrLt d.addr d.obj w.mgr.socketAddrs_ }
              heap := fun q => if q = d.obj then some obj else w.heap q }
            none os.lastError os.error
        else
          { w with
            mgr := { ({ w.mgr with nextSocket_ := next } : SocketManager) with
                     accepted_ := w.mgr.accepted_ ++ [d.obj]
                     socketAddrs_ := mapSet addrLt d.addr d.obj w.mgr.socketAddrs_ }
            heap := fun q => if q = d.obj then some obj else w.heap q }, fun ds => ?_, ?_, ?_, ?_⟩
      · rw [World.recvLoop, hf]
        simp only []
        rw [if_pos ca, en]
      · split_ifs <;> exact hr
      · intro q hq hn
        split_ifs
        · show (if q = d.obj then some obj else w.heap q) = none
          rw [if_neg hq]
          exact hn
        · show (if q = d.obj then some obj else w.heap q) = none
          rw [if_neg hq]
          exact hn
      · have hb := (o5 hr).2.2
        split_ifs
        · exact hb
        · exact hb
    · refine ⟨w, fun ds => ?_, hr, fun q _ hn => hn, by omega⟩
      rw [World.recvLoop, hf]
      simp only []
      rw [if_neg ca]
  | some s =>
    obtain ⟨so, hs, _⟩ := hinv.addrs d.addr s (mapFind_mem _ _ _ hf)
    obtain ⟨mgr1, em, m4, m5⟩ : ∃ mgr1 : SocketManager,
        mgr1 = (if so.accepted_ = true then
            if so.notify_.isSome = true then
              { w.mgr with notify_ := setInsert s w.mgr.notify_ }
            else { w.mgr with active_ := setInsert s w.mgr.active_ }
          else w.mgr) ∧
        mgr1.settings_ = w.mgr.settings_ ∧ mgr1.nextSocket_ = w.mgr.nextSocket_ := by
      refine ⟨_, rfl, ?_⟩
      split_ifs <;> exact ⟨rfl, rfl⟩
    obtain ⟨so1, es⟩ : ∃ so1 : Socket,
        so1 = (if so.accepted_ = true then { so with lastActive_ := w.mgr.curTime_ } else so) :=
      ⟨_, rfl⟩
    refine ⟨{ w with
              mgr := mgr1
              heap := fun q =>
                if q = s then some { so1 with bufIn_ := (put_message junk so1.bufIn_ d.bytes).2 }
                else w.heap q
              globals :=
                if (put_message junk so1.bufIn_ d.bytes).1 < 0 then
                  etwork_error_from w.globals (if so.accepted_ = true then some s else none)
                    (some w.mgr.settings_.notify)
                    (EtworkError.new ES_warning EA_session EO_buffer_full)
                else w.globals }, fun ds => ?_, ?_, ?_, ?_⟩
    · rw [World.recvLoop, hf]
      simp only []
      rw [hs]
      simp only []
      rw [← em, ← es]
    · show mgr1.settings_.reliable = false
      rw [m4]
      exact hr
    · intro q _ hn
      have hne : q ≠ s := by
        intro hx
        rw [hx, hs] at hn
        cases hn
      show (if q = s then _ else w.heap q) = none
      rw [if_neg hne]
      exact hn
    · show mgr1.nextSocket_ ≤ _
      rw [m5]
      omega

/-- The loop of `handle_listening_read` for an unreliable manager returns,
under the invariant, when `new` returns addresses without an object, one for
each datagram, and the counter of ids has room. -/
theorem recvLoop_returns (junk : Nat → Nat) (os : OsListen) : ∀ (ds : List Datagram) (w : World),
    w.Inv → w.mgr.settings_.reliable = false → (∀ d ∈ ds, w.heap d.obj = none) →
    (ds.map Datagram.obj).Nodup → w.mgr.nextSocket_ + 2 * ds.length < 2 ^ 31 →
    ∃ w1, World.recvLoop junk os ds w = some w1 := by
  intro ds
  induction ds with
  | nil =>
    intro w _ _ _ _ _
    exact ⟨w, rfl⟩
  | cons d ds ih =>
    intro w hinv hr hfresh hnd hroom
    rw [List.length_cons] at hroom
    obtain ⟨w1, e, r1, r2, r3⟩ := recv_one junk os d w hinv hr (by omega)
    have hi : w1.Inv := by
      refine inv_recvLoop junk os [d] w w1 hinv hr ?_ (List.nodup_singleton _) ?_ ?_
      · intro d1 hm
        rw [List.mem_singleton] at hm
        rw [hm]
        exact hfresh d (List.mem_cons_self _ _)
      · show w.mgr.nextSocket_ + 2 * ((1 : Nat) : Int) < 2 ^ 31
        omega
      · rw [e []]
        rfl
    rw [e ds]
    rw [List.map_cons, List.nodup_cons] at hnd
    refine ih w1 hi r1 ?_ hnd.2 (by omega)
    intro d1 hm
    have hne : d1.obj ≠ d.obj := by
      intro hx
      exact hnd.1 (hx ▸ List.mem_map_of_mem Datagram.obj hm)
    exact r2 d1.obj hne (hfresh d1 (List.mem_cons_of_mem _ hm))

/-- Under the invariant `handle_listening_read` returns, when `new` returns
addresses without an object and the counter of ids has room. -/
theorem listening_read_returns (junk : Nat → Nat) (w : World) (hinv : w.Inv) (os : OsListen)
    (hun : w.mgr.settings_.reliable = false →
      (∀ d ∈ os.datagrams, w.heap d.obj = none) ∧ (os.datagrams.map Datagram.obj).Nodup ∧
      w.mgr.nextSocket_ + 2 * os.datagrams.length < 2 ^ 31) :
    ∃ r, w.handle_listening_read junk os = some r := by
  unfold World.handle_listening_read
  cases hr : w.mgr.settings_.reliable with
  | true =>
    simp only [if_true]
    by_cases c1 : os.accept = INVALID_SOCKET
    · rw [if_pos c1]
      exact ⟨_, rfl⟩
    · rw [if_neg c1]
      obtain ⟨obj, next, en, _⟩ := socket_new_spec w.mgr os.accept os.addr
        (fun hx => by rw [hr] at hx; cases hx)
      rw [en]
      exact ⟨_, rfl⟩
  | false =>
    simp only [Bool.false_eq_true, if_false]
    obtain ⟨w1, e⟩ := recvLoop_returns junk os _ w hinv hr (hun hr).1 (hun hr).2.1 (hun hr).2.2
    rw [e]
    exact ⟨_, rfl⟩

/-- Claim C26, counterexample.  A reliable server takes a connection and
`accept` hands it out: it is in the connection table under its handle 200.
The peer closes: `do_read` closes the socket, and the connection is out of
the table although it has not been disposed (the object is still there,
closed).  An unreliable client connects twice to one address: the address
index holds the second connection only, and disposing the first connection
erases that entry, so that the second connection, open and accepted, is in no
address index any more. -/
theorem index_membership_counterexample :
    (serverCreated.manager.isSome, pendingRun.map Prod.snd, acceptedRun.map Prod.snd,
        acceptedWorld.mgr.sockets_, (acceptedWorld.heap 1).map Socket.closed)
      = (true, some true, some [1], [(200, 1)], some false) ∧
    (peerClosedRun.map Prod.snd, peerClosedWorld.mgr.sockets_,
        (peerClosedWorld.heap 1).map Socket.closed)
      = (some true, [], some true) ∧
    (clientCreated.manager.isSome, firstConnectRun.map Prod.snd, secondConnectRun.map Prod.snd)
      = ((true, some (1, some 1), some (1, some 2)) :
          Bool × Option (Int × Option Nat) × Option (Int × Option Nat)) ∧
    (twiceConnectedWorld.mgr.sockets_, twiceConnectedWorld.mgr.socketAddrs_,
        (twiceConnectedWorld.heap 1).map Socket.closed)
      = ([(1, 1), (2, 2)], [(peerAddr, 2)], some false) ∧
    (firstDisposedWorld.map fun w =>
        (w.mgr.sockets_, w.mgr.socketAddrs_, (w.heap 2).map Socket.closed))
      = (some ([(2, 2)], [], some false) :
          Option (List (Nat × Nat) × List (sockaddr_in × Nat) × Option Bool)) :=
  ⟨by decide, by decide, by decide, by decide, by decide⟩

/-- An option that is `some` is `some` of its value. -/
theorem eq_some_getD {α : Type} (o : Option α) (d : α) (h : o.isSome = true) :
    o = some (o.getD d) := by
  cases o with
  | none => cases h
  | some v => rfl

/-- Claim C26, amended.  In every world that calls on a manager and its
connections lead to from a fresh manager: a connection that has been accepted
or connected and is neither closed nor disposed is found in the connection
table under its key and, for an unreliable manager, in the address index
under its address; a connection that is closed (by the peer, an error, a
timeout) or disposed has no entry in any index; closing or disposing a
connection leaves it without any entry and keeps every entry of every other
connection; the `ASSERT` of `remove_socket` has never failed; and `accept`,
`connect`, `handle_listening_read` and the start of `poll` return, `accept`
and `connect` handing out connections that are accepted and open.  The calls
are those of `Step`: for an unreliable manager `connect` is not called with
an address that is in the address index, and the counter of socket ids stays
below `2 ^ 31`. -/
theorem index_membership (junk : Nat → Nat) (w0 w : World) (h0 : w0.Initial)
    (hr : Reach junk w0 w) :
    (∀ p so, w.heap p = some so → so.accepted_ = true → so.closed_ = false →
      mapFind so.s_ w.mgr.sockets_ = some p ∧
      (w.mgr.settings_.reliable = false → mapFind so.addr_ w.mgr.socketAddrs_ = some p)) ∧
    (∀ p, (w.heap p = none ∨ ∃ so, w.heap p = some so ∧ so.closed_ = true) → ¬ w.Indexed p) ∧
    (∀ p so, w.heap p = some so →
      ¬ (w.close_socket p so).Indexed p ∧ ¬ (w.dispose p so).Indexed p ∧
      ∀ q, q ≠ p → w.KeepsEntries (w.close_socket p so) q ∧ w.KeepsEntries (w.dispose p so) q) ∧
    w.asserts = true ∧
    (∀ os maxAccepted, ∃ r, w.accept os maxAccepted = some r ∧
      ∀ p ∈ r.2, ∃ so, r.1.heap p = some so ∧ so.accepted_ = true ∧ so.closed_ = false) ∧
    (∀ os port pn, (w.mgr.settings_.reliable = false → w.mgr.nextSocket_ + 2 < 2 ^ 31) →
      ∃ r, w.connect junk os port pn = some r ∧
        ∀ p, r.2.2 = some p →
          ∃ so, r.1.heap p = some so ∧ so.accepted_ = true ∧ so.closed_ = false) ∧
    (∀ os : OsListen,
      (w.mgr.settings_.reliable = false →
        (∀ d ∈ os.datagrams, w.heap d.obj = none) ∧ (os.datagrams.map Datagram.obj).Nodup ∧
        w.mgr.nextSocket_ + 2 * os.datagrams.length < 2 ^ 31) →
      ∃ r, w.handle_listening_read junk os = some r) ∧
    (∀ now, ∃ w1, w.poll_enter junk now = some w1) := by
  have hinv := inv_reach junk w0 w h0 hr
  refine ⟨?_, fun p hp => not_indexed_of_closed w hinv p hp, ?_, hinv.asserts_ok,
    fun os n => accept_returns w hinv os n,
    fun os port pn hun => connect_returns junk w hinv os port pn hun,
    fun os hun => listening_read_returns junk w hinv os hun,
    fun now => poll_enter_returns junk w hinv now⟩
  · intro p so hp ha hc
    obtain ⟨l1, _, l3⟩ := hinv.live p so hp hc
    exact ⟨mapFind_of_mem _ _ _ hinv.table_keys (l1 ha),
      fun hx => mapFind_of_mem _ _ _ hinv.addr_keys (l3 hx)⟩
  · intro p so hp
    obtain ⟨_, _, f4, f5, f6, _⟩ := close_socket_facts w hinv p so hp
    have hni : ¬ (w.close_socket p so).Indexed p := by
      rintro (⟨k, hm⟩ | ⟨a, hm⟩ | hm)
      · exact ((f4 k p).1 hm).2 rfl
      · exact ((f5 a p).1 hm).2 rfl
      · exact ((f6 p).1 hm).2 rfl
    have hke : ∀ q, q ≠ p → w.KeepsEntries (w.close_socket p so) q := by
      intro q hq
      exact ⟨fun k hm => (f4 k q).2 ⟨hm, hq⟩, fun a hm => (f5 a q).2 ⟨hm, hq⟩,
        fun hm => (f6 q).2 ⟨hm, hq⟩⟩
    exact ⟨hni, hni, fun q hq => ⟨hke q hq, hke q hq⟩⟩

/-- Claim C26, an instance: the reliable server that takes one connection and
hands it out with `accept`.  The world after `accept` is reached from the
world after `CreateEtwork` by two calls, and the statement holds in it. -/
theorem index_membership_witness :
    serverWorld.Initial ∧ Reach junk0 serverWorld acceptedWorld ∧
    (∀ p so, acceptedWorld.heap p = some so → so.accepted_ = true → so.closed_ = false →
      mapFind so.s_ acceptedWorld.mgr.sockets_ = some p ∧
      (acceptedWorld.mgr.settings_.reliable = false →
        mapFind so.addr_ acceptedWorld.mgr.socketAddrs_ = some p)) ∧
    acceptedWorld.mgr.sockets_ = [(200, 1)] := by
  have h0 : serverWorld.Initial :=
    ⟨fun _ => rfl, by decide, by decide, by decide, by decide, rfl⟩
  have s1 : Step junk0 serverWorld pendingWorld :=
    Step.listening_read serverWorld peerConnects (pendingRun.getD (serverWorld, false))
      (fun _ => ⟨rfl, fun q so h => by cases h⟩)
      (fun h => absurd h (by decide))
      (eq_some_getD pendingRun _ (by decide))
  have s2 : Step junk0 pendingWorld acceptedWorld :=
    Step.accept pendingWorld quietOs 1 (acceptedRun.getD (pendingWorld, []))
      (eq_some_getD acceptedRun _ (by decide))
  have hreach : Reach junk0 serverWorld acceptedWorld :=
    Reach.next _ _ (Reach.next _ _ Reach.start s1) s2
  exact ⟨h0, hreach, (index_membership junk0 serverWorld acceptedWorld h0 hreach).1, by decide⟩

/-! ## Rounding to `float` and `double` -/

end etwork
